import Mathlib

/-! # Reordering engine and solver front end of the blocked linear solver

Shallow embedding of
* `opm/simulators/linalg/bda/Reorder.cpp`: `colorBlockedNodes`, `colorsToReordering`,
  `findGraphColoring`, `canBeStarted`, `findLevelScheduling`, `csrPatternToCsc` and
  `reorderBlockedMatrixByPattern`;
* `opm/simulators/linalg/setupPropertyTree.cpp`: `setupPropertyTree`;
* `opm/simulators/linalg/getTrueImpesWeights.hpp`: `transposeDenseMatrix` and
  `getQuasiImpesWeights`;
* `opm/simulators/linalg/ISTLSolverEbosFlexible.hpp`: the constructor, `prepare`, `solve`,
  `makeOverlapRowsInvalid` and `getTrueImpesWeights`.

Conventions of the embedding
* C++ arrays are lists, read with `List.getD` and written with `List.set`.
* Row and column indices are natural numbers; colours are integers, `-1` meaning "no colour".
* `unsigned int` counters wrap modulo `2 ^ 32`; an `int` budget converted by
  `static_cast<unsigned int>` goes through `toUnsigned`.
* The pseudo-random priorities are an explicit argument `draw`: `draw t` is the vector
  `randoms` filled at the start of attempt `t`.
* `MAX_COLORS` (a macro of `Reorder.hpp`) and the template argument `block_size` are
  explicit arguments.
* A thrown `std::logic_error` is the result `none`.
-/

namespace bda

/-! # Part I: the embedding -/

/-! ## Machine arithmetic -/

/-- Wrap-around of an `unsigned int` (32 bit). -/
def u32 (n : Nat) : Nat := n % 4294967296

/-- The conversion `static_cast<unsigned int>(z)` of a 32-bit `int`. -/
def toUnsigned (z : Int) : Nat := (z % 4294967296).toNat

/-- The index range `lo, lo+1, .., hi-1` of a loop `for (k = lo; k < hi; k++)`. -/
def loopRange (lo hi : Nat) : List Nat := List.range' lo (hi - lo)

/-! ## Graph colouring (`colorBlockedNodes`) -/

/-- Loop over the neighbours of row `i` (Reorder.cpp lines 84-101): the value of `iMax`
after the loop.  `ks` are the remaining positions `k` of the row. -/
def neighbourCheck (colIndices : List Nat) (colors : List Int) (randoms : List Nat)
    (c : Nat) (i : Nat) (ir : Nat) : List Nat → Bool → Bool
  | [], iMax => iMax
  | k :: ks, iMax =>
    let j := colIndices.getD k 0
    let jc := colors.getD j (-1)
    if (jc ≠ -1 ∧ jc ≠ (c : Int)) ∨ i = j then
      neighbourCheck colIndices colors randoms c i ir ks iMax
    else if jc = (c : Int) then
      false
    else if ir ≤ randoms.getD j 0 then
      neighbourCheck colIndices colors randoms c i ir ks false
    else
      neighbourCheck colIndices colors randoms c i ir ks iMax

/-- Loop marking the columns of a row (lines 106-112): the state is
`(visitedColumns, additionalColsInRow)`. -/
def markColumns (block_size : Nat) (colIndices : List Nat) :
    List Nat → List Bool × Nat → List Bool × Nat
  | [], s => s
  | k :: ks, s =>
    let j := colIndices.getD k 0
    if s.1.getD j false = false then
      markColumns block_size colIndices ks (s.1.set j true, u32 (s.2 + block_size))
    else
      markColumns block_size colIndices ks s

/-- State of one colour sweep: the two vectors and the two counters. -/
structure SweepState where
  /-- Colour of every row, `-1` when the row has none yet. -/
  colors : List Int
  /-- Marks of the columns seen by an earlier budget computation. -/
  visitedColumns : List Bool
  /-- Counter `rowsInColor`. -/
  rowsInColor : Nat
  /-- Counter `colsInColor`. -/
  colsInColor : Nat
deriving DecidableEq

/-- The loop over the rows of one sweep for colour `c` (lines 73-124); the list holds the
rows still to visit, a `break` returns the state at once. -/
def colorRows (block_size : Nat) (rowPointers colIndices : List Nat) (randoms : List Nat)
    (maxRowsPerColor maxColsPerColor : Int) (c : Nat) : List Nat → SweepState → SweepState
  | [], s => s
  | i :: is, s =>
    if s.colors.getD i (-1) ≠ -1 then
      colorRows block_size rowPointers colIndices randoms maxRowsPerColor maxColsPerColor c is s
    else
      let ks := loopRange (rowPointers.getD i 0) (rowPointers.getD (i + 1) 0)
      if neighbourCheck colIndices s.colors randoms c i (randoms.getD i 0) ks true = true then
        let m := markColumns block_size colIndices ks (s.visitedColumns, 0)
        if u32 (s.colsInColor + m.2) > toUnsigned maxColsPerColor then
          SweepState.mk s.colors m.1 s.rowsInColor s.colsInColor
        else
          let s1 := SweepState.mk (s.colors.set i (c : Int)) m.1
            (u32 (s.rowsInColor + block_size)) (u32 (s.colsInColor + m.2))
          if u32 (s1.rowsInColor + block_size + 4294967295) ≥ toUnsigned maxRowsPerColor then
            s1
          else
            colorRows block_size rowPointers colIndices randoms maxRowsPerColor
              maxColsPerColor c is s1
      else
        colorRows block_size rowPointers colIndices randoms maxRowsPerColor maxColsPerColor c is s

/-- One colour sweep `c` over all rows, started with both counters at zero. -/
def colorSweep (block_size : Nat) (rows : Nat) (rowPointers colIndices : List Nat)
    (randoms : List Nat) (maxRowsPerColor maxColsPerColor : Int) (c : Nat)
    (colors : List Int) (visitedColumns : List Bool) : List Int × List Bool :=
  let s := colorRows block_size rowPointers colIndices randoms maxRowsPerColor maxColsPerColor c
    (List.range rows) (SweepState.mk colors visitedColumns 0 0)
  (s.colors, s.visitedColumns)

/-- The counter `left` (lines 126-131): number of rows without a colour. -/
def countLeft (rows : Nat) (colors : List Int) : Nat :=
  ((List.range rows).filter (fun k => colors.getD k (-1) = -1)).length

/-- The loop `for (c = 0; c < MAX_COLORS; c++)` (lines 70-135) from colour `c` on, with `n`
sweeps remaining.  The first component is `some (c + 1)` when the function returns. -/
def colorSweeps (block_size : Nat) (rows : Nat) (rowPointers colIndices : List Nat)
    (randoms : List Nat) (maxRowsPerColor maxColsPerColor : Int) :
    Nat → Nat → List Int → List Bool → Option Nat × List Int × List Bool
  | 0, _, colors, visited => (none, colors, visited)
  | n + 1, c, colors, visited =>
    let s := colorSweep block_size rows rowPointers colIndices randoms maxRowsPerColor
      maxColsPerColor c colors visited
    if countLeft rows s.1 = 0 then
      (some (c + 1), s.1, s.2)
    else
      colorSweeps block_size rows rowPointers colIndices randoms maxRowsPerColor
        maxColsPerColor n (c + 1) s.1 s.2

/-- The loop over the attempts (lines 57-136) from attempt `t` on, with `n` attempts
remaining; `none` when every attempt is used up. -/
def colorAttempts (block_size MAX_COLORS : Nat) (draw : Nat → List Nat) (rows : Nat)
    (rowPointers colIndices : List Nat) (maxRowsPerColor maxColsPerColor : Int) :
    Nat → Nat → List Int → List Bool → Option (Nat × List Int)
  | 0, _, _, _ => none
  | n + 1, t, colors, visited =>
    let r := colorSweeps block_size rows rowPointers colIndices (draw t) maxRowsPerColor
      maxColsPerColor MAX_COLORS 0 (List.replicate colors.length (-1)) visited
    match r.1 with
    | some k => some (k, r.2.1)
    | none =>
      colorAttempts block_size MAX_COLORS draw rows rowPointers colIndices maxRowsPerColor
        maxColsPerColor n (t + 1) r.2.1 r.2.2

/-- The number of attempts, `max_tries`. -/
def max_tries : Nat := 100

/-- `colorBlockedNodes<block_size>`: the number of colours and the filled `colors` vector,
or `none` when the function throws. -/
def colorBlockedNodes (block_size MAX_COLORS : Nat) (draw : Nat → List Nat) (rows : Nat)
    (rowPointers colIndices : List Nat) (colors : List Int)
    (maxRowsPerColor maxColsPerColor : Int) : Option (Nat × List Int) :=
  colorAttempts block_size MAX_COLORS draw rows rowPointers colIndices maxRowsPerColor
    maxColsPerColor max_tries 0 colors (List.replicate rows false)

/-! ## From colours to a reordering (`colorsToReordering`, `findGraphColoring`) -/

/-- The arrays filled by `colorsToReordering` together with its counter `reordered`. -/
structure Reordering where
  /-- For every old row, its position in the new order. -/
  toOrder : List Nat
  /-- For every new position, the old row placed there. -/
  fromOrder : List Nat
  /-- Number of rows of every colour. -/
  rowsPerColor : List Nat
  /-- Counter `reordered`. -/
  reordered : Nat
deriving DecidableEq

/-- Body of the inner loop of `colorsToReordering` (lines 191-197) for colour `c`, row `i`. -/
def reorderRow (colors : List Int) (c : Nat) (s : Reordering) (i : Nat) : Reordering :=
  if colors.getD i (-1) = (c : Int) then
    Reordering.mk (s.toOrder.set i s.reordered) (s.fromOrder.set s.reordered i)
      (s.rowsPerColor.set c (s.rowsPerColor.getD c 0 + 1)) (s.reordered + 1)
  else
    s

/-- `colorsToReordering` (lines 181-200); the three output arrays are passed in with their
previous contents. -/
def colorsToReordering (Nb : Nat) (colors : List Int) (numColors : Nat)
    (toOrder fromOrder rowsPerColor : List Nat) : Reordering :=
  let zeroed := (List.range numColors).foldl (fun r i => r.set i 0) rowsPerColor
  (List.range numColors).foldl
    (fun s c => (List.range Nb).foldl (reorderRow colors c) s)
    (Reordering.mk toOrder fromOrder zeroed 0)

/-- `findGraphColoring<block_size>` (lines 305-318): `*numColors` and the filled arrays.
`rowColor.resize(Nb)` is a vector of zeros; the fresh array `rowsPerColor` of `MAX_COLORS`
cells is taken zero-filled (only its first `numColors` cells are ever written or read). -/
def findGraphColoring (block_size MAX_COLORS : Nat) (draw : Nat → List Nat)
    (colIndices rowPointers : List Nat) (Nb : Nat) (maxRowsPerColor maxColsPerColor : Int)
    (toOrder fromOrder : List Nat) : Option (Nat × Reordering) :=
  match colorBlockedNodes block_size MAX_COLORS draw Nb rowPointers colIndices
      (List.replicate Nb 0) maxRowsPerColor maxColsPerColor with
  | none => none
  | some r =>
    some (r.1, colorsToReordering Nb r.2 r.1 toOrder fromOrder (List.replicate MAX_COLORS 0))

/-! ## Level scheduling (`canBeStarted`, `findLevelScheduling`) -/

/-- The loop of `canBeStarted` (lines 221-230) over the remaining positions of the row:
`true` when the loop ends or breaks, `false` when it returns `false`. -/
def dependenciesDone (rowIndex : Nat) (colIndices : List Nat) (doneRows : List Bool) :
    List Nat → Bool
  | [] => true
  | i :: is =>
    let thisDependency := colIndices.getD i 0
    if thisDependency ≥ rowIndex then
      true
    else if doneRows.getD thisDependency false = false then
      false
    else
      dependenciesDone rowIndex colIndices doneRows is

/-- `canBeStarted` (lines 217-233). -/
def canBeStarted (rowIndex : Nat) (rowPointers colIndices : List Nat) (doneRows : List Bool) :
    Bool :=
  let canStart := !doneRows.getD rowIndex false
  if canStart = true then
    dependenciesDone rowIndex colIndices doneRows
      (loopRange (rowPointers.getD rowIndex 0) (rowPointers.getD (rowIndex + 1) 0))
  else
    canStart

/-- Local variables and output arrays of `findLevelScheduling`. -/
structure LevelState where
  /-- First position of the level handled last. -/
  activeRowIndex : Nat
  /-- One past the last position of the level handled last. -/
  colorEnd : Nat
  /-- Next free position of `fromOrder`. -/
  nextActiveRowIndex : Nat
  /-- Rows that are scheduled already. -/
  doneRows : List Bool
  /-- Sizes of the levels found so far. -/
  rowsPerColor : List Nat
  /-- Candidate rows collected so far (never cleared). -/
  rowsToStart : List Nat
  /-- For every new position, the old row placed there. -/
  fromOrder : List Nat
  /-- For every old row, its position in the new order. -/
  toOrder : List Nat
deriving DecidableEq

/-- Body of the loop finding the starting rows (lines 252-258). -/
def startRow (CSCRowIndices CSCColPointers : List Nat) (s : LevelState) (thisRow : Nat) :
    LevelState :=
  if canBeStarted thisRow CSCColPointers CSCRowIndices s.doneRows = true then
    LevelState.mk s.activeRowIndex s.colorEnd (s.nextActiveRowIndex + 1) s.doneRows
      s.rowsPerColor s.rowsToStart (s.fromOrder.set s.nextActiveRowIndex thisRow)
      (s.toOrder.set thisRow s.nextActiveRowIndex)
  else
    s

/-- Body of the loop marking the starting rows as done (lines 260-262). -/
def markDone (s : LevelState) (colorEnd : Nat) : LevelState :=
  LevelState.mk s.activeRowIndex (colorEnd + 1) s.nextActiveRowIndex
    (s.doneRows.set (s.fromOrder.getD colorEnd 0) true)
    s.rowsPerColor s.rowsToStart s.fromOrder s.toOrder

/-- Body of the loop over the active rows (lines 268-278): the candidates found in the
column of `fromOrder[activeRowIndex]` are appended to `rowsToStart`. -/
def collectRow (CSRColIndices CSRRowPointers CSCRowIndices CSCColPointers : List Nat)
    (s : LevelState) (activeRowIndex : Nat) : LevelState :=
  let thisRow := s.fromOrder.getD activeRowIndex 0
  let found := (loopRange (CSCColPointers.getD thisRow 0)
      (CSCColPointers.getD (thisRow + 1) 0)).foldl
    (fun acc i =>
      let thatRow := CSCRowIndices.getD i 0
      if canBeStarted thatRow CSRRowPointers CSRColIndices s.doneRows = true then
        acc ++ [thatRow]
      else
        acc)
    s.rowsToStart
  LevelState.mk (activeRowIndex + 1) s.colorEnd s.nextActiveRowIndex s.doneRows
    s.rowsPerColor found s.fromOrder s.toOrder

/-- Body of the loop over `rowsToStart` (lines 280-288). -/
def activateRow (s : LevelState) (i : Nat) : LevelState :=
  let thisRow := s.rowsToStart.getD i 0
  if s.doneRows.getD thisRow false = false then
    LevelState.mk s.activeRowIndex s.colorEnd (s.nextActiveRowIndex + 1)
      (s.doneRows.set thisRow true) s.rowsPerColor s.rowsToStart
      (s.fromOrder.set s.nextActiveRowIndex thisRow)
      (s.toOrder.set thisRow s.nextActiveRowIndex)
  else
    s

/-- One iteration of the `while (colorEnd < Nb)` loop (lines 267-290). -/
def levelStep (CSRColIndices CSRRowPointers CSCRowIndices CSCColPointers : List Nat)
    (s : LevelState) : LevelState :=
  let s1 := (loopRange s.activeRowIndex s.colorEnd).foldl
    (collectRow CSRColIndices CSRRowPointers CSCRowIndices CSCColPointers) s
  let s2 := (List.range s1.rowsToStart.length).foldl activateRow s1
  LevelState.mk s2.activeRowIndex s2.nextActiveRowIndex s2.nextActiveRowIndex s2.doneRows
    (s2.rowsPerColor ++ [s2.nextActiveRowIndex - s2.activeRowIndex]) s2.rowsToStart
    s2.fromOrder s2.toOrder

/-- The `while (colorEnd < Nb)` loop, run for at most `fuel` iterations; `none` when the
loop is still running after them. -/
def levelLoop (CSRColIndices CSRRowPointers CSCRowIndices CSCColPointers : List Nat)
    (Nb : Nat) : Nat → LevelState → Option LevelState
  | 0, s => if s.colorEnd < Nb then none else some s
  | fuel + 1, s =>
    if s.colorEnd < Nb then
      levelLoop CSRColIndices CSRRowPointers CSCRowIndices CSCColPointers Nb fuel
        (levelStep CSRColIndices CSRRowPointers CSCRowIndices CSCColPointers s)
    else
      some s

/-- State of `findLevelScheduling` when the `while` loop is reached (lines 242-264). -/
def levelInit (CSCRowIndices CSCColPointers : List Nat) (Nb : Nat)
    (toOrder fromOrder : List Nat) : LevelState :=
  let s0 := LevelState.mk 0 0 0 (List.replicate Nb false) [] [] fromOrder toOrder
  let s1 := (List.range Nb).foldl (startRow CSCRowIndices CSCColPointers) s0
  let s2 := (List.range s1.nextActiveRowIndex).foldl markDone s1
  LevelState.mk s2.activeRowIndex s2.colorEnd s2.nextActiveRowIndex s2.doneRows
    (s2.rowsPerColor ++ [s2.nextActiveRowIndex - s2.activeRowIndex]) s2.rowsToStart
    s2.fromOrder s2.toOrder

/-- What `findLevelScheduling` hands back: `*numColors`, the returned array and the two
filled index arrays. -/
structure LevelSchedule where
  /-- Number of levels. -/
  numColors : Nat
  /-- Size of every level. -/
  rowsPerColor : List Nat
  /-- For every old row, its position in the new order. -/
  toOrder : List Nat
  /-- For every new position, the old row placed there. -/
  fromOrder : List Nat
deriving DecidableEq

/-- `findLevelScheduling` (lines 241-301), the `while` loop running for at most `fuel`
iterations; `none` when it has not ended by then. -/
def findLevelScheduling (fuel : Nat)
    (CSRColIndices CSRRowPointers CSCRowIndices CSCColPointers : List Nat) (Nb : Nat)
    (toOrder fromOrder : List Nat) : Option LevelSchedule :=
  match levelLoop CSRColIndices CSRRowPointers CSCRowIndices CSCColPointers Nb fuel
      (levelInit CSCRowIndices CSCColPointers Nb toOrder fromOrder) with
  | none => none
  | some s => some (LevelSchedule.mk s.rowsPerColor.length s.rowsPerColor s.toOrder s.fromOrder)

/-! ## Predicates used in the statements and invariants -/

/-- The arrays `toOrder` and `fromOrder` (both of length `Nb`) are inverse to each other
between the first `n` positions and the rows satisfying `S`. -/
structure PartialInverse (Nb n : Nat) (S : Nat → Prop) (toOrder fromOrder : List Nat) :
    Prop where
  len_to : toOrder.length = Nb
  len_from : fromOrder.length = Nb
  of_pos : ∀ p, p < n →
    fromOrder.getD p 0 < Nb ∧ S (fromOrder.getD p 0) ∧ toOrder.getD (fromOrder.getD p 0) 0 = p
  of_row : ∀ i, i < Nb → S i → toOrder.getD i 0 < n ∧ fromOrder.getD (toOrder.getD i 0) 0 = i

/-- Two index arrays of length `Nb` that are exact mutual inverses on `0..Nb-1`:
`toOrder[fromOrder[p]] = p` and `fromOrder[toOrder[i]] = i`, all entries below `Nb`. -/
def MutualInverses (Nb : Nat) (toOrder fromOrder : List Nat) : Prop :=
  toOrder.length = Nb ∧ fromOrder.length = Nb ∧
  (∀ p, p < Nb → fromOrder.getD p 0 < Nb ∧ toOrder.getD (fromOrder.getD p 0) 0 = p) ∧
  (∀ i, i < Nb → toOrder.getD i 0 < Nb ∧ fromOrder.getD (toOrder.getD i 0) 0 = i)

instance (Nb : Nat) (toOrder fromOrder : List Nat) :
    Decidable (MutualInverses Nb toOrder fromOrder) := by
  unfold MutualInverses; infer_instance

/-- The invariant "every colour is `-1` or in `[0, c)`" on a vector of `rows` colours. -/
def ColorsBelow (rows c : Nat) (colors : List Int) : Prop :=
  colors.length = rows ∧
    ∀ j, colors.getD j (-1) = -1 ∨ (0 ≤ colors.getD j (-1) ∧ colors.getD j (-1) < (c : Int))

/-- Invariant of the `while` loop of `findLevelScheduling`: the rows marked done are exactly
the rows placed in the first `nextActiveRowIndex` positions, and the arrays are inverse to
each other there. -/
def LevelInv (Nb : Nat) (s : LevelState) : Prop :=
  s.doneRows.length = Nb ∧ s.colorEnd = s.nextActiveRowIndex ∧
  PartialInverse Nb s.nextActiveRowIndex (fun i => s.doneRows.getD i false = true)
    s.toOrder s.fromOrder ∧
  ∀ r ∈ s.rowsToStart, r < Nb

/-! ## Predicates on colourings -/

/-- Column `j` is stored in row `i` of the pattern: `colIndices[k] = j` for a position `k`
with `rowPointers[i] ≤ k < rowPointers[i+1]`. -/
def Stored (rowPointers colIndices : List Nat) (i j : Nat) : Prop :=
  ∃ k, k < rowPointers.getD (i + 1) 0 ∧ rowPointers.getD i 0 ≤ k ∧ colIndices.getD k 0 = j

instance (rowPointers colIndices : List Nat) (i j : Nat) :
    Decidable (Stored rowPointers colIndices i j) := by
  unfold Stored; infer_instance

/-- No coloured row `i` shares its colour with a stored column `j ≠ i` of row `i` that is
either an earlier row (`j < i`) or a row storing column `i` in turn. -/
def ProperOnCheckedEdges (rowPointers colIndices : List Nat) (colors : List Int) : Prop :=
  ∀ i j, Stored rowPointers colIndices i j → j ≠ i →
    (j < i ∨ Stored rowPointers colIndices j i) →
    colors.getD i (-1) ≠ -1 → colors.getD i (-1) ≠ colors.getD j (-1)

/-! ## Blocked matrices and their reordering (`reorderBlockedMatrixByPattern`) -/

/-- `BlockedMatrix` (BlockedMatrix.hpp lines 26-32).  `V` is the type of the stored values
(`double` in the source); the embedding only copies them. -/
structure BlockedMatrix (V : Type) where
  /-- The values, `block_size * block_size` of them per nonzero block. -/
  nnzValues : List V
  /-- Column index of every nonzero block. -/
  colIndices : List Nat
  /-- Start of every block row in `colIndices`, and the end of the last one. -/
  rowPointers : List Nat
  /-- Number of block rows. -/
  Nb : Nat
  /-- Number of nonzero blocks. -/
  nnzbs : Nat
deriving DecidableEq

/-- The block stored for nonzero `k`: the cells `data[k*bs*bs + j]`, `j < bs*bs`. -/
def blockAt {V : Type} (block_size : Nat) (data : List V) (k : Nat) : List V :=
  (data.drop (k * block_size * block_size)).take (block_size * block_size)

/-- The `n` entries (column index, block) stored at the positions `l, .., l+n-1`. -/
def rowEntries {V : Type} (block_size : Nat) (colIndices : List Nat) (data : List V)
    (l n : Nat) : List (Nat × List V) :=
  (List.range' l n).map (fun k => (colIndices.getD k 0, blockAt block_size data k))

/-- Modelled from the spec: the body of `sortBlockedRow<block_size>` is not among the
sources, only its declaration is (BlockedMatrix.hpp lines 50-56: "Sort a row of matrix
elements from a blocked CSR-format", `left` the "lower index of data of row", `right` the
"upper index of data of row").  Following spec section 4.1 ("sort each row's entries by
ascending column"), the entries at the positions `left, .., right` are put in ascending
order of their column index, every block of values moving with its column index; all
other cells keep their contents. -/
def sortBlockedRow {V : Type} (block_size : Nat) (colIndices : List Nat) (data : List V)
    (left right : Int) : List Nat × List V :=
  let l := left.toNat
  let n := (right + 1 - left).toNat
  let sorted := (rowEntries block_size colIndices data l n).insertionSort
    (fun a b => a.1 ≤ b.1)
  (colIndices.take l ++ sorted.map Prod.fst ++ colIndices.drop (l + n),
    data.take (l * block_size * block_size) ++ (sorted.map Prod.snd).flatten ++
      data.drop ((l + n) * block_size * block_size))

/-- The loop copying the values of block `k` to block `rIndex` (Reorder.cpp lines
162-164). -/
def copyBlock {V : Type} [Inhabited V] (bs : Nat) (src : List V) (k rIndex : Nat)
    (dst : List V) : List V :=
  (List.range (bs * bs)).foldl
    (fun d j => d.set (rIndex * bs * bs + j) (src.getD (k * bs * bs + j) default)) dst

/-- The matrix being filled, with the counter `rIndex`. -/
structure ReorderState (V : Type) where
  /-- The output matrix `rMat`. -/
  rMat : BlockedMatrix V
  /-- Counter `rIndex`: number of blocks copied so far. -/
  rIndex : Nat

/-- Body of the loop over the blocks of one row (lines 161-167). -/
def copyEntry {V : Type} [Inhabited V] (bs : Nat) (mat : BlockedMatrix V)
    (s : ReorderState V) (k : Nat) : ReorderState V :=
  ReorderState.mk
    (BlockedMatrix.mk (copyBlock bs mat.nnzValues k s.rIndex s.rMat.nnzValues)
      (s.rMat.colIndices.set s.rIndex (mat.colIndices.getD k 0))
      s.rMat.rowPointers s.rMat.Nb s.rMat.nnzbs)
    (s.rIndex + 1)

/-- Body of the loop over the rows (lines 157-168): row `fromOrder[i]` of `mat` becomes
row `i` of `rMat`. -/
def copyRow {V : Type} [Inhabited V] (bs : Nat) (mat : BlockedMatrix V)
    (fromOrder : List Nat) (s : ReorderState V) (i : Nat) : ReorderState V :=
  let thisRow := fromOrder.getD i 0
  let s1 := ReorderState.mk
    (BlockedMatrix.mk s.rMat.nnzValues s.rMat.colIndices
      (s.rMat.rowPointers.set (i + 1)
        (s.rMat.rowPointers.getD i 0 + mat.rowPointers.getD (thisRow + 1) 0
          - mat.rowPointers.getD thisRow 0))
      s.rMat.Nb s.rMat.nnzbs)
    s.rIndex
  (loopRange (mat.rowPointers.getD thisRow 0) (mat.rowPointers.getD (thisRow + 1) 0)).foldl
    (copyEntry bs mat) s1

/-- Body of the loop renumbering the column indices (lines 170-172). -/
def renumberColumn (toOrder : List Nat) (colIndices : List Nat) (i : Nat) : List Nat :=
  colIndices.set i (toOrder.getD (colIndices.getD i 0) 0)

/-- Body of the loop sorting the rows again (lines 174-176). -/
def sortRow {V : Type} (bs : Nat) (rMat : BlockedMatrix V) (i : Nat) : BlockedMatrix V :=
  let r := sortBlockedRow bs rMat.colIndices rMat.nnzValues
    (rMat.rowPointers.getD i 0 : Int) ((rMat.rowPointers.getD (i + 1) 0 : Int) - 1)
  BlockedMatrix.mk r.2 r.1 rMat.rowPointers rMat.Nb rMat.nnzbs

/-- `reorderBlockedMatrixByPattern<block_size>` (lines 149-177): the contents of `rMat`
afterwards; `rMat` is passed in with its previous contents. -/
def reorderBlockedMatrixByPattern {V : Type} [Inhabited V] (block_size : Nat)
    (mat : BlockedMatrix V) (toOrder fromOrder : List Nat) (rMat : BlockedMatrix V) :
    BlockedMatrix V :=
  let bs := block_size
  let r0 := BlockedMatrix.mk rMat.nnzValues rMat.colIndices (rMat.rowPointers.set 0 0)
    rMat.Nb rMat.nnzbs
  let s1 := (List.range mat.Nb).foldl (copyRow bs mat fromOrder) (ReorderState.mk r0 0)
  let r1 := s1.rMat
  let r2 := BlockedMatrix.mk r1.nnzValues
    ((List.range mat.nnzbs).foldl (renumberColumn toOrder) r1.colIndices)
    r1.rowPointers r1.Nb r1.nnzbs
  (List.range mat.Nb).foldl (sortRow bs) r2

/-- Index of the `rowsPerColor` group that contains position `p` of the new order. -/
def levelOf : List Nat → Nat → Nat
  | [], _ => 0
  | n :: rest, p => if p < n then 0 else levelOf rest (p - n) + 1

/-! ## Predicates on blocked matrices -/

/-- Column indices of a list of entries (column index, block), in storage order. -/
def flatCols {V : Type} (E : List (Nat × List V)) : List Nat := E.map Prod.fst

/-- Values of a list of entries (column index, block), block after block. -/
def flatVals {V : Type} (E : List (Nat × List V)) : List V := (E.map Prod.snd).flatten

/-- The arrays `colIndices` and `data` hold the entries `E`, every block in
`block_size * block_size` cells, followed by the cells `Cr` and `Vr`. -/
def Represents {V : Type} (block_size : Nat) (colIndices : List Nat) (data : List V)
    (E : List (Nat × List V)) (Cr : List Nat) (Vr : List V) : Prop :=
  colIndices = flatCols E ++ Cr ∧ data = flatVals E ++ Vr ∧
    ∀ e ∈ E, e.2.length = block_size * block_size

/-- The sort that `sortBlockedRow` applies to the entries of a row. -/
def sortEntries {V : Type} (E : List (Nat × List V)) : List (Nat × List V) :=
  E.insertionSort (fun a b => a.1 ≤ b.1)

/-- The entries (column index, block) of block row `r` of a matrix, in storage order. -/
def rowOf {V : Type} (block_size : Nat) (mat : BlockedMatrix V) (r : Nat) :
    List (Nat × List V) :=
  rowEntries block_size mat.colIndices mat.nnzValues (mat.rowPointers.getD r 0)
    (mat.rowPointers.getD (r + 1) 0 - mat.rowPointers.getD r 0)

/-- A well-formed blocked CSR matrix: `Nb + 1` row pointers that start at 0, do not
decrease and end at `nnzbs`; `nnzbs` column indices, all below `Nb`; and
`nnzbs * block_size * block_size` values. -/
def WellFormed {V : Type} (block_size : Nat) (mat : BlockedMatrix V) : Prop :=
  mat.rowPointers.length = mat.Nb + 1 ∧ mat.rowPointers.getD 0 0 = 0 ∧
  (∀ r, r < mat.Nb → mat.rowPointers.getD r 0 ≤ mat.rowPointers.getD (r + 1) 0) ∧
  mat.rowPointers.getD mat.Nb 0 = mat.nnzbs ∧
  mat.colIndices.length = mat.nnzbs ∧
  mat.nnzValues.length = mat.nnzbs * (block_size * block_size) ∧
  ∀ c ∈ mat.colIndices, c < mat.Nb

/-- A matrix as `allocateBlockedMatrix<block_size>(Nb, nnzbs)` hands it out: arrays of the
sizes given, with any contents. -/
def Allocated {V : Type} (block_size Nb nnzbs : Nat) (rMat : BlockedMatrix V) : Prop :=
  rMat.Nb = Nb ∧ rMat.nnzbs = nnzbs ∧ rMat.rowPointers.length = Nb + 1 ∧
  rMat.colIndices.length = nnzbs ∧
  rMat.nnzValues.length = nnzbs * (block_size * block_size)

/-- The rows of `mat` taken in the new order: entry `i` is row `fromOrder[i]` of `mat`,
for `i < n`. -/
def sourceRows {V : Type} (block_size : Nat) (mat : BlockedMatrix V) (fromOrder : List Nat)
    (n : Nat) : List (List (Nat × List V)) :=
  (List.range n).map (fun i => rowOf block_size mat (fromOrder.getD i 0))

/-- Renumbering of the column index of an entry. -/
def renumberEntry {V : Type} (toOrder : List Nat) (e : Nat × List V) : Nat × List V :=
  (toOrder.getD e.1 0, e.2)

/-- The rows of the reordered matrix as the specification describes them: row `i` is row
`fromOrder[i]` of `mat`, its column indices renumbered by `toOrder`, sorted by column
index. -/
def reorderedRows {V : Type} (block_size : Nat) (mat : BlockedMatrix V)
    (toOrder fromOrder : List Nat) : List (List (Nat × List V)) :=
  (sourceRows block_size mat fromOrder mat.Nb).map
    (fun R => sortEntries (R.map (renumberEntry toOrder)))

/-- Every row of the matrix has strictly ascending column indices. -/
def StrictlyAscendingRows {V : Type} (mat : BlockedMatrix V) : Prop :=
  ∀ r, r < mat.Nb → ∀ k, k < mat.rowPointers.getD (r + 1) 0 → mat.rowPointers.getD r 0 ≤ k →
    k + 1 < mat.rowPointers.getD (r + 1) 0 →
    mat.colIndices.getD k 0 < mat.colIndices.getD (k + 1) 0

instance {V : Type} (mat : BlockedMatrix V) : Decidable (StrictlyAscendingRows mat) := by
  unfold StrictlyAscendingRows; infer_instance

instance {V : Type} (block_size : Nat) (mat : BlockedMatrix V) :
    Decidable (WellFormed block_size mat) := by
  unfold WellFormed; infer_instance

instance {V : Type} (block_size Nb nnzbs : Nat) (rMat : BlockedMatrix V) :
    Decidable (Allocated block_size Nb nnzbs rMat) := by
  unfold Allocated; infer_instance

/-! ## The attempts of `colorBlockedNodes` described sweep by sweep -/

/-- The colours and column marks after the first `n` colour sweeps of an attempt that
started from `colors`, `visited`, whatever the counter `left` was in between. -/
def sweepsState (block_size rows : Nat) (rowPointers colIndices randoms : List Nat)
    (maxRowsPerColor maxColsPerColor : Int) :
    Nat → List Int → List Bool → List Int × List Bool
  | 0, colors, visited => (colors, visited)
  | n + 1, colors, visited =>
    colorSweep block_size rows rowPointers colIndices randoms maxRowsPerColor maxColsPerColor n
      (sweepsState block_size rows rowPointers colIndices randoms maxRowsPerColor
        maxColsPerColor n colors visited).1
      (sweepsState block_size rows rowPointers colIndices randoms maxRowsPerColor
        maxColsPerColor n colors visited).2

/-- The column marks at the start of attempt `t`, every earlier attempt having run all its
`MAX_COLORS` sweeps. -/
def attemptStart (block_size MAX_COLORS : Nat) (draw : Nat → List Nat) (rows : Nat)
    (rowPointers colIndices : List Nat) (maxRowsPerColor maxColsPerColor : Int) :
    Nat → List Bool
  | 0 => List.replicate rows false
  | t + 1 =>
    (sweepsState block_size rows rowPointers colIndices (draw t) maxRowsPerColor
      maxColsPerColor MAX_COLORS (List.replicate rows (-1))
      (attemptStart block_size MAX_COLORS draw rows rowPointers colIndices maxRowsPerColor
        maxColsPerColor t)).2

/-- The colours after `n` sweeps of attempt `t`. -/
def attemptColors (block_size MAX_COLORS : Nat) (draw : Nat → List Nat) (rows : Nat)
    (rowPointers colIndices : List Nat) (maxRowsPerColor maxColsPerColor : Int)
    (t n : Nat) : List Int :=
  (sweepsState block_size rows rowPointers colIndices (draw t) maxRowsPerColor
    maxColsPerColor n (List.replicate rows (-1))
    (attemptStart block_size MAX_COLORS draw rows rowPointers colIndices maxRowsPerColor
      maxColsPerColor t)).1

/-- At least one of the `rows` rows has no colour. -/
def Uncolored (rows : Nat) (colors : List Int) : Prop :=
  ∃ i, i < rows ∧ colors.getD i (-1) = -1

instance (rows : Nat) (colors : List Int) : Decidable (Uncolored rows colors) := by
  unfold Uncolored; infer_instance

/-! ## The columns of a colour -/

/-- The distinct column indices stored in the rows that have colour `c`. -/
def columnsInColor (rows : Nat) (rowPointers colIndices : List Nat) (colors : List Int)
    (c : Int) : List Nat :=
  (((List.range rows).filter (fun i => colors.getD i (-1) = c)).flatMap
    (fun i => (loopRange (rowPointers.getD i 0) (rowPointers.getD (i + 1) 0)).map
      (fun k => colIndices.getD k 0))).dedup

/-! ## Transposing a sparsity pattern (`csrPatternToCsc`) -/

/-- Body of the loop counting the entries of every column (Reorder.cpp lines 329-331). -/
def countColumn (CSRColIndices : List Nat) (CSCColPointers : List Nat) (n : Nat) : List Nat :=
  let col := CSRColIndices.getD n 0
  CSCColPointers.set col (CSCColPointers.getD col 0 + 1)

/-- Body of the cumulative-sum loop (lines 334-338); the state is
`(CSCColPointers, cumsum)`. -/
def cumsumColumn (s : List Nat × Nat) (col : Nat) : List Nat × Nat :=
  let temp := s.1.getD col 0
  (s.1.set col s.2, s.2 + temp)

/-- Body of the inner loop scattering the entries of a row (lines 342-347); the state is
`(CSCRowIndices, CSCColPointers)`. -/
def scatterEntry (CSRColIndices : List Nat) (row : Nat) (s : List Nat × List Nat)
    (j : Nat) : List Nat × List Nat :=
  let col := CSRColIndices.getD j 0
  let dest := s.2.getD col 0
  (s.1.set dest row, s.2.set col (s.2.getD col 0 + 1))

/-- Body of the outer scatter loop (lines 341-348). -/
def scatterRow (CSRColIndices CSRRowPointers : List Nat) (s : List Nat × List Nat)
    (row : Nat) : List Nat × List Nat :=
  (loopRange (CSRRowPointers.getD row 0) (CSRRowPointers.getD (row + 1) 0)).foldl
    (scatterEntry CSRColIndices row) s

/-- Body of the loop shifting the column pointers back (lines 350-354); the state is
`(CSCColPointers, last)`. -/
def shiftColumn (s : List Nat × Nat) (col : Nat) : List Nat × Nat :=
  let temp := s.1.getD col 0
  (s.1.set col s.2, temp)

/-- `csrPatternToCsc` (lines 321-355): the output arrays `(CSCRowIndices, CSCColPointers)`;
the arguments of the same names are the buffers handed in. -/
def csrPatternToCsc (CSRColIndices CSRRowPointers CSCRowIndices CSCColPointers : List Nat)
    (Nb : Nat) : List Nat × List Nat :=
  let nnz := CSRRowPointers.getD Nb 0
  let p0 := (List.range Nb).foldl (fun p col => p.set col 0) CSCColPointers
  let p1 := (List.range nnz).foldl (countColumn CSRColIndices) p0
  let p2 := ((List.range Nb).foldl cumsumColumn (p1, 0)).1
  let p3 := p2.set Nb nnz
  let s := (List.range Nb).foldl (scatterRow CSRColIndices CSRRowPointers)
    (CSCRowIndices, p3)
  let p4 := ((List.range (Nb + 1)).foldl shiftColumn (s.2, 0)).1
  (s.1, p4)

/-! ## Level partitions: the one returned and the reference one -/

/-- The rows of group `L` of a schedule: the `rowsPerColor[L]` entries of `fromOrder` that
follow the groups `0 .. L-1`. -/
def scheduleLevel (sched : LevelSchedule) (L : Nat) : List Nat :=
  (sched.fromOrder.drop (sched.rowsPerColor.take L).sum).take (sched.rowsPerColor.getD L 0)

/-- Reference definition, following the words of the specification: the rows of the levels
`0 .. L-1`, in the order they are found.  Level 0 holds the rows storing no column `j < i`;
level `L+1` holds the rows outside the levels `≤ L` all of whose stored columns `j < i` are
in the levels `≤ L`. -/
def referenceDone (rowPointers colIndices : List Nat) (Nb : Nat) : Nat → List Nat
  | 0 => []
  | L + 1 =>
    let before := referenceDone rowPointers colIndices Nb L
    before ++ (List.range Nb).filter (fun i =>
      decide (i ∉ before ∧ ∀ j, j < i → Stored rowPointers colIndices i j → j ∈ before))

/-- Reference definition: the rows of level `L`. -/
def referenceLevel (rowPointers colIndices : List Nat) (Nb : Nat) (L : Nat) : List Nat :=
  (List.range Nb).filter (fun i =>
    decide (i ∉ referenceDone rowPointers colIndices Nb L ∧
      ∀ j, j < i → Stored rowPointers colIndices i j →
        j ∈ referenceDone rowPointers colIndices Nb L))

/-- A pattern with rows sorted ascending and every column index below `Nb`. -/
def SortedPattern (rowPointers colIndices : List Nat) (Nb : Nat) : Prop :=
  rowPointers.length = Nb + 1 ∧ rowPointers.getD 0 0 = 0 ∧
  colIndices.length = rowPointers.getD Nb 0 ∧
  (∀ r, r < Nb → rowPointers.getD r 0 ≤ rowPointers.getD (r + 1) 0) ∧
  (∀ k, k < colIndices.length → colIndices.getD k 0 < Nb) ∧
  (∀ r, r < Nb → ∀ k, k < rowPointers.getD (r + 1) 0 → rowPointers.getD r 0 ≤ k →
    k + 1 < rowPointers.getD (r + 1) 0 → colIndices.getD k 0 < colIndices.getD (k + 1) 0)

instance (rowPointers colIndices : List Nat) (Nb : Nat) :
    Decidable (SortedPattern rowPointers colIndices Nb) := by
  unfold SortedPattern; infer_instance

/-! ## Configuration of the flexible solver (`setupPropertyTree`)

Conventions of this part
* A `double` is an exact rational number.
* A property tree is the list of its leaves, each with its dotted path; a leaf keeps its
  value together with the C++ type it was put with, and `get<T>` succeeds on the leaves
  of type `T`.
* A thrown exception is the result `none`.
-/

/-- The value of a leaf of a property tree; `W` is the type of a weight vector. -/
inductive PValue (W : Type) where
  /-- A `std::string` or string literal. -/
  | str : String → PValue W
  /-- An `int`. -/
  | int : Int → PValue W
  /-- A `double`. -/
  | real : ℚ → PValue W
  /-- A vector of weights. -/
  | vec : W → PValue W
deriving DecidableEq

/-- A `boost::property_tree::ptree`: its leaves, in the order they were first put. -/
abbrev PropertyTree (W : Type) := List (String × PValue W)

/-- `ptree::put(path, value)`: the value of an existing leaf is replaced, a new leaf is
added at the end. -/
def put {W : Type} : PropertyTree W → String → PValue W → PropertyTree W
  | [], path, v => [(path, v)]
  | e :: t, path, v => if e.1 = path then (path, v) :: t else e :: put t path v

/-- The leaf at `path`, if there is one. -/
def get {W : Type} : PropertyTree W → String → Option (PValue W)
  | [], _ => none
  | e :: t, path => if e.1 = path then some e.2 else get t path

/-- `ptree::get<std::string>(path)`; `none` when it throws. -/
def getString {W : Type} (t : PropertyTree W) (path : String) : Option String :=
  match get t path with
  | some (PValue.str s) => some s
  | _ => none

/-- `ptree::get<int>(path)`; `none` when it throws. -/
def getInt {W : Type} (t : PropertyTree W) (path : String) : Option Int :=
  match get t path with
  | some (PValue.int z) => some z
  | _ => none

/-- The characters of `s` after the leading characters `p`; `none` when `s` does not start
with `p`. -/
def stripStart : List Char → List Char → Option (List Char)
  | [], s => some s
  | _ :: _, [] => none
  | a :: p, c :: s => if a = c then stripStart p s else none

/-- `ptree::get_child(path)`: the leaves at and below `path`, with paths relative to it;
`none` (it throws) when there is none. -/
def get_child {W : Type} (t : PropertyTree W) (path : String) : Option (PropertyTree W) :=
  let sub := t.filterMap (fun e =>
    if e.1 = path then some ("", e.2)
    else
      match stripStart (path.data ++ ['.']) e.1.data with
      | some rest => some (String.mk rest, e.2)
      | none => none)
  if sub.isEmpty = true then none else some sub

/-- The fields of `FlowLinearSolverParameters` that the flexible solver reads. -/
structure FlowLinearSolverParameters where
  /-- Option `--linear-solver-reduction`. -/
  linear_solver_reduction_ : ℚ
  /-- Option `--linear-solver-maxiter`. -/
  linear_solver_maxiter_ : Int
  /-- Option `--linear-solver-verbosity`. -/
  linear_solver_verbosity_ : Int
  /-- Option `--linear-solver-configuration`. -/
  linear_solver_configuration_ : String
  /-- Option `--linear-solver-configuration-json-file`. -/
  linear_solver_configuration_json_file_ : String
  /-- Option `--cpr-reuse-setup`. -/
  cpr_reuse_setup_ : Int
deriving DecidableEq

/-- The tree put together in the branch of the two `cpr` configurations
(setupPropertyTree.cpp lines 46-75). -/
def cprTree {W : Type} (p : FlowLinearSolverParameters) : PropertyTree W :=
  let prm : PropertyTree W := []
  let prm := put prm "tol" (PValue.real p.linear_solver_reduction_)
  let prm := put prm "maxiter" (PValue.int p.linear_solver_maxiter_)
  let prm := put prm "verbosity" (PValue.int p.linear_solver_verbosity_)
  let prm := put prm "solver" (PValue.str "bicgstab")
  let prm := put prm "preconditioner.type" (PValue.str "cpr")
  let prm := put prm "preconditioner.weight_filename" (PValue.str "cpr_weights.txt")
  let prm := put prm "preconditioner.weight_type" (PValue.str "quasiimpes")
  let prm := put prm "preconditioner.finesmoother.type" (PValue.str "ParOverILU0")
  let prm := put prm "preconditioner.finesmoother.relaxation" (PValue.real 1.0)
  let prm := put prm "preconditioner.pressure_var_index" (PValue.int 1)
  let prm := put prm "preconditioner.verbosity" (PValue.int 0)
  let prm := put prm "preconditioner.coarsesolver.maxiter" (PValue.int 1)
  let prm := put prm "preconditioner.coarsesolver.tol" (PValue.real 1e-1)
  let prm := put prm "preconditioner.coarsesolver.solver" (PValue.str "loopsolver")
  let prm := put prm "preconditioner.coarsesolver.verbosity" (PValue.int 0)
  let prm := put prm "preconditioner.coarsesolver.preconditioner.type" (PValue.str "amg")
  let prm := put prm "preconditioner.coarsesolver.preconditioner.alpha"
    (PValue.real 0.333333333333)
  let prm := put prm "preconditioner.coarsesolver.preconditioner.relaxation"
    (PValue.real 1.0)
  let prm := put prm "preconditioner.coarsesolver.preconditioner.iterations" (PValue.int 1)
  let prm := put prm "preconditioner.coarsesolver.preconditioner.coarsenTarget"
    (PValue.int 1200)
  let prm := put prm "preconditioner.coarsesolver.preconditioner.pre_smooth" (PValue.int 1)
  let prm := put prm "preconditioner.coarsesolver.preconditioner.post_smooth" (PValue.int 1)
  let prm := put prm "preconditioner.coarsesolver.preconditioner.beta" (PValue.real 1e-5)
  let prm := put prm "preconditioner.coarsesolver.preconditioner.smoother"
    (PValue.str "ILU0")
  let prm := put prm "preconditioner.coarsesolver.preconditioner.verbosity" (PValue.int 0)
  let prm := put prm "preconditioner.coarsesolver.preconditioner.maxlevel" (PValue.int 15)
  let prm := put prm "preconditioner.coarsesolver.preconditioner.skip_isolated"
    (PValue.int 0)
  if p.linear_solver_configuration_ = "cpr_trueimpes" then
    put prm "preconditioner.weight_type" (PValue.str "trueimpes")
  else
    prm

/-- The tree put together in the last branch (lines 80-85). -/
def ilu0Tree {W : Type} (p : FlowLinearSolverParameters) : PropertyTree W :=
  let prm : PropertyTree W := []
  let prm := put prm "tol" (PValue.real p.linear_solver_reduction_)
  let prm := put prm "maxiter" (PValue.int p.linear_solver_maxiter_)
  let prm := put prm "verbosity" (PValue.int p.linear_solver_verbosity_)
  let prm := put prm "solver" (PValue.str "bicgstab")
  let prm := put prm "preconditioner.type" (PValue.str "ParOverILU0")
  put prm "preconditioner.relaxation" (PValue.real 1.0)

/-- `setupPropertyTree` (lines 34-88); `none` when it throws `std::runtime_error`.
`read_json file` is the tree that `boost::property_tree::read_json` reads from the
file, `none` when the file cannot be read or parsed (`json_parser_error`, which is a
`std::runtime_error`). -/
def setupPropertyTree {W : Type} (read_json : String → Option (PropertyTree W))
    (p : FlowLinearSolverParameters) : Option (PropertyTree W) :=
  if p.linear_solver_configuration_ = "file" then
    if p.linear_solver_configuration_json_file_ = "none" then
      none
    else
      read_json p.linear_solver_configuration_json_file_
  else if p.linear_solver_configuration_ = "cpr_trueimpes" ∨
      p.linear_solver_configuration_ = "cpr_quasiimpes" then
    some (cprTree p)
  else
    if p.linear_solver_configuration_ ≠ "ilu0" then
      none
    else
      some (ilu0Tree p)

/-! ## Dense blocks and the quasi-IMPES weights (`getTrueImpesWeights.hpp`)

A write outside an array or a block, which the C++ code leaves undefined, is not
modelled: every index used below is assumed to be in range by the theorems.
-/

/-- A dense block `Dune::FieldMatrix<double, n, n>`. -/
abbrev MatrixBlock (n : Nat) := Matrix (Fin n) (Fin n) ℚ

/-- A block of a vector, `Dune::FieldVector<double, n>`. -/
abbrev BlockVector (n : Nat) := Fin n → ℚ

/-- A vector of blocks, `Dune::BlockVector`. -/
abbrev VectorType (n : Nat) := List (BlockVector n)

/-- A block-sparse matrix, `Dune::BCRSMatrix`: for every block row the stored blocks with
their column index, in the order in which the row is traversed. -/
abbrev MatrixType (n : Nat) := List (List (Nat × MatrixBlock n))

/-- The block stored in row `i` at column `j`, if there is one. -/
def storedBlock {n : Nat} (matrix : MatrixType n) (i j : Nat) : Option (MatrixBlock n) :=
  ((matrix.getD i []).find? (fun e => e.1 = j)).map (fun e => e.2)

/-- The assignment `M[i][j] = v` to an entry of a dense block. -/
def setEntry {n : Nat} (M : MatrixBlock n) (i j : Fin n) (v : ℚ) : MatrixBlock n :=
  Function.update M i (Function.update (M i) j v)

/-- `transposeDenseMatrix` (getTrueImpesWeights.hpp lines 31-40); the default-constructed
`tmp`, all of whose entries are overwritten, starts as the zero block. -/
def transposeDenseMatrix {n : Nat} (M : MatrixBlock n) : MatrixBlock n :=
  (List.finRange n).foldl
    (fun tmp i => (List.finRange n).foldl (fun tmp j => setEntry tmp j i (M i j)) tmp)
    (0 : MatrixBlock n)

/-- The block `rhs` of lines 92-93: zero, with entry `pressureVarIndex` set to one. -/
def pressureRhs {n : Nat} (pressureVarIndex : Int) : BlockVector n :=
  fun k => if ((k : Nat) : Int) = pressureVarIndex then 1 else 0

/-- Loop looking for the diagonal block of row `i` (lines 98-103) over the remaining
entries of the row. -/
def findDiagBlock {n : Nat} (i : Nat) :
    List (Nat × MatrixBlock n) → MatrixBlock n → MatrixBlock n
  | [], diag_block => diag_block
  | e :: es, diag_block => if i = e.1 then e.2 else findDiagBlock i es diag_block

/-- The value `*std::max_element(first, last, comp)` with `comp a b = fabs a < fabs b`
(lines 111-112): the first element of largest magnitude; `none` on an empty range. -/
def maxElementAbs : List ℚ → Option ℚ
  | [] => none
  | x :: xs => some (xs.foldl (fun largest y => if |largest| < |y| then y else largest) x)

/-- Body of the loop over the block rows (lines 95-115).  `solve D b` is
`D.solve(x, b)` of the dense block, returning `x`, or `none` when it throws. -/
def quasiImpesRow {n : Nat}
    (solve : MatrixBlock n → BlockVector n → Option (BlockVector n))
    (A : MatrixType n) (pressureVarIndex : Int) (transpose : Bool)
    (weights : Option (VectorType n)) (i : Nat) : Option (VectorType n) :=
  match weights with
  | none => none
  | some weights =>
    let rhs : BlockVector n := pressureRhs pressureVarIndex
    let diag_block := findDiagBlock i (A.getD i []) (0 : MatrixBlock n)
    let solved :=
      if transpose = true then
        solve diag_block rhs
      else
        solve (transposeDenseMatrix diag_block) rhs
    match solved with
    | none => none
    | some bweights =>
      match maxElementAbs (List.ofFn bweights) with
      | none => none
      | some abs_max => some (weights.set i (fun k => bweights k / |abs_max|))

/-- The overload of `getQuasiImpesWeights` that fills `weights` (lines 85-117). -/
def getQuasiImpesWeightsInto {n : Nat}
    (solve : MatrixBlock n → BlockVector n → Option (BlockVector n))
    (matrix : MatrixType n) (pressureVarIndex : Int) (transpose : Bool)
    (weights : VectorType n) : Option (VectorType n) :=
  (List.range matrix.length).foldl
    (quasiImpesRow solve matrix pressureVarIndex transpose) (some weights)

/-- The overload of `getQuasiImpesWeights` that returns the weights (lines 119-125); the
vector `weights(matrix.N())`, all of whose blocks are overwritten, starts with zero blocks. -/
def getQuasiImpesWeights {n : Nat}
    (solve : MatrixBlock n → BlockVector n → Option (BlockVector n))
    (matrix : MatrixType n) (pressureVarIndex : Int) (transpose : Bool) :
    Option (VectorType n) :=
  getQuasiImpesWeightsInto solve matrix pressureVarIndex transpose
    (List.replicate matrix.length (0 : BlockVector n))

/-- Modelled from the spec: `Dune::FieldMatrix::solve` is library code outside the
sources; in exact arithmetic it returns the solution of `D x = b` for an invertible `D`
(here by Cramer's rule) and throws on a singular one. -/
def exactSolve {n : Nat} (D : MatrixBlock n) (b : BlockVector n) : Option (BlockVector n) :=
  if D.det = 0 then none else some (fun k => Matrix.cramer D b k / D.det)

/-- Modelled from the spec: `Dune::FieldMatrix::solve` is library code outside the
sources; the contract taken for it in exact arithmetic is that on an invertible block it
returns the solution. -/
def ExactSolver {n : Nat} (solve : MatrixBlock n → BlockVector n → Option (BlockVector n)) :
    Prop :=
  ∀ D b, D.det ≠ 0 → ∃ w, solve D b = some w ∧ D.mulVec w = b

/-- The words of the specification for one block of quasi-IMPES weights: `v` is `w`
divided by the largest magnitude `c` of its entries, where `w` solves `D w = e_p` when
`transpose` is set and `Dᵀ w = e_p` otherwise, `e_p` being the unit vector of the
pressure index. -/
def IsQuasiImpesWeight {n : Nat} (D : MatrixBlock n) (p : Fin n) (transpose : Bool)
    (v : BlockVector n) : Prop :=
  ∃ (w : BlockVector n) (c : ℚ),
    (if transpose = true then D.mulVec w else D.transpose.mulVec w) = Pi.single p 1 ∧
    0 < c ∧ (∀ k, |w k| ≤ c) ∧ (∃ k, |w k| = c) ∧ v = fun k => w k / c

/-! ## The solver front end (`ISTLSolverEbosFlexible.hpp`)

Conventions of this part
* `HAVE_MPI` and `NDEBUG` are compile-time switches, given as explicit arguments; a failed
  `assert` ends the program and is the result `none`, like a thrown exception.
* The solver class `Dune::FlexibleSolver`, the dense `solve` of Dune and the simulator are
  outside the sources: their operations are the fields of `SolverLibrary`, the data read
  from the simulator are the fields of `Simulator`.
-/

/-- The block `diag_block` built at the start of `makeOverlapRowsInvalid`
(lines 239-242). -/
def overlapDiagBlock (n : Nat) : MatrixBlock n :=
  (List.finRange n).foldl (fun diag_block eq => setEntry diag_block eq eq 1.0e100)
    (0 : MatrixBlock n)

/-- The assignment `row[ncell] = v` to a stored block of a row; `none` when the row stores
no block at column `ncell` (Dune throws). -/
def setBlockInRow {n : Nat} (ncell : Nat) (v : MatrixBlock n) :
    List (Nat × MatrixBlock n) → Option (List (Nat × MatrixBlock n))
  | [] => none
  | e :: es =>
    if e.1 = ncell then some ((e.1, v) :: es)
    else (setBlockInRow ncell v es).map (fun r => e :: r)

/-- The assignment `matrix[lcell][ncell] = v`; `none` when there is no such block. -/
def setBlock {n : Nat} (matrix : MatrixType n) (lcell ncell : Nat) (v : MatrixBlock n) :
    Option (MatrixType n) :=
  if lcell < matrix.length then
    (setBlockInRow ncell v (matrix.getD lcell [])).map (fun r => matrix.set lcell r)
  else
    none

/-- Body of the loop over the listed columns of an overlap row (lines 251-255). -/
def zeroColumn {n : Nat} (lcell : Nat) (matrix : Option (MatrixType n)) (ncell : Nat) :
    Option (MatrixType n) :=
  match matrix with
  | none => none
  | some m => setBlock m lcell ncell (0 : MatrixBlock n)

/-- Body of the loop over the overlap rows (lines 245-256). -/
def invalidateRow {n : Nat} (matrix : Option (MatrixType n)) (row : Nat × List Nat) :
    Option (MatrixType n) :=
  match matrix with
  | none => none
  | some m => row.2.foldl (zeroColumn row.1) (setBlock m row.1 row.1 (overlapDiagBlock n))

/-- `makeOverlapRowsInvalid` (lines 236-257): the matrix after the call. -/
def makeOverlapRowsInvalid {n : Nat} (overlapRowAndColumns_ : List (Nat × List Nat))
    (matrix : MatrixType n) : Option (MatrixType n) :=
  overlapRowAndColumns_.foldl invalidateRow (some matrix)

/-- The fields of `Dune::InverseOperatorResult` that the front end reads. -/
structure InverseOperatorResult where
  /-- Number of iterations of the last solve. -/
  iterations : Int
  /-- Whether the last solve converged. -/
  converged : Bool
deriving DecidableEq

/-- What `getTrueImpesWeights` reads from the simulator for one grid element. -/
structure ElementData (n : Nat) where
  /-- The derivatives `storage[ii].derivative(jj)`. -/
  storageDerivative : MatrixBlock n
  /-- The value `scvVolume / timeStepSize`. -/
  storage_scale : ℚ

/-- What the front end reads from the simulator during one call. -/
structure Simulator (n : Nat) where
  /-- The value `model().newtonMethod().numIterations()`. -/
  numIterations : Int
  /-- The grid elements, in the order of the grid view. -/
  elements : List (ElementData n)

/-- Operations of the libraries the front end calls; `S` is the state of a solver. -/
structure SolverLibrary (n : Nat) (S : Type) where
  /-- The constructor `SolverType(prm, matrix)`, or `SolverType(prm, matrix, comm)` when
  the flag is set. -/
  create : PropertyTree (VectorType n) → MatrixType n → Bool → Option S
  /-- The call `solver.preconditioner().update(weights, prm)`. -/
  update : S → VectorType n → PropertyTree (VectorType n) → Option S
  /-- The call `solver.apply(x, rhs, res)`. -/
  apply : S → VectorType n → VectorType n → Option (S × VectorType n × InverseOperatorResult)
  /-- The call `D.solve(x, b)` of a dense block. -/
  solve : MatrixBlock n → BlockVector n → Option (BlockVector n)

/-- Body of the loop over the grid elements of `getTrueImpesWeights` (lines 269-296); the
state is `(weights, index)`. -/
def trueImpesElement {n : Nat}
    (solve : MatrixBlock n → BlockVector n → Option (BlockVector n))
    (pressureVarIndex : Int) (s : Option (VectorType n × Nat)) (elem : ElementData n) :
    Option (VectorType n × Nat) :=
  match s with
  | none => none
  | some (weights, index) =>
    let rhs : BlockVector n := pressureRhs pressureVarIndex
    let pressure_scale : ℚ := 50e5
    let block : MatrixBlock n := fun ii jj =>
      if ((jj : Nat) : Int) = pressureVarIndex then
        elem.storageDerivative ii jj / elem.storage_scale * pressure_scale
      else
        elem.storageDerivative ii jj / elem.storage_scale
    match solve (transposeDenseMatrix block) rhs with
    | none => none
    | some bweights => some (weights.set index (fun k => bweights k / 1000.0), index + 1)

/-- `getTrueImpesWeights` (lines 259-298). -/
def getTrueImpesWeights {n : Nat}
    (solve : MatrixBlock n → BlockVector n → Option (BlockVector n))
    (simulator : Simulator n) (b : VectorType n) (pressureVarIndex : Int) :
    Option (VectorType n) :=
  (simulator.elements.foldl (trueImpesElement solve pressureVarIndex)
    (some (List.replicate b.length (0 : BlockVector n), 0))).map (fun s => s.1)

/-- The data members of an `ISTLSolverEbosFlexible` object. -/
structure ISTLSolverEbosFlexible (n : Nat) (S : Type) where
  /-- The solver, `none` for a null pointer. -/
  solver_ : Option S
  /-- The run-time parameters. -/
  parameters_ : FlowLinearSolverParameters
  /-- The configuration tree. -/
  prm_ : PropertyTree (VectorType n)
  /-- The stored right-hand side. -/
  rhs_ : VectorType n
  /-- The result of the last solve. -/
  res_ : InverseOperatorResult
  /-- Whether `parallelInformation_` holds a `ParallelISTLInformation`. -/
  parallel : Bool
  /-- The overlap rows with their listed columns. -/
  overlapRowAndColumns_ : List (Nat × List Nat)

/-- The constructor (lines 88-108); `none` when it throws.  `parameters` is what
`parameters_.init` reads; `parallel` and `overlapRowAndColumns` are what
`extractParallelGridInformationToISTL` and `findOverlapRowsAndColumns` deliver.  The
entry `verbosity` is read for the test of line 103; the options file written when it
exceeds 10 is not part of the state. -/
def newISTLSolverEbosFlexible {n : Nat} {S : Type}
    (read_json : String → Option (PropertyTree (VectorType n)))
    (parameters : FlowLinearSolverParameters) (parallel : Bool)
    (overlapRowAndColumns : List (Nat × List Nat)) : Option (ISTLSolverEbosFlexible n S) :=
  match setupPropertyTree read_json parameters with
  | none => none
  | some prm =>
    match getInt prm "verbosity" with
    | none => none
    | some _ =>
      some (ISTLSolverEbosFlexible.mk none parameters prm [] (InverseOperatorResult.mk 0 false)
        parallel overlapRowAndColumns)

/-- The member function `iterations` (lines 217-220). -/
def iterations {n : Nat} {S : Type} (self : ISTLSolverEbosFlexible n S) : Int :=
  self.res_.iterations

/-- The member function `isParallel` (lines 208-215). -/
def isParallel {n : Nat} {S : Type} (HAVE_MPI : Bool) (self : ISTLSolverEbosFlexible n S) :
    Bool :=
  if HAVE_MPI = true then self.parallel else false

/-- The decision of `prepare` whether to recreate the solver (lines 130-149). -/
def recreateSolver (NDEBUG : Bool) (cpr_reuse_setup_ newton_iteration iterations : Int) :
    Option Bool :=
  if cpr_reuse_setup_ = 0 then
    some true
  else if cpr_reuse_setup_ = 1 then
    if newton_iteration = 0 then some true else some false
  else if cpr_reuse_setup_ = 2 then
    if iterations > 10 then some true else some false
  else
    if NDEBUG = true ∨ cpr_reuse_setup_ = 3 then some false else none

/-- The weights computed by `prepare` and the tree `prm_` afterwards (lines 150-184). -/
def prepareWeights {n : Nat} {S : Type} (lib : SolverLibrary n S) (simulator : Simulator n)
    (self : ISTLSolverEbosFlexible n S) (mat : MatrixType n) (b : VectorType n)
    (recreate_solver : Bool) : Option (VectorType n × PropertyTree (VectorType n)) :=
  match getString self.prm_ "preconditioner.type" with
  | none => none
  | some type =>
    if type = "cpr" ∨ type = "cprt" then
      let transpose : Bool := decide (type = "cprt")
      match getString self.prm_ "preconditioner.weight_type" with
      | none => none
      | some weight_type =>
        if weight_type = "quasiimpes" then
          match getInt self.prm_ "verbosity" with
          | none => none
          | some _ =>
            if ¬ (recreate_solver = true ∨ self.solver_.isNone = true) then
              match getInt self.prm_ "preconditioner.pressure_var_index" with
              | none => none
              | some pressure_var_index =>
                match getQuasiImpesWeights lib.solve mat pressure_var_index transpose with
                | none => none
                | some weights => some (weights, self.prm_)
            else
              some ([], self.prm_)
        else if weight_type = "trueimpes" then
          match getInt self.prm_ "verbosity" with
          | none => none
          | some _ =>
            match getInt self.prm_ "preconditioner.pressure_var_index" with
            | none => none
            | some pressure_var_index =>
              match getTrueImpesWeights lib.solve simulator b pressure_var_index with
              | none => none
              | some weights =>
                if recreate_solver = true ∨ self.solver_.isNone = true then
                  some (weights, put self.prm_ "preconditioner.weights" (PValue.vec weights))
                else
                  some (weights, self.prm_)
        else
          none
    else
      some ([], self.prm_)

/-- Which of the two branches at the end of `prepare` was taken. -/
inductive PrepareAction (n : Nat) where
  /-- A new solver was constructed (lines 188-195). -/
  | rebuilt : PrepareAction n
  /-- The preconditioner of the existing solver was updated with these weights and this
  tree (line 197). -/
  | updated (weights : VectorType n) (prm : PropertyTree (VectorType n)) : PrepareAction n

/-- The last part of `prepare` (lines 187-199). -/
def rebuildOrUpdate {n : Nat} {S : Type} (HAVE_MPI : Bool) (lib : SolverLibrary n S)
    (self : ISTLSolverEbosFlexible n S) (mat : MatrixType n) (b : VectorType n)
    (recreate_solver : Bool) (weights : VectorType n) (prm : PropertyTree (VectorType n)) :
    Option (ISTLSolverEbosFlexible n S × PrepareAction n) :=
  if recreate_solver = true ∨ self.solver_.isNone = true then
    match lib.create prm mat (isParallel HAVE_MPI self) with
    | none => none
    | some solver =>
      some (ISTLSolverEbosFlexible.mk (some solver) self.parameters_ prm b self.res_
        self.parallel self.overlapRowAndColumns_, PrepareAction.rebuilt)
  else
    match self.solver_ with
    | none => none
    | some old =>
      match get_child prm "preconditioner" with
      | none => none
      | some child =>
        match lib.update old weights child with
        | none => none
        | some solver =>
          some (ISTLSolverEbosFlexible.mk (some solver) self.parameters_ prm b self.res_
            self.parallel self.overlapRowAndColumns_, PrepareAction.updated weights child)

/-- `prepare` (lines 114-200): the object and the matrix after the call, and the branch
taken; `none` when it throws.  The exchange of values between the processes on the first
call of a parallel run is not modelled. -/
def prepare {n : Nat} {S : Type} (HAVE_MPI NDEBUG : Bool) (lib : SolverLibrary n S)
    (simulator : Simulator n) (self : ISTLSolverEbosFlexible n S) (mat : MatrixType n)
    (b : VectorType n) :
    Option (ISTLSolverEbosFlexible n S × MatrixType n × PrepareAction n) :=
  match (if HAVE_MPI = true then makeOverlapRowsInvalid self.overlapRowAndColumns_ mat
      else some mat) with
  | none => none
  | some mat1 =>
    let newton_iteration := simulator.numIterations
    match recreateSolver NDEBUG self.parameters_.cpr_reuse_setup_ newton_iteration
        (iterations self) with
    | none => none
    | some recreate_solver =>
      match prepareWeights lib simulator self mat1 b recreate_solver with
      | none => none
      | some (weights, prm) =>
        match rebuildOrUpdate HAVE_MPI lib self mat1 b recreate_solver weights prm with
        | none => none
        | some (self1, action) => some (self1, mat1, action)

/-- `solve` (lines 202-206): the object, the vector `x` and the returned flag after the
call; `none` when there is no solver or `apply` throws. -/
def solve {n : Nat} {S : Type} (lib : SolverLibrary n S) (self : ISTLSolverEbosFlexible n S)
    (x : VectorType n) : Option (ISTLSolverEbosFlexible n S × VectorType n × Bool) :=
  match self.solver_ with
  | none => none
  | some solver =>
    match lib.apply solver x self.rhs_ with
    | none => none
    | some (solver1, x1, res) =>
      some (ISTLSolverEbosFlexible.mk (some solver1) self.parameters_ self.prm_ self.rhs_ res
        self.parallel self.overlapRowAndColumns_, x1, res.converged)

/-- A call of a member function from outside. -/
inductive Call (n : Nat) where
  /-- The call `prepare(mat, b)`, the simulator being in the given state. -/
  | prepare (simulator : Simulator n) (mat : MatrixType n) (b : VectorType n) : Call n
  /-- The call `solve(x)`. -/
  | solve (x : VectorType n) : Call n

/-- One call together with the object before and after it and, for a `prepare`, the
branch taken. -/
structure Step (n : Nat) (S : Type) where
  /-- The object before the call. -/
  before : ISTLSolverEbosFlexible n S
  /-- The call. -/
  call : Call n
  /-- The object after the call. -/
  after : ISTLSolverEbosFlexible n S
  /-- For a `prepare`, the branch taken. -/
  action : Option (PrepareAction n)

/-- A sequence of calls on one object, each starting from the object the call before has
left; `none` when one of them throws. -/
def runCalls {n : Nat} {S : Type} (HAVE_MPI NDEBUG : Bool) (lib : SolverLibrary n S) :
    ISTLSolverEbosFlexible n S → List (Call n) → Option (List (Step n S))
  | _, [] => some []
  | self, Call.prepare simulator mat b :: calls =>
    match prepare HAVE_MPI NDEBUG lib simulator self mat b with
    | none => none
    | some r =>
      match runCalls HAVE_MPI NDEBUG lib r.1 calls with
      | none => none
      | some steps =>
        some (Step.mk self (Call.prepare simulator mat b) r.1 (some r.2.2) :: steps)
  | self, Call.solve x :: calls =>
    match solve lib self x with
    | none => none
    | some r =>
      match runCalls HAVE_MPI NDEBUG lib r.1 calls with
      | none => none
      | some steps => some (Step.mk self (Call.solve x) r.1 none :: steps)

/-! ## A stand-in for the solver library -/

/-- A solver library in which the state of a solver is the number of preconditioner
updates since its construction, and the dense solve divides every entry of the right-hand
side by the diagonal entry of the block (exact on diagonal blocks). -/
def countingLibrary (n : Nat) : SolverLibrary n Nat :=
  SolverLibrary.mk (fun _ _ _ => some 0) (fun s _ _ => some (s + 1))
    (fun s x _ => some (s, x, InverseOperatorResult.mk 3 true))
    (fun D b => some (fun k => b k / D k k))

/-- The parameters: reduction 1/100, 200 iterations, verbosity 0, the given configuration
and reuse policy, no JSON file. -/
def exampleParameters (configuration : String) (policy : Int) : FlowLinearSolverParameters :=
  FlowLinearSolverParameters.mk (1 / 100) 200 0 configuration "none" policy

/-- A matrix with one block row holding the diagonal block `diag(2, 4)`. -/
def exampleMatrix : MatrixType 2 := [[(0, !![2, 0; 0, 4])]]

/-- A reader of JSON files that finds the single file "options.json", holding a `cpr`
configuration whose weight type is "foo". -/
def exampleJson (file : String) : Option (PropertyTree (VectorType 2)) :=
  if file = "options.json" then
    some [("verbosity", PValue.int 0), ("preconditioner.type", PValue.str "cpr"),
      ("preconditioner.weight_type", PValue.str "foo")]
  else
    none

/-- An object for blocks of size 1 with the synthesized "ilu0" tree and policy 3, holding
the given solver, right-hand side and result of the last solve. -/
def exampleObject (solver : Option Nat) (rhs : VectorType 1) (res : InverseOperatorResult) :
    ISTLSolverEbosFlexible 1 Nat :=
  ISTLSolverEbosFlexible.mk solver (exampleParameters "ilu0" 3)
    (ilu0Tree (exampleParameters "ilu0" 3)) rhs res false []

/-- A `prepare`, a `solve` and a second `prepare` with another right-hand side, at Newton
iteration 0 and 5. -/
def exampleCalls : List (Call 1) :=
  [Call.prepare (Simulator.mk 0 []) [] [![1]], Call.solve [![0]],
    Call.prepare (Simulator.mk 5 []) [] [![2]]]

/-- What the calls `exampleCalls` do to an object without solver. -/
def exampleSteps : List (Step 1 Nat) :=
  [Step.mk (exampleObject none [] (InverseOperatorResult.mk 0 false))
      (Call.prepare (Simulator.mk 0 []) [] [![1]])
      (exampleObject (some 0) [![1]] (InverseOperatorResult.mk 0 false))
      (some PrepareAction.rebuilt),
    Step.mk (exampleObject (some 0) [![1]] (InverseOperatorResult.mk 0 false))
      (Call.solve [![0]])
      (exampleObject (some 0) [![1]] (InverseOperatorResult.mk 3 true))
      none,
    Step.mk (exampleObject (some 0) [![1]] (InverseOperatorResult.mk 3 true))
      (Call.prepare (Simulator.mk 5 []) [] [![2]])
      (exampleObject (some 1) [![2]] (InverseOperatorResult.mk 3 true))
      (some (PrepareAction.updated []
        [("type", PValue.str "ParOverILU0"), ("relaxation", PValue.real 1.0)]))]

/-- A matrix with blocks of size 1: row 0 stores the blocks 5 and 7 at the columns 0 and 1,
row 1 stores the block 3 at column 1. -/
def exampleOverlapMatrix : MatrixType 1 :=
  [[(0, !![5]), (1, !![7])], [(1, !![3])]]

/-! ## Reordering a blocked vector (`reorderBlockedVectorByPattern`) -/

/-- `reorderBlockedVectorByPattern<block_size>` (Reorder.cpp lines 204-211): the contents
of `rVector` afterwards; `rVector` is passed in with its previous contents.  `V` is the
type of the stored values (`double` in the source); the function only copies them. -/
def reorderBlockedVectorByPattern {V : Type} [Inhabited V] (block_size : Nat) (Nb : Nat)
    (vector : List V) (fromOrder : List Nat) (rVector : List V) : List V :=
  (List.range Nb).foldl
    (fun r i => (List.range block_size).foldl
      (fun r j => r.set (block_size * i + j)
        (vector.getD (block_size * fromOrder.getD i 0 + j) default)) r)
    rVector

/-! ## The assignments of `makeOverlapRowsInvalid`, one by one -/

/-- One assignment `matrix[lcell][ncell] = v`, given as `(lcell, ncell, v)`, applied to a
matrix unless an earlier assignment has thrown. -/
def applyWrite {n : Nat} (matrix : Option (MatrixType n)) (w : Nat × Nat × MatrixBlock n) :
    Option (MatrixType n) :=
  match matrix with
  | none => none
  | some m => setBlock m w.1 w.2.1 w.2.2

/-- The assignments that `makeOverlapRowsInvalid` makes for one overlap row, in order: the
diagonal block, then the listed columns. -/
def rowWrites (n : Nat) (row : Nat × List Nat) : List (Nat × Nat × MatrixBlock n) :=
  (row.1, row.1, overlapDiagBlock n) :: row.2.map (fun ncell => (row.1, ncell, 0))

/-- The assignments that `makeOverlapRowsInvalid` makes, in order. -/
def overlapWrites (n : Nat) (overlapRowAndColumns_ : List (Nat × List Nat)) :
    List (Nat × Nat × MatrixBlock n) :=
  overlapRowAndColumns_.flatMap (rowWrites n)

/-! ## The order produced by `colorsToReordering` -/

/-- Number of the rows below `i` that have colour `c`. -/
def countColor (colors : List Int) (c i : Nat) : Nat :=
  ((List.range i).filter (fun r => colors.getD r (-1) = (c : Int))).length

/-- Number of the rows below `Nb` that have a colour below `c`: the sum of the sizes of the
colours `0 .. c-1`. -/
def colorStart (colors : List Int) (Nb c : Nat) : Nat :=
  ((List.range c).map (fun c' => countColor colors c' Nb)).sum

/-- Row `r` comes before row `r'` in the order by (colour, original index). -/
def ColorBefore (colors : List Int) (r r' : Nat) : Prop :=
  colors.getD r (-1) < colors.getD r' (-1) ∨
    (colors.getD r (-1) = colors.getD r' (-1) ∧ r < r')

instance (colors : List Int) (r r' : Nat) : Decidable (ColorBefore colors r r') := by
  unfold ColorBefore; infer_instance

/-- Invariant of the two loops of `colorsToReordering` when row `i` of colour `c` is
about to be looked at: the rows placed so far are those of a smaller colour and the
earlier rows of colour `c`; they are placed in the order by (colour, index), each colour
in its own range of positions; `rowsPerColor` counts the rows placed of every colour. -/
def ReorderInv (Nb numColors : Nat) (colors : List Int) (L : Nat) (c i : Nat)
    (s : Reordering) : Prop :=
  PartialInverse Nb s.reordered
    (fun r => colors.getD r (-1) < (c : Int) ∨ (colors.getD r (-1) = (c : Int) ∧ r < i))
    s.toOrder s.fromOrder ∧
  (∀ p q, p < q → q < s.reordered →
    ColorBefore colors (s.fromOrder.getD p 0) (s.fromOrder.getD q 0)) ∧
  s.rowsPerColor.length = L ∧
  (∀ c', c' < c → s.rowsPerColor.getD c' 0 = countColor colors c' Nb) ∧
  (c < numColors → s.rowsPerColor.getD c 0 = countColor colors c i) ∧
  (∀ c', c < c' → c' < numColors → s.rowsPerColor.getD c' 0 = 0) ∧
  s.reordered = colorStart colors Nb c + countColor colors c i ∧
  (∀ p, p < s.reordered → ∃ c' : Nat,
    colors.getD (s.fromOrder.getD p 0) (-1) = (c' : Int) ∧
    colorStart colors Nb c' ≤ p ∧ p < colorStart colors Nb (c' + 1))

/-! ## Describing the transposed pattern -/

/-- The positions below `k` of `colIndices` that hold the column `c`, in ascending order. -/
def occurrences (colIndices : List Nat) (k c : Nat) : List Nat :=
  (List.range k).filter (fun n => colIndices.getD n 0 = c)

/-- Number of the first `nnz` entries of `colIndices` that hold a column below `c`. -/
def colStart (colIndices : List Nat) (nnz c : Nat) : Nat :=
  ((List.range c).map (fun c' => (occurrences colIndices nnz c').length)).sum

/-- The row to which position `n` of the column indices belongs: the number of rows that
end at or before `n`. -/
def rowOfPosition (rowPointers : List Nat) (Nb n : Nat) : Nat :=
  ((List.range Nb).filter (fun r => rowPointers.getD (r + 1) 0 ≤ n)).length

/-- The cells `l[lo], .., l[hi-1]` of an array. -/
def segment (l : List Nat) (lo hi : Nat) : List Nat :=
  (loopRange lo hi).map (fun k => l.getD k 0)

/-- A valid CSR pattern with `Nb` rows: `Nb + 1` row pointers that start at 0 and do not
decrease, and column indices below `Nb` at all the positions they delimit. -/
def ValidPattern (rowPointers colIndices : List Nat) (Nb : Nat) : Prop :=
  rowPointers.length = Nb + 1 ∧ rowPointers.getD 0 0 = 0 ∧
  rowPointers.getD Nb 0 ≤ colIndices.length ∧
  (∀ r, r < Nb → rowPointers.getD r 0 ≤ rowPointers.getD (r + 1) 0) ∧
  (∀ k, k < rowPointers.getD Nb 0 → colIndices.getD k 0 < Nb)

instance (rowPointers colIndices : List Nat) (Nb : Nat) :
    Decidable (ValidPattern rowPointers colIndices Nb) := by
  unfold ValidPattern; infer_instance

/-- Invariant of the scatter loops of `csrPatternToCsc` when the entry at position `k` is
about to be copied: every column pointer has advanced by the number of entries of its
column seen so far, and the rows of these entries are stored, in the order they were
seen, from the start of the column on. -/
def ScatterInv (colIndices rowPointers : List Nat) (Nb Lr Lp k : Nat)
    (s : List Nat × List Nat) : Prop :=
  s.1.length = Lr ∧ s.2.length = Lp ∧
  (∀ c, c < Nb → s.2.getD c 0
    = colStart colIndices (rowPointers.getD Nb 0) c + (occurrences colIndices k c).length) ∧
  s.2.getD Nb 0 = rowPointers.getD Nb 0 ∧
  ∀ c, c < Nb → ∀ k', k' < (occurrences colIndices k c).length →
    s.1.getD (colStart colIndices (rowPointers.getD Nb 0) c + k') 0
      = rowOfPosition rowPointers Nb ((occurrences colIndices k c).getD k' 0)

/-- The column indices of every row do not decrease. -/
def AscendingRows (rowPointers colIndices : List Nat) (Nb : Nat) : Prop :=
  ∀ r, r < Nb → ∀ k, k < rowPointers.getD (r + 1) 0 → rowPointers.getD r 0 ≤ k →
    k + 1 < rowPointers.getD (r + 1) 0 → colIndices.getD k 0 ≤ colIndices.getD (k + 1) 0

instance (rowPointers colIndices : List Nat) (Nb : Nat) :
    Decidable (AscendingRows rowPointers colIndices Nb) := by
  unfold AscendingRows; infer_instance

/-! ## Level scheduling of a structurally symmetric pattern -/

/-- Structural symmetry: column `j` is stored in row `i` exactly when column `i` is stored
in row `j`. -/
def StructurallySymmetric (rowPointers colIndices : List Nat) (Nb : Nat) : Prop :=
  ∀ i, i < Nb → ∀ j, j < Nb → Stored rowPointers colIndices i j →
    Stored rowPointers colIndices j i

instance (rowPointers colIndices : List Nat) (Nb : Nat) :
    Decidable (StructurallySymmetric rowPointers colIndices Nb) := by
  unfold StructurallySymmetric; infer_instance

/-- The CSC arrays hold the transposed pattern of the CSR arrays: row `r` is stored in
column `c` of the CSC arrays exactly when column `c` is stored in row `r` of the CSR
arrays. -/
def IsTransposeOf (CSCColPointers CSCRowIndices CSRRowPointers CSRColIndices : List Nat)
    (Nb : Nat) : Prop :=
  ∀ r, r < Nb → ∀ c, c < Nb →
    (Stored CSCColPointers CSCRowIndices c r ↔ Stored CSRRowPointers CSRColIndices r c)

instance (CSCColPointers CSCRowIndices CSRRowPointers CSRColIndices : List Nat) (Nb : Nat) :
    Decidable (IsTransposeOf CSCColPointers CSCRowIndices CSRRowPointers CSRColIndices Nb) := by
  unfold IsTransposeOf; infer_instance

/-- All the stored columns `j < i` of row `i` are done. -/
def DepsDone (rowPointers colIndices : List Nat) (doneRows : List Bool) (i : Nat) : Prop :=
  ∀ j, j < i → Stored rowPointers colIndices i j → doneRows.getD j false = true

instance (rowPointers colIndices : List Nat) (doneRows : List Bool) (i : Nat) :
    Decidable (DepsDone rowPointers colIndices doneRows i) := by
  unfold DepsDone; infer_instance

/-- Invariant of the `while` loop of `findLevelScheduling` on a structurally symmetric
pattern: besides `LevelInv`, the sizes of the levels are positive and sum to the number of
rows placed, `activeRowIndex` is the start of the level found last, every candidate
collected so far is done, and every row that is not done has a stored column `j < i` that
is not done or lies in the level found last. -/
def SchedInv (rowPointers colIndices : List Nat) (Nb : Nat) (s : LevelState) : Prop :=
  LevelInv Nb s ∧
  s.activeRowIndex ≤ s.colorEnd ∧
  s.rowsPerColor.sum = s.colorEnd ∧
  (∀ n ∈ s.rowsPerColor, 1 ≤ n) ∧
  (∀ r ∈ s.rowsToStart, s.doneRows.getD r false = true) ∧
  (∀ i, i < Nb → s.doneRows.getD i false = false → ∃ j, j < i ∧
    Stored rowPointers colIndices i j ∧
      (s.doneRows.getD j false = false ∨ s.activeRowIndex ≤ s.toOrder.getD j 0))

/-- Every done row has its stored columns `j < i` done, in a strictly earlier level. -/
def DepInv (rowPointers colIndices : List Nat) (Nb : Nat) (s : LevelState) : Prop :=
  ∀ i, i < Nb → s.doneRows.getD i false = true → ∀ j, j < i →
    Stored rowPointers colIndices i j →
      s.doneRows.getD j false = true ∧
      levelOf s.rowsPerColor (s.toOrder.getD j 0)
        < levelOf s.rowsPerColor (s.toOrder.getD i 0)

/-! # Part II: theorems -/

/-! ## Lists as arrays, loop rules, and the two index arrays -/

theorem getD_set {α : Type} (l : List α) (i j : Nat) (a d : α) :
    (l.set i a).getD j d = if i = j ∧ i < l.length then a else l.getD j d := by
  simp only [List.getD_eq_getElem?_getD, List.getElem?_set]
  by_cases h : i = j
  · subst h
    by_cases h2 : i < l.length
    · simp [h2]
    · simp [h2, List.getElem?_eq_none (Nat.le_of_not_lt h2)]
  · simp [h]

theorem getD_set_self {α : Type} (l : List α) (i : Nat) (a d : α) (h : i < l.length) :
    (l.set i a).getD i d = a := by
  rw [getD_set]; simp [h]

theorem getD_set_ne {α : Type} (l : List α) (i j : Nat) (a d : α) (h : i ≠ j) :
    (l.set i a).getD j d = l.getD j d := by
  rw [getD_set]; simp [h]

theorem partialInverse_congr {Nb n : Nat} {S S' : Nat → Prop} {t f : List Nat}
    (h : PartialInverse Nb n S t f) (hS : ∀ i, i < Nb → (S i ↔ S' i)) :
    PartialInverse Nb n S' t f := by
  refine ⟨h.len_to, h.len_from, ?_, ?_⟩
  · intro p hp
    obtain ⟨h1, h2, h3⟩ := h.of_pos p hp
    exact ⟨h1, (hS _ h1).mp h2, h3⟩
  · intro i hi hs
    exact h.of_row i hi ((hS i hi).mpr hs)

/-- Pigeonhole: a row outside `S` leaves a free position. -/
theorem partialInverse_lt_of_not_mem {Nb n : Nat} {S : Nat → Prop} {t f : List Nat}
    (h : PartialInverse Nb n S t f) {i : Nat} (hi : i < Nb) (hS : ¬ S i) : n < Nb := by
  have hcard : (Finset.range n).card ≤ ((Finset.range Nb).erase i).card := by
    apply Finset.card_le_card_of_injOn (fun p => f.getD p 0)
    · intro p hp
      have hp' : p < n := Finset.mem_range.mp hp
      obtain ⟨h1, h2, _⟩ := h.of_pos p hp'
      refine Finset.mem_erase.mpr ⟨?_, Finset.mem_range.mpr h1⟩
      intro heq
      exact hS (heq ▸ h2)
    · intro p hp q hq hpq
      have hp' : p < n := Finset.mem_range.mp (Finset.mem_coe.mp hp)
      have hq' : q < n := Finset.mem_range.mp (Finset.mem_coe.mp hq)
      have e1 := (h.of_pos p hp').2.2
      have e2 := (h.of_pos q hq').2.2
      simp only at hpq
      rw [hpq] at e1
      omega
  rw [Finset.card_erase_of_mem (Finset.mem_range.mpr hi)] at hcard
  simp only [Finset.card_range] at hcard
  omega

/-- Placing a row outside `S` at the next free position keeps the arrays inverse. -/
theorem partialInverse_step {Nb n : Nat} {S : Nat → Prop} {t f : List Nat}
    (h : PartialInverse Nb n S t f) {i : Nat} (hi : i < Nb) (hS : ¬ S i) :
    PartialInverse Nb (n + 1) (fun r => S r ∨ r = i) (t.set i n) (f.set n i) := by
  have hn : n < Nb := partialInverse_lt_of_not_mem h hi hS
  refine ⟨by simp [h.len_to], by simp [h.len_from], ?_, ?_⟩
  · intro p hp
    by_cases hpn : p = n
    · subst hpn
      rw [getD_set_self _ _ _ _ (by rw [h.len_from]; exact hn)]
      rw [getD_set_self _ _ _ _ (by rw [h.len_to]; exact hi)]
      exact ⟨hi, Or.inr rfl, rfl⟩
    · have hp' : p < n := by omega
      obtain ⟨h1, h2, h3⟩ := h.of_pos p hp'
      rw [getD_set_ne _ _ _ _ _ (Ne.symm hpn)]
      have hne : i ≠ f.getD p 0 := fun heq => hS (heq ▸ h2)
      rw [getD_set_ne _ _ _ _ _ hne]
      exact ⟨h1, Or.inl h2, h3⟩
  · intro r hr hs
    by_cases hri : r = i
    · subst hri
      rw [getD_set_self _ _ _ _ (by rw [h.len_to]; exact hr)]
      rw [getD_set_self _ _ _ _ (by rw [h.len_from]; exact hn)]
      exact ⟨by omega, rfl⟩
    · have hs' : S r := by
        rcases hs with hs | hs
        · exact hs
        · exact absurd hs hri
      obtain ⟨h1, h2⟩ := h.of_row r hr hs'
      rw [getD_set_ne _ _ _ _ _ (Ne.symm hri)]
      have hne : n ≠ t.getD r 0 := by omega
      rw [getD_set_ne _ _ _ _ _ hne]
      exact ⟨by omega, h2⟩

/-- When every position below `Nb` is filled, every row is placed. -/
theorem partialInverse_all_of_le {Nb n : Nat} {S : Nat → Prop} {t f : List Nat}
    (h : PartialInverse Nb n S t f) (hn : Nb ≤ n) : ∀ i, i < Nb → S i := by
  intro i hi
  by_contra hS
  have := partialInverse_lt_of_not_mem h hi hS
  omega

/-- When every row is placed, every position below `Nb` is filled. -/
theorem partialInverse_le_of_all {Nb n : Nat} {S : Nat → Prop} {t f : List Nat}
    (h : PartialInverse Nb n S t f) (hS : ∀ i, i < Nb → S i) : Nb ≤ n := by
  have hcard : (Finset.range Nb).card ≤ (Finset.range n).card := by
    apply Finset.card_le_card_of_injOn (fun i => t.getD i 0)
    · intro i hi
      have hi' : i < Nb := Finset.mem_range.mp hi
      exact Finset.mem_range.mpr (h.of_row i hi' (hS i hi')).1
    · intro i hi j hj hij
      have hi' : i < Nb := Finset.mem_range.mp (Finset.mem_coe.mp hi)
      have hj' : j < Nb := Finset.mem_range.mp (Finset.mem_coe.mp hj)
      have e1 := (h.of_row i hi' (hS i hi')).2
      have e2 := (h.of_row j hj' (hS j hj')).2
      simp only at hij
      rw [hij] at e1
      omega
  simpa using hcard

/-- Every position is filled by a different row, so there are at most `Nb` positions. -/
theorem partialInverse_le {Nb n : Nat} {S : Nat → Prop} {t f : List Nat}
    (h : PartialInverse Nb n S t f) : n ≤ Nb := by
  have hcard : (Finset.range n).card ≤ (Finset.range Nb).card := by
    apply Finset.card_le_card_of_injOn (fun p => f.getD p 0)
    · intro p hp
      exact Finset.mem_range.mpr (h.of_pos p (Finset.mem_range.mp hp)).1
    · intro p hp q hq hpq
      have hp' : p < n := Finset.mem_range.mp (Finset.mem_coe.mp hp)
      have hq' : q < n := Finset.mem_range.mp (Finset.mem_coe.mp hq)
      have e1 := (h.of_pos p hp').2.2
      have e2 := (h.of_pos q hq').2.2
      simp only at hpq
      rw [hpq] at e1
      omega
  simpa using hcard

theorem partialInverse_mutual_of_all {Nb n : Nat} {S : Nat → Prop} {t f : List Nat}
    (h : PartialInverse Nb n S t f) (hS : ∀ i, i < Nb → S i) : MutualInverses Nb t f := by
  have hn := partialInverse_le_of_all h hS
  have hn' := partialInverse_le h
  refine ⟨h.len_to, h.len_from, ?_, ?_⟩
  · intro p hp
    obtain ⟨h1, _, h3⟩ := h.of_pos p (by omega)
    exact ⟨h1, h3⟩
  · intro i hi
    obtain ⟨h1, h2⟩ := h.of_row i hi (hS i hi)
    exact ⟨by omega, h2⟩

theorem partialInverse_mutual_of_le {Nb n : Nat} {S : Nat → Prop} {t f : List Nat}
    (h : PartialInverse Nb n S t f) (hn : Nb ≤ n) : MutualInverses Nb t f :=
  partialInverse_mutual_of_all h (partialInverse_all_of_le h hn)

theorem mutualInverses_symm {Nb : Nat} {t f : List Nat} (h : MutualInverses Nb t f) :
    MutualInverses Nb f t :=
  ⟨h.2.1, h.1, h.2.2.2, h.2.2.1⟩

/-- An index array with an inverse is a rearrangement of `0, 1, .., Nb-1`. -/
theorem mutualInverses_perm_range {Nb : Nat} {t f : List Nat} (h : MutualInverses Nb t f) :
    t.Perm (List.range Nb) := by
  obtain ⟨hlt, _, _, hrow⟩ := h
  have hnodup : t.Nodup := by
    rw [List.nodup_iff_injective_get]
    intro a b hab
    have ha : a.1 < Nb := hlt ▸ a.2
    have hb : b.1 < Nb := hlt ▸ b.2
    have e1 := (hrow a.1 ha).2
    have e2 := (hrow b.1 hb).2
    have ga : t.getD a.1 0 = t.get a := by
      rw [List.getD_eq_getElem?_getD, List.getElem?_eq_getElem a.2]; rfl
    have gb : t.getD b.1 0 = t.get b := by
      rw [List.getD_eq_getElem?_getD, List.getElem?_eq_getElem b.2]; rfl
    rw [ga] at e1
    rw [gb] at e2
    rw [hab] at e1
    exact Fin.ext (by omega)
  apply List.perm_of_nodup_nodup_toFinset_eq hnodup (List.nodup_range Nb)
  apply Finset.eq_of_subset_of_card_le
  · intro x hx
    rw [List.mem_toFinset] at hx ⊢
    obtain ⟨i, hi, rfl⟩ := List.getElem_of_mem hx
    have hi' : i < Nb := hlt ▸ hi
    have := (hrow i hi').1
    rw [List.getD_eq_getElem?_getD, List.getElem?_eq_getElem hi] at this
    exact List.mem_range.mpr this
  · rw [List.toFinset_card_of_nodup hnodup, List.toFinset_card_of_nodup (List.nodup_range Nb)]
    simp [hlt]

/-- Loop invariant rule for a loop `for (i = 0; i < n; i++)`. -/
theorem foldl_range_inv {σ : Type} (P : Nat → σ → Prop) (f : σ → Nat → σ) (s0 : σ) (n : Nat)
    (h0 : P 0 s0) (hstep : ∀ i s, i < n → P i s → P (i + 1) (f s i)) :
    P n ((List.range n).foldl f s0) := by
  induction n with
  | zero => simpa using h0
  | succ m ih =>
    rw [List.range_succ, List.foldl_append]
    simp only [List.foldl_cons, List.foldl_nil]
    exact hstep m _ (Nat.lt_succ_self m)
      (ih (fun i s hi hp => hstep i s (Nat.lt_succ_of_lt hi) hp))

/-- Loop invariant rule for a loop `for (i = lo; i < hi; i++)` that is entered with
`lo ≤ hi`. -/
theorem foldl_loopRange_inv {σ : Type} (P : Nat → σ → Prop) (f : σ → Nat → σ) (s0 : σ)
    (lo hi : Nat) (hle : lo ≤ hi) (h0 : P lo s0)
    (hstep : ∀ i s, lo ≤ i → i < hi → P i s → P (i + 1) (f s i)) :
    P hi ((loopRange lo hi).foldl f s0) := by
  unfold loopRange
  obtain ⟨d, rfl⟩ : ∃ d, hi = lo + d := ⟨hi - lo, by omega⟩
  simp only [Nat.add_sub_cancel_left]
  clear hle
  induction d with
  | zero => simpa using h0
  | succ m ih =>
    rw [List.range'_1_concat, List.foldl_append]
    simp only [List.foldl_cons, List.foldl_nil]
    have := ih (fun i s h1 h2 hp => hstep i s h1 (by omega) hp)
    exact hstep (lo + m) _ (by omega) (by omega) this

theorem reorderRow_inv (Nb : Nat) (colors : List Int) (c i : Nat) (s : Reordering)
    (hi : i < Nb)
    (h : PartialInverse Nb s.reordered
      (fun r => colors.getD r (-1) < (c : Int) ∨ (colors.getD r (-1) = (c : Int) ∧ r < i))
      s.toOrder s.fromOrder) :
    PartialInverse Nb (reorderRow colors c s i).reordered
      (fun r => colors.getD r (-1) < (c : Int) ∨ (colors.getD r (-1) = (c : Int) ∧ r < i + 1))
      (reorderRow colors c s i).toOrder (reorderRow colors c s i).fromOrder := by
  unfold reorderRow
  by_cases hc : colors.getD i (-1) = (c : Int)
  · rw [if_pos hc]
    have hS : ¬ (colors.getD i (-1) < (c : Int) ∨ (colors.getD i (-1) = (c : Int) ∧ i < i)) := by
      rw [hc]; simp
    refine partialInverse_congr (partialInverse_step h hi hS) ?_
    intro r _
    constructor
    · rintro (h1 | h1)
      · rcases h1 with h1 | ⟨h1, h2⟩
        · exact Or.inl h1
        · exact Or.inr ⟨h1, by omega⟩
      · subst h1
        exact Or.inr ⟨hc, by omega⟩
    · rintro (h1 | ⟨h1, h2⟩)
      · exact Or.inl (Or.inl h1)
      · by_cases hri : r = i
        · exact Or.inr hri
        · exact Or.inl (Or.inr ⟨h1, by omega⟩)
  · rw [if_neg hc]
    refine partialInverse_congr h ?_
    intro r _
    constructor
    · rintro (h1 | ⟨h1, h2⟩)
      · exact Or.inl h1
      · exact Or.inr ⟨h1, by omega⟩
    · rintro (h1 | ⟨h1, h2⟩)
      · exact Or.inl h1
      · have hri : r ≠ i := fun heq => hc (heq ▸ h1)
        exact Or.inr ⟨h1, by omega⟩

/-- With every colour in `[0, numColors)`, `colorsToReordering` fills `toOrder` and
`fromOrder` with mutually inverse permutations. -/
theorem colorsToReordering_mutualInverses (Nb : Nat) (colors : List Int) (numColors : Nat)
    (toOrder fromOrder rowsPerColor : List Nat)
    (hto : toOrder.length = Nb) (hfrom : fromOrder.length = Nb)
    (hcol : ∀ i, i < Nb → 0 ≤ colors.getD i (-1) ∧ colors.getD i (-1) < (numColors : Int)) :
    MutualInverses Nb
      (colorsToReordering Nb colors numColors toOrder fromOrder rowsPerColor).toOrder
      (colorsToReordering Nb colors numColors toOrder fromOrder rowsPerColor).fromOrder := by
  unfold colorsToReordering
  have key := foldl_range_inv
    (fun c (s : Reordering) => PartialInverse Nb s.reordered
      (fun r => colors.getD r (-1) < (c : Int)) s.toOrder s.fromOrder)
    (fun s c => (List.range Nb).foldl (reorderRow colors c) s)
    (Reordering.mk toOrder fromOrder
      ((List.range numColors).foldl (fun r i => r.set i 0) rowsPerColor) 0)
    numColors ?_ ?_
  · exact partialInverse_mutual_of_all key (fun i hi => (hcol i hi).2)
  · refine ⟨hto, hfrom, fun p hp => absurd hp (Nat.not_lt_zero p), ?_⟩
    intro i hi hs
    have := (hcol i hi).1
    simp only [Nat.cast_zero] at hs
    omega
  · intro c s _ hs
    have inner := foldl_range_inv
      (fun i (s : Reordering) => PartialInverse Nb s.reordered
        (fun r => colors.getD r (-1) < (c : Int) ∨ (colors.getD r (-1) = (c : Int) ∧ r < i))
        s.toOrder s.fromOrder)
      (reorderRow colors c) s Nb ?_ ?_
    · refine partialInverse_congr inner ?_
      intro r hr
      simp only [Nat.cast_add, Nat.cast_one]
      constructor
      · rintro (h1 | ⟨h1, _⟩) <;> omega
      · intro h1
        by_cases h2 : colors.getD r (-1) < (c : Int)
        · exact Or.inl h2
        · exact Or.inr ⟨by omega, hr⟩
    · refine partialInverse_congr hs ?_
      intro r _
      constructor
      · intro h1; exact Or.inl h1
      · rintro (h1 | ⟨_, h2⟩)
        · exact h1
        · omega
    · intro i s' hi hs'
      exact reorderRow_inv Nb colors c i s' hi hs'

/-- Induction rule for the row loop of a sweep: a property of (rows still to visit, state)
that survives a skipped row, a column-budget `break` and a coloured row holds, for some
list of unvisited rows, of the state the loop ends in. -/
theorem colorRows_induct (block_size : Nat) (rowPointers colIndices randoms : List Nat)
    (maxRowsPerColor maxColsPerColor : Int) (c : Nat) (P : List Nat → SweepState → Prop)
    (hskip : ∀ i is s, P (i :: is) s → P is s)
    (hmark : ∀ i is s, P (i :: is) s → s.colors.getD i (-1) = -1 →
      P is (SweepState.mk s.colors
        (markColumns block_size colIndices
          (loopRange (rowPointers.getD i 0) (rowPointers.getD (i + 1) 0))
          (s.visitedColumns, 0)).1 s.rowsInColor s.colsInColor))
    (hcolor : ∀ i is s, P (i :: is) s → s.colors.getD i (-1) = -1 →
      neighbourCheck colIndices s.colors randoms c i (randoms.getD i 0)
        (loopRange (rowPointers.getD i 0) (rowPointers.getD (i + 1) 0)) true = true →
      ¬ (u32 (s.colsInColor + (markColumns block_size colIndices
          (loopRange (rowPointers.getD i 0) (rowPointers.getD (i + 1) 0))
          (s.visitedColumns, 0)).2) > toUnsigned maxColsPerColor) →
      P is (SweepState.mk (s.colors.set i (c : Int))
        (markColumns block_size colIndices
          (loopRange (rowPointers.getD i 0) (rowPointers.getD (i + 1) 0))
          (s.visitedColumns, 0)).1
        (u32 (s.rowsInColor + block_size))
        (u32 (s.colsInColor + (markColumns block_size colIndices
          (loopRange (rowPointers.getD i 0) (rowPointers.getD (i + 1) 0))
          (s.visitedColumns, 0)).2)))) :
    ∀ (l : List Nat) (s : SweepState), P l s →
      ∃ rest, P rest (colorRows block_size rowPointers colIndices randoms maxRowsPerColor
        maxColsPerColor c l s) := by
  intro l
  induction l with
  | nil => intro s hs; exact ⟨[], hs⟩
  | cons i is ih =>
    intro s hs
    unfold colorRows
    by_cases h1 : s.colors.getD i (-1) ≠ -1
    · rw [if_pos h1]
      exact ih s (hskip i is s hs)
    · rw [if_neg h1]
      have h1' : s.colors.getD i (-1) = -1 := not_not.mp h1
      simp only []
      split_ifs with h2 h3 h4
      · exact ⟨is, hmark i is s hs h1'⟩
      · exact ⟨is, hcolor i is s hs h1' h2 h3⟩
      · exact ih _ (hcolor i is s hs h1' h2 h3)
      · exact ih s (hskip i is s hs)

/-- What the neighbour loop decides: `iMax` stays `true` exactly when every stored column
of the row is the row itself, a row coloured in an earlier sweep, or an uncoloured row of
strictly smaller priority. -/
theorem neighbourCheck_eq_true_iff (colIndices : List Nat) (colors : List Int)
    (randoms : List Nat) (c i ir : Nat) (ks : List Nat) (b : Bool) :
    neighbourCheck colIndices colors randoms c i ir ks b = true ↔
      b = true ∧ ∀ k ∈ ks,
        i = colIndices.getD k 0 ∨
        (colors.getD (colIndices.getD k 0) (-1) ≠ -1 ∧
          colors.getD (colIndices.getD k 0) (-1) ≠ (c : Int)) ∨
        (colors.getD (colIndices.getD k 0) (-1) = -1 ∧ randoms.getD (colIndices.getD k 0) 0 < ir) := by
  induction ks generalizing b with
  | nil => simp [neighbourCheck]
  | cons k ks ih =>
    unfold neighbourCheck
    simp only []
    have hc : ((c : Int) ≠ -1) := by omega
    split_ifs with h1 h2 h3
    · rw [ih]
      constructor
      · rintro ⟨hb, hks⟩
        refine ⟨hb, ?_⟩
        intro k' hk'
        rcases List.mem_cons.mp hk' with rfl | hk'
        · rcases h1 with h1 | h1
          · exact Or.inr (Or.inl h1)
          · exact Or.inl h1
        · exact hks k' hk'
      · rintro ⟨hb, hks⟩
        exact ⟨hb, fun k' hk' => hks k' (List.mem_cons_of_mem _ hk')⟩
    · constructor
      · intro h; exact absurd h (by simp)
      · rintro ⟨_, hks⟩
        exfalso
        rcases hks k (List.mem_cons_self _ _) with h | h | h
        · exact h1 (Or.inr h)
        · exact h.2 h2
        · rw [h2] at h; exact hc h.1
    · rw [ih]
      constructor
      · rintro ⟨hb, _⟩; exact absurd hb (by simp)
      · rintro ⟨_, hks⟩
        exfalso
        rcases hks k (List.mem_cons_self _ _) with h | h | h
        · exact h1 (Or.inr h)
        · exact h1 (Or.inl h)
        · omega
    · rw [ih]
      constructor
      · rintro ⟨hb, hks⟩
        refine ⟨hb, ?_⟩
        intro k' hk'
        rcases List.mem_cons.mp hk' with rfl | hk'
        · right; right
          refine ⟨?_, by omega⟩
          by_contra hne
          exact h1 (Or.inl ⟨hne, h2⟩)
        · exact hks k' hk'
      · rintro ⟨hb, hks⟩
        exact ⟨hb, fun k' hk' => hks k' (List.mem_cons_of_mem _ hk')⟩

theorem markColumns_length (block_size : Nat) (colIndices : List Nat) (ks : List Nat)
    (s : List Bool × Nat) :
    (markColumns block_size colIndices ks s).1.length = s.1.length := by
  induction ks generalizing s with
  | nil => simp [markColumns]
  | cons k ks ih =>
    unfold markColumns
    simp only []
    split_ifs
    · rw [ih]; simp
    · rw [ih]

/-- Lifting of a sweep invariant `I c colors visited` through the colour loop: when the
loop returns `k`, the invariant holds at `k`, no row is left, and `c < k ≤ c + n`; when it
runs out, the invariant holds at `c + n`. -/
theorem colorSweeps_inv (block_size rows : Nat) (rowPointers colIndices randoms : List Nat)
    (maxRowsPerColor maxColsPerColor : Int) (I : Nat → List Int → List Bool → Prop)
    (hstep : ∀ c col vis, I c col vis →
      I (c + 1)
        (colorSweep block_size rows rowPointers colIndices randoms maxRowsPerColor
          maxColsPerColor c col vis).1
        (colorSweep block_size rows rowPointers colIndices randoms maxRowsPerColor
          maxColsPerColor c col vis).2) :
    ∀ (n c : Nat) (col : List Int) (vis : List Bool), I c col vis →
      (∀ k, (colorSweeps block_size rows rowPointers colIndices randoms maxRowsPerColor
          maxColsPerColor n c col vis).1 = some k →
        I k (colorSweeps block_size rows rowPointers colIndices randoms maxRowsPerColor
          maxColsPerColor n c col vis).2.1
          (colorSweeps block_size rows rowPointers colIndices randoms maxRowsPerColor
          maxColsPerColor n c col vis).2.2 ∧
        countLeft rows (colorSweeps block_size rows rowPointers colIndices randoms
          maxRowsPerColor maxColsPerColor n c col vis).2.1 = 0 ∧ c < k ∧ k ≤ c + n) ∧
      ((colorSweeps block_size rows rowPointers colIndices randoms maxRowsPerColor
          maxColsPerColor n c col vis).1 = none →
        I (c + n) (colorSweeps block_size rows rowPointers colIndices randoms maxRowsPerColor
          maxColsPerColor n c col vis).2.1
          (colorSweeps block_size rows rowPointers colIndices randoms maxRowsPerColor
          maxColsPerColor n c col vis).2.2) := by
  intro n
  induction n with
  | zero =>
    intro c col vis h
    simp only [colorSweeps]
    exact ⟨fun k hk => by simp at hk, fun _ => h⟩
  | succ n ih =>
    intro c col vis h
    unfold colorSweeps
    simp only []
    split_ifs with h0
    · refine ⟨?_, fun hn => by simp at hn⟩
      intro k hk
      simp only [Option.some.injEq] at hk
      subst hk
      exact ⟨hstep c col vis h, h0, by omega, by omega⟩
    · obtain ⟨ih1, ih2⟩ := ih (c + 1) _ _ (hstep c col vis h)
      refine ⟨?_, ?_⟩
      · intro k hk
        obtain ⟨a, b, d, e⟩ := ih1 k hk
        exact ⟨a, b, by omega, by omega⟩
      · intro hn
        have := ih2 hn
        rwa [show c + 1 + n = c + (n + 1) by omega] at this

/-- Lifting of a sweep invariant through the attempts: when `colorAttempts` returns
`(k, colors)`, the invariant holds at `k` for `colors`, no row is left and
`0 < k ≤ MAX_COLORS`. -/
theorem colorAttempts_inv (block_size MAX_COLORS : Nat) (draw : Nat → List Nat) (rows : Nat)
    (rowPointers colIndices : List Nat) (maxRowsPerColor maxColsPerColor : Int)
    (I : Nat → List Int → List Bool → Prop)
    (hstep : ∀ randoms c col vis, I c col vis →
      I (c + 1)
        (colorSweep block_size rows rowPointers colIndices randoms maxRowsPerColor
          maxColsPerColor c col vis).1
        (colorSweep block_size rows rowPointers colIndices randoms maxRowsPerColor
          maxColsPerColor c col vis).2)
    (hreset : ∀ c col vis, I c col vis → I 0 (List.replicate col.length (-1)) vis) :
    ∀ (n t : Nat) (col : List Int) (vis : List Bool),
      I 0 (List.replicate col.length (-1)) vis →
      ∀ k col', colorAttempts block_size MAX_COLORS draw rows rowPointers colIndices
          maxRowsPerColor maxColsPerColor n t col vis = some (k, col') →
        (∃ vis', I k col' vis') ∧ countLeft rows col' = 0 ∧ 0 < k ∧ k ≤ MAX_COLORS := by
  intro n
  induction n with
  | zero => intro t col vis _ k col' h; simp [colorAttempts] at h
  | succ n ih =>
    intro t col vis h k col' hres
    unfold colorAttempts at hres
    simp only [] at hres
    obtain ⟨h1, h2⟩ := colorSweeps_inv block_size rows rowPointers colIndices (draw t)
      maxRowsPerColor maxColsPerColor I (hstep (draw t)) MAX_COLORS 0 _ vis h
    split at hres
    · rename_i k' hk'
      simp only [Option.some.injEq, Prod.mk.injEq] at hres
      obtain ⟨rfl, rfl⟩ := hres
      obtain ⟨a, b, d, e⟩ := h1 k' hk'
      exact ⟨⟨_, a⟩, b, d, by omega⟩
    · rename_i hnone
      exact ih (t + 1) _ _ (hreset _ _ _ (h2 hnone)) k col' hres

theorem getD_replicate_same {α : Type} (n j : Nat) (a : α) :
    (List.replicate n a).getD j a = a := by
  simp only [List.getD_eq_getElem?_getD, List.getElem?_replicate]
  split_ifs <;> rfl

theorem colorSweep_colorsBelow (block_size rows : Nat)
    (rowPointers colIndices randoms : List Nat) (maxRowsPerColor maxColsPerColor : Int)
    (c : Nat) (colors : List Int) (visited : List Bool) (h : ColorsBelow rows c colors) :
    ColorsBelow rows (c + 1)
      (colorSweep block_size rows rowPointers colIndices randoms maxRowsPerColor
        maxColsPerColor c colors visited).1 := by
  unfold colorSweep
  simp only []
  obtain ⟨_, hres⟩ := colorRows_induct block_size rowPointers colIndices randoms
    maxRowsPerColor maxColsPerColor c
    (fun _ s => ColorsBelow rows (c + 1) s.colors)
    (fun i is s hs => hs) (fun i is s hs _ => hs)
    (fun i is s hs _ _ _ => by
      obtain ⟨hl, hr⟩ := hs
      refine ⟨by simpa using hl, ?_⟩
      intro j
      rw [getD_set]
      split_ifs with hij
      · right
        push_cast
        omega
      · exact hr j)
    (List.range rows) (SweepState.mk colors visited 0 0)
    (by
      refine ⟨h.1, ?_⟩
      intro j
      rcases h.2 j with hj | hj
      · exact Or.inl hj
      · right
        push_cast
        omega)
  exact hres

theorem countLeft_eq_zero_iff (rows : Nat) (colors : List Int) :
    countLeft rows colors = 0 ↔ ∀ i, i < rows → colors.getD i (-1) ≠ -1 := by
  unfold countLeft
  rw [List.length_eq_zero, List.filter_eq_nil_iff]
  simp only [List.mem_range, decide_eq_true_eq]

/-- When `colorBlockedNodes` returns `(k, colors')`, every row has a colour in `[0, k)`,
and `1 ≤ k ≤ MAX_COLORS`. -/
theorem colorBlockedNodes_colors_range (block_size MAX_COLORS : Nat) (draw : Nat → List Nat)
    (rows : Nat) (rowPointers colIndices : List Nat) (colors : List Int)
    (maxRowsPerColor maxColsPerColor : Int) (hlen : colors.length = rows)
    (k : Nat) (colors' : List Int)
    (hres : colorBlockedNodes block_size MAX_COLORS draw rows rowPointers colIndices colors
      maxRowsPerColor maxColsPerColor = some (k, colors')) :
    colors'.length = rows ∧ 0 < k ∧ k ≤ MAX_COLORS ∧
      ∀ i, i < rows → 0 ≤ colors'.getD i (-1) ∧ colors'.getD i (-1) < (k : Int) := by
  unfold colorBlockedNodes at hres
  have hreset : ∀ (c : Nat) (col : List Int) (vis : List Bool), ColorsBelow rows c col →
      ColorsBelow rows 0 (List.replicate col.length (-1)) := by
    intro c col _ hc
    refine ⟨by simpa using hc.1, fun j => Or.inl (getD_replicate_same _ _ _)⟩
  obtain ⟨⟨_, hI⟩, hleft, hk0, hkM⟩ := colorAttempts_inv block_size MAX_COLORS draw rows
    rowPointers colIndices maxRowsPerColor maxColsPerColor
    (fun c col _ => ColorsBelow rows c col)
    (fun randoms c col vis hc => colorSweep_colorsBelow block_size rows rowPointers colIndices
      randoms maxRowsPerColor maxColsPerColor c col vis hc)
    hreset max_tries 0 colors (List.replicate rows false)
    (by
      refine ⟨by simpa using hlen, fun j => Or.inl (getD_replicate_same _ _ _)⟩)
    k colors' hres
  refine ⟨hI.1, hk0, hkM, ?_⟩
  intro i hi
  rcases hI.2 i with h | h
  · exact absurd h ((countLeft_eq_zero_iff rows colors').mp hleft i hi)
  · exact h

theorem foldl_inv {σ α : Type} (P : σ → Prop) (f : σ → α → σ) (l : List α) (s0 : σ)
    (h0 : P s0) (hstep : ∀ s a, a ∈ l → P s → P (f s a)) : P (l.foldl f s0) := by
  induction l generalizing s0 with
  | nil => simpa using h0
  | cons a l ih =>
    simp only [List.foldl_cons]
    exact ih _ (hstep s0 a (List.mem_cons_self _ _) h0)
      (fun s b hb hp => hstep s b (List.mem_cons_of_mem _ hb) hp)

theorem getD_lt_of_forall_mem (l : List Nat) (Nb : Nat) (h : ∀ r ∈ l, r < Nb) (h0 : 0 < Nb)
    (i : Nat) : l.getD i 0 < Nb := by
  rw [List.getD_eq_getElem?_getD]
  by_cases hi : i < l.length
  · rw [List.getElem?_eq_getElem hi]
    exact h _ (List.getElem_mem _)
  · rw [List.getElem?_eq_none (Nat.le_of_not_lt hi)]
    exact h0

theorem levelInit_inv (CSCRowIndices CSCColPointers : List Nat) (Nb : Nat)
    (toOrder fromOrder : List Nat) (hto : toOrder.length = Nb) (hfrom : fromOrder.length = Nb) :
    LevelInv Nb (levelInit CSCRowIndices CSCColPointers Nb toOrder fromOrder) := by
  unfold levelInit
  simp only []
  -- the loop finding the starting rows
  have h1 := foldl_range_inv
    (fun i (s : LevelState) => s.doneRows = List.replicate Nb false ∧ s.colorEnd = 0 ∧
      s.rowsToStart = [] ∧
      PartialInverse Nb s.nextActiveRowIndex
        (fun r => r < i ∧ canBeStarted r CSCColPointers CSCRowIndices
          (List.replicate Nb false) = true) s.toOrder s.fromOrder)
    (startRow CSCRowIndices CSCColPointers)
    (LevelState.mk 0 0 0 (List.replicate Nb false) [] [] fromOrder toOrder) Nb
    ⟨rfl, rfl, rfl, hto, hfrom, fun p hp => absurd hp (Nat.not_lt_zero p),
      fun i _ hs => absurd hs.1 (Nat.not_lt_zero i)⟩
    (by
      intro i s hi ⟨hd, hce, hrs, hpi⟩
      unfold startRow
      split_ifs with hcan
      · refine ⟨hd, hce, hrs, ?_⟩
        have hS : ¬ (i < i ∧ canBeStarted i CSCColPointers CSCRowIndices
            (List.replicate Nb false) = true) := fun h => Nat.lt_irrefl i h.1
        refine partialInverse_congr (partialInverse_step hpi hi hS) ?_
        intro r _
        constructor
        · rintro (⟨h1, h2⟩ | rfl)
          · exact ⟨by omega, h2⟩
          · exact ⟨by omega, hd ▸ hcan⟩
        · rintro ⟨h1, h2⟩
          by_cases hri : r = i
          · exact Or.inr hri
          · exact Or.inl ⟨by omega, h2⟩
      · refine ⟨hd, hce, hrs, partialInverse_congr hpi ?_⟩
        intro r _
        constructor
        · rintro ⟨h1, h2⟩; exact ⟨by omega, h2⟩
        · rintro ⟨h1, h2⟩
          have hri : r ≠ i := by
            rintro rfl
            rw [hd] at hcan
            exact hcan h2
          exact ⟨by omega, h2⟩)
  generalize (List.range Nb).foldl (startRow CSCRowIndices CSCColPointers)
    (LevelState.mk 0 0 0 (List.replicate Nb false) [] [] fromOrder toOrder) = s1 at h1 ⊢
  obtain ⟨hd1, hce1, hrs1, hpi1⟩ := h1
  -- the loop marking them as done
  have h2 := foldl_range_inv
    (fun m (s : LevelState) => s.nextActiveRowIndex = s1.nextActiveRowIndex ∧
      s.toOrder = s1.toOrder ∧ s.fromOrder = s1.fromOrder ∧ s.doneRows.length = Nb ∧
      s.colorEnd = m ∧ s.rowsToStart = [] ∧
      ∀ i, s.doneRows.getD i false = true ↔ ∃ p, p < m ∧ s1.fromOrder.getD p 0 = i)
    markDone s1 s1.nextActiveRowIndex
    ⟨rfl, rfl, rfl, by rw [hd1]; simp, hce1, hrs1, by
      intro i
      rw [hd1]
      constructor
      · intro h
        rw [List.getD_eq_getElem?_getD, List.getElem?_replicate] at h
        split_ifs at h <;> simp at h
      · rintro ⟨p, hp, _⟩; exact absurd hp (Nat.not_lt_zero p)⟩
    (by
      intro m s hm ⟨hn, ht, hf, hl, hce, hrs, hdone⟩
      unfold markDone
      refine ⟨hn, ht, hf, by simpa using hl, rfl, hrs, ?_⟩
      intro i
      simp only []
      rw [hf, getD_set]
      have hlt : s1.fromOrder.getD m 0 < s.doneRows.length := by
        rw [hl]; exact (hpi1.of_pos m hm).1
      constructor
      · intro h
        split_ifs at h with hc
        · exact ⟨m, by omega, hc.1⟩
        · obtain ⟨p, hp, hpe⟩ := (hdone i).mp h
          exact ⟨p, by omega, hpe⟩
      · rintro ⟨p, hp, hpe⟩
        by_cases hpm : p = m
        · subst hpm
          rw [if_pos ⟨hpe, hlt⟩]
        · split_ifs
          · rfl
          · exact (hdone i).mpr ⟨p, by omega, hpe⟩)
  generalize (List.range s1.nextActiveRowIndex).foldl markDone s1 = s2 at h2 ⊢
  obtain ⟨hn, ht, hf, hl, hce, hrs, hdone⟩ := h2
  refine ⟨hl, by simp only []; rw [hce, hn], ?_, by simp only []; rw [hrs]; simp⟩
  simp only []
  rw [hn, ht, hf]
  refine partialInverse_congr hpi1 ?_
  intro i hi
  rw [hdone i]
  constructor
  · intro hs
    obtain ⟨h1, h2⟩ := hpi1.of_row i hi hs
    exact ⟨_, h1, h2⟩
  · rintro ⟨p, hp, hpe⟩
    have := (hpi1.of_pos p hp).2.1
    rwa [hpe] at this

theorem levelStep_inv (CSRColIndices CSRRowPointers CSCRowIndices CSCColPointers : List Nat)
    (Nb : Nat) (hcsc : ∀ r ∈ CSCRowIndices, r < Nb) (hNb : 0 < Nb) (s : LevelState)
    (h : LevelInv Nb s) :
    LevelInv Nb (levelStep CSRColIndices CSRRowPointers CSCRowIndices CSCColPointers s) := by
  unfold levelStep
  simp only []
  -- collecting the candidates changes `rowsToStart` and `activeRowIndex` only
  have h1 := foldl_inv
    (fun (x : LevelState) => x.doneRows = s.doneRows ∧
      x.nextActiveRowIndex = s.nextActiveRowIndex ∧ x.toOrder = s.toOrder ∧
      x.fromOrder = s.fromOrder ∧ ∀ r ∈ x.rowsToStart, r < Nb)
    (collectRow CSRColIndices CSRRowPointers CSCRowIndices CSCColPointers)
    (loopRange s.activeRowIndex s.colorEnd) s ⟨rfl, rfl, rfl, rfl, h.2.2.2⟩
    (by
      intro x a _ ⟨hd, hn, ht, hf, hr⟩
      unfold collectRow
      refine ⟨hd, hn, ht, hf, ?_⟩
      simp only []
      apply foldl_inv (fun (acc : List Nat) => ∀ r ∈ acc, r < Nb)
      · exact hr
      · intro acc i _ hacc
        split_ifs
        · intro r hr'
          rcases List.mem_append.mp hr' with hr' | hr'
          · exact hacc r hr'
          · rw [List.mem_singleton.mp hr']
            exact getD_lt_of_forall_mem _ _ hcsc hNb i
        · exact hacc)
  generalize (loopRange s.activeRowIndex s.colorEnd).foldl
    (collectRow CSRColIndices CSRRowPointers CSCRowIndices CSCColPointers) s = s1 at h1 ⊢
  obtain ⟨hd1, hn1, ht1, hf1, hr1⟩ := h1
  -- activating the candidates
  have h2 := foldl_inv
    (fun (x : LevelState) => x.rowsToStart = s1.rowsToStart ∧ x.doneRows.length = Nb ∧
      PartialInverse Nb x.nextActiveRowIndex (fun i => x.doneRows.getD i false = true)
        x.toOrder x.fromOrder)
    activateRow (List.range s1.rowsToStart.length) s1
    ⟨rfl, by rw [hd1]; exact h.1, by rw [hd1, hn1, ht1, hf1]; exact h.2.2.1⟩
    (by
      intro x i hi ⟨hrs, hl, hpi⟩
      unfold activateRow
      simp only []
      have hrow : x.rowsToStart.getD i 0 < Nb := by
        rw [hrs]; exact getD_lt_of_forall_mem _ _ hr1 hNb i
      split_ifs with hnd
      · refine ⟨hrs, by simpa using hl, ?_⟩
        simp only []
        have hS : ¬ (x.doneRows.getD (x.rowsToStart.getD i 0) false = true) := by
          rw [hnd]; simp
        refine partialInverse_congr (partialInverse_step hpi hrow hS) ?_
        intro r _
        rw [getD_set]
        constructor
        · rintro (h1 | rfl)
          · split_ifs
            · rfl
            · exact h1
          · rw [if_pos ⟨rfl, by rw [hl]; exact hrow⟩]
        · intro h1
          split_ifs at h1 with hc
          · exact Or.inr hc.1.symm
          · exact Or.inl h1
      · exact ⟨hrs, hl, hpi⟩)
  generalize (List.range s1.rowsToStart.length).foldl activateRow s1 = s2 at h2 ⊢
  obtain ⟨hrs2, hl2, hpi2⟩ := h2
  exact ⟨hl2, rfl, hpi2, by simp only []; rw [hrs2]; exact hr1⟩

theorem levelLoop_inv (CSRColIndices CSRRowPointers CSCRowIndices CSCColPointers : List Nat)
    (Nb : Nat) (hcsc : ∀ r ∈ CSCRowIndices, r < Nb) :
    ∀ (fuel : Nat) (s s' : LevelState), LevelInv Nb s →
      levelLoop CSRColIndices CSRRowPointers CSCRowIndices CSCColPointers Nb fuel s = some s' →
      LevelInv Nb s' ∧ Nb ≤ s'.colorEnd := by
  intro fuel
  induction fuel with
  | zero =>
    intro s s' h hres
    unfold levelLoop at hres
    split_ifs at hres with hc
    simp only [Option.some.injEq] at hres
    subst hres
    exact ⟨h, by omega⟩
  | succ fuel ih =>
    intro s s' h hres
    unfold levelLoop at hres
    split_ifs at hres with hc
    · exact ih _ s' (levelStep_inv CSRColIndices CSRRowPointers CSCRowIndices CSCColPointers
        Nb hcsc (by omega) s h) hres
    · simp only [Option.some.injEq] at hres
      subst hres
      exact ⟨h, by omega⟩

/-- Whenever `findLevelScheduling` returns, the two index arrays are mutually inverse. -/
theorem findLevelScheduling_mutualInverses (fuel : Nat)
    (CSRColIndices CSRRowPointers CSCRowIndices CSCColPointers : List Nat) (Nb : Nat)
    (toOrder fromOrder : List Nat) (hto : toOrder.length = Nb) (hfrom : fromOrder.length = Nb)
    (hcsc : ∀ r ∈ CSCRowIndices, r < Nb) (res : LevelSchedule)
    (hres : findLevelScheduling fuel CSRColIndices CSRRowPointers CSCRowIndices CSCColPointers
      Nb toOrder fromOrder = some res) :
    MutualInverses Nb res.toOrder res.fromOrder := by
  unfold findLevelScheduling at hres
  split at hres
  · simp at hres
  · rename_i s hs
    simp only [Option.some.injEq] at hres
    subst hres
    obtain ⟨hinv, hle⟩ := levelLoop_inv CSRColIndices CSRRowPointers CSCRowIndices
      CSCColPointers Nb hcsc fuel _ s
      (levelInit_inv CSCRowIndices CSCColPointers Nb toOrder fromOrder hto hfrom) hs
    exact partialInverse_mutual_of_le hinv.2.2.1 (by rw [← hinv.2.1]; exact hle)

/-! ## C1: the index arrays are mutual inverses -/

/-- C1: whenever `findGraphColoring` (`colorBlockedNodes` followed by `colorsToReordering`)
or `findLevelScheduling` returns for a matrix with `Nb` block rows, the arrays `toOrder` and
`fromOrder` it has filled are exact mutual inverses, `toOrder[fromOrder[p]] = p` and
`fromOrder[toOrder[i]] = i` for all `p, i < Nb`, and each of them is a rearrangement of
`0, .., Nb-1`.  The output arrays have `Nb` cells; for the level scheduling the row indices
of the transposed pattern are below `Nb`. -/
theorem C1_index_arrays_mutually_inverse :
    (∀ (block_size MAX_COLORS : Nat) (draw : Nat → List Nat) (colIndices rowPointers : List Nat)
      (Nb : Nat) (maxRowsPerColor maxColsPerColor : Int) (toOrder fromOrder : List Nat)
      (numColors : Nat) (r : Reordering),
      toOrder.length = Nb → fromOrder.length = Nb →
      findGraphColoring block_size MAX_COLORS draw colIndices rowPointers Nb maxRowsPerColor
        maxColsPerColor toOrder fromOrder = some (numColors, r) →
      MutualInverses Nb r.toOrder r.fromOrder ∧
        r.toOrder.Perm (List.range Nb) ∧ r.fromOrder.Perm (List.range Nb)) ∧
    (∀ (fuel : Nat) (CSRColIndices CSRRowPointers CSCRowIndices CSCColPointers : List Nat)
      (Nb : Nat) (toOrder fromOrder : List Nat) (res : LevelSchedule),
      toOrder.length = Nb → fromOrder.length = Nb → (∀ r ∈ CSCRowIndices, r < Nb) →
      findLevelScheduling fuel CSRColIndices CSRRowPointers CSCRowIndices CSCColPointers Nb
        toOrder fromOrder = some res →
      MutualInverses Nb res.toOrder res.fromOrder ∧
        res.toOrder.Perm (List.range Nb) ∧ res.fromOrder.Perm (List.range Nb)) := by
  constructor
  · intro block_size MAX_COLORS draw colIndices rowPointers Nb maxRowsPerColor maxColsPerColor
      toOrder fromOrder numColors r hto hfrom hres
    unfold findGraphColoring at hres
    split at hres
    · simp at hres
    · rename_i cr hcr
      simp only [Option.some.injEq, Prod.mk.injEq] at hres
      obtain ⟨rfl, rfl⟩ := hres
      obtain ⟨_, _, _, hrange⟩ := colorBlockedNodes_colors_range block_size MAX_COLORS draw Nb
        rowPointers colIndices (List.replicate Nb 0) maxRowsPerColor maxColsPerColor
        (by simp) cr.1 cr.2 hcr
      have hm := colorsToReordering_mutualInverses Nb cr.2 cr.1 toOrder fromOrder
        (List.replicate MAX_COLORS 0) hto hfrom hrange
      exact ⟨hm, mutualInverses_perm_range hm, mutualInverses_perm_range (mutualInverses_symm hm)⟩
  · intro fuel CSRColIndices CSRRowPointers CSCRowIndices CSCColPointers Nb toOrder fromOrder
      res hto hfrom hcsc hres
    have hm := findLevelScheduling_mutualInverses fuel CSRColIndices CSRRowPointers
      CSCRowIndices CSCColPointers Nb toOrder fromOrder hto hfrom hcsc res hres
    exact ⟨hm, mutualInverses_perm_range hm, mutualInverses_perm_range (mutualInverses_symm hm)⟩

/-- Instance of C1: the 6-row path graph coloured with the priorities `5,1,0,1,5,0`, and the
level schedule of the 4-row tridiagonal pattern. -/
theorem C1_index_arrays_mutually_inverse_witness :
    (MutualInverses 6 [0, 2, 5, 3, 1, 4] [0, 4, 1, 3, 5, 2] ∧
      [0, 2, 5, 3, 1, 4].Perm (List.range 6) ∧ [0, 4, 1, 3, 5, 2].Perm (List.range 6)) ∧
    (MutualInverses 4 [0, 1, 2, 3] [0, 1, 2, 3] ∧
      [0, 1, 2, 3].Perm (List.range 4) ∧ [0, 1, 2, 3].Perm (List.range 4)) :=
  ⟨C1_index_arrays_mutually_inverse.1 1 4 (fun _ => [5, 1, 0, 1, 5, 0])
      [0, 1, 0, 1, 2, 1, 2, 3, 2, 3, 4, 3, 4, 5, 4, 5] [0, 2, 5, 8, 11, 14, 16] 6 100 100
      [0, 0, 0, 0, 0, 0] [0, 0, 0, 0, 0, 0] 3
      (Reordering.mk [0, 2, 5, 3, 1, 4] [0, 4, 1, 3, 5, 2] [2, 3, 1, 0] 6)
      (by decide) (by decide) (by decide),
   C1_index_arrays_mutually_inverse.2 10 [0, 1, 0, 1, 2, 1, 2, 3, 2, 3] [0, 2, 5, 8, 10]
      [0, 1, 0, 1, 2, 1, 2, 3, 2, 3] [0, 2, 5, 8, 10] 4 [0, 0, 0, 0] [0, 0, 0, 0]
      (LevelSchedule.mk 4 [1, 1, 1, 1] [0, 1, 2, 3] [0, 1, 2, 3])
      (by decide) (by decide) (by decide) (by decide)⟩

/-! ## C2: the colouring separates neighbours -/

theorem mem_loopRange (lo hi k : Nat) : k ∈ loopRange lo hi ↔ lo ≤ k ∧ k < hi := by
  unfold loopRange
  rw [List.mem_range'_1]
  omega

/-- A row that passes the neighbour loop has no stored column, other than itself, of the
current colour. -/
theorem neighbourCheck_no_conflict (rowPointers colIndices : List Nat) (colors : List Int)
    (randoms : List Nat) (c i ir : Nat)
    (h : neighbourCheck colIndices colors randoms c i ir
      (loopRange (rowPointers.getD i 0) (rowPointers.getD (i + 1) 0)) true = true)
    (j : Nat) (hst : Stored rowPointers colIndices i j) (hji : j ≠ i) :
    colors.getD j (-1) ≠ (c : Int) := by
  obtain ⟨k, hk2, hk1, rfl⟩ := hst
  have := ((neighbourCheck_eq_true_iff colIndices colors randoms c i ir _ true).mp h).2 k
    ((mem_loopRange _ _ _).mpr ⟨hk1, hk2⟩)
  rcases this with h1 | h1 | h1
  · exact absurd h1.symm hji
  · exact h1.2
  · rw [h1.1]; omega

theorem colorSweep_proper (block_size rows : Nat)
    (rowPointers colIndices randoms : List Nat) (maxRowsPerColor maxColsPerColor : Int)
    (c : Nat) (colors : List Int) (visited : List Bool)
    (h : ColorsBelow rows c colors ∧ ProperOnCheckedEdges rowPointers colIndices colors) :
    ColorsBelow rows (c + 1)
      (colorSweep block_size rows rowPointers colIndices randoms maxRowsPerColor
        maxColsPerColor c colors visited).1 ∧
    ProperOnCheckedEdges rowPointers colIndices
      (colorSweep block_size rows rowPointers colIndices randoms maxRowsPerColor
        maxColsPerColor c colors visited).1 := by
  refine ⟨colorSweep_colorsBelow block_size rows rowPointers colIndices randoms
    maxRowsPerColor maxColsPerColor c colors visited h.1, ?_⟩
  unfold colorSweep
  simp only []
  obtain ⟨_, hres⟩ := colorRows_induct block_size rowPointers colIndices randoms
    maxRowsPerColor maxColsPerColor c
    (fun rest s => ProperOnCheckedEdges rowPointers colIndices s.colors ∧
      rest.Pairwise (· < ·) ∧ ∀ j, s.colors.getD j (-1) = (c : Int) → ∀ r ∈ rest, j < r)
    (fun i is s hs => ⟨hs.1, (List.pairwise_cons.mp hs.2.1).2,
      fun j hj r hr => hs.2.2 j hj r (List.mem_cons_of_mem _ hr)⟩)
    (fun i is s hs _ => ⟨hs.1, (List.pairwise_cons.mp hs.2.1).2,
      fun j hj r hr => hs.2.2 j hj r (List.mem_cons_of_mem _ hr)⟩)
    (fun i is s hs hi hmax _ => by
      obtain ⟨hprop, hpw, hpos⟩ := hs
      have hpw' := List.pairwise_cons.mp hpw
      refine ⟨?_, hpw'.2, ?_⟩
      · intro a b hab hba hsym ha
        simp only [] at ha ⊢
        rw [getD_set] at ha ⊢
        rw [getD_set]
        by_cases hai : i = a
        · subst hai
          have hbi : ¬ (i = b ∧ i < s.colors.length) := fun hx => hba hx.1.symm
          rw [if_neg hbi]
          split_ifs with hx
          · exact (neighbourCheck_no_conflict rowPointers colIndices s.colors randoms c i _
              hmax b hab hba).symm
          · rw [if_neg hx] at ha
            exact absurd hi ha
        · have hai' : ¬ (i = a ∧ i < s.colors.length) := fun hx => hai hx.1
          rw [if_neg hai'] at ha ⊢
          split_ifs with hx
          · obtain ⟨rfl, _⟩ := hx
            intro hac
            have halt : a < i := hpos a hac i (List.mem_cons_self _ _)
            rcases hsym with hlt | hst
            · omega
            · exact neighbourCheck_no_conflict rowPointers colIndices s.colors randoms c i _
                hmax a hst (Ne.symm hai) hac
          · exact hprop a b hab hba hsym ha
      · intro j hj r hr
        simp only [] at hj
        rw [getD_set] at hj
        split_ifs at hj with hx
        · rw [← hx.1]; exact hpw'.1 r hr
        · exact hpos j hj r (List.mem_cons_of_mem _ hr))
    (List.range rows) (SweepState.mk colors visited 0 0)
    ⟨h.2, List.pairwise_lt_range rows, by
      intro j hj
      exfalso
      rcases h.1.2 j with h1 | h1
      · simp only [] at hj; omega
      · simp only [] at hj; omega⟩
  exact hres.1

/-- When `colorBlockedNodes` returns, the colouring separates every row from each of its
stored columns that is an earlier row or stores the row in turn. -/
theorem colorBlockedNodes_proper (block_size MAX_COLORS : Nat) (draw : Nat → List Nat)
    (rows : Nat) (rowPointers colIndices : List Nat) (colors : List Int)
    (maxRowsPerColor maxColsPerColor : Int) (hlen : colors.length = rows)
    (k : Nat) (colors' : List Int)
    (hres : colorBlockedNodes block_size MAX_COLORS draw rows rowPointers colIndices colors
      maxRowsPerColor maxColsPerColor = some (k, colors')) :
    ProperOnCheckedEdges rowPointers colIndices colors' := by
  unfold colorBlockedNodes at hres
  have hrep : ∀ n : Nat, ColorsBelow n 0 (List.replicate n (-1)) ∧
      ProperOnCheckedEdges rowPointers colIndices (List.replicate n (-1)) := by
    intro n
    refine ⟨⟨by simp, fun j => Or.inl (getD_replicate_same _ _ _)⟩, ?_⟩
    intro i j _ _ _ hi
    exact absurd (getD_replicate_same _ _ _) hi
  obtain ⟨⟨_, hI⟩, _⟩ := colorAttempts_inv block_size MAX_COLORS draw rows
    rowPointers colIndices maxRowsPerColor maxColsPerColor
    (fun c col _ => ColorsBelow rows c col ∧ ProperOnCheckedEdges rowPointers colIndices col)
    (fun randoms c col vis hc => colorSweep_proper block_size rows rowPointers colIndices
      randoms maxRowsPerColor maxColsPerColor c col vis hc)
    (fun c col vis hc => by rw [hc.1.1]; exact hrep rows)
    max_tries 0 colors (List.replicate rows false)
    (by rw [hlen]; exact hrep rows)
    k colors' hres
  exact hI.2

/-- The part of a proper colouring that `colorBlockedNodes` reaches on every pattern: for
every pair of budgets and every draw of the priorities for which it returns,
`colors[i] ≠ colors[j]` for every row `i` and every stored column `j ≠ i` of row `i` that
is an earlier row (`j < i`) or whose own row stores column `i`. -/
theorem colorBlockedNodes_separates_checked_neighbours (block_size MAX_COLORS : Nat)
    (draw : Nat → List Nat) (rows : Nat) (rowPointers colIndices : List Nat)
    (colors : List Int) (maxRowsPerColor maxColsPerColor : Int) (k : Nat)
    (colors' : List Int) (hlen : colors.length = rows)
    (hres : colorBlockedNodes block_size MAX_COLORS draw rows rowPointers colIndices colors
      maxRowsPerColor maxColsPerColor = some (k, colors'))
    (i j : Nat) (hi : i < rows) (hst : Stored rowPointers colIndices i j) (hji : j ≠ i)
    (hsym : j < i ∨ Stored rowPointers colIndices j i) :
    colors'.getD i (-1) ≠ colors'.getD j (-1) := by
  have hproper := colorBlockedNodes_proper block_size MAX_COLORS draw rows rowPointers
    colIndices colors maxRowsPerColor maxColsPerColor hlen k colors' hres
  have hrange := (colorBlockedNodes_colors_range block_size MAX_COLORS draw rows rowPointers
    colIndices colors maxRowsPerColor maxColsPerColor hlen k colors' hres).2.2.2 i hi
  exact hproper i j hst hji hsym (by omega)

/-- The rows 1 and 2 of the 6-row path graph, priorities `5,1,0,1,5,0`, get different
colours. -/
theorem colorBlockedNodes_separates_checked_neighbours_example :
    ([0, 1, 2, 1, 0, 1] : List Int).getD 1 (-1) ≠ ([0, 1, 2, 1, 0, 1] : List Int).getD 2 (-1) :=
  colorBlockedNodes_separates_checked_neighbours 1 4 (fun _ => [5, 1, 0, 1, 5, 0]) 6
    [0, 2, 5, 8, 11, 14, 16] [0, 1, 0, 1, 2, 1, 2, 3, 2, 3, 4, 3, 4, 5, 4, 5]
    [0, 0, 0, 0, 0, 0] 100 100 3 [0, 1, 2, 1, 0, 1] (by decide) (by decide) 1 2 (by decide)
    (by decide) (by decide)
    (by decide)

/-- C2, evaluation at the failing input: on the 2-row pattern with row 0 storing the
columns 0, 1 and row 1 storing column 1 only, with priorities `1, 0` and budgets 100,
`colorBlockedNodes<1>` returns one colour and gives rows 0 and 1 the same colour 0,
although column `1 ≠ 0` is stored in row 0.  The colouring is not proper: row 1 never
examines row 0, which it does not store. -/
theorem C2_proper_coloring_failing_input :
    colorBlockedNodes 1 256 (fun _ => [1, 0]) 2 [0, 2, 3] [0, 1, 1] [0, 0] 100 100
        = some (1, [0, 0]) ∧
      Stored [0, 2, 3] [0, 1, 1] 0 1 ∧ (1 : Nat) ≠ 0 ∧
      ([0, 0] : List Int).getD 0 (-1) = ([0, 0] : List Int).getD 1 (-1) :=
  ⟨by decide, by decide, by decide, by decide⟩

/-! ## C3: the level schedule and the dependencies of a row -/

/-- C3, evaluation at the failing input: for the 2-row lower triangular pattern (row 0
stores column 0, row 1 stores columns 0 and 1; the CSC arrays are its transpose)
`findLevelScheduling` returns, without entering the `while` loop, one level holding both
rows.  Row 1 stores column `0 < 1`, yet rows 0 and 1 are in the same level 0. -/
theorem C3_level_schedule_failing_input :
    (∀ fuel, findLevelScheduling fuel [0, 0, 1] [0, 1, 3] [0, 1, 1] [0, 2, 3] 2 [0, 0] [0, 0]
      = some (LevelSchedule.mk 1 [2] [0, 1] [0, 1])) ∧
    Stored [0, 1, 3] [0, 0, 1] 1 0 ∧
    levelOf [2] (([0, 1] : List Nat).getD 0 0) = 0 ∧
    levelOf [2] (([0, 1] : List Nat).getD 1 0) = 0 := by
  refine ⟨?_, by decide, by decide, by decide⟩
  intro fuel
  cases fuel <;> rfl

/-! ## The reordered matrix, row by row -/

/-- Writing the cells `a, .., a+n-1` one after the other. -/
theorem foldl_set_range {α : Type} (g : Nat → α) (a : Nat) (dst : List α) (n : Nat)
    (h : a + n ≤ dst.length) :
    (List.range n).foldl (fun d j => d.set (a + j) (g j)) dst
      = dst.take a ++ (List.range n).map g ++ dst.drop (a + n) := by
  induction n with
  | zero => simp
  | succ n ih =>
    rw [List.range_succ, List.foldl_append, ih (by omega)]
    simp only [List.foldl_cons, List.foldl_nil, List.map_append, List.map_cons, List.map_nil]
    have hlen : (dst.take a ++ (List.range n).map g).length = a + n := by
      simp [List.length_take]; omega
    rw [List.set_append_right _ _ (by rw [hlen])]
    rw [hlen, Nat.sub_self]
    have hd : dst.drop (a + n) = dst[a + n] :: dst.drop (a + (n + 1)) := by
      rw [show a + (n + 1) = a + n + 1 by omega]
      exact List.drop_eq_getElem_cons (by omega)
    rw [hd]
    simp

/-- Reading the cells `b, .., b+n-1` one after the other. -/
theorem map_getD_range {α : Type} (src : List α) (d : α) (b n : Nat)
    (h : b + n ≤ src.length) :
    (List.range n).map (fun j => src.getD (b + j) d) = (src.drop b).take n := by
  apply List.ext_getElem
  · simp [List.length_take]; omega
  · intro i h1 h2
    simp only [List.length_map, List.length_range] at h1
    rw [List.getElem_map, List.getElem_range, List.getElem_take, List.getElem_drop]
    rw [List.getD_eq_getElem?_getD, List.getElem?_eq_getElem (by omega)]
    rfl

theorem mul_block (k bs : Nat) : k * bs * bs = k * (bs * bs) := Nat.mul_assoc k bs bs

/-- Copying one block into a buffer: the block lands between the cells before and after. -/
theorem copyBlock_append {V : Type} [Inhabited V] (bs : Nat) (src : List V) (k r : Nat)
    (P Q : List V) (hP : P.length = r * (bs * bs)) (hQ : bs * bs ≤ Q.length)
    (hsrc : (k + 1) * (bs * bs) ≤ src.length) :
    copyBlock bs src k r (P ++ Q) = P ++ blockAt bs src k ++ Q.drop (bs * bs) := by
  unfold copyBlock blockAt
  rw [mul_block, mul_block]
  rw [foldl_set_range (fun j => src.getD (k * (bs * bs) + j) default) _ _ _
    (by rw [List.length_append, hP]; omega)]
  rw [map_getD_range src default _ _ (by rw [Nat.add_mul] at hsrc; omega)]
  rw [List.take_left' hP]
  rw [← hP, List.drop_append]

/-- The loop renumbering the first `n` cells. -/
theorem foldl_renumber (toOrder : List Nat) (c0 : List Nat) (n : Nat) (h : n ≤ c0.length) :
    (List.range n).foldl (renumberColumn toOrder) c0
      = (c0.take n).map (fun c => toOrder.getD c 0) ++ c0.drop n := by
  induction n with
  | zero => simp
  | succ n ih =>
    rw [List.range_succ, List.foldl_append, ih (by omega)]
    simp only [List.foldl_cons, List.foldl_nil]
    unfold renumberColumn
    have hlen : ((c0.take n).map (fun c => toOrder.getD c 0)).length = n := by
      simp [List.length_take]; omega
    have hget : (List.map (fun c => toOrder.getD c 0) (List.take n c0) ++ List.drop n c0).getD n 0
        = c0[n] := by
      rw [List.getD_eq_getElem?_getD, List.getElem?_append_right (by rw [hlen])]
      rw [hlen, Nat.sub_self, List.getElem?_drop]
      simp [List.getElem?_eq_getElem (show n < c0.length by omega)]
    rw [hget, List.set_append_right _ _ (by rw [hlen]), hlen, Nat.sub_self]
    rw [List.drop_eq_getElem_cons (show n < c0.length by omega)]
    simp only [List.set_cons_zero]
    have htake : c0.take (n + 1) = c0.take n ++ [c0[n]] := by
      rw [List.take_succ, List.getElem?_eq_getElem (show n < c0.length by omega)]
      rfl
    rw [htake, List.map_append, List.append_assoc]
    rfl

theorem flatVals_cons {V : Type} (e : Nat × List V) (E : List (Nat × List V)) :
    flatVals (e :: E) = e.2 ++ flatVals E := by
  simp [flatVals]

theorem flatVals_append {V : Type} (E F : List (Nat × List V)) :
    flatVals (E ++ F) = flatVals E ++ flatVals F := by
  simp [flatVals]

theorem flatCols_append {V : Type} (E F : List (Nat × List V)) :
    flatCols (E ++ F) = flatCols E ++ flatCols F := by
  simp [flatCols]

theorem flatVals_length {V : Type} (m : Nat) (E : List (Nat × List V))
    (h : ∀ e ∈ E, e.2.length = m) : (flatVals E).length = E.length * m := by
  induction E with
  | nil => simp [flatVals]
  | cons e E ih =>
    rw [flatVals_cons, List.length_append, h e (List.mem_cons_self _ _),
      ih (fun x hx => h x (List.mem_cons_of_mem _ hx)), List.length_cons]
    ring

/-- In arrays holding the entries `E`, the entry at position `k` is `E[k]`. -/
theorem entry_of_represents {V : Type} (bs : Nat) (ci : List Nat) (data : List V)
    (E : List (Nat × List V)) (Cr : List Nat) (Vr : List V)
    (h : Represents bs ci data E Cr Vr) (k : Nat) (hk : k < E.length) :
    (ci.getD k 0, blockAt bs data k) = E[k] := by
  obtain ⟨hci, hdata, hlen⟩ := h
  have hsplit : E = E.take k ++ E[k] :: E.drop (k + 1) := by
    rw [← List.drop_eq_getElem_cons hk, List.take_append_drop]
  have hlenk : (flatVals (E.take k)).length = k * (bs * bs) := by
    rw [flatVals_length (bs * bs) _ (fun e he => hlen e (List.mem_of_mem_take he))]
    rw [List.length_take]
    congr 1
    omega
  have h1 : ci.getD k 0 = E[k].1 := by
    rw [hci, List.getD_eq_getElem?_getD, flatCols,
      List.getElem?_append_left (by simpa using hk)]
    simp [List.getElem?_eq_getElem hk]
  have h2 : blockAt bs data k = E[k].2 := by
    unfold blockAt
    rw [mul_block, hdata]
    conv_lhs => rw [hsplit]
    rw [flatVals_append, flatVals_cons, List.append_assoc, List.append_assoc]
    rw [List.drop_left' hlenk]
    exact List.take_left' (hlen _ (List.getElem_mem _))
  rw [h1, h2]

/-- In arrays holding the entries `E`, the positions `l, .., l+n-1` hold that part of `E`. -/
theorem rowEntries_of_represents {V : Type} (bs : Nat) (ci : List Nat) (data : List V)
    (E : List (Nat × List V)) (Cr : List Nat) (Vr : List V)
    (h : Represents bs ci data E Cr Vr) (l n : Nat) (hln : l + n ≤ E.length) :
    rowEntries bs ci data l n = (E.drop l).take n := by
  unfold rowEntries
  apply List.ext_getElem
  · simp [List.length_take]; omega
  · intro i h1 h2
    simp only [List.length_map, List.length_range'] at h1
    rw [List.getElem_map, List.getElem_range', List.getElem_take, List.getElem_drop]
    simp only [Nat.one_mul]
    exact entry_of_represents bs ci data E Cr Vr h (l + i) (by omega)

theorem flatVals_take {V : Type} (m : Nat) (E : List (Nat × List V))
    (h : ∀ e ∈ E, e.2.length = m) (l : Nat) (hl : l ≤ E.length) :
    (flatVals E).take (l * m) = flatVals (E.take l) := by
  have hsplit : flatVals E = flatVals (E.take l) ++ flatVals (E.drop l) := by
    rw [← flatVals_append, List.take_append_drop]
  have hlen : (flatVals (E.take l)).length = l * m := by
    rw [flatVals_length m _ (fun e he => h e (List.mem_of_mem_take he)), List.length_take]
    congr 1
    omega
  rw [hsplit, List.take_left' hlen]

theorem flatVals_drop {V : Type} (m : Nat) (E : List (Nat × List V))
    (h : ∀ e ∈ E, e.2.length = m) (l : Nat) (hl : l ≤ E.length) :
    (flatVals E).drop (l * m) = flatVals (E.drop l) := by
  have hsplit : flatVals E = flatVals (E.take l) ++ flatVals (E.drop l) := by
    rw [← flatVals_append, List.take_append_drop]
  have hlen : (flatVals (E.take l)).length = l * m := by
    rw [flatVals_length m _ (fun e he => h e (List.mem_of_mem_take he)), List.length_take]
    congr 1
    omega
  rw [hsplit, List.drop_left' hlen]

theorem sortEntries_perm {V : Type} (E : List (Nat × List V)) : (sortEntries E).Perm E :=
  List.perm_insertionSort _ E

theorem sortEntries_length {V : Type} (E : List (Nat × List V)) :
    (sortEntries E).length = E.length :=
  (sortEntries_perm E).length_eq

theorem sortEntries_sorted {V : Type} (E : List (Nat × List V)) :
    (sortEntries E).Sorted (fun a b => a.1 ≤ b.1) := by
  haveI : IsTotal (Nat × List V) (fun a b => a.1 ≤ b.1) := ⟨fun a b => Nat.le_total a.1 b.1⟩
  haveI : IsTrans (Nat × List V) (fun a b => a.1 ≤ b.1) :=
    ⟨fun a b c hab hbc => Nat.le_trans hab hbc⟩
  exact List.sorted_insertionSort _ E

/-- Effect of `sortBlockedRow` on arrays holding the entries `E`: the part of `E` at the
positions `l, .., l+n-1` is sorted, everything else stays. -/
theorem sortBlockedRow_represents {V : Type} (bs : Nat) (ci : List Nat) (data : List V)
    (E : List (Nat × List V)) (Cr : List Nat) (Vr : List V)
    (h : Represents bs ci data E Cr Vr) (l hi : Nat) (hle : l ≤ hi) (hhi : hi ≤ E.length) :
    Represents bs (sortBlockedRow bs ci data (l : Int) ((hi : Int) - 1)).1
      (sortBlockedRow bs ci data (l : Int) ((hi : Int) - 1)).2
      (E.take l ++ sortEntries ((E.drop l).take (hi - l)) ++ E.drop hi) Cr Vr := by
  have hl : (l : Int).toNat = l := Int.toNat_natCast l
  have hn : ((hi : Int) - 1 + 1 - (l : Int)).toNat = hi - l := by omega
  unfold sortBlockedRow
  simp only [hl, hn]
  rw [rowEntries_of_represents bs ci data E Cr Vr h l (hi - l) (by omega)]
  rw [show l + (hi - l) = hi by omega]
  obtain ⟨hci, hdata, hlen⟩ := h
  refine ⟨?_, ?_, ?_⟩
  · rw [flatCols_append, flatCols_append, hci]
    have h1 : (flatCols E ++ Cr).take l = flatCols (E.take l) := by
      unfold flatCols
      rw [List.take_append_of_le_length (by simp; omega), List.map_take]
    have h2 : (flatCols E ++ Cr).drop hi = flatCols (E.drop hi) ++ Cr := by
      unfold flatCols
      rw [List.drop_append_of_le_length (by simpa using hhi), List.map_drop]
    rw [h1, h2]
    simp [flatCols, sortEntries, List.append_assoc]
  · rw [flatVals_append, flatVals_append, hdata, mul_block, mul_block]
    have hfl := flatVals_length (bs * bs) E hlen
    have h1 : (flatVals E ++ Vr).take (l * (bs * bs)) = flatVals (E.take l) := by
      rw [List.take_append_of_le_length (by rw [hfl]; exact Nat.mul_le_mul_right _ (by omega))]
      exact flatVals_take (bs * bs) E hlen l (by omega)
    have h2 : (flatVals E ++ Vr).drop (hi * (bs * bs)) = flatVals (E.drop hi) ++ Vr := by
      rw [List.drop_append_of_le_length (by rw [hfl]; exact Nat.mul_le_mul_right _ hhi)]
      rw [flatVals_drop (bs * bs) E hlen hi hhi]
    rw [h1, h2]
    simp [flatVals, sortEntries, List.append_assoc]
  · intro e he
    rcases List.mem_append.mp he with he | he
    · rcases List.mem_append.mp he with he | he
      · exact hlen e (List.mem_of_mem_take he)
      · have := (sortEntries_perm _).subset he
        exact hlen e (List.mem_of_mem_drop (List.mem_of_mem_take this))
    · exact hlen e (List.mem_of_mem_drop he)

theorem copyBlock_length {V : Type} [Inhabited V] (bs : Nat) (src : List V) (k r : Nat)
    (dst : List V) : (copyBlock bs src k r dst).length = dst.length := by
  unfold copyBlock
  apply foldl_inv (fun (d : List V) => d.length = dst.length)
  · rfl
  · intro d j _ hd
    simpa using hd

theorem blockAt_length {V : Type} (bs : Nat) (data : List V) (k : Nat)
    (h : (k + 1) * (bs * bs) ≤ data.length) : (blockAt bs data k).length = bs * bs := by
  unfold blockAt
  rw [mul_block, List.length_take, List.length_drop]
  rw [Nat.add_mul] at h
  omega

theorem rowEntries_length {V : Type} (bs : Nat) (ci : List Nat) (data : List V) (l n : Nat) :
    (rowEntries bs ci data l n).length = n := by
  simp [rowEntries]

theorem rowEntries_succ {V : Type} (bs : Nat) (ci : List Nat) (data : List V) (l n : Nat) :
    rowEntries bs ci data l (n + 1)
      = rowEntries bs ci data l n ++ [(ci.getD (l + n) 0, blockAt bs data (l + n))] := by
  unfold rowEntries
  rw [List.range'_1_concat, List.map_append]
  rfl

/-- One pass of the block-copying loop body appends the copied entry. -/
theorem copyEntry_represents {V : Type} [Inhabited V] (bs : Nat) (mat : BlockedMatrix V)
    (s : ReorderState V) (k : Nat) (E : List (Nat × List V))
    (h : ∃ Cr Vr, Represents bs s.rMat.colIndices s.rMat.nnzValues E Cr Vr)
    (hE : E.length = s.rIndex) (hci : s.rIndex < s.rMat.colIndices.length)
    (hvals : (s.rIndex + 1) * (bs * bs) ≤ s.rMat.nnzValues.length)
    (hsrc : (k + 1) * (bs * bs) ≤ mat.nnzValues.length) :
    (∃ Cr Vr, Represents bs (copyEntry bs mat s k).rMat.colIndices
      (copyEntry bs mat s k).rMat.nnzValues
      (E ++ [(mat.colIndices.getD k 0, blockAt bs mat.nnzValues k)]) Cr Vr) ∧
    (copyEntry bs mat s k).rIndex = s.rIndex + 1 ∧
    (copyEntry bs mat s k).rMat.colIndices.length = s.rMat.colIndices.length ∧
    (copyEntry bs mat s k).rMat.nnzValues.length = s.rMat.nnzValues.length ∧
    (copyEntry bs mat s k).rMat.rowPointers = s.rMat.rowPointers ∧
    (copyEntry bs mat s k).rMat.Nb = s.rMat.Nb ∧
    (copyEntry bs mat s k).rMat.nnzbs = s.rMat.nnzbs := by
  obtain ⟨Cr, Vr, hc, hv, hlen⟩ := h
  unfold copyEntry
  refine ⟨⟨Cr.drop 1, Vr.drop (bs * bs), ?_, ?_, ?_⟩, rfl, by simp, by
    simp [copyBlock_length], rfl, rfl, rfl⟩
  · simp only []
    rw [hc, flatCols_append]
    have hl : (flatCols E).length = s.rIndex := by simp [flatCols, hE]
    rw [List.set_append_right _ _ (by rw [hl]), hl, Nat.sub_self]
    have hCr : 0 < Cr.length := by
      rw [hc, List.length_append, hl] at hci
      omega
    obtain ⟨c0, Cr', rfl⟩ := List.exists_cons_of_length_pos hCr
    simp [flatCols]
  · simp only []
    have hfl := flatVals_length (bs * bs) E hlen
    rw [hv, flatVals_append]
    rw [copyBlock_append bs mat.nnzValues k s.rIndex (flatVals E) Vr (by rw [hfl, hE])
      (by
        rw [hv, List.length_append, hfl, hE, Nat.add_mul] at hvals
        omega) hsrc]
    simp [flatVals]
  · intro e he
    rcases List.mem_append.mp he with he | he
    · exact hlen e he
    · rw [List.mem_singleton.mp he]
      exact blockAt_length bs mat.nnzValues k hsrc

/-- Telescoping sum of the row lengths. -/
theorem sum_row_lengths (rp : List Nat) (n : Nat)
    (hmono : ∀ r, r < n → rp.getD r 0 ≤ rp.getD (r + 1) 0) :
    ((List.range n).map (fun r => rp.getD (r + 1) 0 - rp.getD r 0)).sum + rp.getD 0 0
      = rp.getD n 0 := by
  induction n with
  | zero => simp
  | succ n ih =>
    rw [List.range_succ, List.map_append, List.sum_append]
    have := ih (fun r hr => hmono r (by omega))
    have := hmono n (by omega)
    simp only [List.map_cons, List.map_nil, List.sum_cons, List.sum_nil]
    omega

theorem map_getD_range_self (f : List Nat) (n : Nat) (h : f.length = n) :
    (List.range n).map (fun i => f.getD i 0) = f := by
  have := map_getD_range f 0 0 n (by omega)
  simp only [Nat.zero_add, List.drop_zero] at this
  rw [this, ← h, List.take_length]

/-- Summed over the new order, the row lengths give the number of nonzero blocks. -/
theorem sum_row_lengths_perm {V : Type} (bs : Nat) (mat : BlockedMatrix V)
    (hwf : WellFormed bs mat) (t f : List Nat) (hinv : MutualInverses mat.Nb t f) :
    ((List.range mat.Nb).map (fun i => mat.rowPointers.getD (f.getD i 0 + 1) 0
      - mat.rowPointers.getD (f.getD i 0) 0)).sum = mat.nnzbs := by
  have hperm : f.Perm (List.range mat.Nb) := mutualInverses_perm_range (mutualInverses_symm hinv)
  have h1 : (List.range mat.Nb).map (fun i => mat.rowPointers.getD (f.getD i 0 + 1) 0
      - mat.rowPointers.getD (f.getD i 0) 0)
      = ((List.range mat.Nb).map (fun i => f.getD i 0)).map
        (fun r => mat.rowPointers.getD (r + 1) 0 - mat.rowPointers.getD r 0) := by
    rw [List.map_map]; rfl
  rw [h1, map_getD_range_self f mat.Nb hinv.2.1]
  rw [(hperm.map _).sum_eq]
  have := sum_row_lengths mat.rowPointers mat.Nb hwf.2.2.1
  rw [hwf.2.1, hwf.2.2.2.1] at this
  omega

theorem sourceRows_succ {V : Type} (bs : Nat) (mat : BlockedMatrix V) (f : List Nat) (i : Nat) :
    sourceRows bs mat f (i + 1) = sourceRows bs mat f i ++ [rowOf bs mat (f.getD i 0)] := by
  unfold sourceRows
  rw [List.range_succ, List.map_append]
  rfl

theorem sourceRows_flatten_succ {V : Type} (bs : Nat) (mat : BlockedMatrix V) (f : List Nat)
    (i : Nat) :
    (sourceRows bs mat f (i + 1)).flatten
      = (sourceRows bs mat f i).flatten ++ rowOf bs mat (f.getD i 0) := by
  rw [sourceRows_succ, List.flatten_append]
  simp

theorem rowOf_length {V : Type} (bs : Nat) (mat : BlockedMatrix V) (r : Nat) :
    (rowOf bs mat r).length = mat.rowPointers.getD (r + 1) 0 - mat.rowPointers.getD r 0 := by
  unfold rowOf
  exact rowEntries_length _ _ _ _ _

theorem sourceRows_length_mono {V : Type} (bs : Nat) (mat : BlockedMatrix V) (f : List Nat)
    (i n : Nat) (h : i ≤ n) :
    (sourceRows bs mat f i).flatten.length ≤ (sourceRows bs mat f n).flatten.length := by
  induction n, h using Nat.le_induction with
  | base => exact Nat.le_refl _
  | succ n _ ih =>
    rw [sourceRows_flatten_succ, List.length_append]
    omega

theorem sourceRows_length_total {V : Type} (bs : Nat) (mat : BlockedMatrix V)
    (hwf : WellFormed bs mat) (t f : List Nat) (hinv : MutualInverses mat.Nb t f) :
    (sourceRows bs mat f mat.Nb).flatten.length = mat.nnzbs := by
  rw [List.length_flatten]
  unfold sourceRows
  rw [List.map_map]
  rw [← sum_row_lengths_perm bs mat hwf t f hinv]
  congr 1
  apply List.map_congr_left
  intro i _
  exact rowOf_length bs mat _

theorem getD_mono (rp : List Nat) (n : Nat)
    (hmono : ∀ r, r < n → rp.getD r 0 ≤ rp.getD (r + 1) 0) (a b : Nat) (hab : a ≤ b)
    (hb : b ≤ n) : rp.getD a 0 ≤ rp.getD b 0 := by
  induction b, hab using Nat.le_induction with
  | base => exact Nat.le_refl _
  | succ m _ ih => exact Nat.le_trans (ih (by omega)) (hmono m (by omega))

theorem rowPointers_le_last {V : Type} (bs : Nat) (mat : BlockedMatrix V)
    (hwf : WellFormed bs mat) (r : Nat) (hr : r ≤ mat.Nb) :
    mat.rowPointers.getD r 0 ≤ mat.nnzbs := by
  rw [← hwf.2.2.2.1]
  exact getD_mono mat.rowPointers mat.Nb hwf.2.2.1 r mat.Nb hr (Nat.le_refl _)

/-- The loop over the blocks of row `r` appends the entries of that row. -/
theorem copyRow_represents {V : Type} [Inhabited V] (bs : Nat) (mat : BlockedMatrix V)
    (hwf : WellFormed bs mat) (f : List Nat) (i : Nat) (hr : f.getD i 0 < mat.Nb)
    (s : ReorderState V) (E : List (Nat × List V))
    (h : ∃ Cr Vr, Represents bs s.rMat.colIndices s.rMat.nnzValues E Cr Vr)
    (hE : E.length = s.rIndex)
    (hci : s.rIndex + (rowOf bs mat (f.getD i 0)).length ≤ s.rMat.colIndices.length)
    (hvals : s.rMat.nnzValues.length = s.rMat.colIndices.length * (bs * bs)) :
    (∃ Cr Vr, Represents bs (copyRow bs mat f s i).rMat.colIndices
      (copyRow bs mat f s i).rMat.nnzValues (E ++ rowOf bs mat (f.getD i 0)) Cr Vr) ∧
    (copyRow bs mat f s i).rIndex = s.rIndex + (rowOf bs mat (f.getD i 0)).length ∧
    (copyRow bs mat f s i).rMat.colIndices.length = s.rMat.colIndices.length ∧
    (copyRow bs mat f s i).rMat.nnzValues.length = s.rMat.nnzValues.length ∧
    (copyRow bs mat f s i).rMat.rowPointers
      = s.rMat.rowPointers.set (i + 1)
        (s.rMat.rowPointers.getD i 0 + (rowOf bs mat (f.getD i 0)).length) ∧
    (copyRow bs mat f s i).rMat.Nb = s.rMat.Nb ∧
    (copyRow bs mat f s i).rMat.nnzbs = s.rMat.nnzbs := by
  have hmono := hwf.2.2.1 (f.getD i 0) hr
  have hlast := rowPointers_le_last bs mat hwf (f.getD i 0 + 1) hr
  rw [rowOf_length] at hci ⊢
  unfold copyRow
  simp only []
  have key := foldl_loopRange_inv
    (fun k (x : ReorderState V) =>
      (∃ Cr Vr, Represents bs x.rMat.colIndices x.rMat.nnzValues
        (E ++ rowEntries bs mat.colIndices mat.nnzValues (mat.rowPointers.getD (f.getD i 0) 0)
          (k - mat.rowPointers.getD (f.getD i 0) 0)) Cr Vr) ∧
      x.rIndex = s.rIndex + (k - mat.rowPointers.getD (f.getD i 0) 0) ∧
      x.rMat.colIndices.length = s.rMat.colIndices.length ∧
      x.rMat.nnzValues.length = s.rMat.nnzValues.length ∧
      x.rMat.rowPointers = s.rMat.rowPointers.set (i + 1)
        (s.rMat.rowPointers.getD i 0 + mat.rowPointers.getD (f.getD i 0 + 1) 0
          - mat.rowPointers.getD (f.getD i 0) 0) ∧
      x.rMat.Nb = s.rMat.Nb ∧ x.rMat.nnzbs = s.rMat.nnzbs)
    (copyEntry bs mat)
    (ReorderState.mk
      (BlockedMatrix.mk s.rMat.nnzValues s.rMat.colIndices
        (s.rMat.rowPointers.set (i + 1)
          (s.rMat.rowPointers.getD i 0 + mat.rowPointers.getD (f.getD i 0 + 1) 0
            - mat.rowPointers.getD (f.getD i 0) 0))
        s.rMat.Nb s.rMat.nnzbs)
      s.rIndex)
    (mat.rowPointers.getD (f.getD i 0) 0) (mat.rowPointers.getD (f.getD i 0 + 1) 0) hmono
    (by
      refine ⟨?_, by simp, rfl, rfl, rfl, rfl, rfl⟩
      simpa [rowEntries] using h)
    (by
      intro k x hk1 hk2 ⟨hx, hxi, hxc, hxv, hxr, hxn, hxz⟩
      have hlenE : (E ++ rowEntries bs mat.colIndices mat.nnzValues
          (mat.rowPointers.getD (f.getD i 0) 0)
          (k - mat.rowPointers.getD (f.getD i 0) 0)).length = x.rIndex := by
        rw [List.length_append, rowEntries_length, hE, hxi]
      have hsrc : (k + 1) * (bs * bs) ≤ mat.nnzValues.length := by
        rw [hwf.2.2.2.2.2.1]
        exact Nat.mul_le_mul_right _ (by omega)
      obtain ⟨a1, a2, a3, a4, a5, a6, a7⟩ := copyEntry_represents bs mat x k _ hx hlenE
        (by rw [hxc, hxi]; omega)
        (by rw [hxv, hvals, hxi]; exact Nat.mul_le_mul_right _ (by omega)) hsrc
      refine ⟨?_, by rw [a2, hxi]; omega, by rw [a3, hxc], by rw [a4, hxv], by rw [a5, hxr],
        by rw [a6, hxn], by rw [a7, hxz]⟩
      rw [show k + 1 - mat.rowPointers.getD (f.getD i 0) 0
        = (k - mat.rowPointers.getD (f.getD i 0) 0) + 1 by omega, rowEntries_succ,
        ← List.append_assoc]
      rw [show mat.rowPointers.getD (f.getD i 0) 0 + (k - mat.rowPointers.getD (f.getD i 0) 0)
        = k by omega]
      exact a1)
  obtain ⟨k1, k2, k3, k4, k5, k6, k7⟩ := key
  refine ⟨k1, k2, k3, k4, ?_, k6, k7⟩
  rw [k5]
  congr 1
  omega

theorem getD_set_zero_succ (rp : List Nat) (i : Nat) :
    (rp.set 0 0).getD (i + 1) 0 = rp.getD (i + 1) 0 := by
  rw [getD_set]; simp

/-- The loop copying the rows: afterwards `rMat` holds the rows of `mat` in the new order,
and its row pointers are the running sums of their lengths. -/
theorem copyRows_spec {V : Type} [Inhabited V] (bs : Nat) (mat : BlockedMatrix V)
    (hwf : WellFormed bs mat) (t f : List Nat) (hinv : MutualInverses mat.Nb t f)
    (rMat : BlockedMatrix V) (halloc : Allocated bs mat.Nb mat.nnzbs rMat) :
    (∃ Cr Vr, Represents bs
      ((List.range mat.Nb).foldl (copyRow bs mat f)
        (ReorderState.mk (BlockedMatrix.mk rMat.nnzValues rMat.colIndices
          (rMat.rowPointers.set 0 0) rMat.Nb rMat.nnzbs) 0)).rMat.colIndices
      ((List.range mat.Nb).foldl (copyRow bs mat f)
        (ReorderState.mk (BlockedMatrix.mk rMat.nnzValues rMat.colIndices
          (rMat.rowPointers.set 0 0) rMat.Nb rMat.nnzbs) 0)).rMat.nnzValues
      (sourceRows bs mat f mat.Nb).flatten Cr Vr) ∧
    Allocated bs mat.Nb mat.nnzbs
      ((List.range mat.Nb).foldl (copyRow bs mat f)
        (ReorderState.mk (BlockedMatrix.mk rMat.nnzValues rMat.colIndices
          (rMat.rowPointers.set 0 0) rMat.Nb rMat.nnzbs) 0)).rMat ∧
    ∀ i, i ≤ mat.Nb →
      ((List.range mat.Nb).foldl (copyRow bs mat f)
        (ReorderState.mk (BlockedMatrix.mk rMat.nnzValues rMat.colIndices
          (rMat.rowPointers.set 0 0) rMat.Nb rMat.nnzbs) 0)).rMat.rowPointers.getD i 0
        = (sourceRows bs mat f i).flatten.length := by
  obtain ⟨hNb, hnnz, hrp, hci, hvals⟩ := halloc
  have htotal := sourceRows_length_total bs mat hwf t f hinv
  have key := foldl_range_inv
    (fun i (x : ReorderState V) =>
      (∃ Cr Vr, Represents bs x.rMat.colIndices x.rMat.nnzValues
        (sourceRows bs mat f i).flatten Cr Vr) ∧
      x.rIndex = (sourceRows bs mat f i).flatten.length ∧
      Allocated bs mat.Nb mat.nnzbs x.rMat ∧
      ∀ i', i' ≤ i → x.rMat.rowPointers.getD i' 0 = (sourceRows bs mat f i').flatten.length)
    (copyRow bs mat f)
    (ReorderState.mk (BlockedMatrix.mk rMat.nnzValues rMat.colIndices
      (rMat.rowPointers.set 0 0) rMat.Nb rMat.nnzbs) 0) mat.Nb
    (by
      refine ⟨⟨rMat.colIndices, rMat.nnzValues, ?_⟩, by simp [sourceRows],
        ⟨hNb, hnnz, by simpa using hrp, hci, hvals⟩, ?_⟩
      · simp [Represents, sourceRows, flatCols, flatVals]
      · intro i' hi'
        have : i' = 0 := by omega
        subst this
        simp only [sourceRows, List.range_zero, List.map_nil, List.flatten_nil,
          List.length_nil]
        rw [getD_set_self _ _ _ _ (by rw [hrp]; omega)])
    (by
      intro i x hi ⟨hrep, hidx, halloc', hptr⟩
      obtain ⟨aNb, annz, arp, aci, avals⟩ := halloc'
      have hr : f.getD i 0 < mat.Nb := (hinv.2.2.1 i hi).1
      have hbound : (sourceRows bs mat f (i + 1)).flatten.length ≤ mat.nnzbs := by
        rw [← htotal]
        exact sourceRows_length_mono bs mat f (i + 1) mat.Nb (by omega)
      rw [sourceRows_flatten_succ, List.length_append] at hbound
      obtain ⟨b1, b2, b3, b4, b5, b6, b7⟩ := copyRow_represents bs mat hwf f i hr x
        (sourceRows bs mat f i).flatten hrep hidx.symm (by rw [aci, hidx]; exact hbound)
        (by rw [avals, aci])
      refine ⟨?_, ?_, ⟨by rw [b6, aNb], by rw [b7, annz], by rw [b5]; simpa using arp,
        by rw [b3, aci], by rw [b4, avals]⟩, ?_⟩
      · rw [sourceRows_flatten_succ]; exact b1
      · rw [b2, hidx, sourceRows_flatten_succ, List.length_append]
      · intro i' hi'
        rw [b5, getD_set]
        split_ifs with hc
        · rw [← hc.1, sourceRows_flatten_succ, List.length_append, hptr i (Nat.le_refl i)]
        · have hne : i' ≠ i + 1 := by
            intro heq
            apply hc
            exact ⟨heq.symm, by rw [arp]; omega⟩
          exact hptr i' (by omega))
  exact ⟨key.1, key.2.2.1, key.2.2.2⟩

theorem flatten_map_sortEntries_length {V : Type} (L : List (List (Nat × List V))) :
    (L.map sortEntries).flatten.length = L.flatten.length := by
  rw [List.length_flatten, List.length_flatten, List.map_map]
  congr 1
  apply List.map_congr_left
  intro R _
  exact sortEntries_length R

/-- The loop sorting the rows: when the arrays hold the rows `L` and the row pointers are
the running sums of their lengths, they hold the sorted rows afterwards. -/
theorem sortRows_spec {V : Type} (bs : Nat) (rm : BlockedMatrix V)
    (L : List (List (Nat × List V))) (Cr : List Nat) (Vr : List V)
    (hrep : Represents bs rm.colIndices rm.nnzValues L.flatten Cr Vr)
    (hrp : ∀ i, i ≤ L.length → rm.rowPointers.getD i 0 = (L.take i).flatten.length) :
    Represents bs ((List.range L.length).foldl (sortRow bs) rm).colIndices
      ((List.range L.length).foldl (sortRow bs) rm).nnzValues
      (L.map sortEntries).flatten Cr Vr ∧
    ((List.range L.length).foldl (sortRow bs) rm).rowPointers = rm.rowPointers ∧
    ((List.range L.length).foldl (sortRow bs) rm).Nb = rm.Nb ∧
    ((List.range L.length).foldl (sortRow bs) rm).nnzbs = rm.nnzbs := by
  have key := foldl_range_inv
    (fun i (x : BlockedMatrix V) =>
      Represents bs x.colIndices x.nnzValues
        ((L.take i).map sortEntries ++ L.drop i).flatten Cr Vr ∧
      x.rowPointers = rm.rowPointers ∧ x.Nb = rm.Nb ∧ x.nnzbs = rm.nnzbs)
    (sortRow bs) rm L.length
    (by simpa using hrep)
    (by
      intro i x hi ⟨hx, hxr, hxn, hxz⟩
      unfold sortRow
      simp only []
      refine ⟨?_, hxr, hxn, hxz⟩
      rw [hxr, hrp i (by omega), hrp (i + 1) (by omega)]
      have htake : L.take (i + 1) = L.take i ++ [L[i]] := by
        rw [List.take_succ, List.getElem?_eq_getElem hi]; rfl
      have hdrop : L.drop i = L[i] :: L.drop (i + 1) := List.drop_eq_getElem_cons hi
      have hlenA : ((L.take i).map sortEntries).flatten.length = (L.take i).flatten.length :=
        flatten_map_sortEntries_length _
      have hE : ((L.take i).map sortEntries ++ L.drop i).flatten
          = ((L.take i).map sortEntries).flatten ++ (L[i] ++ (L.drop (i + 1)).flatten) := by
        rw [List.flatten_append, hdrop, List.flatten_cons]
      have hlen2 : (L.take (i + 1)).flatten.length = (L.take i).flatten.length + L[i].length := by
        rw [htake, List.flatten_append, List.length_append]; simp
      have := sortBlockedRow_represents bs x.colIndices x.nnzValues _ Cr Vr hx
        (L.take i).flatten.length (L.take (i + 1)).flatten.length (by omega)
        (by rw [hE, List.length_append, List.length_append, hlenA, hlen2]; omega)
      rw [hE] at this
      rw [List.take_left' hlenA, List.drop_left' hlenA] at this
      rw [show (L.take (i + 1)).flatten.length - (L.take i).flatten.length = L[i].length by
        omega] at this
      rw [List.take_left' rfl] at this
      rw [← List.append_assoc, List.drop_left' (by rw [List.length_append, hlenA, hlen2])]
        at this
      have hgoal : ((L.take (i + 1)).map sortEntries ++ L.drop (i + 1)).flatten
          = ((L.take i).map sortEntries).flatten
            ++ (sortEntries L[i] ++ (L.drop (i + 1)).flatten) := by
        rw [htake, List.map_append, List.flatten_append, List.flatten_append]
        simp only [List.map_cons, List.map_nil, List.flatten_cons, List.flatten_nil,
          List.append_nil, List.append_assoc]
      rw [hgoal]
      simp only [List.append_assoc] at this
      exact this)
  obtain ⟨k1, k2, k3, k4⟩ := key
  rw [List.take_length, List.drop_length, List.append_nil] at k1
  exact ⟨k1, k2, k3, k4⟩

/-- In the flattening of a list of rows, row `i` sits between the running sums of the
lengths. -/
theorem flatten_segment {α : Type} (L : List (List α)) (i : Nat) (hi : i < L.length) :
    (L.flatten.drop (L.take i).flatten.length).take
      ((L.take (i + 1)).flatten.length - (L.take i).flatten.length) = L[i] := by
  have htake : L.take (i + 1) = L.take i ++ [L[i]] := by
    rw [List.take_succ, List.getElem?_eq_getElem hi]; rfl
  have hsplit : L.flatten = (L.take i).flatten ++ (L[i] ++ (L.drop (i + 1)).flatten) := by
    conv_lhs => rw [← List.take_append_drop i L, List.flatten_append,
      List.drop_eq_getElem_cons hi, List.flatten_cons]
  have hlen2 : (L.take (i + 1)).flatten.length = (L.take i).flatten.length + L[i].length := by
    rw [htake, List.flatten_append, List.length_append]; simp
  rw [hlen2, Nat.add_sub_cancel_left]
  conv_lhs => rw [hsplit]
  rw [List.drop_left' rfl, List.take_left' rfl]

theorem flatten_length_map {α : Type} (g : List α → List α) (hg : ∀ R, (g R).length = R.length)
    (L : List (List α)) : (L.map g).flatten.length = L.flatten.length := by
  rw [List.length_flatten, List.length_flatten, List.map_map]
  congr 1
  apply List.map_congr_left
  intro R _
  exact hg R

theorem sourceRows_take {V : Type} (bs : Nat) (mat : BlockedMatrix V) (f : List Nat)
    (i n : Nat) (h : i ≤ n) : (sourceRows bs mat f n).take i = sourceRows bs mat f i := by
  unfold sourceRows
  rw [← List.map_take, List.take_range, Nat.min_eq_left h]

theorem sourceRows_length {V : Type} (bs : Nat) (mat : BlockedMatrix V) (f : List Nat)
    (n : Nat) : (sourceRows bs mat f n).length = n := by
  simp [sourceRows]

theorem reorderedRows_length {V : Type} (bs : Nat) (mat : BlockedMatrix V) (t f : List Nat) :
    (reorderedRows bs mat t f).length = mat.Nb := by
  simp [reorderedRows, sourceRows_length]

theorem reorderedRows_take_length {V : Type} (bs : Nat) (mat : BlockedMatrix V)
    (t f : List Nat) (i : Nat) (hi : i ≤ mat.Nb) :
    ((reorderedRows bs mat t f).take i).flatten.length
      = (sourceRows bs mat f i).flatten.length := by
  unfold reorderedRows
  rw [← List.map_take, sourceRows_take bs mat f i mat.Nb hi]
  exact flatten_length_map _ (fun R => by rw [sortEntries_length, List.length_map]) _

/-- Arrays of exactly the size of the entries they hold have nothing after them. -/
theorem represents_exact {V : Type} (bs : Nat) (ci : List Nat) (data : List V)
    (E : List (Nat × List V)) (Cr : List Nat) (Vr : List V)
    (h : Represents bs ci data E Cr Vr) (hci : ci.length = E.length)
    (hdata : data.length = E.length * (bs * bs)) : Represents bs ci data E [] [] := by
  obtain ⟨h1, h2, h3⟩ := h
  have hc : Cr = [] := by
    rw [h1, List.length_append] at hci
    simp only [flatCols, List.length_map] at hci
    exact List.eq_nil_of_length_eq_zero (by omega)
  have hv : Vr = [] := by
    rw [h2, List.length_append, flatVals_length (bs * bs) E h3] at hdata
    exact List.eq_nil_of_length_eq_zero (by omega)
  subst hc hv
  exact ⟨h1, h2, h3⟩

/-- What `reorderBlockedMatrixByPattern` computes: the arrays of the output hold exactly
the rows `reorderedRows`, one after the other, and the row pointers are the running
sums of their lengths. -/
theorem reorder_spec {V : Type} [Inhabited V] (bs : Nat) (mat : BlockedMatrix V)
    (hwf : WellFormed bs mat) (t f : List Nat) (hinv : MutualInverses mat.Nb t f)
    (rMat : BlockedMatrix V) (halloc : Allocated bs mat.Nb mat.nnzbs rMat) :
    Represents bs (reorderBlockedMatrixByPattern bs mat t f rMat).colIndices
      (reorderBlockedMatrixByPattern bs mat t f rMat).nnzValues
      (reorderedRows bs mat t f).flatten [] [] ∧
    Allocated bs mat.Nb mat.nnzbs (reorderBlockedMatrixByPattern bs mat t f rMat) ∧
    ∀ i, i ≤ mat.Nb →
      (reorderBlockedMatrixByPattern bs mat t f rMat).rowPointers.getD i 0
        = ((reorderedRows bs mat t f).take i).flatten.length := by
  obtain ⟨⟨Cr, Vr, hrep1⟩, ⟨aNb, annz, arp, aci, avals⟩, hptr⟩ :=
    copyRows_spec bs mat hwf t f hinv rMat halloc
  have htotal := sourceRows_length_total bs mat hwf t f hinv
  unfold reorderBlockedMatrixByPattern
  simp only []
  generalize (List.range mat.Nb).foldl (copyRow bs mat f)
    (ReorderState.mk (BlockedMatrix.mk rMat.nnzValues rMat.colIndices
      (rMat.rowPointers.set 0 0) rMat.Nb rMat.nnzbs) 0) = s1 at hrep1 aNb annz arp aci avals hptr ⊢
  -- the copied arrays hold the source rows and nothing else
  have hrep1' := represents_exact bs _ _ _ Cr Vr hrep1 (by rw [aci, htotal])
    (by rw [avals, htotal])
  -- the renumbering loop
  have hren : (List.range mat.nnzbs).foldl (renumberColumn t) s1.rMat.colIndices
      = s1.rMat.colIndices.map (fun c => t.getD c 0) := by
    rw [foldl_renumber t _ _ (by rw [aci])]
    rw [← aci, List.take_length, List.drop_length, List.append_nil]
  have hrep2 : Represents bs
      ((List.range mat.nnzbs).foldl (renumberColumn t) s1.rMat.colIndices) s1.rMat.nnzValues
      ((sourceRows bs mat f mat.Nb).map (List.map (renumberEntry t))).flatten [] [] := by
    obtain ⟨h1, h2, h3⟩ := hrep1'
    rw [← List.map_flatten]
    refine ⟨?_, ?_, ?_⟩
    · rw [hren, h1]
      simp [flatCols, renumberEntry, Function.comp_def]
    · rw [h2]
      simp [flatVals, renumberEntry, Function.comp_def]
    · intro e he
      obtain ⟨e', he', rfl⟩ := List.mem_map.mp he
      exact h3 e' he'
  -- the sorting loop
  have hlenL : ((sourceRows bs mat f mat.Nb).map (List.map (renumberEntry t))).length = mat.Nb := by
    rw [List.length_map, sourceRows_length]
  have hsort := sortRows_spec bs
    (BlockedMatrix.mk s1.rMat.nnzValues
      ((List.range mat.nnzbs).foldl (renumberColumn t) s1.rMat.colIndices)
      s1.rMat.rowPointers s1.rMat.Nb s1.rMat.nnzbs)
    ((sourceRows bs mat f mat.Nb).map (List.map (renumberEntry t))) [] [] hrep2
    (by
      intro i hi
      rw [hlenL] at hi
      simp only []
      rw [hptr i hi, ← List.map_take, sourceRows_take bs mat f i mat.Nb hi]
      exact (flatten_length_map _ (fun R => List.length_map _ _) _).symm)
  rw [hlenL] at hsort
  obtain ⟨s1', s2', s3', s4'⟩ := hsort
  have hrows : ((sourceRows bs mat f mat.Nb).map (List.map (renumberEntry t))).map sortEntries
      = reorderedRows bs mat t f := by
    unfold reorderedRows
    rw [List.map_map]
    rfl
  rw [hrows] at s1'
  have hlenF : (reorderedRows bs mat t f).flatten.length = mat.nnzbs := by
    have := reorderedRows_take_length bs mat t f mat.Nb (Nat.le_refl _)
    rw [← reorderedRows_length bs mat t f, List.take_length] at this
    rw [this, reorderedRows_length, htotal]
  refine ⟨s1', ⟨by rw [s3']; exact aNb, by rw [s4']; exact annz, by rw [s2']; exact arp, ?_, ?_⟩,
    ?_⟩
  · rw [s1'.1, List.append_nil]
    unfold flatCols
    rw [List.length_map, hlenF]
  · rw [s1'.2.1, List.append_nil, flatVals_length (bs * bs) _ s1'.2.2, hlenF]
  · intro i hi
    rw [s2']
    simp only []
    rw [hptr i hi, reorderedRows_take_length bs mat t f i hi]

theorem reorderedRows_getElem {V : Type} (bs : Nat) (mat : BlockedMatrix V) (t f : List Nat)
    (i : Nat) (hi : i < (reorderedRows bs mat t f).length) :
    (reorderedRows bs mat t f)[i]
      = sortEntries ((rowOf bs mat (f.getD i 0)).map (renumberEntry t)) := by
  simp [reorderedRows, sourceRows]

/-- Row `i` of the reordered matrix is row `fromOrder[i]` of `mat`, renumbered and sorted. -/
theorem rowOf_reorder {V : Type} [Inhabited V] (bs : Nat) (mat : BlockedMatrix V)
    (hwf : WellFormed bs mat) (t f : List Nat) (hinv : MutualInverses mat.Nb t f)
    (rMat : BlockedMatrix V) (halloc : Allocated bs mat.Nb mat.nnzbs rMat)
    (i : Nat) (hi : i < mat.Nb) :
    rowOf bs (reorderBlockedMatrixByPattern bs mat t f rMat) i
      = sortEntries ((rowOf bs mat (f.getD i 0)).map (renumberEntry t)) := by
  obtain ⟨hrep, _, hptr⟩ := reorder_spec bs mat hwf t f hinv rMat halloc
  have hlen := reorderedRows_length bs mat t f
  unfold rowOf
  rw [hptr i (by omega), hptr (i + 1) (by omega)]
  have hi' : i < (reorderedRows bs mat t f).length := by rw [hlen]; exact hi
  have htake : (reorderedRows bs mat t f).take (i + 1)
      = (reorderedRows bs mat t f).take i ++ [(reorderedRows bs mat t f)[i]] := by
    rw [List.take_succ, List.getElem?_eq_getElem hi']; rfl
  have hle : ((reorderedRows bs mat t f).take (i + 1)).flatten.length
      ≤ (reorderedRows bs mat t f).flatten.length := by
    conv_rhs => rw [← List.take_append_drop (i + 1) (reorderedRows bs mat t f),
      List.flatten_append, List.length_append]
    omega
  have hle2 : ((reorderedRows bs mat t f).take i).flatten.length
      ≤ ((reorderedRows bs mat t f).take (i + 1)).flatten.length := by
    rw [htake, List.flatten_append, List.length_append]
    omega
  rw [rowEntries_of_represents bs _ _ _ [] [] hrep _ _ (by omega)]
  rw [flatten_segment _ i hi', reorderedRows_getElem]
  rfl

theorem getD_mem_of_lt (l : List Nat) (k : Nat) (h : k < l.length) : l.getD k 0 ∈ l := by
  rw [List.getD_eq_getElem?_getD, List.getElem?_eq_getElem h]
  exact List.getElem_mem _

/-- Every column index stored in a row of a well-formed matrix is below `Nb`. -/
theorem rowOf_col_lt {V : Type} (bs : Nat) (mat : BlockedMatrix V) (hwf : WellFormed bs mat)
    (r : Nat) (hr : r < mat.Nb) (e : Nat × List V) (he : e ∈ rowOf bs mat r) :
    e.1 < mat.Nb := by
  unfold rowOf rowEntries at he
  obtain ⟨k, hk, rfl⟩ := List.mem_map.mp he
  rw [List.mem_range'_1] at hk
  have hmono := hwf.2.2.1 r hr
  have hlast := rowPointers_le_last bs mat hwf (r + 1) hr
  exact hwf.2.2.2.2.2.2 _ (getD_mem_of_lt _ k (by rw [hwf.2.2.2.2.1]; omega))

theorem take_flatten_length_le {α : Type} (L : List (List α)) (i : Nat) :
    (L.take i).flatten.length ≤ (L.take (i + 1)).flatten.length := by
  by_cases hi : i < L.length
  · rw [List.take_succ, List.getElem?_eq_getElem hi, List.flatten_append, List.length_append]
    omega
  · rw [List.take_of_length_le (by omega), List.take_of_length_le (by omega)]

/-- The reordered matrix is well formed again. -/
theorem reorder_wellFormed {V : Type} [Inhabited V] (bs : Nat) (mat : BlockedMatrix V)
    (hwf : WellFormed bs mat) (t f : List Nat) (hinv : MutualInverses mat.Nb t f)
    (rMat : BlockedMatrix V) (halloc : Allocated bs mat.Nb mat.nnzbs rMat) :
    WellFormed bs (reorderBlockedMatrixByPattern bs mat t f rMat) := by
  obtain ⟨hrep, ⟨aNb, annz, arp, aci, avals⟩, hptr⟩ :=
    reorder_spec bs mat hwf t f hinv rMat halloc
  have hlen := reorderedRows_length bs mat t f
  refine ⟨by rw [arp, aNb], ?_, ?_, ?_, by rw [aci, annz], by rw [avals, annz], ?_⟩
  · rw [hptr 0 (by omega)]; simp
  · intro r hr
    rw [aNb] at hr
    rw [hptr r (by omega), hptr (r + 1) (by omega)]
    exact take_flatten_length_le _ r
  · rw [aNb, annz, hptr mat.Nb (Nat.le_refl _)]
    conv_lhs => rw [← hlen, List.take_length]
    rw [← aci, hrep.1, List.append_nil]
    unfold flatCols
    rw [List.length_map]
  · intro c hc
    rw [hrep.1, List.append_nil] at hc
    unfold flatCols at hc
    obtain ⟨e, he, rfl⟩ := List.mem_map.mp hc
    obtain ⟨R, hR, heR⟩ := List.mem_flatten.mp he
    obtain ⟨i, hi, rfl⟩ := List.getElem_of_mem hR
    rw [reorderedRows_getElem] at heR
    have he' := (sortEntries_perm _).subset heR
    obtain ⟨e0, he0, rfl⟩ := List.mem_map.mp he'
    rw [hlen] at hi
    have hf := (hinv.2.2.1 i hi).1
    have hc0 := rowOf_col_lt bs mat hwf _ hf e0 he0
    rw [aNb]
    exact (hinv.2.2.2 e0.1 hc0).1


theorem rowEntries_append {V : Type} (bs : Nat) (ci : List Nat) (data : List V) (l n n' : Nat) :
    rowEntries bs ci data l n ++ rowEntries bs ci data (l + n) n'
      = rowEntries bs ci data l (n + n') := by
  unfold rowEntries
  rw [← List.map_append, List.range'_append_1, Nat.add_comm n' n]

theorem flatten_blocks {V : Type} (bs : Nat) (data : List V) (n : Nat) :
    ((List.range n).map (fun k => blockAt bs data k)).flatten = data.take (n * (bs * bs)) := by
  induction n with
  | zero => simp
  | succ n ih =>
    rw [List.range_succ, List.map_append, List.flatten_append, ih]
    simp only [List.map_cons, List.map_nil, List.flatten_cons, List.flatten_nil, List.append_nil]
    unfold blockAt
    rw [mul_block, Nat.add_mul, Nat.one_mul, List.take_add]

/-- The arrays of a well-formed matrix hold its rows, one after the other, and nothing
else. -/
theorem represents_rows {V : Type} (bs : Nat) (mat : BlockedMatrix V)
    (hwf : WellFormed bs mat) :
    Represents bs mat.colIndices mat.nnzValues
      ((List.range mat.Nb).map (rowOf bs mat)).flatten [] [] ∧
    ∀ i, i ≤ mat.Nb →
      ((List.range i).map (rowOf bs mat)).flatten
        = rowEntries bs mat.colIndices mat.nnzValues 0 (mat.rowPointers.getD i 0) := by
  obtain ⟨hrp, h0, hmono, hlast, hci, hvals, hcols⟩ := hwf
  have hrows : ∀ i, i ≤ mat.Nb →
      ((List.range i).map (rowOf bs mat)).flatten
        = rowEntries bs mat.colIndices mat.nnzValues 0 (mat.rowPointers.getD i 0) := by
    intro i
    induction i with
    | zero => intro _; rw [h0]; simp [rowEntries]
    | succ i ih =>
      intro hi
      rw [List.range_succ, List.map_append, List.flatten_append, ih (by omega)]
      simp only [List.map_cons, List.map_nil, List.flatten_cons, List.flatten_nil,
        List.append_nil]
      unfold rowOf
      have := hmono i (by omega)
      have h := rowEntries_append bs mat.colIndices mat.nnzValues 0 (mat.rowPointers.getD i 0)
        (mat.rowPointers.getD (i + 1) 0 - mat.rowPointers.getD i 0)
      rw [Nat.zero_add] at h
      rw [h]
      congr 1
      omega
  refine ⟨?_, hrows⟩
  rw [hrows mat.Nb (Nat.le_refl _), hlast]
  refine ⟨?_, ?_, ?_⟩
  · rw [List.append_nil]
    unfold flatCols rowEntries
    rw [List.map_map, ← List.range_eq_range']
    exact (map_getD_range_self mat.colIndices mat.nnzbs hci).symm
  · rw [List.append_nil]
    unfold flatVals rowEntries
    rw [List.map_map, ← List.range_eq_range']
    have := flatten_blocks bs mat.nnzValues mat.nnzbs
    rw [← hvals, List.take_length] at this
    exact this.symm
  · intro e he
    unfold rowEntries at he
    obtain ⟨k, hk, rfl⟩ := List.mem_map.mp he
    rw [List.mem_range'_1] at hk
    exact blockAt_length bs mat.nnzValues k (by
      rw [hvals]; exact Nat.mul_le_mul_right _ (by omega))

/-- In a matrix with strictly ascending rows, every row is strictly sorted by column. -/
theorem rowOf_strictly_sorted {V : Type} (bs : Nat) (mat : BlockedMatrix V)
    (hasc : StrictlyAscendingRows mat) (r : Nat) (hr : r < mat.Nb) :
    (rowOf bs mat r).Pairwise (fun a b => a.1 < b.1) := by
  have hlt : ∀ b a, mat.rowPointers.getD r 0 ≤ a → a < b →
      b < mat.rowPointers.getD (r + 1) 0 →
      mat.colIndices.getD a 0 < mat.colIndices.getD b 0 := by
    intro b
    induction b with
    | zero => intro a _ hab _; omega
    | succ b ih =>
      intro a ha hab hb
      by_cases hab' : a = b
      · subst hab'
        exact hasc r hr a (by omega) ha hb
      · exact Nat.lt_trans (ih a ha (by omega) (by omega)) (hasc r hr b (by omega) (by omega) hb)
  unfold rowOf rowEntries
  rw [List.pairwise_map]
  refine List.Pairwise.imp_of_mem ?_ (List.pairwise_lt_range' _ _)
  intro a b ha hb hab
  rw [List.mem_range'_1] at ha hb
  exact hlt b a ha.1 hab (by omega)

/-- A list of entries that is sorted by column, and has the same entries as a list that is
strictly sorted by column, is that list. -/
theorem eq_of_perm_of_strictly_sorted {V : Type} (X R : List (Nat × List V))
    (hperm : X.Perm R) (hX : X.Sorted (fun a b => a.1 ≤ b.1))
    (hR : R.Pairwise (fun a b => a.1 < b.1)) : X = R := by
  have hnodupR : (R.map Prod.fst).Nodup := by
    unfold List.Nodup
    rw [List.pairwise_map]
    exact hR.imp (fun h => Nat.ne_of_lt h)
  have hnodupX : (X.map Prod.fst).Nodup := ((hperm.map Prod.fst).nodup_iff).mpr hnodupR
  have hX' : X.Pairwise (fun a b => a.1 < b.1) := by
    unfold List.Nodup at hnodupX
    rw [List.pairwise_map] at hnodupX
    exact (List.Pairwise.and hX hnodupX).imp (fun h => Nat.lt_of_le_of_ne h.1 h.2)
  haveI : IsAntisymm (Nat × List V) (fun a b => a.1 < b.1) :=
    ⟨fun a b hab hba => absurd hab (Nat.lt_asymm hba)⟩
  exact List.eq_of_perm_of_sorted hperm hX' hR

/-- Renumbering and sorting a strictly sorted row, then renumbering it back and sorting it
again, gives the row back. -/
theorem sort_renumber_twice {V : Type} (Nb : Nat) (t f : List Nat)
    (hinv : MutualInverses Nb t f) (R : List (Nat × List V))
    (hcols : ∀ e ∈ R, e.1 < Nb) (hR : R.Pairwise (fun a b => a.1 < b.1)) :
    sortEntries ((sortEntries (R.map (renumberEntry t))).map (renumberEntry f)) = R := by
  apply eq_of_perm_of_strictly_sorted _ R ?_ (sortEntries_sorted _) hR
  refine (sortEntries_perm _).trans ?_
  refine ((sortEntries_perm _).map _).trans ?_
  rw [List.map_map]
  have : R.map (renumberEntry f ∘ renumberEntry t) = R.map id := by
    apply List.map_congr_left
    intro e he
    simp only [Function.comp, renumberEntry, id]
    rw [(hinv.2.2.2 e.1 (hcols e he)).2]
  rw [this, List.map_id]

/-! ## C4, C5, C6: the reordered matrix -/

/-- C5: for every well-formed `BlockedMatrix` (rows sorted or not) and mutually inverse
permutations, after `reorderBlockedMatrixByPattern` every row `i` of the output has its
column indices in ascending order: `colIndices[k] ≤ colIndices[k+1]` for all `k` with
`rowPointers[i] ≤ k < rowPointers[i+1] - 1`. -/
theorem C5_reordered_rows_are_sorted {V : Type} [Inhabited V] (block_size : Nat)
    (mat : BlockedMatrix V) (toOrder fromOrder : List Nat) (rMat : BlockedMatrix V)
    (hwf : WellFormed block_size mat) (hinv : MutualInverses mat.Nb toOrder fromOrder)
    (halloc : Allocated block_size mat.Nb mat.nnzbs rMat) (i k : Nat) (hi : i < mat.Nb)
    (hk1 : (reorderBlockedMatrixByPattern block_size mat toOrder fromOrder
      rMat).rowPointers.getD i 0 ≤ k)
    (hk2 : k + 1 < (reorderBlockedMatrixByPattern block_size mat toOrder fromOrder
      rMat).rowPointers.getD (i + 1) 0) :
    (reorderBlockedMatrixByPattern block_size mat toOrder fromOrder rMat).colIndices.getD k 0
      ≤ (reorderBlockedMatrixByPattern block_size mat toOrder fromOrder
        rMat).colIndices.getD (k + 1) 0 := by
  have hrow := rowOf_reorder block_size mat hwf toOrder fromOrder hinv rMat halloc i hi
  have hsorted := sortEntries_sorted
    ((rowOf block_size mat (fromOrder.getD i 0)).map (renumberEntry toOrder))
  rw [← hrow] at hsorted
  generalize reorderBlockedMatrixByPattern block_size mat toOrder fromOrder rMat = out
    at hk1 hk2 hsorted ⊢
  unfold rowOf rowEntries at hsorted
  have hpw := List.pairwise_iff_getElem.mp hsorted (k - out.rowPointers.getD i 0)
    (k + 1 - out.rowPointers.getD i 0)
    (by simp only [List.length_map, List.length_range']; omega)
    (by simp only [List.length_map, List.length_range']; omega) (by omega)
  simp only [List.getElem_map, List.getElem_range', Nat.one_mul] at hpw
  rw [show out.rowPointers.getD i 0 + (k - out.rowPointers.getD i 0) = k by omega,
    show out.rowPointers.getD i 0 + (k + 1 - out.rowPointers.getD i 0) = k + 1 by omega] at hpw
  exact hpw

/-- Instance of C5: a 3-row matrix with unsorted rows, at row 1, position 1 of the
output. -/
theorem C5_reordered_rows_are_sorted_witness :
    (reorderBlockedMatrixByPattern 1
      (BlockedMatrix.mk ([10, 12, 21, 30, 31, 32] : List Int) [2, 0, 1, 1, 2, 0] [0, 2, 3, 6] 3 6)
      [2, 0, 1] [1, 2, 0]
      (BlockedMatrix.mk (List.replicate 6 0) [7, 7, 7, 7, 7, 7] [7, 7, 7, 7] 3 6)).colIndices.getD
        1 0
    ≤ (reorderBlockedMatrixByPattern 1
      (BlockedMatrix.mk ([10, 12, 21, 30, 31, 32] : List Int) [2, 0, 1, 1, 2, 0] [0, 2, 3, 6] 3 6)
      [2, 0, 1] [1, 2, 0]
      (BlockedMatrix.mk (List.replicate 6 0) [7, 7, 7, 7, 7, 7] [7, 7, 7, 7] 3 6)).colIndices.getD
        (1 + 1) 0 :=
  C5_reordered_rows_are_sorted 1
    (BlockedMatrix.mk ([10, 12, 21, 30, 31, 32] : List Int) [2, 0, 1, 1, 2, 0] [0, 2, 3, 6] 3 6)
    [2, 0, 1] [1, 2, 0]
    (BlockedMatrix.mk (List.replicate 6 0) [7, 7, 7, 7, 7, 7] [7, 7, 7, 7] 3 6)
    (by decide) (by decide) (by decide) 1 1 (by decide) (by decide) (by decide)

theorem toUnsigned_of_nonneg (z : Int) (h0 : 0 ≤ z) (h1 : z < 4294967296) :
    toUnsigned z = z.toNat := by
  unfold toUnsigned
  rw [Int.emod_eq_of_lt h0 h1]

/-- A row that has a colour, or does not hold the largest priority, is passed over. -/
theorem colorRows_skip (bs : Nat) (rp ci randoms : List Nat) (maxR maxC : Int) (c i : Nat)
    (is : List Nat) (s : SweepState)
    (h : s.colors.getD i (-1) ≠ -1 ∨
      neighbourCheck ci s.colors randoms c i (randoms.getD i 0)
        (loopRange (rp.getD i 0) (rp.getD (i + 1) 0)) true = false) :
    colorRows bs rp ci randoms maxR maxC c (i :: is) s
      = colorRows bs rp ci randoms maxR maxC c is s := by
  rw [colorRows]
  rcases h with h | h
  · rw [if_pos h]
  · by_cases h1 : s.colors.getD i (-1) ≠ -1
    · rw [if_pos h1]
    · rw [if_neg h1]
      simp only [h, Bool.false_eq_true, if_false]

/-- A row without colour that holds the largest priority takes the colour when neither
budget stops the loop. -/
theorem colorRows_take (bs : Nat) (rp ci randoms : List Nat) (maxR maxC : Int) (c i : Nat)
    (is : List Nat) (s : SweepState) (vis : List Bool) (add : Nat)
    (h1 : s.colors.getD i (-1) = -1)
    (h2 : neighbourCheck ci s.colors randoms c i (randoms.getD i 0)
      (loopRange (rp.getD i 0) (rp.getD (i + 1) 0)) true = true)
    (h3 : markColumns bs ci (loopRange (rp.getD i 0) (rp.getD (i + 1) 0))
      (s.visitedColumns, 0) = (vis, add))
    (h4 : u32 (s.colsInColor + add) ≤ toUnsigned maxC)
    (h5 : u32 (u32 (s.rowsInColor + bs) + bs + 4294967295) < toUnsigned maxR) :
    colorRows bs rp ci randoms maxR maxC c (i :: is) s
      = colorRows bs rp ci randoms maxR maxC c is
        (SweepState.mk (s.colors.set i (c : Int)) vis (u32 (s.rowsInColor + bs))
          (u32 (s.colsInColor + add))) := by
  rw [colorRows]
  rw [if_neg (by rw [h1]; simp)]
  simp only [h2, h3, if_true]
  rw [if_neg (by omega), if_neg (by omega)]

/-- The same step when the counters stay below `2 ^ 32`, with the counters written without
the wrap-around. -/
theorem colorRows_take_small (bs : Nat) (rp ci randoms : List Nat) (maxR maxC : Int) (c i : Nat)
    (is : List Nat) (s : SweepState) (vis : List Bool) (add : Nat)
    (h1 : s.colors.getD i (-1) = -1)
    (h2 : neighbourCheck ci s.colors randoms c i (randoms.getD i 0)
      (loopRange (rp.getD i 0) (rp.getD (i + 1) 0)) true = true)
    (h3 : markColumns bs ci (loopRange (rp.getD i 0) (rp.getD (i + 1) 0))
      (s.visitedColumns, 0) = (vis, add))
    (hbs : 0 < bs)
    (h4 : s.colsInColor + add ≤ toUnsigned maxC) (hC : toUnsigned maxC < 4294967296)
    (h5 : s.rowsInColor + bs + bs ≤ toUnsigned maxR) (hR : toUnsigned maxR < 4294967296) :
    colorRows bs rp ci randoms maxR maxC c (i :: is) s
      = colorRows bs rp ci randoms maxR maxC c is
        (SweepState.mk (s.colors.set i (c : Int)) vis (s.rowsInColor + bs)
          (s.colsInColor + add)) := by
  have e1 : u32 (s.rowsInColor + bs) = s.rowsInColor + bs := Nat.mod_eq_of_lt (by omega)
  have e2 : u32 (s.colsInColor + add) = s.colsInColor + add := Nat.mod_eq_of_lt (by omega)
  have e3 : u32 (s.rowsInColor + bs + bs + 4294967295) = s.rowsInColor + bs + bs - 1 := by
    unfold u32; omega
  rw [colorRows_take bs rp ci randoms maxR maxC c i is s vis add h1 h2 h3
    (by rw [e2]; exact h4) (by rw [e1, e3]; omega), e1, e2]

/-- The first sweep on the 6-row path graph (row `i` stores the columns `i-1`, `i`, `i+1`
that exist) when every even row holds a larger priority than its neighbours. -/
theorem path6_sweep0 (bs : Nat) (randoms : List Nat) (maxR maxC : Int)
    (hbs : 0 < bs) (hR : (6 * bs : Int) ≤ maxR) (hC : (6 * bs : Int) ≤ maxC)
    (hR' : maxR < 2147483648) (hC' : maxC < 2147483648)
    (h01 : randoms.getD 1 0 < randoms.getD 0 0) (h21 : randoms.getD 1 0 < randoms.getD 2 0)
    (h23 : randoms.getD 3 0 < randoms.getD 2 0) (h43 : randoms.getD 3 0 < randoms.getD 4 0)
    (h45 : randoms.getD 5 0 < randoms.getD 4 0) :
    colorSweep bs 6 [0, 2, 5, 8, 11, 14, 16] [0, 1, 0, 1, 2, 1, 2, 3, 2, 3, 4, 3, 4, 5, 4, 5]
      randoms maxR maxC 0 [-1, -1, -1, -1, -1, -1] [false, false, false, false, false, false]
      = ([0, -1, 0, -1, 0, -1], [true, true, true, true, true, true]) := by
  have hmR : toUnsigned maxR = maxR.toNat := toUnsigned_of_nonneg maxR (by omega) (by omega)
  have hmC : toUnsigned maxC = maxC.toNat := toUnsigned_of_nonneg maxC (by omega) (by omega)
  have hRn : 6 * bs ≤ maxR.toNat := by omega
  have hCn : 6 * bs ≤ maxC.toNat := by omega
  have hRb : maxR.toNat < 2147483648 := by omega
  have hCb : maxC.toNat < 2147483648 := by omega
  have hadd : u32 (u32 (0 + bs) + bs) = bs + bs := by
    simp only [u32]; omega
  have key : ∃ a b, colorRows bs [0, 2, 5, 8, 11, 14, 16]
      [0, 1, 0, 1, 2, 1, 2, 3, 2, 3, 4, 3, 4, 5, 4, 5] randoms maxR maxC 0 [0, 1, 2, 3, 4, 5]
      (SweepState.mk [-1, -1, -1, -1, -1, -1] [false, false, false, false, false, false] 0 0)
      = SweepState.mk [0, -1, 0, -1, 0, -1] [true, true, true, true, true, true] a b := by
    refine ⟨?a, ?b, ?_⟩
    pick_goal 3
    refine (colorRows_take_small _ _ _ _ _ _ _ _ _ _
      [true, true, false, false, false, false] (bs + bs) ?_ ?_ ?_ hbs ?_ ?_ ?_ ?_).trans ?_
    · rfl
    · rw [neighbourCheck_eq_true_iff]
      refine ⟨rfl, ?_⟩
      intro k hk
      rw [mem_loopRange] at hk
      obtain ⟨hk1, hk2⟩ := hk
      change 0 ≤ k at hk1
      change k < 2 at hk2
      interval_cases k
      · exact Or.inl rfl
      · exact Or.inr (Or.inr ⟨rfl, h01⟩)
    · rw [← hadd]; rfl
    · rw [hmC]; simp only []; omega
    · rw [hmC]; omega
    · rw [hmR]; simp only []; omega
    · rw [hmR]; omega
    refine (colorRows_skip _ _ _ _ _ _ _ _ _ _ ?_).trans ?_
    · exact Or.inr rfl
    refine (colorRows_take_small _ _ _ _ _ _ _ _ _ _
      [true, true, true, true, false, false] (bs + bs) ?_ ?_ ?_ hbs ?_ ?_ ?_ ?_).trans ?_
    · rfl
    · rw [neighbourCheck_eq_true_iff]
      refine ⟨rfl, ?_⟩
      intro k hk
      rw [mem_loopRange] at hk
      obtain ⟨hk1, hk2⟩ := hk
      change 5 ≤ k at hk1
      change k < 8 at hk2
      interval_cases k
      · exact Or.inr (Or.inr ⟨rfl, h21⟩)
      · exact Or.inl rfl
      · exact Or.inr (Or.inr ⟨rfl, h23⟩)
    · rw [← hadd]; rfl
    · rw [hmC]; simp only []; omega
    · rw [hmC]; omega
    · rw [hmR]; simp only []; omega
    · rw [hmR]; omega
    refine (colorRows_skip _ _ _ _ _ _ _ _ _ _ ?_).trans ?_
    · exact Or.inr rfl
    refine (colorRows_take_small _ _ _ _ _ _ _ _ _ _
      [true, true, true, true, true, true] (bs + bs) ?_ ?_ ?_ hbs ?_ ?_ ?_ ?_).trans ?_
    · rfl
    · rw [neighbourCheck_eq_true_iff]
      refine ⟨rfl, ?_⟩
      intro k hk
      rw [mem_loopRange] at hk
      obtain ⟨hk1, hk2⟩ := hk
      change 11 ≤ k at hk1
      change k < 14 at hk2
      interval_cases k
      · exact Or.inr (Or.inr ⟨rfl, h43⟩)
      · exact Or.inl rfl
      · exact Or.inr (Or.inr ⟨rfl, h45⟩)
    · rw [← hadd]; rfl
    · rw [hmC]; simp only []; omega
    · rw [hmC]; omega
    · rw [hmR]; simp only []; omega
    · rw [hmR]; omega
    refine (colorRows_skip _ _ _ _ _ _ _ _ _ _ ?_).trans ?_
    · exact Or.inr rfl
    exact rfl
  obtain ⟨a, b, hab⟩ := key
  unfold colorSweep
  rw [show List.range 6 = [0, 1, 2, 3, 4, 5] from rfl, hab]

/-- The second sweep on the 6-row path graph, after the even rows took colour 0. -/
theorem path6_sweep1 (bs : Nat) (randoms : List Nat) (maxR maxC : Int)
    (hbs : 0 < bs) (hR : (6 * bs : Int) ≤ maxR) (hC : (6 * bs : Int) ≤ maxC)
    (hR' : maxR < 2147483648) (hC' : maxC < 2147483648) :
    colorSweep bs 6 [0, 2, 5, 8, 11, 14, 16] [0, 1, 0, 1, 2, 1, 2, 3, 2, 3, 4, 3, 4, 5, 4, 5]
      randoms maxR maxC 1 [0, -1, 0, -1, 0, -1] [true, true, true, true, true, true]
      = ([0, 1, 0, 1, 0, 1], [true, true, true, true, true, true]) := by
  have hmR : toUnsigned maxR = maxR.toNat := toUnsigned_of_nonneg maxR (by omega) (by omega)
  have hmC : toUnsigned maxC = maxC.toNat := toUnsigned_of_nonneg maxC (by omega) (by omega)
  have hRn : 6 * bs ≤ maxR.toNat := by omega
  have hCn : 6 * bs ≤ maxC.toNat := by omega
  have hRb : maxR.toNat < 2147483648 := by omega
  have hCb : maxC.toNat < 2147483648 := by omega
  have hadd : u32 (u32 (0 + bs) + bs) = bs + bs := by
    simp only [u32]; omega
  have key : ∃ a b, colorRows bs [0, 2, 5, 8, 11, 14, 16]
      [0, 1, 0, 1, 2, 1, 2, 3, 2, 3, 4, 3, 4, 5, 4, 5] randoms maxR maxC 1 [0, 1, 2, 3, 4, 5]
      (SweepState.mk [0, -1, 0, -1, 0, -1] [true, true, true, true, true, true] 0 0)
      = SweepState.mk [0, 1, 0, 1, 0, 1] [true, true, true, true, true, true] a b := by
    refine ⟨?a, ?b, ?_⟩
    pick_goal 3
    refine (colorRows_skip _ _ _ _ _ _ _ _ _ _ ?_).trans ?_
    · exact Or.inl (of_decide_eq_true rfl)
    refine (colorRows_take_small _ _ _ _ _ _ _ _ _ _
      [true, true, true, true, true, true] (0) ?_ ?_ ?_ hbs ?_ ?_ ?_ ?_).trans ?_
    · rfl
    · rfl
    · rfl
    · rw [hmC]; simp only []; omega
    · rw [hmC]; omega
    · rw [hmR]; simp only []; omega
    · rw [hmR]; omega
    refine (colorRows_skip _ _ _ _ _ _ _ _ _ _ ?_).trans ?_
    · exact Or.inl (of_decide_eq_true rfl)
    refine (colorRows_take_small _ _ _ _ _ _ _ _ _ _
      [true, true, true, true, true, true] (0) ?_ ?_ ?_ hbs ?_ ?_ ?_ ?_).trans ?_
    · rfl
    · rfl
    · rfl
    · rw [hmC]; simp only []; omega
    · rw [hmC]; omega
    · rw [hmR]; simp only []; omega
    · rw [hmR]; omega
    refine (colorRows_skip _ _ _ _ _ _ _ _ _ _ ?_).trans ?_
    · exact Or.inl (of_decide_eq_true rfl)
    refine (colorRows_take_small _ _ _ _ _ _ _ _ _ _
      [true, true, true, true, true, true] (0) ?_ ?_ ?_ hbs ?_ ?_ ?_ ?_).trans ?_
    · rfl
    · rfl
    · rfl
    · rw [hmC]; simp only []; omega
    · rw [hmC]; omega
    · rw [hmR]; simp only []; omega
    · rw [hmR]; omega
    exact rfl
  obtain ⟨a, b, hab⟩ := key
  unfold colorSweep
  rw [show List.range 6 = [0, 1, 2, 3, 4, 5] from rfl, hab]

/-- On the 6-row path graph, with budgets of at least the whole matrix and first-attempt
priorities in which every even row beats its neighbours, `colorBlockedNodes` returns two
colours, the even rows coloured 0 and the odd rows coloured 1. -/
theorem path6_colorBlockedNodes (bs MAX_COLORS : Nat) (draw : Nat → List Nat)
    (colors : List Int) (maxR maxC : Int) (hbs : 0 < bs) (hMAX : 2 ≤ MAX_COLORS)
    (hlen : colors.length = 6)
    (hR : (6 * bs : Int) ≤ maxR) (hC : (6 * bs : Int) ≤ maxC)
    (hR' : maxR < 2147483648) (hC' : maxC < 2147483648)
    (h01 : (draw 0).getD 1 0 < (draw 0).getD 0 0) (h21 : (draw 0).getD 1 0 < (draw 0).getD 2 0)
    (h23 : (draw 0).getD 3 0 < (draw 0).getD 2 0) (h43 : (draw 0).getD 3 0 < (draw 0).getD 4 0)
    (h45 : (draw 0).getD 5 0 < (draw 0).getD 4 0) :
    colorBlockedNodes bs MAX_COLORS draw 6 [0, 2, 5, 8, 11, 14, 16]
      [0, 1, 0, 1, 2, 1, 2, 3, 2, 3, 4, 3, 4, 5, 4, 5] colors maxR maxC
      = some (2, [0, 1, 0, 1, 0, 1]) := by
  obtain ⟨m, rfl⟩ : ∃ m, MAX_COLORS = m + 2 := ⟨MAX_COLORS - 2, by omega⟩
  unfold colorBlockedNodes
  rw [show max_tries = 99 + 1 from rfl, colorAttempts, hlen]
  have hs : colorSweeps bs 6 [0, 2, 5, 8, 11, 14, 16]
      [0, 1, 0, 1, 2, 1, 2, 3, 2, 3, 4, 3, 4, 5, 4, 5] (draw 0) maxR maxC (m + 2) 0
      (List.replicate 6 (-1)) (List.replicate 6 false)
      = (some 2, [0, 1, 0, 1, 0, 1], [true, true, true, true, true, true]) := by
    rw [show m + 2 = (m + 1) + 1 from rfl, colorSweeps]
    rw [show List.replicate 6 (-1 : Int) = [-1, -1, -1, -1, -1, -1] from rfl,
      show List.replicate 6 false = [false, false, false, false, false, false] from rfl,
      path6_sweep0 bs (draw 0) maxR maxC hbs hR hC hR' hC' h01 h21 h23 h43 h45]
    rw [if_neg (by decide), colorSweeps,
      path6_sweep1 bs (draw 0) maxR maxC hbs hR hC hR' hC']
    rw [if_pos (by decide)]
  rw [hs]

theorem length_six {α : Type} (l : List α) (h : l.length = 6) :
    ∃ a b c d e f, l = [a, b, c, d, e, f] := by
  rcases l with _ | ⟨a, _ | ⟨b, _ | ⟨c, _ | ⟨d, _ | ⟨e, _ | ⟨f, _ | ⟨g, t⟩⟩⟩⟩⟩⟩⟩ <;>
    simp at h
  exact ⟨a, b, c, d, e, f, rfl⟩

theorem uncolored_iff_countLeft (rows : Nat) (colors : List Int) :
    Uncolored rows colors ↔ countLeft rows colors ≠ 0 := by
  rw [Ne, countLeft_eq_zero_iff]
  unfold Uncolored
  push_neg
  rfl

/-- A sweep keeps the number of colours and never takes a colour away. -/
theorem colorSweep_keeps (block_size rows : Nat) (rowPointers colIndices randoms : List Nat)
    (maxRowsPerColor maxColsPerColor : Int) (c : Nat) (colors : List Int)
    (visited : List Bool) :
    (colorSweep block_size rows rowPointers colIndices randoms maxRowsPerColor
      maxColsPerColor c colors visited).1.length = colors.length ∧
    ∀ j, colors.getD j (-1) ≠ -1 →
      (colorSweep block_size rows rowPointers colIndices randoms maxRowsPerColor
        maxColsPerColor c colors visited).1.getD j (-1) = colors.getD j (-1) := by
  unfold colorSweep
  simp only []
  obtain ⟨_, hres⟩ := colorRows_induct block_size rowPointers colIndices randoms
    maxRowsPerColor maxColsPerColor c
    (fun _ s => s.colors.length = colors.length ∧
      ∀ j, colors.getD j (-1) ≠ -1 → s.colors.getD j (-1) = colors.getD j (-1))
    (fun i is s hs => hs) (fun i is s hs _ => hs)
    (fun i is s hs hi _ _ => by
      refine ⟨by simpa using hs.1, ?_⟩
      intro j hj
      simp only []
      rw [getD_set]
      split_ifs with hc
      · exfalso
        obtain ⟨rfl, _⟩ := hc
        have := hs.2 i hj
        rw [hi] at this
        exact hj this.symm
      · exact hs.2 j hj)
    (List.range rows) (SweepState.mk colors visited 0 0) ⟨rfl, fun j _ => rfl⟩
  exact hres

theorem sweepsState_length (block_size rows : Nat) (rowPointers colIndices randoms : List Nat)
    (maxRowsPerColor maxColsPerColor : Int) (n : Nat) (colors : List Int)
    (visited : List Bool) :
    (sweepsState block_size rows rowPointers colIndices randoms maxRowsPerColor
      maxColsPerColor n colors visited).1.length = colors.length := by
  induction n with
  | zero => rfl
  | succ n ih =>
    rw [sweepsState, (colorSweep_keeps _ _ _ _ _ _ _ _ _ _).1, ih]

/-- Once no row is uncoloured, further sweeps of the attempt leave none either. -/
theorem sweepsState_uncolored_mono (block_size rows : Nat)
    (rowPointers colIndices randoms : List Nat) (maxRowsPerColor maxColsPerColor : Int)
    (colors : List Int) (visited : List Bool) (n m : Nat) (hnm : n ≤ m)
    (h : Uncolored rows (sweepsState block_size rows rowPointers colIndices randoms
      maxRowsPerColor maxColsPerColor m colors visited).1) :
    Uncolored rows (sweepsState block_size rows rowPointers colIndices randoms
      maxRowsPerColor maxColsPerColor n colors visited).1 := by
  induction m, hnm using Nat.le_induction with
  | base => exact h
  | succ m _ ih =>
    apply ih
    obtain ⟨i, hi, hc⟩ := h
    refine ⟨i, hi, ?_⟩
    by_contra hne
    rw [sweepsState, (colorSweep_keeps _ _ _ _ _ _ _ _ _ _).2 i hne] at hc
    exact hne hc

/-- The colour loop from colour `c` on, described by the states after each sweep: it runs
out when every sweep leaves a row uncoloured, and returns at the first sweep that does not. -/
theorem colorSweeps_eq (block_size rows : Nat) (rowPointers colIndices randoms : List Nat)
    (maxRowsPerColor maxColsPerColor : Int) (colors : List Int) (visited : List Bool) :
    ∀ (n c : Nat),
      ((∀ c', c ≤ c' → c' < c + n →
          Uncolored rows (sweepsState block_size rows rowPointers colIndices randoms
            maxRowsPerColor maxColsPerColor (c' + 1) colors visited).1) →
        colorSweeps block_size rows rowPointers colIndices randoms maxRowsPerColor
          maxColsPerColor n c
          (sweepsState block_size rows rowPointers colIndices randoms maxRowsPerColor
            maxColsPerColor c colors visited).1
          (sweepsState block_size rows rowPointers colIndices randoms maxRowsPerColor
            maxColsPerColor c colors visited).2
        = (none, sweepsState block_size rows rowPointers colIndices randoms maxRowsPerColor
            maxColsPerColor (c + n) colors visited)) ∧
      (∀ c0, c ≤ c0 → c0 < c + n →
        (∀ c', c ≤ c' → c' < c0 →
          Uncolored rows (sweepsState block_size rows rowPointers colIndices randoms
            maxRowsPerColor maxColsPerColor (c' + 1) colors visited).1) →
        ¬ Uncolored rows (sweepsState block_size rows rowPointers colIndices randoms
            maxRowsPerColor maxColsPerColor (c0 + 1) colors visited).1 →
        colorSweeps block_size rows rowPointers colIndices randoms maxRowsPerColor
          maxColsPerColor n c
          (sweepsState block_size rows rowPointers colIndices randoms maxRowsPerColor
            maxColsPerColor c colors visited).1
          (sweepsState block_size rows rowPointers colIndices randoms maxRowsPerColor
            maxColsPerColor c colors visited).2
        = (some (c0 + 1), sweepsState block_size rows rowPointers colIndices randoms
            maxRowsPerColor maxColsPerColor (c0 + 1) colors visited)) := by
  intro n
  induction n with
  | zero =>
    intro c
    refine ⟨fun _ => rfl, ?_⟩
    intro c0 h1 h2
    omega
  | succ n ih =>
    intro c
    obtain ⟨ih1, ih2⟩ := ih (c + 1)
    constructor
    · intro hall
      rw [colorSweeps]
      have hc := hall c (Nat.le_refl c) (by omega)
      rw [uncolored_iff_countLeft, sweepsState] at hc
      rw [if_neg hc]
      have := ih1 (fun c' h1 h2 => hall c' (by omega) (by omega))
      rw [sweepsState] at this
      rw [this, show c + 1 + n = c + (n + 1) by omega]
    · intro c0 h1 h2 hbefore hnow
      rw [colorSweeps]
      by_cases hcc : c0 = c
      · subst hcc
        rw [uncolored_iff_countLeft, not_not, sweepsState] at hnow
        rw [if_pos hnow]
        rfl
      · have hc := hbefore c (Nat.le_refl c) (by omega)
        rw [uncolored_iff_countLeft, sweepsState] at hc
        rw [if_neg hc]
        have := ih2 c0 (by omega) (by omega) (fun c' h1 h2 => hbefore c' (by omega) h2) hnow
        rw [sweepsState] at this
        exact this

/-- The attempts from attempt `t` on, described by the states after each sweep. -/
theorem colorAttempts_eq (block_size MAX_COLORS : Nat) (draw : Nat → List Nat) (rows : Nat)
    (rowPointers colIndices : List Nat) (maxRowsPerColor maxColsPerColor : Int) :
    ∀ (n t : Nat) (colors : List Int), colors.length = rows →
      ((∀ t', t ≤ t' → t' < t + n →
          Uncolored rows (attemptColors block_size MAX_COLORS draw rows rowPointers colIndices
            maxRowsPerColor maxColsPerColor t' MAX_COLORS)) →
        colorAttempts block_size MAX_COLORS draw rows rowPointers colIndices maxRowsPerColor
          maxColsPerColor n t colors
          (attemptStart block_size MAX_COLORS draw rows rowPointers colIndices maxRowsPerColor
            maxColsPerColor t) = none) ∧
      (∀ t0 c0, t ≤ t0 → t0 < t + n → c0 < MAX_COLORS →
        (∀ t', t ≤ t' → t' < t0 →
          Uncolored rows (attemptColors block_size MAX_COLORS draw rows rowPointers colIndices
            maxRowsPerColor maxColsPerColor t' MAX_COLORS)) →
        (∀ c', c' < c0 →
          Uncolored rows (attemptColors block_size MAX_COLORS draw rows rowPointers colIndices
            maxRowsPerColor maxColsPerColor t0 (c' + 1))) →
        ¬ Uncolored rows (attemptColors block_size MAX_COLORS draw rows rowPointers colIndices
            maxRowsPerColor maxColsPerColor t0 (c0 + 1)) →
        colorAttempts block_size MAX_COLORS draw rows rowPointers colIndices maxRowsPerColor
          maxColsPerColor n t colors
          (attemptStart block_size MAX_COLORS draw rows rowPointers colIndices maxRowsPerColor
            maxColsPerColor t)
        = some (c0 + 1, attemptColors block_size MAX_COLORS draw rows rowPointers colIndices
            maxRowsPerColor maxColsPerColor t0 (c0 + 1))) := by
  intro n
  induction n with
  | zero =>
    intro t colors _
    refine ⟨fun _ => rfl, ?_⟩
    intro t0 c0 h1 h2
    omega
  | succ n ih =>
    intro t colors hlen
    obtain ⟨sw1, sw2⟩ := colorSweeps_eq block_size rows rowPointers colIndices (draw t)
      maxRowsPerColor maxColsPerColor (List.replicate rows (-1))
      (attemptStart block_size MAX_COLORS draw rows rowPointers colIndices maxRowsPerColor
        maxColsPerColor t) MAX_COLORS 0
    simp only [Nat.zero_add, sweepsState] at sw1 sw2
    -- what a failed attempt `t` leads to
    have hfail : Uncolored rows (attemptColors block_size MAX_COLORS draw rows rowPointers
        colIndices maxRowsPerColor maxColsPerColor t MAX_COLORS) →
        colorAttempts block_size MAX_COLORS draw rows rowPointers colIndices maxRowsPerColor
          maxColsPerColor (n + 1) t colors
          (attemptStart block_size MAX_COLORS draw rows rowPointers colIndices maxRowsPerColor
            maxColsPerColor t)
        = colorAttempts block_size MAX_COLORS draw rows rowPointers colIndices maxRowsPerColor
          maxColsPerColor n (t + 1)
          (sweepsState block_size rows rowPointers colIndices (draw t) maxRowsPerColor
            maxColsPerColor MAX_COLORS (List.replicate rows (-1))
            (attemptStart block_size MAX_COLORS draw rows rowPointers colIndices
              maxRowsPerColor maxColsPerColor t)).1
          (attemptStart block_size MAX_COLORS draw rows rowPointers colIndices maxRowsPerColor
            maxColsPerColor (t + 1)) := by
      intro hun
      rw [colorAttempts, hlen]
      rw [sw1 (fun c' _ hc' => sweepsState_uncolored_mono block_size rows rowPointers
        colIndices (draw t) maxRowsPerColor maxColsPerColor _ _ (c' + 1) MAX_COLORS
        (by omega) hun)]
      rfl
    have hlen' : (sweepsState block_size rows rowPointers colIndices (draw t) maxRowsPerColor
        maxColsPerColor MAX_COLORS (List.replicate rows (-1))
        (attemptStart block_size MAX_COLORS draw rows rowPointers colIndices
          maxRowsPerColor maxColsPerColor t)).1.length = rows := by
      rw [sweepsState_length]; simp
    obtain ⟨ih1, ih2⟩ := ih (t + 1) _ hlen'
    constructor
    · intro hall
      rw [hfail (hall t (Nat.le_refl t) (by omega))]
      exact ih1 (fun t' h1 h2 => hall t' (by omega) (by omega))
    · intro t0 c0 h1 h2 hc0 hbefore hsweeps hnow
      by_cases htt : t0 = t
      · subst htt
        rw [colorAttempts, hlen]
        rw [sw2 c0 (Nat.zero_le _) hc0 (fun c' _ hc' => hsweeps c' hc') hnow]
        rfl
      · rw [hfail (hbefore t (Nat.le_refl t) (by omega))]
        exact ih2 t0 c0 (by omega) (by omega) hc0 (fun t' h1 h2 => hbefore t' (by omega) h2)
          hsweeps hnow

/-- C8: `colorBlockedNodes` fails (throws) if and only if in each of its `max_tries = 100`
attempts, each with its own draw of priorities, at least one row is still uncoloured after
`MAX_COLORS` colour sweeps; otherwise it returns `c + 1` at the first sweep `c` of the first
attempt after which no row is uncoloured, with the colours reached there.  (`MAX_COLORS` is
positive and `colors` has `rows` cells.) -/
theorem C8_coloring_fails_iff_every_attempt_fails (block_size MAX_COLORS : Nat)
    (draw : Nat → List Nat) (rows : Nat) (rowPointers colIndices : List Nat)
    (colors : List Int) (maxRowsPerColor maxColsPerColor : Int)
    (hMAX : 0 < MAX_COLORS) (hlen : colors.length = rows) :
    (colorBlockedNodes block_size MAX_COLORS draw rows rowPointers colIndices colors
        maxRowsPerColor maxColsPerColor = none ↔
      ∀ t, t < max_tries →
        Uncolored rows (attemptColors block_size MAX_COLORS draw rows rowPointers colIndices
          maxRowsPerColor maxColsPerColor t MAX_COLORS)) ∧
    (∀ t c, t < max_tries → c < MAX_COLORS →
      (∀ t', t' < t →
        Uncolored rows (attemptColors block_size MAX_COLORS draw rows rowPointers colIndices
          maxRowsPerColor maxColsPerColor t' MAX_COLORS)) →
      (∀ c', c' < c →
        Uncolored rows (attemptColors block_size MAX_COLORS draw rows rowPointers colIndices
          maxRowsPerColor maxColsPerColor t (c' + 1))) →
      ¬ Uncolored rows (attemptColors block_size MAX_COLORS draw rows rowPointers colIndices
          maxRowsPerColor maxColsPerColor t (c + 1)) →
      colorBlockedNodes block_size MAX_COLORS draw rows rowPointers colIndices colors
        maxRowsPerColor maxColsPerColor
      = some (c + 1, attemptColors block_size MAX_COLORS draw rows rowPointers colIndices
          maxRowsPerColor maxColsPerColor t (c + 1))) := by
  obtain ⟨a1, a2⟩ := colorAttempts_eq block_size MAX_COLORS draw rows rowPointers colIndices
    maxRowsPerColor maxColsPerColor max_tries 0 colors hlen
  have hsome : ∀ t c, t < max_tries → c < MAX_COLORS →
      (∀ t', t' < t →
        Uncolored rows (attemptColors block_size MAX_COLORS draw rows rowPointers colIndices
          maxRowsPerColor maxColsPerColor t' MAX_COLORS)) →
      (∀ c', c' < c →
        Uncolored rows (attemptColors block_size MAX_COLORS draw rows rowPointers colIndices
          maxRowsPerColor maxColsPerColor t (c' + 1))) →
      ¬ Uncolored rows (attemptColors block_size MAX_COLORS draw rows rowPointers colIndices
          maxRowsPerColor maxColsPerColor t (c + 1)) →
      colorBlockedNodes block_size MAX_COLORS draw rows rowPointers colIndices colors
        maxRowsPerColor maxColsPerColor
      = some (c + 1, attemptColors block_size MAX_COLORS draw rows rowPointers colIndices
          maxRowsPerColor maxColsPerColor t (c + 1)) := by
    intro t c ht hc hbefore hsweeps hnow
    exact a2 t c (Nat.zero_le _) (by omega) hc (fun t' _ h2 => hbefore t' h2) hsweeps hnow
  refine ⟨⟨?_, ?_⟩, hsome⟩
  · intro hnone
    by_contra hex
    push_neg at hex
    -- the first attempt that colours every row, and its first sweep that does
    have hex' : ∃ t, t < max_tries ∧ ¬ Uncolored rows (attemptColors block_size MAX_COLORS
        draw rows rowPointers colIndices maxRowsPerColor maxColsPerColor t MAX_COLORS) := hex
    classical
    have ht := Nat.find_spec hex'
    have hmin := fun t' (h : t' < Nat.find hex') => Nat.find_min hex' h
    have hcex : ∃ c, c < MAX_COLORS ∧ ¬ Uncolored rows (attemptColors block_size MAX_COLORS
        draw rows rowPointers colIndices maxRowsPerColor maxColsPerColor (Nat.find hex')
        (c + 1)) := by
      refine ⟨MAX_COLORS - 1, by omega, ?_⟩
      rw [show MAX_COLORS - 1 + 1 = MAX_COLORS by omega]
      exact ht.2
    have hc := Nat.find_spec hcex
    have hcmin := fun c' (h : c' < Nat.find hcex) => Nat.find_min hcex h
    have := hsome (Nat.find hex') (Nat.find hcex) ht.1 hc.1
      (fun t' h => by
        have := hmin t' h
        push_neg at this
        exact this (by omega))
      (fun c' h => by
        have := hcmin c' h
        push_neg at this
        exact this (by omega))
      hc.2
    rw [hnone] at this
    exact absurd this (by simp)
  · intro hall
    exact a1 (fun t' _ h2 => hall t' (by omega))

/-- Instance of C8: the full 2 x 2 pattern with priorities `1, 0`; the first attempt
colours both rows with its second sweep, so 2 is returned. -/
theorem C8_coloring_fails_iff_every_attempt_fails_witness :
    colorBlockedNodes 1 4 (fun _ => [1, 0]) 2 [0, 2, 4] [0, 1, 0, 1] [0, 0] 100 100
      = some (1 + 1, attemptColors 1 4 (fun _ => [1, 0]) 2 [0, 2, 4] [0, 1, 0, 1] 100 100 0
          (1 + 1)) :=
  (C8_coloring_fails_iff_every_attempt_fails 1 4 (fun _ => [1, 0]) 2 [0, 2, 4] [0, 1, 0, 1]
    [0, 0] 100 100 (by decide) (by decide)).2 0 1 (by decide) (by decide)
    (fun t' h => absurd h (Nat.not_lt_zero t'))
    (fun c' h => by
      have h0 : c' = 0 := Nat.lt_one_iff.mp h
      subst h0
      decide)
    (by decide)

/-! ## C9, C10: the budgets -/

/-- Induction rule for the row loop of a sweep with a loop-head invariant `P` and a property
`Q` of the state the loop ends in. -/
theorem colorRows_induct_exit (block_size : Nat) (rowPointers colIndices randoms : List Nat)
    (maxRowsPerColor maxColsPerColor : Int) (c : Nat) (P : List Nat → SweepState → Prop)
    (Q : SweepState → Prop)
    (hnil : ∀ s, P [] s → Q s)
    (hskip : ∀ i is s, P (i :: is) s → P is s)
    (hmark : ∀ i is s, P (i :: is) s → s.colors.getD i (-1) = -1 →
      Q (SweepState.mk s.colors
        (markColumns block_size colIndices
          (loopRange (rowPointers.getD i 0) (rowPointers.getD (i + 1) 0))
          (s.visitedColumns, 0)).1 s.rowsInColor s.colsInColor))
    (hcolor : ∀ i is s, P (i :: is) s → s.colors.getD i (-1) = -1 →
      (u32 (u32 (s.rowsInColor + block_size) + block_size + 4294967295)
          ≥ toUnsigned maxRowsPerColor →
        Q (SweepState.mk (s.colors.set i (c : Int))
          (markColumns block_size colIndices
            (loopRange (rowPointers.getD i 0) (rowPointers.getD (i + 1) 0))
            (s.visitedColumns, 0)).1
          (u32 (s.rowsInColor + block_size))
          (u32 (s.colsInColor + (markColumns block_size colIndices
            (loopRange (rowPointers.getD i 0) (rowPointers.getD (i + 1) 0))
            (s.visitedColumns, 0)).2)))) ∧
      (¬ u32 (u32 (s.rowsInColor + block_size) + block_size + 4294967295)
          ≥ toUnsigned maxRowsPerColor →
        P is (SweepState.mk (s.colors.set i (c : Int))
          (markColumns block_size colIndices
            (loopRange (rowPointers.getD i 0) (rowPointers.getD (i + 1) 0))
            (s.visitedColumns, 0)).1
          (u32 (s.rowsInColor + block_size))
          (u32 (s.colsInColor + (markColumns block_size colIndices
            (loopRange (rowPointers.getD i 0) (rowPointers.getD (i + 1) 0))
            (s.visitedColumns, 0)).2))))) :
    ∀ (l : List Nat) (s : SweepState), P l s →
      Q (colorRows block_size rowPointers colIndices randoms maxRowsPerColor
        maxColsPerColor c l s) := by
  intro l
  induction l with
  | nil => intro s hs; exact hnil s hs
  | cons i is ih =>
    intro s hs
    unfold colorRows
    by_cases h1 : s.colors.getD i (-1) ≠ -1
    · rw [if_pos h1]
      exact ih s (hskip i is s hs)
    · rw [if_neg h1]
      have h1' : s.colors.getD i (-1) = -1 := not_not.mp h1
      simp only []
      split_ifs with h2 h3 h4
      · exact hmark i is s hs h1'
      · exact (hcolor i is s hs h1').1 h4
      · exact ih _ ((hcolor i is s hs h1').2 h4)
      · exact ih s (hskip i is s hs)

/-- Giving a colourless cell the colour `a` raises the count of `a` by one and leaves the
counts of the other colours. -/
theorem count_set_of_uncolored (l : List Int) (i : Nat) (a b : Int) (hi : i < l.length)
    (hold : l.getD i (-1) = -1) (hb : b ≠ -1) :
    (l.set i a).count b = l.count b + if a = b then 1 else 0 := by
  induction l generalizing i with
  | nil => simp at hi
  | cons x xs ih =>
    cases i with
    | zero =>
      simp only [List.getD_cons_zero] at hold
      subst hold
      simp only [List.set_cons_zero, List.count_cons]
      have : ¬ ((-1 : Int) == b) = true := by simpa using Ne.symm hb
      simp only [this, if_false, Nat.add_zero, beq_iff_eq]
      simp
    | succ i =>
      simp only [List.getD_cons_succ] at hold
      simp only [List.set_cons_succ, List.count_cons]
      rw [ih i (by simpa using hi) hold]
      omega

/-- One sweep keeps every colour within the row budget. -/
theorem colorSweep_row_budget (block_size rows : Nat)
    (rowPointers colIndices randoms : List Nat) (maxRowsPerColor maxColsPerColor : Int)
    (hbs : (block_size : Int) ≤ maxRowsPerColor) (hR : maxRowsPerColor < 2147483648)
    (c : Nat) (colors : List Int) (visited : List Bool)
    (h : ColorsBelow rows c colors ∧
      ∀ c' : Nat, block_size * colors.count (c' : Int) ≤ maxRowsPerColor.toNat) :
    ColorsBelow rows (c + 1)
      (colorSweep block_size rows rowPointers colIndices randoms maxRowsPerColor
        maxColsPerColor c colors visited).1 ∧
    ∀ c' : Nat, block_size *
      (colorSweep block_size rows rowPointers colIndices randoms maxRowsPerColor
        maxColsPerColor c colors visited).1.count (c' : Int) ≤ maxRowsPerColor.toNat := by
  refine ⟨colorSweep_colorsBelow block_size rows rowPointers colIndices randoms
    maxRowsPerColor maxColsPerColor c colors visited h.1, ?_⟩
  have hmR : toUnsigned maxRowsPerColor = maxRowsPerColor.toNat :=
    by unfold toUnsigned; rw [Int.emod_eq_of_lt (by omega) (by omega)]
  have hRn : block_size ≤ maxRowsPerColor.toNat := by omega
  have hRb : maxRowsPerColor.toNat < 2147483648 := by omega
  generalize maxRowsPerColor.toNat = R at *
  unfold colorSweep
  simp only []
  apply colorRows_induct_exit block_size rowPointers colIndices randoms
    maxRowsPerColor maxColsPerColor c
    (fun rest s => (∀ r ∈ rest, r < s.colors.length) ∧
      (∀ c' : Nat, c' ≠ c → block_size * s.colors.count (c' : Int) ≤ R) ∧
      s.rowsInColor = block_size * s.colors.count (c : Int) ∧ s.rowsInColor + block_size ≤ R)
    (fun s => ∀ c' : Nat, block_size * s.colors.count (c' : Int) ≤ R)
  · intro s ⟨_, h2, h3, h4⟩ c'
    by_cases hc : c' = c
    · subst hc; omega
    · exact h2 c' hc
  · intro i is s ⟨h1, h2, h3, h4⟩
    exact ⟨fun r hr => h1 r (List.mem_cons_of_mem _ hr), h2, h3, h4⟩
  · intro i is s ⟨_, h2, h3, h4⟩ _ c'
    simp only []
    by_cases hc : c' = c
    · subst hc; omega
    · exact h2 c' hc
  · intro i is s ⟨h1, h2, h3, h4⟩ hi
    have hil : i < s.colors.length := h1 i (List.mem_cons_self _ _)
    have hcount : ∀ c' : Nat, (s.colors.set i (c : Int)).count (c' : Int)
        = s.colors.count (c' : Int) + if c' = c then 1 else 0 := by
      intro c'
      rw [count_set_of_uncolored s.colors i c c' hil hi (by omega)]
      congr 1
      by_cases hc : c' = c
      · subst hc; simp
      · rw [if_neg hc, if_neg (by omega)]
    have hu : u32 (s.rowsInColor + block_size) = s.rowsInColor + block_size :=
      Nat.mod_eq_of_lt (by omega)
    have hcc : block_size * (s.colors.set i (c : Int)).count (c : Int)
        = s.rowsInColor + block_size := by
      rw [hcount c, if_pos rfl, Nat.mul_add, ← h3, Nat.mul_one]
    have hother : ∀ c' : Nat, c' ≠ c →
        block_size * (s.colors.set i (c : Int)).count (c' : Int) ≤ R := by
      intro c' hc
      rw [hcount c', if_neg hc, Nat.add_zero]
      exact h2 c' hc
    constructor
    · intro _ c'
      simp only []
      by_cases hc : c' = c
      · subst hc; omega
      · exact hother c' hc
    · intro hnb
      simp only []
      refine ⟨fun r hr => by simpa using h1 r (List.mem_cons_of_mem _ hr), hother, ?_, ?_⟩
      · rw [hu, hcc]
      · rw [hu, hmR] at hnb
        rw [hu]
        unfold u32 at hnb
        omega
  · refine ⟨fun r hr => by rw [h.1.1]; exact List.mem_range.mp hr, fun c' _ => h.2 c', ?_, ?_⟩
    · have : colors.count (c : Int) = 0 := by
        rw [List.count_eq_zero]
        intro hmem
        obtain ⟨j, hj, hjc⟩ := List.getElem_of_mem hmem
        have := h.1.2 j
        rw [List.getD_eq_getElem?_getD, List.getElem?_eq_getElem hj] at this
        simp only [Option.getD_some, hjc] at this
        omega
      simp only []
      rw [this, Nat.mul_zero]
    · simp only []
      omega

/-- When `colorBlockedNodes` returns, no colour holds more rows than the row budget. -/
theorem colorBlockedNodes_row_budget (block_size MAX_COLORS : Nat) (draw : Nat → List Nat)
    (rows : Nat) (rowPointers colIndices : List Nat) (colors : List Int)
    (maxRowsPerColor maxColsPerColor : Int) (hlen : colors.length = rows)
    (hbs : (block_size : Int) ≤ maxRowsPerColor) (hR : maxRowsPerColor < 2147483648)
    (k : Nat) (colors' : List Int)
    (hres : colorBlockedNodes block_size MAX_COLORS draw rows rowPointers colIndices colors
      maxRowsPerColor maxColsPerColor = some (k, colors')) (c : Nat) :
    block_size * colors'.count (c : Int) ≤ maxRowsPerColor.toNat := by
  unfold colorBlockedNodes at hres
  have hrep : ∀ n : Nat, ColorsBelow n 0 (List.replicate n (-1)) ∧
      ∀ c' : Nat, block_size * (List.replicate n (-1 : Int)).count (c' : Int)
        ≤ maxRowsPerColor.toNat := by
    intro n
    refine ⟨⟨by simp, fun j => Or.inl (getD_replicate_same _ _ _)⟩, ?_⟩
    intro c'
    have : (List.replicate n (-1 : Int)).count (c' : Int) = 0 := by
      rw [List.count_eq_zero]
      intro hmem
      have := List.eq_of_mem_replicate hmem
      omega
    rw [this]
    omega
  obtain ⟨⟨_, hI⟩, _⟩ := colorAttempts_inv block_size MAX_COLORS draw rows
    rowPointers colIndices maxRowsPerColor maxColsPerColor
    (fun c col _ => ColorsBelow rows c col ∧
      ∀ c' : Nat, block_size * col.count (c' : Int) ≤ maxRowsPerColor.toNat)
    (fun randoms c col vis hc => colorSweep_row_budget block_size rows rowPointers colIndices
      randoms maxRowsPerColor maxColsPerColor hbs hR c col vis hc)
    (fun c col vis hc => by rw [hc.1.1]; exact hrep rows)
    max_tries 0 colors (List.replicate rows false)
    (by rw [hlen]; exact hrep rows)
    k colors' hres
  exact hI.2 c

/-- C9: for every input with `maxRowsPerColor ≥ block_size` on which `colorBlockedNodes`
returns, no colour exceeds the row budget: `block_size * |{ i : colors[i] = c }|` is at
most `maxRowsPerColor` for every colour `c`.  (`maxRowsPerColor` is an `int`, so below
`2 ^ 31`; `colors` has `rows` cells.) -/
theorem C9_row_budget_respected (block_size MAX_COLORS : Nat) (draw : Nat → List Nat)
    (rows : Nat) (rowPointers colIndices : List Nat) (colors : List Int)
    (maxRowsPerColor maxColsPerColor : Int) (k : Nat) (colors' : List Int)
    (hlen : colors.length = rows)
    (hbs : (block_size : Int) ≤ maxRowsPerColor) (hR : maxRowsPerColor < 2147483648)
    (hres : colorBlockedNodes block_size MAX_COLORS draw rows rowPointers colIndices colors
      maxRowsPerColor maxColsPerColor = some (k, colors')) (c : Int) :
    ((block_size * colors'.count c : Nat) : Int) ≤ maxRowsPerColor := by
  by_cases hc : 0 ≤ c
  · have h := colorBlockedNodes_row_budget block_size MAX_COLORS draw rows rowPointers
      colIndices colors maxRowsPerColor maxColsPerColor hlen hbs hR k colors' hres c.toNat
    rw [Int.toNat_of_nonneg hc] at h
    omega
  · have hrange := colorBlockedNodes_colors_range block_size MAX_COLORS draw rows rowPointers
      colIndices colors maxRowsPerColor maxColsPerColor hlen k colors' hres
    have h0 : colors'.count c = 0 := by
      rw [List.count_eq_zero]
      intro hmem
      obtain ⟨j, hj, hjc⟩ := List.getElem_of_mem hmem
      have := (hrange.2.2.2 j (by rw [← hrange.1]; exact hj)).1
      rw [List.getD_eq_getElem?_getD, List.getElem?_eq_getElem hj] at this
      simp only [Option.getD_some, hjc] at this
      exact hc this
    rw [h0]
    simp only [Nat.mul_zero, Nat.cast_zero]
    omega

/-- Instance of C9: the 6-row path graph with a row budget of 2 and the priorities
`5, 1, 5, 1, 5, 0`; colour 0. -/
theorem C9_row_budget_respected_witness :
    ((1 * ([0, 1, 0, 2, 1, 2] : List Int).count 0 : Nat) : Int) ≤ 2 :=
  C9_row_budget_respected 1 256 (fun _ => [5, 1, 5, 1, 5, 0]) 6 [0, 2, 5, 8, 11, 14, 16]
    [0, 1, 0, 1, 2, 1, 2, 3, 2, 3, 4, 3, 4, 5, 4, 5] [0, 0, 0, 0, 0, 0] 2 100 3
    [0, 1, 0, 2, 1, 2] (by decide) (by decide) (by decide) (by decide) 0

/-- C10, evaluation at the failing input: on the 6-row path graph with block size 1,
priorities `5, 1, 5, 1, 5, 0`, a row budget of 100 and `maxColsPerColor = 4` (every row
stores at most 3 columns), `colorBlockedNodes` returns 3 colours with the colours
`0, 1, 0, 2, 1, 2`.  The rows 1 and 4 of colour 1 store the 6 distinct columns `0, .., 5`,
more than the column budget of 4.  The same happens on the full 2 x 2 pattern with
priorities `1, 0` and `maxColsPerColor = 1`: row 0, alone in colour 1, stores 2 columns. -/
theorem C10_column_budget_failing_input :
    (colorBlockedNodes 1 256 (fun _ => [5, 1, 5, 1, 5, 0]) 6 [0, 2, 5, 8, 11, 14, 16]
        [0, 1, 0, 1, 2, 1, 2, 3, 2, 3, 4, 3, 4, 5, 4, 5] [0, 0, 0, 0, 0, 0] 100 4
      = some (3, [0, 1, 0, 2, 1, 2]) ∧
    columnsInColor 6 [0, 2, 5, 8, 11, 14, 16] [0, 1, 0, 1, 2, 1, 2, 3, 2, 3, 4, 3, 4, 5, 4, 5]
      [0, 1, 0, 2, 1, 2] 1 = [0, 1, 2, 3, 4, 5] ∧
    ¬ (((1 * (columnsInColor 6 [0, 2, 5, 8, 11, 14, 16]
      [0, 1, 0, 1, 2, 1, 2, 3, 2, 3, 4, 3, 4, 5, 4, 5] [0, 1, 0, 2, 1, 2] 1).length : Nat) : Int)
      ≤ 4)) ∧
    (colorBlockedNodes 1 256 (fun _ => [1, 0]) 2 [0, 2, 4] [0, 1, 0, 1] [0, 0] 100 1
      = some (3, [1, 2]) ∧
    columnsInColor 2 [0, 2, 4] [0, 1, 0, 1] [1, 2] 1 = [0, 1] ∧
    ¬ (((1 * (columnsInColor 2 [0, 2, 4] [0, 1, 0, 1] [1, 2] 1).length : Nat) : Int) ≤ 1)) := by
  refine ⟨⟨by decide, by decide, by decide⟩, ⟨by decide, by decide, by decide⟩⟩

/-! ## C11: the level partition against the reference definition -/

/-- C11, evaluation at the failing input: for the 3-row lower bidiagonal pattern (row 0
stores column 0, row 1 stores columns 0 and 1, row 2 stores columns 1 and 2; the CSC arrays
are the ones `csrPatternToCsc` computes) `findLevelScheduling` returns one group holding
the rows 0, 1 and 2, whereas the reference definition gives three levels: row 0, then
row 1, then row 2. -/
theorem C11_level_partition_failing_input :
    SortedPattern [0, 1, 3, 5] [0, 0, 1, 1, 2] 3 ∧
    csrPatternToCsc [0, 0, 1, 1, 2] [0, 1, 3, 5] [0, 0, 0, 0, 0] [0, 0, 0, 0] 3
      = ([0, 1, 1, 2, 2], [0, 2, 4, 5]) ∧
    (∀ fuel, findLevelScheduling fuel [0, 0, 1, 1, 2] [0, 1, 3, 5] [0, 1, 1, 2, 2]
        [0, 2, 4, 5] 3 [0, 0, 0] [0, 0, 0]
      = some (LevelSchedule.mk 1 [3] [0, 1, 2] [0, 1, 2])) ∧
    scheduleLevel (LevelSchedule.mk 1 [3] [0, 1, 2] [0, 1, 2]) 0 = [0, 1, 2] ∧
    referenceLevel [0, 1, 3, 5] [0, 0, 1, 1, 2] 3 0 = [0] ∧
    referenceLevel [0, 1, 3, 5] [0, 0, 1, 1, 2] 3 1 = [1] ∧
    referenceLevel [0, 1, 3, 5] [0, 0, 1, 1, 2] 3 2 = [2] := by
  refine ⟨by decide, by decide, ?_, by decide, by decide, by decide, by decide⟩
  intro fuel
  cases fuel <;> rfl

/-! ## C12: termination of the level scheduling -/

/-- On the 2-row upper triangular pattern one pass of the `while` loop finds no new row:
the only active row is row 0, whose column holds row 0 alone, and row 0 is done. -/
theorem levelStep_upper_triangular (a : Nat) (ha : a ≤ 1) (rpc tord : List Nat) :
    levelStep [0, 1, 1] [0, 2, 3] [0, 0, 1] [0, 1, 3]
      (LevelState.mk a 1 1 [true, false] rpc [] [0, 0] tord)
    = LevelState.mk 1 1 1 [true, false] (rpc ++ [0]) [] [0, 0] tord := by
  have h : a = 0 ∨ a = 1 := by omega
  rcases h with rfl | rfl <;> rfl

/-- On the 2-row upper triangular pattern the `while` loop is still running after any
number of iterations. -/
theorem levelLoop_upper_triangular (fuel : Nat) :
    ∀ (a : Nat) (_ : a ≤ 1) (rpc tord : List Nat),
      levelLoop [0, 1, 1] [0, 2, 3] [0, 0, 1] [0, 1, 3] 2 fuel
        (LevelState.mk a 1 1 [true, false] rpc [] [0, 0] tord) = none := by
  induction fuel with
  | zero => intro a _ rpc tord; rfl
  | succ n ih =>
    intro a ha rpc tord
    rw [levelLoop, if_pos (show (1 : Nat) < 2 by decide), levelStep_upper_triangular a ha]
    exact ih 1 (Nat.le_refl 1) _ _

/-- C12, evaluation at the failing input: the 2-row upper triangular pattern (row 0 stores
columns 0 and 1, row 1 stores column 1) has sorted rows and column indices below 2, and
its CSC arrays are computed by `csrPatternToCsc`; the first loop starts row 0 only, and
the `while (colorEnd < Nb)` loop never starts row 1: whatever the number of iterations
allowed, `findLevelScheduling` has not returned. -/
theorem C12_level_scheduling_failing_input :
    SortedPattern [0, 2, 3] [0, 1, 1] 2 ∧
    csrPatternToCsc [0, 1, 1] [0, 2, 3] [0, 0, 0] [0, 0, 0] 2 = ([0, 0, 1], [0, 1, 3]) ∧
    ∀ fuel, findLevelScheduling fuel [0, 1, 1] [0, 2, 3]
      (csrPatternToCsc [0, 1, 1] [0, 2, 3] [0, 0, 0] [0, 0, 0] 2).1
      (csrPatternToCsc [0, 1, 1] [0, 2, 3] [0, 0, 0] [0, 0, 0] 2).2 2 [0, 0] [0, 0]
      = none := by
  have hcsc : csrPatternToCsc [0, 1, 1] [0, 2, 3] [0, 0, 0] [0, 0, 0] 2
      = ([0, 0, 1], [0, 1, 3]) := by decide
  refine ⟨by decide, hcsc, ?_⟩
  intro fuel
  rw [hcsc]
  have hinit : levelInit [0, 0, 1] [0, 1, 3] 2 [0, 0] [0, 0]
      = LevelState.mk 0 1 1 [true, false] [1] [] [0, 0] [0, 0] := by rfl
  unfold findLevelScheduling
  show (match levelLoop [0, 1, 1] [0, 2, 3] [0, 0, 1] [0, 1, 3] 2 fuel
      (levelInit [0, 0, 1] [0, 1, 3] 2 [0, 0] [0, 0]) with
    | none => none
    | some s => some (LevelSchedule.mk s.rowsPerColor.length s.rowsPerColor s.toOrder
        s.fromOrder)) = none
  rw [hinit, levelLoop_upper_triangular fuel 0 (Nat.zero_le 1)]

/-! ## Property trees -/

theorem get_put_self {W : Type} (t : PropertyTree W) (path : String) (v : PValue W) :
    get (put t path v) path = some v := by
  induction t with
  | nil => simp [put, get]
  | cons e t ih =>
    unfold put
    by_cases h : e.1 = path
    · simp [h, get]
    · simp [h, get, ih]

theorem get_put_ne {W : Type} (t : PropertyTree W) (path q : String) (v : PValue W)
    (hq : path ≠ q) : get (put t path v) q = get t q := by
  induction t with
  | nil => simp [put, get, hq]
  | cons e t ih =>
    unfold put
    by_cases h : e.1 = path
    · have : e.1 ≠ q := by rw [h]; exact hq
      simp [h, get, hq, this]
    · rw [if_neg h]
      by_cases h2 : e.1 = q
      · simp [get, h2]
      · simp [get, h2, ih]

/-- The leaves of the tree of the two `cpr` configurations that the claims talk about. -/
theorem cprTree_leaves {W : Type} (p : FlowLinearSolverParameters) :
    get (cprTree p : PropertyTree W) "tol" = some (PValue.real p.linear_solver_reduction_) ∧
    getInt (cprTree p : PropertyTree W) "maxiter" = some p.linear_solver_maxiter_ ∧
    getInt (cprTree p : PropertyTree W) "verbosity" = some p.linear_solver_verbosity_ ∧
    getString (cprTree p : PropertyTree W) "solver" = some "bicgstab" ∧
    getString (cprTree p : PropertyTree W) "preconditioner.type" = some "cpr" ∧
    getString (cprTree p : PropertyTree W) "preconditioner.weight_type"
      = some (if p.linear_solver_configuration_ = "cpr_trueimpes" then "trueimpes"
          else "quasiimpes") := by
  unfold cprTree getInt getString
  split_ifs <;> simp (disch := decide) only [get_put_ne, get_put_self] <;> simp

/-- The leaves of the tree of the `ilu0` configuration that the claims talk about. -/
theorem ilu0Tree_leaves {W : Type} (p : FlowLinearSolverParameters) :
    get (ilu0Tree p : PropertyTree W) "tol" = some (PValue.real p.linear_solver_reduction_) ∧
    getInt (ilu0Tree p : PropertyTree W) "maxiter" = some p.linear_solver_maxiter_ ∧
    getInt (ilu0Tree p : PropertyTree W) "verbosity" = some p.linear_solver_verbosity_ ∧
    getString (ilu0Tree p : PropertyTree W) "solver" = some "bicgstab" ∧
    getString (ilu0Tree p : PropertyTree W) "preconditioner.type" = some "ParOverILU0" ∧
    getString (ilu0Tree p : PropertyTree W) "preconditioner.weight_type" = none := by
  refine ⟨rfl, rfl, rfl, rfl, rfl, rfl⟩

/-! ## C17: when `setupPropertyTree` throws -/

/-- C17: `setupPropertyTree` throws exactly when the configuration is "file" and either
the JSON file name is "none" or the file cannot be read, or when the configuration is none
of "file", "cpr_trueimpes", "cpr_quasiimpes", "ilu0"; for each of the three synthesized
kinds it returns a tree. -/
theorem C17_setup_throws_iff {W : Type} (read_json : String → Option (PropertyTree W))
    (p : FlowLinearSolverParameters) :
    (setupPropertyTree read_json p = none ↔
      (p.linear_solver_configuration_ = "file" ∧
        (p.linear_solver_configuration_json_file_ = "none" ∨
          read_json p.linear_solver_configuration_json_file_ = none)) ∨
      (p.linear_solver_configuration_ ≠ "file" ∧
        p.linear_solver_configuration_ ≠ "cpr_trueimpes" ∧
        p.linear_solver_configuration_ ≠ "cpr_quasiimpes" ∧
        p.linear_solver_configuration_ ≠ "ilu0")) ∧
    (p.linear_solver_configuration_ = "cpr_trueimpes" ∨
      p.linear_solver_configuration_ = "cpr_quasiimpes" ∨
      p.linear_solver_configuration_ = "ilu0" →
      ∃ prm, setupPropertyTree read_json p = some prm) := by
  unfold setupPropertyTree
  constructor
  · by_cases hf : p.linear_solver_configuration_ = "file"
    · rw [if_pos hf]
      by_cases hn : p.linear_solver_configuration_json_file_ = "none"
      · simp [hf, hn]
      · simp [hf, hn]
    · rw [if_neg hf]
      by_cases hc : p.linear_solver_configuration_ = "cpr_trueimpes" ∨
          p.linear_solver_configuration_ = "cpr_quasiimpes"
      · rw [if_pos hc]
        simp only [hf, false_and, false_or, not_false_eq_true, true_and, ne_eq]
        constructor
        · intro h; exact absurd h (by simp)
        · intro h
          rcases hc with hc | hc
          · exact absurd hc h.1
          · exact absurd hc h.2.1
      · rw [if_neg hc]
        have hc1 : p.linear_solver_configuration_ ≠ "cpr_trueimpes" := fun h => hc (Or.inl h)
        have hc2 : p.linear_solver_configuration_ ≠ "cpr_quasiimpes" := fun h => hc (Or.inr h)
        by_cases hi : p.linear_solver_configuration_ = "ilu0"
        · simp [hf, hi]
        · simp [hf, hc1, hc2, hi]
  · intro h
    rcases h with h | h | h
    · rw [if_neg (by rw [h]; decide), if_pos (Or.inl h)]
      exact ⟨_, rfl⟩
    · rw [if_neg (by rw [h]; decide), if_pos (Or.inr h)]
      exact ⟨_, rfl⟩
    · rw [if_neg (by rw [h]; decide), if_neg (by rw [h]; decide), if_neg (by simp [h])]
      exact ⟨_, rfl⟩

/-! ## C19: the synthesized tree -/

/-- C19: for the configurations "ilu0", "cpr_quasiimpes" and "cpr_trueimpes"
`setupPropertyTree` returns a tree with `tol`, `maxiter` and `verbosity` equal to the
parameters `linear_solver_reduction_`, `linear_solver_maxiter_` and
`linear_solver_verbosity_`, with `solver` equal to "bicgstab", with `preconditioner.type`
equal to "cpr" for the two `cpr` kinds, and with `preconditioner.weight_type` equal to
"trueimpes" exactly for "cpr_trueimpes" and to "quasiimpes" for "cpr_quasiimpes". -/
theorem C19_synthesized_tree {W : Type} (read_json : String → Option (PropertyTree W))
    (p : FlowLinearSolverParameters)
    (h : p.linear_solver_configuration_ = "ilu0" ∨
      p.linear_solver_configuration_ = "cpr_quasiimpes" ∨
      p.linear_solver_configuration_ = "cpr_trueimpes") :
    ∃ prm, setupPropertyTree read_json p = some prm ∧
      get prm "tol" = some (PValue.real p.linear_solver_reduction_) ∧
      getInt prm "maxiter" = some p.linear_solver_maxiter_ ∧
      getInt prm "verbosity" = some p.linear_solver_verbosity_ ∧
      getString prm "solver" = some "bicgstab" ∧
      (p.linear_solver_configuration_ = "cpr_quasiimpes" ∨
        p.linear_solver_configuration_ = "cpr_trueimpes" →
        getString prm "preconditioner.type" = some "cpr") ∧
      (getString prm "preconditioner.weight_type" = some "trueimpes" ↔
        p.linear_solver_configuration_ = "cpr_trueimpes") ∧
      (p.linear_solver_configuration_ = "cpr_quasiimpes" →
        getString prm "preconditioner.weight_type" = some "quasiimpes") := by
  unfold setupPropertyTree
  rcases h with h | h | h
  · rw [if_neg (by rw [h]; decide), if_neg (by rw [h]; decide), if_neg (by simp [h])]
    obtain ⟨h1, h2, h3, h4, _, h6⟩ := ilu0Tree_leaves (W := W) p
    refine ⟨_, rfl, h1, h2, h3, h4, ?_, ?_, ?_⟩
    · intro hc
      rw [h] at hc
      exact absurd hc (by decide)
    · rw [h6, h]
      simp
    · intro hc
      rw [h] at hc
      exact absurd hc (by decide)
  · rw [if_neg (by rw [h]; decide), if_pos (Or.inr h)]
    obtain ⟨h1, h2, h3, h4, h5, h6⟩ := cprTree_leaves (W := W) p
    refine ⟨_, rfl, h1, h2, h3, h4, fun _ => h5, ?_, ?_⟩
    · rw [h6, h]
      simp
    · intro _
      rw [h6, h]
      simp
  · rw [if_neg (by rw [h]; decide), if_pos (Or.inl h)]
    obtain ⟨h1, h2, h3, h4, h5, h6⟩ := cprTree_leaves (W := W) p
    refine ⟨_, rfl, h1, h2, h3, h4, fun _ => h5, ?_, ?_⟩
    · rw [h6, h]
      simp
    · intro hc
      rw [h] at hc
      exact absurd hc (by decide)

/-- C19 at the parameters reduction 1/100, 200 iterations, verbosity 0 and configuration
"cpr_trueimpes". -/
theorem C19_synthesized_tree_witness :
    ((FlowLinearSolverParameters.mk (1 / 100) 200 0 "cpr_trueimpes" "none"
        3).linear_solver_configuration_ = "ilu0" ∨
      (FlowLinearSolverParameters.mk (1 / 100) 200 0 "cpr_trueimpes" "none"
        3).linear_solver_configuration_ = "cpr_quasiimpes" ∨
      (FlowLinearSolverParameters.mk (1 / 100) 200 0 "cpr_trueimpes" "none"
        3).linear_solver_configuration_ = "cpr_trueimpes") ∧
    ∃ prm : PropertyTree Unit,
      setupPropertyTree (fun _ => none)
        (FlowLinearSolverParameters.mk (1 / 100) 200 0 "cpr_trueimpes" "none" 3) = some prm ∧
      get prm "tol" = some (PValue.real (1 / 100)) ∧
      getInt prm "maxiter" = some 200 ∧
      getInt prm "verbosity" = some 0 ∧
      getString prm "solver" = some "bicgstab" ∧
      getString prm "preconditioner.type" = some "cpr" ∧
      getString prm "preconditioner.weight_type" = some "trueimpes" := by
  have hcfg : (FlowLinearSolverParameters.mk (1 / 100) 200 0 "cpr_trueimpes" "none"
      3).linear_solver_configuration_ = "cpr_trueimpes" := rfl
  obtain ⟨prm, h0, h1, h2, h3, h4, h5, h6, _⟩ :=
    C19_synthesized_tree (fun _ => (none : Option (PropertyTree Unit)))
      (FlowLinearSolverParameters.mk (1 / 100) 200 0 "cpr_trueimpes" "none" 3)
      (Or.inr (Or.inr hcfg))
  exact ⟨Or.inr (Or.inr hcfg), prm, h0, h1, h2, h3, h4, h5 (Or.inr hcfg), h6.mpr hcfg⟩

/-! ## The parts of `prepare` -/

/-- Under one of the four reuse policies the decision is taken, and it is to recreate the
solver exactly in the three enumerated cases. -/
theorem recreateSolver_policy (NDEBUG : Bool) (r ni it : Int)
    (h : r = 0 ∨ r = 1 ∨ r = 2 ∨ r = 3) :
    ∃ rs, recreateSolver NDEBUG r ni it = some rs ∧
      (rs = true ↔ (r = 0 ∨ (r = 1 ∧ ni = 0) ∨ (r = 2 ∧ it > 10))) := by
  unfold recreateSolver
  rcases h with rfl | rfl | rfl | rfl
  · exact ⟨true, by simp, by simp⟩
  · by_cases h0 : ni = 0
    · exact ⟨true, by simp [h0], by simp [h0]⟩
    · exact ⟨false, by simp [h0], by simp [h0]⟩
  · by_cases h0 : it > 10
    · exact ⟨true, by simp [h0], by simp [h0]⟩
    · exact ⟨false, by simp [h0], by simp [h0]⟩
  · exact ⟨false, by simp, by simp⟩

/-- What the last part of `prepare` does when it returns: either the solver is newly
constructed, which happens when `recreate_solver` is set or there is no solver, or the
existing solver is updated. -/
theorem rebuildOrUpdate_spec {n : Nat} {S : Type} (HAVE_MPI : Bool)
    (lib : SolverLibrary n S) (self self1 : ISTLSolverEbosFlexible n S) (mat : MatrixType n)
    (b : VectorType n) (rs : Bool) (weights : VectorType n)
    (prm : PropertyTree (VectorType n)) (action : PrepareAction n)
    (h : rebuildOrUpdate HAVE_MPI lib self mat b rs weights prm = some (self1, action)) :
    self1.rhs_ = b ∧ self1.prm_ = prm ∧ self1.parameters_ = self.parameters_ ∧
    (((rs = true ∨ self.solver_ = none) ∧ action = PrepareAction.rebuilt ∧
        ∃ solver, lib.create prm mat (isParallel HAVE_MPI self) = some solver ∧
          self1.solver_ = some solver) ∨
      (rs = false ∧ ∃ old child solver, self.solver_ = some old ∧
        get_child prm "preconditioner" = some child ∧
        action = PrepareAction.updated weights child ∧
        lib.update old weights child = some solver ∧ self1.solver_ = some solver)) := by
  unfold rebuildOrUpdate at h
  by_cases hc : rs = true ∨ self.solver_.isNone = true
  · rw [if_pos hc] at h
    cases hcr : lib.create prm mat (isParallel HAVE_MPI self) with
    | none => rw [hcr] at h; exact absurd h (by simp)
    | some solver =>
      rw [hcr] at h
      simp only [Option.some.injEq, Prod.mk.injEq] at h
      obtain ⟨h1, h2⟩ := h
      subst h1
      refine ⟨rfl, rfl, rfl, Or.inl ⟨?_, h2.symm, solver, rfl, rfl⟩⟩
      rcases hc with hc | hc
      · exact Or.inl hc
      · exact Or.inr (Option.isNone_iff_eq_none.mp hc)
  · rw [if_neg hc] at h
    have hrs : rs = false := by
      cases rs
      · rfl
      · exact absurd (Or.inl rfl) hc
    cases hs : self.solver_ with
    | none => exact absurd (Or.inr (by rw [hs]; rfl)) hc
    | some old =>
      rw [hs] at h
      simp only at h
      cases hch : get_child prm "preconditioner" with
      | none => rw [hch] at h; exact absurd h (by simp)
      | some child =>
        rw [hch] at h
        simp only at h
        cases hu : lib.update old weights child with
        | none => rw [hu] at h; exact absurd h (by simp)
        | some solver =>
          rw [hu] at h
          simp only [Option.some.injEq, Prod.mk.injEq] at h
          obtain ⟨h1, h2⟩ := h
          subst h1
          exact ⟨rfl, rfl, rfl, Or.inr ⟨hrs, old, child, solver, rfl, rfl, h2.symm, hu, rfl⟩⟩

/-- A call of `prepare` that returns has gone through its four parts. -/
theorem prepare_spec {n : Nat} {S : Type} (HAVE_MPI NDEBUG : Bool)
    (lib : SolverLibrary n S) (simulator : Simulator n)
    (self self1 : ISTLSolverEbosFlexible n S) (mat mat1 : MatrixType n) (b : VectorType n)
    (action : PrepareAction n)
    (h : prepare HAVE_MPI NDEBUG lib simulator self mat b = some (self1, mat1, action)) :
    (if HAVE_MPI = true then makeOverlapRowsInvalid self.overlapRowAndColumns_ mat
      else some mat) = some mat1 ∧
    ∃ rs weights prm,
      recreateSolver NDEBUG self.parameters_.cpr_reuse_setup_ simulator.numIterations
        (iterations self) = some rs ∧
      prepareWeights lib simulator self mat1 b rs = some (weights, prm) ∧
      rebuildOrUpdate HAVE_MPI lib self mat1 b rs weights prm = some (self1, action) := by
  unfold prepare at h
  cases hm : (if HAVE_MPI = true then makeOverlapRowsInvalid self.overlapRowAndColumns_ mat
      else some mat) with
  | none => rw [hm] at h; exact absurd h (by simp)
  | some m1 =>
    rw [hm] at h
    simp only at h
    cases hr : recreateSolver NDEBUG self.parameters_.cpr_reuse_setup_ simulator.numIterations
        (iterations self) with
    | none => rw [hr] at h; exact absurd h (by simp)
    | some rs =>
      rw [hr] at h
      simp only at h
      cases hw : prepareWeights lib simulator self m1 b rs with
      | none => rw [hw] at h; exact absurd h (by simp)
      | some wp =>
        obtain ⟨weights, prm⟩ := wp
        rw [hw] at h
        simp only at h
        cases hu : rebuildOrUpdate HAVE_MPI lib self m1 b rs weights prm with
        | none => rw [hu] at h; exact absurd h (by simp)
        | some r =>
          obtain ⟨s1, act⟩ := r
          rw [hu] at h
          simp only [Option.some.injEq, Prod.mk.injEq] at h
          obtain ⟨h1, h2, h3⟩ := h
          subst h1 h2 h3
          exact ⟨rfl, rs, weights, prm, rfl, hw, hu⟩

/-- What the weight part of `prepare` does for a `cpr` or `cprt` preconditioner when it
returns: the weight type is one of the two known ones; quasi-IMPES weights are computed
from the matrix when the solver is kept, true-IMPES weights are computed always. -/
theorem prepareWeights_cpr {n : Nat} {S : Type} (lib : SolverLibrary n S)
    (simulator : Simulator n) (self : ISTLSolverEbosFlexible n S) (mat : MatrixType n)
    (b : VectorType n) (rs : Bool) (weights : VectorType n)
    (prm : PropertyTree (VectorType n)) (type : String)
    (h : prepareWeights lib simulator self mat b rs = some (weights, prm))
    (htype : getString self.prm_ "preconditioner.type" = some type)
    (hcpr : type = "cpr" ∨ type = "cprt") :
    (getString self.prm_ "preconditioner.weight_type" = some "quasiimpes" ∧
      (¬ (rs = true ∨ self.solver_.isNone = true) →
        ∃ pvi, getInt self.prm_ "preconditioner.pressure_var_index" = some pvi ∧
          getQuasiImpesWeights lib.solve mat pvi (decide (type = "cprt")) = some weights)) ∨
    (getString self.prm_ "preconditioner.weight_type" = some "trueimpes" ∧
      ∃ pvi, getInt self.prm_ "preconditioner.pressure_var_index" = some pvi ∧
        getTrueImpesWeights lib.solve simulator b pvi = some weights) := by
  unfold prepareWeights at h
  rw [htype] at h
  simp only at h
  rw [if_pos hcpr] at h
  cases hw : getString self.prm_ "preconditioner.weight_type" with
  | none => rw [hw] at h; exact absurd h (by simp)
  | some wt =>
    rw [hw] at h
    simp only at h
    by_cases hq : wt = "quasiimpes"
    · subst hq
      rw [if_pos rfl] at h
      refine Or.inl ⟨rfl, ?_⟩
      intro hkeep
      cases hv : getInt self.prm_ "verbosity" with
      | none => rw [hv] at h; exact absurd h (by simp)
      | some v =>
        rw [hv] at h
        simp only at h
        rw [if_pos hkeep] at h
        cases hp : getInt self.prm_ "preconditioner.pressure_var_index" with
        | none => rw [hp] at h; exact absurd h (by simp)
        | some pvi =>
          rw [hp] at h
          simp only at h
          cases hg : getQuasiImpesWeights lib.solve mat pvi (decide (type = "cprt")) with
          | none => rw [hg] at h; exact absurd h (by simp)
          | some w =>
            rw [hg] at h
            simp only [Option.some.injEq, Prod.mk.injEq] at h
            exact ⟨pvi, rfl, by rw [hg, h.1]⟩
    · rw [if_neg hq] at h
      by_cases ht : wt = "trueimpes"
      · subst ht
        rw [if_pos rfl] at h
        refine Or.inr ⟨rfl, ?_⟩
        cases hv : getInt self.prm_ "verbosity" with
        | none => rw [hv] at h; exact absurd h (by simp)
        | some v =>
          rw [hv] at h
          simp only at h
          cases hp : getInt self.prm_ "preconditioner.pressure_var_index" with
          | none => rw [hp] at h; exact absurd h (by simp)
          | some pvi =>
            rw [hp] at h
            simp only at h
            cases hg : getTrueImpesWeights lib.solve simulator b pvi with
            | none => rw [hg] at h; exact absurd h (by simp)
            | some w =>
              rw [hg] at h
              simp only at h
              refine ⟨pvi, rfl, ?_⟩
              split_ifs at h
              · simp only [Option.some.injEq, Prod.mk.injEq] at h
                rw [hg, h.1]
              · simp only [Option.some.injEq, Prod.mk.injEq] at h
                rw [hg, h.1]
      · rw [if_neg ht] at h
        exact absurd h (by simp)

/-! ## C13: the reuse policy -/

/-- C13: under each of the four reuse policies, a call of `prepare` that returns has
constructed a new solver exactly when there was no solver yet, or the policy is 0, or the
policy is 1 and the Newton iteration number is 0, or the policy is 2 and the last solve
took more than 10 iterations; in every other case the existing solver is kept and the
`update` of its preconditioner has been called. -/
theorem C13_reuse_policy {n : Nat} {S : Type} (HAVE_MPI NDEBUG : Bool)
    (lib : SolverLibrary n S) (simulator : Simulator n)
    (self self1 : ISTLSolverEbosFlexible n S) (mat mat1 : MatrixType n) (b : VectorType n)
    (action : PrepareAction n)
    (hpolicy : self.parameters_.cpr_reuse_setup_ = 0 ∨ self.parameters_.cpr_reuse_setup_ = 1 ∨
      self.parameters_.cpr_reuse_setup_ = 2 ∨ self.parameters_.cpr_reuse_setup_ = 3)
    (hret : prepare HAVE_MPI NDEBUG lib simulator self mat b = some (self1, mat1, action)) :
    (action = PrepareAction.rebuilt ↔
      (self.solver_ = none ∨ self.parameters_.cpr_reuse_setup_ = 0 ∨
        (self.parameters_.cpr_reuse_setup_ = 1 ∧ simulator.numIterations = 0) ∨
        (self.parameters_.cpr_reuse_setup_ = 2 ∧ iterations self > 10))) ∧
    (action = PrepareAction.rebuilt →
      ∃ solver, lib.create self1.prm_ mat1 (isParallel HAVE_MPI self) = some solver ∧
        self1.solver_ = some solver) ∧
    (action ≠ PrepareAction.rebuilt →
      ∃ old weights child solver, self.solver_ = some old ∧
        action = PrepareAction.updated weights child ∧
        get_child self1.prm_ "preconditioner" = some child ∧
        lib.update old weights child = some solver ∧ self1.solver_ = some solver) := by
  obtain ⟨_, rs, weights, prm, hrs, _, hru⟩ :=
    prepare_spec HAVE_MPI NDEBUG lib simulator self self1 mat mat1 b action hret
  obtain ⟨rs1, hrs1, hiff⟩ := recreateSolver_policy NDEBUG _ simulator.numIterations
    (iterations self) hpolicy
  rw [hrs] at hrs1
  simp only [Option.some.injEq] at hrs1
  subst hrs1
  obtain ⟨_, hprm, _, hcase⟩ :=
    rebuildOrUpdate_spec HAVE_MPI lib self self1 mat1 b rs weights prm action hru
  rcases hcase with ⟨hc, hact, solver, hcreate, hs1⟩ | ⟨hrs0, old, child, solver, hold, hch, hact,
    hupd, hs1⟩
  · refine ⟨⟨fun _ => ?_, fun _ => hact⟩, fun _ => ⟨solver, by rw [hprm]; exact hcreate, hs1⟩,
      fun hne => absurd hact hne⟩
    rcases hc with hc | hc
    · exact Or.inr (hiff.mp hc)
    · exact Or.inl hc
  · have hne : action ≠ PrepareAction.rebuilt := by rw [hact]; intro hh; cases hh
    refine ⟨⟨fun hh => absurd hh hne, fun hh => ?_⟩, fun hh => absurd hh hne,
      fun _ => ⟨old, weights, child, solver, hold, hact, by rw [hprm]; exact hch, hupd, hs1⟩⟩
    rcases hh with hh | hh
    · rw [hold] at hh
      cases hh
    · have := hiff.mpr hh
      rw [hrs0] at this
      cases this

/-- C13 at an object that has a solver, policy 2 and a last solve of 3 iterations: the
call returns and the solver is kept and updated. -/
theorem C13_reuse_policy_witness :
    prepare false true (countingLibrary 1) (Simulator.mk 0 [])
      (ISTLSolverEbosFlexible.mk (some 5) (exampleParameters "ilu0" 2)
        (ilu0Tree (exampleParameters "ilu0" 2)) [] (InverseOperatorResult.mk 3 true) false [])
      [] [![1]]
      = some (ISTLSolverEbosFlexible.mk (some 6) (exampleParameters "ilu0" 2)
        (ilu0Tree (exampleParameters "ilu0" 2)) [![1]] (InverseOperatorResult.mk 3 true)
        false [], [],
        PrepareAction.updated []
          [("type", PValue.str "ParOverILU0"), ("relaxation", PValue.real 1.0)]) ∧
    ((PrepareAction.updated []
          [("type", PValue.str "ParOverILU0"), ("relaxation", PValue.real 1.0)]
        = (PrepareAction.rebuilt : PrepareAction 1)) ↔
      ((some 5 : Option Nat) = none ∨ (2 : Int) = 0 ∨ ((2 : Int) = 1 ∧ (0 : Int) = 0) ∨
        ((2 : Int) = 2 ∧ (3 : Int) > 10))) :=
  ⟨rfl, (C13_reuse_policy false true (countingLibrary 1) (Simulator.mk 0 [])
    (ISTLSolverEbosFlexible.mk (some 5) (exampleParameters "ilu0" 2)
      (ilu0Tree (exampleParameters "ilu0" 2)) [] (InverseOperatorResult.mk 3 true) false [])
    _ [] _ [![1]] _ (Or.inr (Or.inr (Or.inl rfl))) rfl).1⟩

/-! ## C15: the weights handed to `update` -/

/-- C15: when a call of `prepare` returns without constructing a new solver and the
preconditioner type is `cpr` or `cprt`, the weights handed to `update` are computed in
this call: for the weight type "quasiimpes" they are
`getQuasiImpesWeights(matrix, pressure_var_index, transpose)` on the matrix of this call
(after the overlap rows were made invalid in a parallel build), `transpose` being set
exactly for `cprt`; for "trueimpes" they are `getTrueImpesWeights(b, pressure_var_index)`
on the `b` of this call. -/
theorem C15_updated_weights_are_fresh {n : Nat} {S : Type} (HAVE_MPI NDEBUG : Bool)
    (lib : SolverLibrary n S) (simulator : Simulator n)
    (self self1 : ISTLSolverEbosFlexible n S) (mat mat1 : MatrixType n) (b : VectorType n)
    (action : PrepareAction n) (type : String)
    (hret : prepare HAVE_MPI NDEBUG lib simulator self mat b = some (self1, mat1, action))
    (hkept : action ≠ PrepareAction.rebuilt)
    (htype : getString self.prm_ "preconditioner.type" = some type)
    (hcpr : type = "cpr" ∨ type = "cprt") :
    (if HAVE_MPI = true then makeOverlapRowsInvalid self.overlapRowAndColumns_ mat
      else some mat) = some mat1 ∧
    ∃ weights child, action = PrepareAction.updated weights child ∧
      ((getString self.prm_ "preconditioner.weight_type" = some "quasiimpes" ∧
          ∃ pvi, getInt self.prm_ "preconditioner.pressure_var_index" = some pvi ∧
            getQuasiImpesWeights lib.solve mat1 pvi (decide (type = "cprt")) = some weights) ∨
        (getString self.prm_ "preconditioner.weight_type" = some "trueimpes" ∧
          ∃ pvi, getInt self.prm_ "preconditioner.pressure_var_index" = some pvi ∧
            getTrueImpesWeights lib.solve simulator b pvi = some weights)) := by
  obtain ⟨hmat, rs, weights, prm, _, hw, hru⟩ :=
    prepare_spec HAVE_MPI NDEBUG lib simulator self self1 mat mat1 b action hret
  obtain ⟨_, _, _, hcase⟩ :=
    rebuildOrUpdate_spec HAVE_MPI lib self self1 mat1 b rs weights prm action hru
  rcases hcase with ⟨_, hact, _⟩ | ⟨hrs0, old, child, solver, hold, _, hact, _, _⟩
  · exact absurd hact hkept
  · refine ⟨hmat, weights, child, hact, ?_⟩
    have hkeep : ¬ (rs = true ∨ self.solver_.isNone = true) := by
      rw [hrs0, hold]
      simp
    rcases prepareWeights_cpr lib simulator self mat1 b rs weights prm type hw htype hcpr with
      ⟨hq, hq2⟩ | ht
    · exact Or.inl ⟨hq, hq2 hkeep⟩
    · exact Or.inr ht

/-- C15 at an object with a solver, the synthesized "cpr_quasiimpes" tree and policy 3,
called with a one-row matrix: the solver is kept, and the weights handed to `update` are
the quasi-IMPES weights of that matrix. -/
theorem C15_updated_weights_are_fresh_witness :
    prepare false true (countingLibrary 2) (Simulator.mk 7 [])
      (ISTLSolverEbosFlexible.mk (some 5) (exampleParameters "cpr_quasiimpes" 3)
        (cprTree (exampleParameters "cpr_quasiimpes" 3)) [] (InverseOperatorResult.mk 30 true)
        false [])
      exampleMatrix [![1, 2]]
      = some (ISTLSolverEbosFlexible.mk (some 6) (exampleParameters "cpr_quasiimpes" 3)
        (cprTree (exampleParameters "cpr_quasiimpes" 3)) [![1, 2]]
        (InverseOperatorResult.mk 30 true) false [], exampleMatrix,
        PrepareAction.updated
          ((getQuasiImpesWeights (countingLibrary 2).solve exampleMatrix 1 false).getD [])
          ((get_child (cprTree (exampleParameters "cpr_quasiimpes" 3)) "preconditioner").getD
            [])) ∧
    ∃ weights child,
      PrepareAction.updated
          ((getQuasiImpesWeights (countingLibrary 2).solve exampleMatrix 1 false).getD [])
          ((get_child (cprTree (exampleParameters "cpr_quasiimpes" 3)) "preconditioner").getD
            [])
        = PrepareAction.updated weights child ∧
      ((getString (cprTree (exampleParameters "cpr_quasiimpes" 3) :
            PropertyTree (VectorType 2)) "preconditioner.weight_type" = some "quasiimpes" ∧
          ∃ pvi, getInt (cprTree (exampleParameters "cpr_quasiimpes" 3) :
              PropertyTree (VectorType 2)) "preconditioner.pressure_var_index" = some pvi ∧
            getQuasiImpesWeights (countingLibrary 2).solve exampleMatrix pvi
              (decide ("cpr" = "cprt")) = some weights) ∨
        (getString (cprTree (exampleParameters "cpr_quasiimpes" 3) :
            PropertyTree (VectorType 2)) "preconditioner.weight_type" = some "trueimpes" ∧
          ∃ pvi, getInt (cprTree (exampleParameters "cpr_quasiimpes" 3) :
              PropertyTree (VectorType 2)) "preconditioner.pressure_var_index" = some pvi ∧
            getTrueImpesWeights (countingLibrary 2).solve (Simulator.mk 7 []) [![1, 2]] pvi
              = some weights)) :=
  ⟨rfl, (C15_updated_weights_are_fresh false true (countingLibrary 2) (Simulator.mk 7 [])
    (ISTLSolverEbosFlexible.mk (some 5) (exampleParameters "cpr_quasiimpes" 3)
      (cprTree (exampleParameters "cpr_quasiimpes" 3)) [] (InverseOperatorResult.mk 30 true)
      false [])
    _ exampleMatrix _ [![1, 2]] _ "cpr" rfl (fun h => PrepareAction.noConfusion h) rfl
    (Or.inl rfl)).2⟩

/-! ## C18: an unknown weight type -/

/-- For a `cpr` or `cprt` preconditioner whose weight type is neither "quasiimpes" nor
"trueimpes" the weight part of `prepare` throws. -/
theorem prepareWeights_unknown_weight_type {n : Nat} {S : Type} (lib : SolverLibrary n S)
    (simulator : Simulator n) (self : ISTLSolverEbosFlexible n S) (mat : MatrixType n)
    (b : VectorType n) (rs : Bool) (type : String)
    (htype : getString self.prm_ "preconditioner.type" = some type)
    (hcpr : type = "cpr" ∨ type = "cprt")
    (hq : getString self.prm_ "preconditioner.weight_type" ≠ some "quasiimpes")
    (ht : getString self.prm_ "preconditioner.weight_type" ≠ some "trueimpes") :
    prepareWeights lib simulator self mat b rs = none := by
  cases h : prepareWeights lib simulator self mat b rs with
  | none => rfl
  | some r =>
    obtain ⟨weights, prm⟩ := r
    rcases prepareWeights_cpr lib simulator self mat b rs weights prm type h htype hcpr with
      ⟨h1, _⟩ | ⟨h1, _⟩
    · exact absurd h1 hq
    · exact absurd h1 ht

/-- C18, counterexample: the configuration read from "options.json" has the
preconditioner type `cpr` and the weight type "foo"; the constructor returns an object for
it, and it is the first call of `prepare` on that object that throws. -/
theorem C18_counterexample :
    ∃ self : ISTLSolverEbosFlexible 2 Nat,
      newISTLSolverEbosFlexible exampleJson
        (FlowLinearSolverParameters.mk (1 / 100) 200 0 "file" "options.json" 0) false []
        = some self ∧
      getString self.prm_ "preconditioner.type" = some "cpr" ∧
      getString self.prm_ "preconditioner.weight_type" = some "foo" ∧
      prepare false true (countingLibrary 2) (Simulator.mk 0 []) self exampleMatrix [![1, 2]]
        = none :=
  ⟨_, rfl, rfl, rfl, rfl⟩

/-- C18, amended: a configuration with an integer `verbosity` whose preconditioner type is
`cpr` or `cprt` and whose weight type is neither "quasiimpes" nor "trueimpes" is accepted
by the constructor, which stores the tree unchanged; it is rejected by `prepare`: every
call of `prepare` on an object holding this tree throws, without constructing or updating
a solver. -/
theorem C18_unknown_weight_type_rejected_by_prepare {n : Nat} {S : Type}
    (read_json : String → Option (PropertyTree (VectorType n)))
    (parameters : FlowLinearSolverParameters) (parallel : Bool)
    (overlapRowAndColumns : List (Nat × List Nat)) (prm : PropertyTree (VectorType n))
    (verbosity : Int) (type : String)
    (hsetup : setupPropertyTree read_json parameters = some prm)
    (hverb : getInt prm "verbosity" = some verbosity)
    (htype : getString prm "preconditioner.type" = some type)
    (hcpr : type = "cpr" ∨ type = "cprt")
    (hq : getString prm "preconditioner.weight_type" ≠ some "quasiimpes")
    (ht : getString prm "preconditioner.weight_type" ≠ some "trueimpes") :
    (∃ self : ISTLSolverEbosFlexible n S,
      newISTLSolverEbosFlexible read_json parameters parallel overlapRowAndColumns = some self ∧
      self.prm_ = prm ∧ self.solver_ = none) ∧
    ∀ (HAVE_MPI NDEBUG : Bool) (lib : SolverLibrary n S) (simulator : Simulator n)
      (self : ISTLSolverEbosFlexible n S) (mat : MatrixType n) (b : VectorType n),
      self.prm_ = prm → prepare HAVE_MPI NDEBUG lib simulator self mat b = none := by
  constructor
  · unfold newISTLSolverEbosFlexible
    rw [hsetup]
    simp only
    rw [hverb]
    exact ⟨_, rfl, rfl, rfl⟩
  · intro HAVE_MPI NDEBUG lib simulator self mat b hprm
    cases h : prepare HAVE_MPI NDEBUG lib simulator self mat b with
    | none => rfl
    | some r =>
      obtain ⟨self1, mat1, action⟩ := r
      obtain ⟨_, rs, weights, prm1, _, hw, _⟩ :=
        prepare_spec HAVE_MPI NDEBUG lib simulator self self1 mat mat1 b action h
      rw [prepareWeights_unknown_weight_type lib simulator self mat1 b rs type
        (by rw [hprm]; exact htype) hcpr (by rw [hprm]; exact hq) (by rw [hprm]; exact ht)] at hw
      exact absurd hw (by simp)

/-- C18, amended, at the configuration of the file "options.json". -/
theorem C18_unknown_weight_type_rejected_by_prepare_witness :
    setupPropertyTree exampleJson
        (FlowLinearSolverParameters.mk (1 / 100) 200 0 "file" "options.json" 0)
      = some [("verbosity", PValue.int 0), ("preconditioner.type", PValue.str "cpr"),
          ("preconditioner.weight_type", PValue.str "foo")] ∧
    (∃ self : ISTLSolverEbosFlexible 2 Nat,
      newISTLSolverEbosFlexible exampleJson
        (FlowLinearSolverParameters.mk (1 / 100) 200 0 "file" "options.json" 0) false []
        = some self ∧
      self.prm_ = [("verbosity", PValue.int 0), ("preconditioner.type", PValue.str "cpr"),
          ("preconditioner.weight_type", PValue.str "foo")] ∧ self.solver_ = none) :=
  ⟨rfl, (C18_unknown_weight_type_rejected_by_prepare exampleJson
    (FlowLinearSolverParameters.mk (1 / 100) 200 0 "file" "options.json" 0) false [] _ 0 "cpr"
    rfl rfl rfl (Or.inl rfl) (by decide) (by decide)).1⟩

/-! ## C14: the never-rebuild policy -/

/-- A call of `solve` that returns leaves the parameters alone, and the object has a
solver afterwards. -/
theorem solve_spec {n : Nat} {S : Type} (lib : SolverLibrary n S)
    (self : ISTLSolverEbosFlexible n S) (x : VectorType n)
    (r : ISTLSolverEbosFlexible n S × VectorType n × Bool) (h : solve lib self x = some r) :
    r.1.parameters_ = self.parameters_ ∧ self.solver_ ≠ none ∧ r.1.solver_ ≠ none := by
  unfold solve at h
  cases hs : self.solver_ with
  | none => rw [hs] at h; exact absurd h (by simp)
  | some solver =>
    rw [hs] at h
    simp only at h
    cases ha : lib.apply solver x self.rhs_ with
    | none => rw [ha] at h; exact absurd h (by simp)
    | some t =>
      obtain ⟨s1, x1, res⟩ := t
      rw [ha] at h
      simp only [Option.some.injEq] at h
      subst h
      exact ⟨rfl, by simp, by simp⟩

/-- Under policy 3 a call of `prepare` that returns stores `b`, constructs the solver when
there is none and updates the existing one otherwise. -/
theorem prepare_never_rebuild {n : Nat} {S : Type} (HAVE_MPI NDEBUG : Bool)
    (lib : SolverLibrary n S) (simulator : Simulator n)
    (self self1 : ISTLSolverEbosFlexible n S) (mat mat1 : MatrixType n) (b : VectorType n)
    (action : PrepareAction n) (hpolicy : self.parameters_.cpr_reuse_setup_ = 3)
    (hret : prepare HAVE_MPI NDEBUG lib simulator self mat b = some (self1, mat1, action)) :
    self1.rhs_ = b ∧ self1.parameters_ = self.parameters_ ∧ self1.solver_ ≠ none ∧
    (self.solver_ = none → action = PrepareAction.rebuilt) ∧
    (self.solver_ ≠ none → ∃ old weights child solver, self.solver_ = some old ∧
      action = PrepareAction.updated weights child ∧
      lib.update old weights child = some solver ∧ self1.solver_ = some solver) := by
  obtain ⟨_, rs, weights, prm, hrs, _, hru⟩ :=
    prepare_spec HAVE_MPI NDEBUG lib simulator self self1 mat mat1 b action hret
  obtain ⟨rs1, hrs1, hiff⟩ := recreateSolver_policy NDEBUG _ simulator.numIterations
    (iterations self) (Or.inr (Or.inr (Or.inr hpolicy)))
  rw [hrs] at hrs1
  simp only [Option.some.injEq] at hrs1
  subst hrs1
  have hrs0 : rs ≠ true := by
    intro hh
    have := hiff.mp hh
    rw [hpolicy] at this
    omega
  obtain ⟨hrhs, _, hpar, hcase⟩ :=
    rebuildOrUpdate_spec HAVE_MPI lib self self1 mat1 b rs weights prm action hru
  rcases hcase with ⟨hc, hact, solver, _, hs1⟩ | ⟨_, old, child, solver, hold, _, hact, hupd, hs1⟩
  · refine ⟨hrhs, hpar, by rw [hs1]; simp, fun _ => hact, fun hne => ?_⟩
    rcases hc with hc | hc
    · exact absurd hc hrs0
    · exact absurd hc hne
  · refine ⟨hrhs, hpar, by rw [hs1]; simp, fun hn => ?_,
      fun _ => ⟨old, weights, child, solver, hold, hact, hupd, hs1⟩⟩
    rw [hold] at hn
    cases hn

/-- Under policy 3, in a sequence of calls that returns, every `prepare` stores its `b`;
it constructs the solver if it is the first call on an object without solver, and updates
the solver that the call before has left otherwise. -/
theorem runCalls_never_rebuild {n : Nat} {S : Type} (HAVE_MPI NDEBUG : Bool)
    (lib : SolverLibrary n S) (calls : List (Call n)) :
    ∀ (self : ISTLSolverEbosFlexible n S) (steps : List (Step n S)),
      self.parameters_.cpr_reuse_setup_ = 3 →
      runCalls HAVE_MPI NDEBUG lib self calls = some steps →
      steps.map (fun st => st.call) = calls ∧
      ∀ (pre : List (Step n S)) (st : Step n S) (post : List (Step n S)),
        steps = pre ++ st :: post →
        ∀ (simulator : Simulator n) (mat : MatrixType n) (b : VectorType n),
          st.call = Call.prepare simulator mat b →
          st.after.rhs_ = b ∧
          (pre = [] ∧ self.solver_ = none → st.action = some PrepareAction.rebuilt) ∧
          (pre ≠ [] ∨ self.solver_ ≠ none →
            ∃ old weights child solver, st.before.solver_ = some old ∧
              st.action = some (PrepareAction.updated weights child) ∧
              lib.update old weights child = some solver ∧
              st.after.solver_ = some solver) := by
  induction calls with
  | nil =>
    intro self steps _ hrun
    simp only [runCalls, Option.some.injEq] at hrun
    subst hrun
    refine ⟨rfl, ?_⟩
    intro pre st post hsplit
    exact absurd hsplit (by simp)
  | cons c cs ih =>
    intro self steps hpolicy hrun
    cases c with
    | prepare simulator mat b =>
      simp only [runCalls] at hrun
      cases hp : prepare HAVE_MPI NDEBUG lib simulator self mat b with
      | none => rw [hp] at hrun; exact absurd hrun (by simp)
      | some r =>
        obtain ⟨self1, mat1, action⟩ := r
        rw [hp] at hrun
        simp only at hrun
        cases hrest : runCalls HAVE_MPI NDEBUG lib self1 cs with
        | none => rw [hrest] at hrun; exact absurd hrun (by simp)
        | some steps1 =>
          rw [hrest] at hrun
          simp only [Option.some.injEq] at hrun
          subst hrun
          obtain ⟨hrhs, hpar, hsome, hnew, hupd⟩ :=
            prepare_never_rebuild HAVE_MPI NDEBUG lib simulator self self1 mat mat1 b action
              hpolicy hp
          obtain ⟨hmap, hall⟩ := ih self1 steps1 (by rw [hpar]; exact hpolicy) hrest
          refine ⟨by simp [hmap], ?_⟩
          intro pre st post hsplit sim2 mat2 b2 hcall
          cases pre with
          | nil =>
            simp only [List.nil_append, List.cons.injEq] at hsplit
            obtain ⟨hst, _⟩ := hsplit
            subst hst
            simp only [Call.prepare.injEq] at hcall
            obtain ⟨_, _, hb⟩ := hcall
            subst hb
            refine ⟨hrhs, fun h => by rw [hnew h.2], fun h => ?_⟩
            rcases h with h | h
            · exact absurd rfl h
            · obtain ⟨old, weights, child, solver, h1, h2, h3, h4⟩ := hupd h
              exact ⟨old, weights, child, solver, h1, by rw [h2], h3, h4⟩
          | cons p0 pre1 =>
            simp only [List.cons_append, List.cons.injEq] at hsplit
            obtain ⟨_, hsplit1⟩ := hsplit
            obtain ⟨h1, _, h3⟩ := hall pre1 st post hsplit1 sim2 mat2 b2 hcall
            exact ⟨h1, fun h => absurd h.1 (by simp), fun _ => h3 (Or.inr hsome)⟩
    | solve x =>
      simp only [runCalls] at hrun
      cases hp : solve lib self x with
      | none => rw [hp] at hrun; exact absurd hrun (by simp)
      | some r =>
        rw [hp] at hrun
        simp only at hrun
        cases hrest : runCalls HAVE_MPI NDEBUG lib r.1 cs with
        | none => rw [hrest] at hrun; exact absurd hrun (by simp)
        | some steps1 =>
          rw [hrest] at hrun
          simp only [Option.some.injEq] at hrun
          subst hrun
          obtain ⟨hpar, _, hsome⟩ := solve_spec lib self x r hp
          obtain ⟨hmap, hall⟩ := ih r.1 steps1 (by rw [hpar]; exact hpolicy) hrest
          refine ⟨by simp [hmap], ?_⟩
          intro pre st post hsplit sim2 mat2 b2 hcall
          cases pre with
          | nil =>
            simp only [List.nil_append, List.cons.injEq] at hsplit
            obtain ⟨hst, _⟩ := hsplit
            subst hst
            cases hcall
          | cons p0 pre1 =>
            simp only [List.cons_append, List.cons.injEq] at hsplit
            obtain ⟨_, hsplit1⟩ := hsplit
            obtain ⟨h1, _, h3⟩ := hall pre1 st post hsplit1 sim2 mat2 b2 hcall
            exact ⟨h1, fun h => absurd h.1 (by simp), fun _ => h3 (Or.inr hsome)⟩

/-- C14: under the never-rebuild policy (`cpr_reuse_setup_ == 3`), in every sequence of
calls of `prepare` and `solve` that returns, on an object that starts without solver,
the first call constructs the solver if it is a `prepare`, and every later `prepare`,
whatever the Newton iteration number and the iteration count of the last solve, keeps the
solver that the call before has left, calls the `update` of its preconditioner and stores
the `b` of that call as right-hand side. -/
theorem C14_never_rebuild_after_first_prepare {n : Nat} {S : Type} (HAVE_MPI NDEBUG : Bool)
    (lib : SolverLibrary n S) (self : ISTLSolverEbosFlexible n S) (calls : List (Call n))
    (steps : List (Step n S)) (hnew : self.solver_ = none)
    (hpolicy : self.parameters_.cpr_reuse_setup_ = 3)
    (hrun : runCalls HAVE_MPI NDEBUG lib self calls = some steps) :
    steps.map (fun st => st.call) = calls ∧
    ∀ (pre : List (Step n S)) (st : Step n S) (post : List (Step n S)),
      steps = pre ++ st :: post →
      ∀ (simulator : Simulator n) (mat : MatrixType n) (b : VectorType n),
        st.call = Call.prepare simulator mat b →
        st.after.rhs_ = b ∧
        (pre = [] → st.action = some PrepareAction.rebuilt) ∧
        (pre ≠ [] →
          ∃ old weights child solver, st.before.solver_ = some old ∧
            st.action = some (PrepareAction.updated weights child) ∧
            lib.update old weights child = some solver ∧
            st.after.solver_ = some solver) := by
  obtain ⟨hmap, hall⟩ := runCalls_never_rebuild HAVE_MPI NDEBUG lib calls self steps hpolicy hrun
  refine ⟨hmap, ?_⟩
  intro pre st post hsplit simulator mat b hcall
  obtain ⟨h1, h2, h3⟩ := hall pre st post hsplit simulator mat b hcall
  exact ⟨h1, fun h => h2 ⟨h, hnew⟩, fun h => h3 (Or.inl h)⟩

/-- C14 at a `prepare`, a `solve` and a second `prepare` on an object without solver: the
calls return, and the second `prepare` keeps the solver and updates it. -/
theorem C14_never_rebuild_after_first_prepare_witness :
    (exampleObject none [] (InverseOperatorResult.mk 0 false)).solver_ = none ∧
    (exampleObject none [] (InverseOperatorResult.mk 0 false)).parameters_.cpr_reuse_setup_
      = 3 ∧
    runCalls false true (countingLibrary 1)
      (exampleObject none [] (InverseOperatorResult.mk 0 false)) exampleCalls
      = some exampleSteps ∧
    ∃ old weights child solver,
      (exampleObject (some 0) [![1]] (InverseOperatorResult.mk 3 true)).solver_ = some old ∧
      some (PrepareAction.updated []
          [("type", PValue.str "ParOverILU0"), ("relaxation", PValue.real 1.0)])
        = some (PrepareAction.updated weights child) ∧
      (countingLibrary 1).update old weights child = some solver ∧
      (exampleObject (some 1) [![2]] (InverseOperatorResult.mk 3 true)).solver_
        = some solver :=
  ⟨rfl, rfl, rfl,
    ((C14_never_rebuild_after_first_prepare false true (countingLibrary 1)
      (exampleObject none [] (InverseOperatorResult.mk 0 false)) exampleCalls exampleSteps
      rfl rfl rfl).2 (exampleSteps.take 2) _ [] rfl (Simulator.mk 5 []) [] [![2]] rfl).2.2
      (fun h => List.noConfusion h)⟩

/-! ## C16: the overlap rows -/

/-- Setting the diagonal entries one after the other. -/
theorem foldl_setEntry_diag {n : Nat} (v : ℚ) (l : List (Fin n)) (M : MatrixBlock n)
    (i j : Fin n) :
    (l.foldl (fun diag_block eq => setEntry diag_block eq eq v) M) i j
      = if i = j ∧ i ∈ l then v else M i j := by
  induction l generalizing M with
  | nil => simp
  | cons a l ih =>
    rw [List.foldl_cons, ih]
    by_cases h1 : i = j ∧ i ∈ l
    · have : i = j ∧ i ∈ a :: l := ⟨h1.1, List.mem_cons_of_mem _ h1.2⟩
      rw [if_pos h1, if_pos this]
    · rw [if_neg h1]
      by_cases ha : i = a
      · subst ha
        by_cases hj : i = j
        · subst hj
          simp [setEntry]
        · simp [setEntry, hj, Function.update_noteq (Ne.symm hj)]
      · have : ¬ (i = j ∧ i ∈ a :: l) := by
          intro hh
          rcases List.mem_cons.mp hh.2 with h | h
          · exact ha h
          · exact h1 ⟨hh.1, h⟩
        rw [if_neg this]
        simp [setEntry, Function.update_noteq ha]

/-- The block put on the diagonal of an overlap row is `1e100` times the identity. -/
theorem overlapDiagBlock_eq (n : Nat) :
    overlapDiagBlock n = (1.0e100 : ℚ) • (1 : MatrixBlock n) := by
  funext i j
  unfold overlapDiagBlock
  rw [foldl_setEntry_diag]
  by_cases h : i = j
  · subst h
    simp
  · simp [h, Matrix.one_apply_ne h]

/-- The blocks of a row after the assignment to the block at column `ncell`. -/
theorem setBlockInRow_find {n : Nat} (ncell : Nat) (v : MatrixBlock n)
    (row row1 : List (Nat × MatrixBlock n)) (h : setBlockInRow ncell v row = some row1)
    (j : Nat) :
    (row1.find? (fun e => e.1 = j)).map (fun e => e.2)
      = if j = ncell then some v else (row.find? (fun e => e.1 = j)).map (fun e => e.2) := by
  induction row generalizing row1 with
  | nil => exact absurd h (by simp [setBlockInRow])
  | cons e es ih =>
    unfold setBlockInRow at h
    by_cases he : e.1 = ncell
    · rw [if_pos he] at h
      simp only [Option.some.injEq] at h
      subst h
      by_cases hj : j = ncell
      · simp [hj, he]
      · have : ¬ e.1 = j := by rw [he]; exact fun hh => hj hh.symm
        simp [hj, List.find?_cons, this]
    · rw [if_neg he] at h
      cases hr : setBlockInRow ncell v es with
      | none => rw [hr] at h; exact absurd h (by simp)
      | some r =>
        rw [hr] at h
        simp only [Option.map_some', Option.some.injEq] at h
        subst h
        have ih1 := ih r hr
        by_cases hej : e.1 = j
        · have : ¬ j = ncell := by rw [← hej]; exact he
          simp [List.find?_cons, hej, this]
        · simp only [List.find?_cons, hej, decide_False]
          exact ih1

/-- The blocks of a matrix after the assignment `matrix[lcell][ncell] = v`. -/
theorem setBlock_stored {n : Nat} (matrix matrix1 : MatrixType n) (lcell ncell : Nat)
    (v : MatrixBlock n) (h : setBlock matrix lcell ncell v = some matrix1) (i j : Nat) :
    storedBlock matrix1 i j
      = if i = lcell ∧ j = ncell then some v else storedBlock matrix i j := by
  unfold setBlock at h
  by_cases hl : lcell < matrix.length
  · rw [if_pos hl] at h
    cases hr : setBlockInRow ncell v (matrix.getD lcell []) with
    | none => rw [hr] at h; exact absurd h (by simp)
    | some r =>
      rw [hr] at h
      simp only [Option.map_some', Option.some.injEq] at h
      subst h
      unfold storedBlock
      rw [getD_set]
      by_cases hi : lcell = i
      · subst hi
        rw [if_pos ⟨rfl, hl⟩, setBlockInRow_find ncell v _ r hr j]
        by_cases hj : j = ncell
        · simp [hj]
        · simp [hj]
      · have h1 : ¬ (lcell = i ∧ lcell < matrix.length) := fun hh => hi hh.1
        have h2 : ¬ (i = lcell ∧ j = ncell) := fun hh => hi hh.1.symm
        rw [if_neg h1, if_neg h2]
  · rw [if_neg hl] at h
    exact absurd h (by simp)

/-- Once an assignment has thrown, the loop over the listed columns does nothing more. -/
theorem foldl_zeroColumn_none {n : Nat} (lcell : Nat) (cols : List Nat) :
    cols.foldl (zeroColumn lcell) (none : Option (MatrixType n)) = none := by
  induction cols with
  | nil => rfl
  | cons c cs ih => rw [List.foldl_cons]; exact ih

/-- The blocks of a matrix after the loop over the listed columns of an overlap row. -/
theorem foldl_zeroColumn_stored {n : Nat} (lcell : Nat) (cols : List Nat) :
    ∀ (matrix matrix1 : MatrixType n),
      cols.foldl (zeroColumn lcell) (some matrix) = some matrix1 →
      ∀ i j, storedBlock matrix1 i j
        = if i = lcell ∧ j ∈ cols then some (0 : MatrixBlock n) else storedBlock matrix i j := by
  induction cols with
  | nil =>
    intro matrix matrix1 h i j
    simp only [List.foldl_nil, Option.some.injEq] at h
    subst h
    simp
  | cons c cs ih =>
    intro matrix matrix1 h i j
    rw [List.foldl_cons] at h
    cases hz : zeroColumn lcell (some matrix) c with
    | none => rw [hz, foldl_zeroColumn_none] at h; exact absurd h (by simp)
    | some m1 =>
      rw [hz] at h
      rw [ih m1 matrix1 h i j]
      have hs := setBlock_stored matrix m1 lcell c 0 hz i j
      by_cases h1 : i = lcell ∧ j ∈ cs
      · have : i = lcell ∧ j ∈ c :: cs := ⟨h1.1, List.mem_cons_of_mem _ h1.2⟩
        rw [if_pos h1, if_pos this]
      · rw [if_neg h1, hs]
        by_cases h2 : i = lcell ∧ j = c
        · have : i = lcell ∧ j ∈ c :: cs := ⟨h2.1, by rw [h2.2]; exact List.mem_cons_self _ _⟩
          rw [if_pos h2, if_pos this]
        · have : ¬ (i = lcell ∧ j ∈ c :: cs) := by
            intro hh
            rcases List.mem_cons.mp hh.2 with h3 | h3
            · exact h2 ⟨hh.1, h3⟩
            · exact h1 ⟨hh.1, h3⟩
          rw [if_neg h2, if_neg this]

/-- The blocks of a matrix after one overlap row, not listed among its own columns, has
been made invalid. -/
theorem invalidateRow_stored {n : Nat} (matrix matrix1 : MatrixType n) (row : Nat × List Nat)
    (hrow : row.1 ∉ row.2) (h : invalidateRow (some matrix) row = some matrix1) (i j : Nat) :
    storedBlock matrix1 i j
      = if i = row.1 ∧ j = row.1 then some (overlapDiagBlock n)
        else if i = row.1 ∧ j ∈ row.2 then some (0 : MatrixBlock n)
        else storedBlock matrix i j := by
  unfold invalidateRow at h
  simp only at h
  cases hd : setBlock matrix row.1 row.1 (overlapDiagBlock n) with
  | none => rw [hd, foldl_zeroColumn_none] at h; exact absurd h (by simp)
  | some m1 =>
    rw [hd] at h
    rw [foldl_zeroColumn_stored row.1 row.2 m1 matrix1 h i j,
      setBlock_stored matrix m1 row.1 row.1 _ hd i j]
    by_cases h1 : i = row.1 ∧ j = row.1
    · have : ¬ (i = row.1 ∧ j ∈ row.2) := by
        intro hh
        rw [h1.2] at hh
        exact hrow hh.2
      rw [if_neg this, if_pos h1, if_pos h1]
    · rw [if_neg h1]
      by_cases h2 : i = row.1 ∧ j ∈ row.2
      · rw [if_pos h2, if_neg h1]
      · rw [if_neg h2, if_neg h1]

/-- Once an overlap row has thrown, the loop over the overlap rows does nothing more. -/
theorem foldl_invalidateRow_none {n : Nat} (rows : List (Nat × List Nat)) :
    rows.foldl invalidateRow (none : Option (MatrixType n)) = none := by
  induction rows with
  | nil => rfl
  | cons c cs ih => rw [List.foldl_cons]; exact ih

/-- The blocks of a matrix after `makeOverlapRowsInvalid`, when no overlap row is listed
among its own columns: the diagonal block of every listed row is `diag_block`, the blocks
at its listed columns are zero, and every other block keeps its value. -/
theorem makeOverlapRowsInvalid_stored {n : Nat} (rows : List (Nat × List Nat)) :
    ∀ (matrix matrix1 : MatrixType n), (∀ row ∈ rows, row.1 ∉ row.2) →
      makeOverlapRowsInvalid rows matrix = some matrix1 →
      ∀ i j,
        ((∃ row ∈ rows, row.1 = i) → storedBlock matrix1 i i = some (overlapDiagBlock n)) ∧
        ((∃ row ∈ rows, row.1 = i ∧ j ∈ row.2) →
          storedBlock matrix1 i j = some (0 : MatrixBlock n)) ∧
        ((¬ ∃ row ∈ rows, row.1 = i ∧ (j = i ∨ j ∈ row.2)) →
          storedBlock matrix1 i j = storedBlock matrix i j) := by
  induction rows with
  | nil =>
    intro matrix matrix1 _ h i j
    simp only [makeOverlapRowsInvalid, List.foldl_nil, Option.some.injEq] at h
    subst h
    simp
  | cons r rs ih =>
    intro matrix matrix1 hrows h i j
    unfold makeOverlapRowsInvalid at h
    rw [List.foldl_cons] at h
    cases hr : invalidateRow (some matrix) r with
    | none => rw [hr, foldl_invalidateRow_none] at h; exact absurd h (by simp)
    | some m1 =>
      rw [hr] at h
      have hr1 : r.1 ∉ r.2 := hrows r (List.mem_cons_self _ _)
      have hrs : ∀ row ∈ rs, row.1 ∉ row.2 := fun row hm => hrows row (List.mem_cons_of_mem _ hm)
      have hst := invalidateRow_stored matrix m1 r hr1 hr
      have hih := ih m1 matrix1 hrs h
      refine ⟨?_, ?_, ?_⟩
      · rintro ⟨row, hm, hrow⟩
        by_cases hex : ∃ row ∈ rs, row.1 = i
        · exact (hih i i).1 hex
        · have hri : r.1 = i := by
            rcases List.mem_cons.mp hm with h1 | h1
            · rw [← h1]; exact hrow
            · exact absurd ⟨row, h1, hrow⟩ hex
          have hno : ¬ ∃ row ∈ rs, row.1 = i ∧ (i = i ∨ i ∈ row.2) := by
            rintro ⟨row2, hm2, hrow2, _⟩
            exact hex ⟨row2, hm2, hrow2⟩
          rw [(hih i i).2.2 hno, hst i i, if_pos ⟨hri.symm, hri.symm⟩]
      · rintro ⟨row, hm, hrow, hj⟩
        by_cases hex : ∃ row ∈ rs, row.1 = i ∧ j ∈ row.2
        · exact (hih i j).2.1 hex
        · have hri : r.1 = i ∧ j ∈ r.2 := by
            rcases List.mem_cons.mp hm with h1 | h1
            · rw [← h1]; exact ⟨hrow, hj⟩
            · exact absurd ⟨row, h1, hrow, hj⟩ hex
          have hji : j ≠ i := by
            intro hh
            rw [hh, ← hri.1] at hri
            exact hr1 hri.2
          have hno : ¬ ∃ row ∈ rs, row.1 = i ∧ (j = i ∨ j ∈ row.2) := by
            rintro ⟨row2, hm2, hrow2, h3⟩
            rcases h3 with h3 | h3
            · exact hji h3
            · exact hex ⟨row2, hm2, hrow2, h3⟩
          have h4 : ¬ (i = r.1 ∧ j = r.1) := by
            intro hh
            exact hji (by rw [hh.2, ← hh.1])
          rw [(hih i j).2.2 hno, hst i j, if_neg h4, if_pos ⟨hri.1.symm, hri.2⟩]
      · intro hno
        have hno2 : ¬ ∃ row ∈ rs, row.1 = i ∧ (j = i ∨ j ∈ row.2) := by
          rintro ⟨row2, hm2, h3⟩
          exact hno ⟨row2, List.mem_cons_of_mem _ hm2, h3⟩
        have h4 : ¬ (i = r.1 ∧ j = r.1) := by
          intro hh
          exact hno ⟨r, List.mem_cons_self _ _, hh.1.symm, Or.inl (by rw [hh.2, ← hh.1])⟩
        have h5 : ¬ (i = r.1 ∧ j ∈ r.2) := by
          intro hh
          exact hno ⟨r, List.mem_cons_self _ _, hh.1.symm, Or.inr hh.2⟩
        rw [(hih i j).2.2 hno2, hst i j, if_neg h4, if_neg h5]

/-- C16, evaluation at the failing input: row 0 of the matrix stores the off-diagonal
block 7 at column 1; with the overlap entry `(0, [])`, which lists no column,
`makeOverlapRowsInvalid` sets the diagonal block of row 0 and leaves the block at column 1
as it is, so an off-diagonal block of the overlap row 0 is not zero afterwards. -/
theorem C16_overlap_rows_failing_input :
    makeOverlapRowsInvalid [(0, [])] exampleOverlapMatrix
      = some [[(0, overlapDiagBlock 1), (1, !![7])], [(1, !![3])]] ∧
    storedBlock ([[(0, overlapDiagBlock 1), (1, !![7])], [(1, !![3])]] : MatrixType 1) 0 1
      = some !![7] ∧
    (!![7] : MatrixBlock 1) ≠ 0 := by
  refine ⟨rfl, rfl, ?_⟩
  intro h
  have h1 := congrFun (congrFun h 0) 0
  simp at h1

/-- What `makeOverlapRowsInvalid` writes: when it returns and no overlap row is listed
among its own columns, then for every entry `(lcell, columns)` of `overlapRowAndColumns_`
the diagonal block of row `lcell` is `1e100` times the identity and the block at every
listed column is zero; a block of row `lcell` at a column that no entry of the row lists
keeps its value; so every stored off-diagonal block of the row is zero when the entry
lists every off-diagonal column that the row stores.  In a parallel build every `prepare`
that returns hands back the matrix so changed. -/
theorem makeOverlapRowsInvalid_listed_blocks {n : Nat}
    (overlapRowAndColumns_ : List (Nat × List Nat)) (matrix matrix1 : MatrixType n)
    (hrows : ∀ row ∈ overlapRowAndColumns_, row.1 ∉ row.2)
    (hret : makeOverlapRowsInvalid overlapRowAndColumns_ matrix = some matrix1) :
    (∀ row ∈ overlapRowAndColumns_,
      storedBlock matrix1 row.1 row.1 = some ((1.0e100 : ℚ) • (1 : MatrixBlock n)) ∧
      (∀ ncell ∈ row.2, storedBlock matrix1 row.1 ncell = some (0 : MatrixBlock n)) ∧
      (∀ j, (¬ ∃ r ∈ overlapRowAndColumns_, r.1 = row.1 ∧ (j = row.1 ∨ j ∈ r.2)) →
        storedBlock matrix1 row.1 j = storedBlock matrix row.1 j) ∧
      ((∀ j, j ≠ row.1 → storedBlock matrix row.1 j ≠ none → j ∈ row.2) →
        ∀ j B, j ≠ row.1 → storedBlock matrix1 row.1 j = some B → B = 0)) ∧
    (∀ (S : Type) (NDEBUG : Bool) (lib : SolverLibrary n S) (simulator : Simulator n)
      (self self1 : ISTLSolverEbosFlexible n S) (b : VectorType n) (mat1 : MatrixType n)
      (action : PrepareAction n),
      self.overlapRowAndColumns_ = overlapRowAndColumns_ →
      prepare true NDEBUG lib simulator self matrix b = some (self1, mat1, action) →
      mat1 = matrix1) := by
  have hst := makeOverlapRowsInvalid_stored overlapRowAndColumns_ matrix matrix1 hrows hret
  constructor
  · intro row hrow
    refine ⟨?_, ?_, ?_, ?_⟩
    · rw [← overlapDiagBlock_eq]
      exact (hst row.1 row.1).1 ⟨row, hrow, rfl⟩
    · intro ncell hn
      exact (hst row.1 ncell).2.1 ⟨row, hrow, rfl, hn⟩
    · intro j hj
      exact (hst row.1 j).2.2 hj
    · intro hall j B hj hB
      by_cases hex : ∃ r ∈ overlapRowAndColumns_, r.1 = row.1 ∧ j ∈ r.2
      · rw [(hst row.1 j).2.1 hex] at hB
        simp only [Option.some.injEq] at hB
        exact hB.symm
      · have hno : ¬ ∃ r ∈ overlapRowAndColumns_, r.1 = row.1 ∧ (j = row.1 ∨ j ∈ r.2) := by
          rintro ⟨r, hr, h1, h2⟩
          rcases h2 with h2 | h2
          · exact hj h2
          · exact hex ⟨r, hr, h1, h2⟩
        rw [(hst row.1 j).2.2 hno] at hB
        have hmem := hall j hj (by rw [hB]; simp)
        exact absurd ⟨row, hrow, rfl, hmem⟩ hex
  · intro S NDEBUG lib simulator self self1 b mat1 action hself hprep
    obtain ⟨hm, _⟩ := prepare_spec true NDEBUG lib simulator self self1 matrix mat1 b action hprep
    rw [if_pos rfl, hself, hret] at hm
    simp only [Option.some.injEq] at hm
    exact hm.symm

/-- The overlap entry `(0, [1])`, which lists the off-diagonal column of row 0: all of
row 0 is invalidated. -/
theorem makeOverlapRowsInvalid_listed_blocks_example :
    (∀ row ∈ [((0 : Nat), [(1 : Nat)])], row.1 ∉ row.2) ∧
    makeOverlapRowsInvalid [(0, [1])] exampleOverlapMatrix
      = some [[(0, overlapDiagBlock 1), (1, 0)], [(1, !![3])]] ∧
    storedBlock ([[(0, overlapDiagBlock 1), (1, 0)], [(1, !![3])]] : MatrixType 1) 0 0
      = some ((1.0e100 : ℚ) • (1 : MatrixBlock 1)) ∧
    (∀ ncell ∈ [(1 : Nat)],
      storedBlock ([[(0, overlapDiagBlock 1), (1, 0)], [(1, !![3])]] : MatrixType 1) 0 ncell
        = some (0 : MatrixBlock 1)) :=
  ⟨by decide, rfl,
    ((makeOverlapRowsInvalid_listed_blocks [(0, [1])] exampleOverlapMatrix _ (by decide) rfl).1
      (0, [1]) (List.mem_singleton.mpr rfl)).1,
    ((makeOverlapRowsInvalid_listed_blocks [(0, [1])] exampleOverlapMatrix _ (by decide) rfl).1
      (0, [1]) (List.mem_singleton.mpr rfl)).2.1⟩

/-! ## C20: the quasi-IMPES weights -/

/-- The inner loop of `transposeDenseMatrix` writes row `i` of `M` into column `i`. -/
theorem foldl_setEntry_column {n : Nat} (M : MatrixBlock n) (i : Fin n) (l : List (Fin n))
    (tmp : MatrixBlock n) (a b : Fin n) :
    (l.foldl (fun tmp j => setEntry tmp j i (M i j)) tmp) a b
      = if b = i ∧ a ∈ l then M i a else tmp a b := by
  induction l generalizing tmp with
  | nil => simp
  | cons c l ih =>
    rw [List.foldl_cons, ih]
    by_cases h1 : b = i ∧ a ∈ l
    · have : b = i ∧ a ∈ c :: l := ⟨h1.1, List.mem_cons_of_mem _ h1.2⟩
      rw [if_pos h1, if_pos this]
    · rw [if_neg h1]
      by_cases ha : a = c
      · subst ha
        by_cases hb : b = i
        · subst hb
          simp [setEntry]
        · simp [setEntry, hb, Function.update_noteq hb]
      · have : ¬ (b = i ∧ a ∈ c :: l) := by
          intro hh
          rcases List.mem_cons.mp hh.2 with h | h
          · exact ha h
          · exact h1 ⟨hh.1, h⟩
        rw [if_neg this]
        simp [setEntry, Function.update_noteq ha]

/-- The outer loop of `transposeDenseMatrix` over the rows `l` of `M`. -/
theorem foldl_transpose_rows {n : Nat} (M : MatrixBlock n) (l : List (Fin n))
    (tmp : MatrixBlock n) (a b : Fin n) :
    (l.foldl (fun tmp i => (List.finRange n).foldl (fun tmp j => setEntry tmp j i (M i j)) tmp)
      tmp) a b = if b ∈ l then M b a else tmp a b := by
  induction l generalizing tmp with
  | nil => simp
  | cons c l ih =>
    rw [List.foldl_cons, ih, foldl_setEntry_column]
    by_cases h1 : b ∈ l
    · rw [if_pos h1, if_pos (List.mem_cons_of_mem _ h1)]
    · rw [if_neg h1]
      by_cases hb : b = c
      · subst hb
        simp [List.mem_finRange]
      · have : b ∉ c :: l := by
          intro hh
          rcases List.mem_cons.mp hh with h | h
          · exact hb h
          · exact h1 h
        rw [if_neg this]
        simp [hb]

/-- `transposeDenseMatrix` returns the transpose. -/
theorem transposeDenseMatrix_eq {n : Nat} (M : MatrixBlock n) :
    transposeDenseMatrix M = M.transpose := by
  funext a b
  unfold transposeDenseMatrix
  rw [foldl_transpose_rows]
  simp [List.mem_finRange, Matrix.transpose_apply]

/-- The block `rhs` is the unit vector of the pressure index. -/
theorem pressureRhs_eq {n : Nat} (p : Nat) (hp : p < n) :
    (pressureRhs (p : Int) : BlockVector n) = Pi.single (⟨p, hp⟩ : Fin n) 1 := by
  funext k
  unfold pressureRhs
  by_cases h : k = ⟨p, hp⟩
  · subst h
    simp
  · have : ¬ ((k : Nat) : Int) = (p : Int) := by
      intro hh
      apply h
      apply Fin.ext
      exact_mod_cast hh
    simp [this, Pi.single_apply, h]

/-- The search of the diagonal block returns the block stored at column `i`. -/
theorem findDiagBlock_eq {n : Nat} (i : Nat) (row : List (Nat × MatrixBlock n))
    (d D : MatrixBlock n)
    (h : (row.find? (fun e => e.1 = i)).map (fun e => e.2) = some D) :
    findDiagBlock i row d = D := by
  induction row with
  | nil => simp at h
  | cons e es ih =>
    unfold findDiagBlock
    by_cases he : i = e.1
    · rw [if_pos he]
      simp [List.find?_cons, he.symm] at h
      exact h
    · rw [if_neg he]
      apply ih
      have : ¬ e.1 = i := fun hh => he hh.symm
      simpa [List.find?_cons, this] using h

/-- The loop of `std::max_element`: the result is the start value or an element of the
range, and no start value or element has a larger magnitude. -/
theorem foldl_max_abs (l : List ℚ) (x : ℚ) :
    (l.foldl (fun largest y => if |largest| < |y| then y else largest) x ∈ x :: l) ∧
    ∀ y ∈ x :: l, |y| ≤ |l.foldl (fun largest y => if |largest| < |y| then y else largest) x| := by
  induction l generalizing x with
  | nil => simp
  | cons a l ih =>
    rw [List.foldl_cons]
    by_cases h : |x| < |a|
    · rw [if_pos h]
      obtain ⟨h1, h2⟩ := ih a
      refine ⟨List.mem_cons_of_mem _ h1, ?_⟩
      intro y hy
      rcases List.mem_cons.mp hy with hy | hy
      · rw [hy]
        exact le_trans (le_of_lt h) (h2 a (List.mem_cons_self _ _))
      · exact h2 y hy
    · rw [if_neg h]
      obtain ⟨h1, h2⟩ := ih x
      refine ⟨?_, ?_⟩
      · rcases List.mem_cons.mp h1 with h3 | h3
        · rw [h3]; exact List.mem_cons_self _ _
        · exact List.mem_cons_of_mem _ (List.mem_cons_of_mem _ h3)
      · intro y hy
        rcases List.mem_cons.mp hy with hy | hy
        · rw [hy]; exact h2 x (List.mem_cons_self _ _)
        · rcases List.mem_cons.mp hy with hy | hy
          · rw [hy]
            exact le_trans (not_lt.mp h) (h2 x (List.mem_cons_self _ _))
          · exact h2 y (List.mem_cons_of_mem _ hy)

/-- On a non-empty range `maxElementAbs` returns an element of largest magnitude. -/
theorem maxElementAbs_spec (l : List ℚ) (hl : l ≠ []) :
    ∃ m, maxElementAbs l = some m ∧ m ∈ l ∧ ∀ y ∈ l, |y| ≤ |m| := by
  cases l with
  | nil => exact absurd rfl hl
  | cons x xs =>
    obtain ⟨h1, h2⟩ := foldl_max_abs xs x
    exact ⟨_, rfl, h1, h2⟩

/-- The solver `exactSolve` is exact. -/
theorem exactSolve_exact {n : Nat} : ExactSolver (exactSolve : MatrixBlock n → _ → _) := by
  intro D b hD
  refine ⟨_, by unfold exactSolve; rw [if_neg hD], ?_⟩
  have : (fun k => Matrix.cramer D b k / D.det) = (D.det)⁻¹ • Matrix.cramer D b := by
    funext k
    simp [div_eq_inv_mul]
  rw [this, Matrix.mulVec_smul, Matrix.mulVec_cramer, smul_smul, inv_mul_cancel₀ hD, one_smul]

/-- One pass of the loop over the block rows: for an invertible diagonal block and an
exact dense solver the pass returns, and the block of weights it stores is the normalized
solution. -/
theorem quasiImpesRow_spec {n : Nat}
    (solve : MatrixBlock n → BlockVector n → Option (BlockVector n)) (hsolve : ExactSolver solve)
    (A : MatrixType n) (p : Nat) (hp : p < n) (transpose : Bool) (weights : VectorType n)
    (i : Nat) (D : MatrixBlock n) (hD : storedBlock A i i = some D) (hdet : D.det ≠ 0) :
    ∃ v, IsQuasiImpesWeight D ⟨p, hp⟩ transpose v ∧
      quasiImpesRow solve A (p : Int) transpose (some weights) i = some (weights.set i v) := by
  have hfind : findDiagBlock i (A.getD i []) (0 : MatrixBlock n) = D :=
    findDiagBlock_eq i _ 0 D hD
  have hkey : ∃ w, (if transpose = true then solve D (pressureRhs (p : Int))
        else solve (transposeDenseMatrix D) (pressureRhs (p : Int))) = some w ∧
      (if transpose = true then D.mulVec w else D.transpose.mulVec w)
        = Pi.single (⟨p, hp⟩ : Fin n) 1 := by
    cases transpose with
    | true =>
      obtain ⟨w, h1, h2⟩ := hsolve D (pressureRhs (p : Int)) hdet
      exact ⟨w, by simpa using h1, by simpa [pressureRhs_eq p hp] using h2⟩
    | false =>
      have hdet2 : D.transpose.det ≠ 0 := by rw [Matrix.det_transpose]; exact hdet
      obtain ⟨w, h1, h2⟩ := hsolve D.transpose (pressureRhs (p : Int)) hdet2
      exact ⟨w, by simpa [transposeDenseMatrix_eq] using h1,
        by simpa [pressureRhs_eq p hp] using h2⟩
  obtain ⟨w, hw1, hw2⟩ := hkey
  have hne : List.ofFn w ≠ [] := by
    intro hh
    have := congrArg List.length hh
    simp at this
    omega
  obtain ⟨m, hm1, hm2, hm3⟩ := maxElementAbs_spec (List.ofFn w) hne
  obtain ⟨km, hkm⟩ := (List.mem_ofFn w m).mp hm2
  have hle : ∀ k, |w k| ≤ |m| := fun k => hm3 (w k) ((List.mem_ofFn w (w k)).mpr ⟨k, rfl⟩)
  have hpos : 0 < |m| := by
    rcases lt_or_eq_of_le (abs_nonneg m) with h | h
    · exact h
    · exfalso
      have hzero : w = 0 := by
        funext k
        have := hle k
        rw [← h] at this
        exact abs_eq_zero.mp (le_antisymm this (abs_nonneg _))
      rw [hzero] at hw2
      have h1 := congrFun hw2 ⟨p, hp⟩
      cases transpose <;> simp at h1
  refine ⟨fun k => w k / |m|, ⟨w, |m|, hw2, hpos, hle, ⟨km, by rw [hkm]⟩, rfl⟩, ?_⟩
  unfold quasiImpesRow
  simp only [hfind]
  rw [hw1]
  simp only [hm1]

/-- The normalized solution has entries of magnitude at most 1, one of them of magnitude
exactly 1. -/
theorem isQuasiImpesWeight_unit {n : Nat} (D : MatrixBlock n) (p : Fin n) (transpose : Bool)
    (v : BlockVector n) (h : IsQuasiImpesWeight D p transpose v) :
    (∀ k, |v k| ≤ 1) ∧ ∃ k, |v k| = 1 := by
  obtain ⟨w, c, _, hc, hle, ⟨km, hkm⟩, hv⟩ := h
  subst hv
  constructor
  · intro k
    simp only
    rw [abs_div, abs_of_pos hc]
    exact (div_le_one hc).mpr (hle k)
  · refine ⟨km, ?_⟩
    simp only
    rw [abs_div, abs_of_pos hc, hkm]
    exact div_self (ne_of_gt hc)

/-- The loop over the first `k` block rows: it returns, and it has stored the normalized
solution for each of these rows. -/
theorem getQuasiImpesWeights_rows {n : Nat}
    (solve : MatrixBlock n → BlockVector n → Option (BlockVector n)) (hsolve : ExactSolver solve)
    (matrix : MatrixType n) (p : Nat) (hp : p < n) (transpose : Bool)
    (weights : VectorType n) (hlen : weights.length = matrix.length)
    (hdiag : ∀ i, i < matrix.length → ∃ D, storedBlock matrix i i = some D ∧ D.det ≠ 0)
    (k : Nat) (hk : k ≤ matrix.length) :
    ∃ W, (List.range k).foldl (quasiImpesRow solve matrix (p : Int) transpose) (some weights)
        = some W ∧ W.length = matrix.length ∧
      ∀ i D, i < k → storedBlock matrix i i = some D →
        IsQuasiImpesWeight D ⟨p, hp⟩ transpose (W.getD i 0) := by
  induction k with
  | zero => exact ⟨weights, rfl, hlen, fun i D hi => absurd hi (Nat.not_lt_zero i)⟩
  | succ k ih =>
    obtain ⟨W, hW, hWlen, hWrows⟩ := ih (Nat.le_of_succ_le hk)
    obtain ⟨D, hD, hdet⟩ := hdiag k hk
    obtain ⟨v, hv, hrow⟩ := quasiImpesRow_spec solve hsolve matrix p hp transpose W k D hD hdet
    refine ⟨W.set k v, ?_, by simp [hWlen], ?_⟩
    · rw [List.range_succ, List.foldl_append, hW]
      exact hrow
    · intro i D1 hi hD1
      by_cases hik : i = k
      · subst hik
        rw [hD] at hD1
        simp only [Option.some.injEq] at hD1
        subst hD1
        rw [getD_set_self _ _ _ _ (by rw [hWlen]; exact hk)]
        exact hv
      · rw [getD_set_ne _ _ _ _ _ (Ne.symm hik)]
        exact hWrows i D1 (by omega) hD1

/-- C20: for a block matrix in which every block row stores an invertible diagonal block
`D_i`, a pressure index inside the block and an exact dense solver, `getQuasiImpesWeights`
returns a vector with one block per row, in which block `i` is `w / max_k |w_k|`, `w` being
the solution of `D_i w = e_p` when `transpose` is set and of `D_iᵀ w = e_p` otherwise; the
entries of every block have magnitude at most 1, and one of them has magnitude exactly 1. -/
theorem C20_quasi_impes_weights {n : Nat}
    (solve : MatrixBlock n → BlockVector n → Option (BlockVector n)) (hsolve : ExactSolver solve)
    (matrix : MatrixType n) (p : Nat) (hp : p < n) (transpose : Bool)
    (hdiag : ∀ i, i < matrix.length → ∃ D, storedBlock matrix i i = some D ∧ D.det ≠ 0) :
    ∃ W, getQuasiImpesWeights solve matrix (p : Int) transpose = some W ∧
      W.length = matrix.length ∧
      ∀ i D, i < matrix.length → storedBlock matrix i i = some D →
        IsQuasiImpesWeight D ⟨p, hp⟩ transpose (W.getD i 0) ∧
        (∀ k, |W.getD i 0 k| ≤ 1) ∧ ∃ k, |W.getD i 0 k| = 1 := by
  obtain ⟨W, hW, hlen, hrows⟩ := getQuasiImpesWeights_rows solve hsolve matrix p hp transpose
    (List.replicate matrix.length (0 : BlockVector n)) (by simp) hdiag matrix.length
    (Nat.le_refl _)
  refine ⟨W, hW, hlen, ?_⟩
  intro i D hi hD
  have h := hrows i D hi hD
  exact ⟨h, isQuasiImpesWeight_unit D ⟨p, hp⟩ transpose _ h⟩

/-- C20 at the matrix with the single diagonal block `diag(2, 4)`, the pressure index 1,
`transpose` not set and the solver `exactSolve`. -/
theorem C20_quasi_impes_weights_witness :
    ExactSolver (exactSolve : MatrixBlock 2 → BlockVector 2 → Option (BlockVector 2)) ∧
    (∀ i, i < exampleMatrix.length →
      ∃ D, storedBlock exampleMatrix i i = some D ∧ D.det ≠ 0) ∧
    ∃ W, getQuasiImpesWeights exactSolve exampleMatrix ((1 : Nat) : Int) false = some W ∧
      W.length = exampleMatrix.length ∧
      ∀ i D, i < exampleMatrix.length → storedBlock exampleMatrix i i = some D →
        IsQuasiImpesWeight D ⟨1, by decide⟩ false (W.getD i 0) ∧
        (∀ k, |W.getD i 0 k| ≤ 1) ∧ ∃ k, |W.getD i 0 k| = 1 := by
  have hdiag : ∀ i, i < exampleMatrix.length →
      ∃ D, storedBlock exampleMatrix i i = some D ∧ D.det ≠ 0 := by
    intro i hi
    have h0 : i = 0 := by
      simp only [exampleMatrix, List.length_singleton] at hi
      omega
    subst h0
    refine ⟨!![2, 0; 0, 4], rfl, ?_⟩
    simp [Matrix.det_fin_two]
  exact ⟨exactSolve_exact, hdiag,
    C20_quasi_impes_weights exactSolve exactSolve_exact exampleMatrix 1 (by decide) false hdiag⟩

/-! ## C21: every row gets a colour -/

/-- A sweep for colour `c` keeps every colour that is set in `[0, c + 1)`, whatever the
length of the colour vector. -/
theorem colorSweep_colors_in (block_size rows : Nat)
    (rowPointers colIndices randoms : List Nat) (maxRowsPerColor maxColsPerColor : Int)
    (c : Nat) (colors : List Int) (visited : List Bool)
    (h : ∀ j, colors.getD j (-1) = -1 ∨
      (0 ≤ colors.getD j (-1) ∧ colors.getD j (-1) < (c : Int))) :
    ∀ j, (colorSweep block_size rows rowPointers colIndices randoms maxRowsPerColor
        maxColsPerColor c colors visited).1.getD j (-1) = -1 ∨
      (0 ≤ (colorSweep block_size rows rowPointers colIndices randoms maxRowsPerColor
        maxColsPerColor c colors visited).1.getD j (-1) ∧
       (colorSweep block_size rows rowPointers colIndices randoms maxRowsPerColor
        maxColsPerColor c colors visited).1.getD j (-1) < ((c + 1 : Nat) : Int)) := by
  unfold colorSweep
  simp only []
  obtain ⟨_, hres⟩ := colorRows_induct block_size rowPointers colIndices randoms
    maxRowsPerColor maxColsPerColor c
    (fun _ s => ∀ j, s.colors.getD j (-1) = -1 ∨
      (0 ≤ s.colors.getD j (-1) ∧ s.colors.getD j (-1) < ((c + 1 : Nat) : Int)))
    (fun i is s hs => hs) (fun i is s hs _ => hs)
    (fun i is s hs _ _ _ => by
      intro j
      simp only []
      rw [getD_set]
      split_ifs with hij
      · right
        push_cast
        omega
      · exact hs j)
    (List.range rows) (SweepState.mk colors visited 0 0)
    (by
      intro j
      rcases h j with hj | hj
      · exact Or.inl hj
      · right
        push_cast
        omega)
  exact hres

/-- C21: whenever `colorBlockedNodes` returns the value `k` with the colour vector
`colors'`, every row has a colour: `1 ≤ k ≤ MAX_COLORS`, and `colors'[i]` is in `[0, k)`
for every row `i < rows`, so that no entry of a row is left at `-1`. -/
theorem C21_all_rows_colored (block_size MAX_COLORS : Nat) (draw : Nat → List Nat)
    (rows : Nat) (rowPointers colIndices : List Nat) (colors : List Int)
    (maxRowsPerColor maxColsPerColor : Int) (k : Nat) (colors' : List Int)
    (hres : colorBlockedNodes block_size MAX_COLORS draw rows rowPointers colIndices colors
      maxRowsPerColor maxColsPerColor = some (k, colors')) :
    1 ≤ k ∧ k ≤ MAX_COLORS ∧
    ∀ i, i < rows → 0 ≤ colors'.getD i (-1) ∧ colors'.getD i (-1) < (k : Int) ∧
      colors'.getD i (-1) ≠ -1 := by
  unfold colorBlockedNodes at hres
  obtain ⟨⟨_, hI⟩, hleft, hk0, hkM⟩ := colorAttempts_inv block_size MAX_COLORS draw rows
    rowPointers colIndices maxRowsPerColor maxColsPerColor
    (fun c col _ => ∀ j, col.getD j (-1) = -1 ∨
      (0 ≤ col.getD j (-1) ∧ col.getD j (-1) < (c : Int)))
    (fun randoms c col vis hc => colorSweep_colors_in block_size rows rowPointers colIndices
      randoms maxRowsPerColor maxColsPerColor c col vis hc)
    (fun c col vis _ j => Or.inl (getD_replicate_same _ _ _))
    max_tries 0 colors (List.replicate rows false)
    (fun j => Or.inl (getD_replicate_same _ _ _))
    k colors' hres
  refine ⟨hk0, hkM, ?_⟩
  intro i hi
  have hne := (countLeft_eq_zero_iff rows colors').mp hleft i hi
  rcases hI i with h | h
  · exact absurd h hne
  · exact ⟨h.1, h.2, hne⟩

/-- C21 at the 6-row path graph with the priorities `5,1,0,1,5,0`. -/
theorem C21_all_rows_colored_witness :
    colorBlockedNodes 1 4 (fun _ => [5, 1, 0, 1, 5, 0]) 6 [0, 2, 5, 8, 11, 14, 16]
        [0, 1, 0, 1, 2, 1, 2, 3, 2, 3, 4, 3, 4, 5, 4, 5] [0, 0, 0, 0, 0, 0] 100 100
      = some (3, [0, 1, 2, 1, 0, 1]) ∧
    1 ≤ 3 ∧ 3 ≤ 4 ∧
    ∀ i, i < 6 → 0 ≤ ([0, 1, 2, 1, 0, 1] : List Int).getD i (-1) ∧
      ([0, 1, 2, 1, 0, 1] : List Int).getD i (-1) < ((3 : Nat) : Int) ∧
      ([0, 1, 2, 1, 0, 1] : List Int).getD i (-1) ≠ -1 :=
  ⟨by decide, C21_all_rows_colored 1 4 (fun _ => [5, 1, 0, 1, 5, 0]) 6 [0, 2, 5, 8, 11, 14, 16]
    [0, 1, 0, 1, 2, 1, 2, 3, 2, 3, 4, 3, 4, 5, 4, 5] [0, 0, 0, 0, 0, 0] 100 100 3
    [0, 1, 2, 1, 0, 1] (by decide)⟩

/-! ## C22: the sizes of the colours -/

/-- C22, evaluation at the failing input: on the full 2-row pattern (both rows store the
columns 0 and 1) with the column budget 1 and the priorities `1, 0`,
`findGraphColoring<1>` returns 3 colours with the colours `1` and `2` for the rows 0
and 1: no row has colour 0, and `rowsPerColor[0]` is `0`. -/
theorem C22_rows_per_color_failing_input :
    colorBlockedNodes 1 4 (fun _ => [1, 0]) 2 [0, 2, 4] [0, 1, 0, 1] [0, 0] 100 1
      = some (3, [1, 2]) ∧
    findGraphColoring 1 4 (fun _ => [1, 0]) [0, 1, 0, 1] [0, 2, 4] 2 100 1 [0, 0] [0, 0]
      = some (3, Reordering.mk [0, 1] [0, 1] [0, 1, 1, 0] 2) ∧
    ([0, 1, 1, 0] : List Nat).getD 0 0 = 0 := by
  refine ⟨by decide, by decide, by decide⟩

/-! ## C23: symmetric patterns are coloured properly -/

/-- C23: for a structurally symmetric pattern (among the rows, column `j` is stored in
row `i` exactly when column `i` is stored in row `j`), every pair of budgets and every
draw of the priorities for which `colorBlockedNodes` returns, the colouring is proper:
`colors[i] ≠ colors[j]` for every row `i` and every stored column `j ≠ i` of row `i`. -/
theorem C23_symmetric_coloring_is_proper (block_size MAX_COLORS : Nat)
    (draw : Nat → List Nat) (rows : Nat) (rowPointers colIndices : List Nat)
    (colors : List Int) (maxRowsPerColor maxColsPerColor : Int) (k : Nat)
    (colors' : List Int) (hlen : colors.length = rows)
    (hsym : ∀ i, i < rows → ∀ j, j < rows →
      Stored rowPointers colIndices i j → Stored rowPointers colIndices j i)
    (hres : colorBlockedNodes block_size MAX_COLORS draw rows rowPointers colIndices colors
      maxRowsPerColor maxColsPerColor = some (k, colors'))
    (i j : Nat) (hi : i < rows) (hst : Stored rowPointers colIndices i j) (hji : j ≠ i) :
    colors'.getD i (-1) ≠ colors'.getD j (-1) := by
  obtain ⟨hlen', _, _, hrange⟩ := colorBlockedNodes_colors_range block_size MAX_COLORS draw
    rows rowPointers colIndices colors maxRowsPerColor maxColsPerColor hlen k colors' hres
  have hci := hrange i hi
  by_cases hj : j < rows
  · have hproper := colorBlockedNodes_proper block_size MAX_COLORS draw rows rowPointers
      colIndices colors maxRowsPerColor maxColsPerColor hlen k colors' hres
    exact hproper i j hst hji (Or.inr (hsym i hi j hj hst)) (by omega)
  · have hout : colors'.getD j (-1) = -1 := by
      rw [List.getD_eq_getElem?_getD, List.getElem?_eq_none (by omega)]
      rfl
    rw [hout]
    omega

/-- C23 at the rows 1 and 2 of the 6-row path graph with the priorities `5,1,0,1,5,0`. -/
theorem C23_symmetric_coloring_is_proper_witness :
    (∀ i, i < 6 → ∀ j, j < 6 →
      Stored [0, 2, 5, 8, 11, 14, 16] [0, 1, 0, 1, 2, 1, 2, 3, 2, 3, 4, 3, 4, 5, 4, 5] i j →
      Stored [0, 2, 5, 8, 11, 14, 16] [0, 1, 0, 1, 2, 1, 2, 3, 2, 3, 4, 3, 4, 5, 4, 5] j i) ∧
    ([0, 1, 2, 1, 0, 1] : List Int).getD 1 (-1) ≠ ([0, 1, 2, 1, 0, 1] : List Int).getD 2 (-1) :=
  ⟨by decide, C23_symmetric_coloring_is_proper 1 4 (fun _ => [5, 1, 0, 1, 5, 0]) 6
    [0, 2, 5, 8, 11, 14, 16] [0, 1, 0, 1, 2, 1, 2, 3, 2, 3, 4, 3, 4, 5, 4, 5]
    [0, 0, 0, 0, 0, 0] 100 100 3 [0, 1, 2, 1, 0, 1] (by decide) (by decide) (by decide) 1 2
    (by decide) (by decide) (by decide)⟩

/-! ## C29: reordering a blocked vector -/

/-- Two lists of the same length with the same cells are equal. -/
theorem list_ext_getD {α : Type} (d : α) (l1 l2 : List α) (hlen : l1.length = l2.length)
    (h : ∀ p, p < l1.length → l1.getD p d = l2.getD p d) : l1 = l2 := by
  apply List.ext_getElem hlen
  intro p h1 h2
  have := h p h1
  rw [List.getD_eq_getElem?_getD, List.getD_eq_getElem?_getD, List.getElem?_eq_getElem h1,
    List.getElem?_eq_getElem h2] at this
  exact this

/-- Every cell of the reordered vector: cell `p` of block `p / block_size` holds the cell
of the same offset of block `fromOrder[p / block_size]` of the input. -/
theorem reorderBlockedVectorByPattern_cells {V : Type} [Inhabited V] (block_size Nb : Nat)
    (vector : List V) (fromOrder : List Nat) (rVector : List V)
    (hr : block_size * Nb ≤ rVector.length) :
    (reorderBlockedVectorByPattern block_size Nb vector fromOrder rVector).length
      = rVector.length ∧
    ∀ p, p < block_size * Nb →
      (reorderBlockedVectorByPattern block_size Nb vector fromOrder rVector).getD p default
        = vector.getD (block_size * fromOrder.getD (p / block_size) 0 + p % block_size)
            default := by
  unfold reorderBlockedVectorByPattern
  refine foldl_range_inv
    (fun i (r : List V) => r.length = rVector.length ∧
      ∀ p, p < block_size * i → r.getD p default
        = vector.getD (block_size * fromOrder.getD (p / block_size) 0 + p % block_size)
            default)
    _ rVector Nb ⟨rfl, fun p hp => absurd hp (by simp)⟩ ?_
  intro i r hi ⟨hlen, hcells⟩
  have hbound : block_size * (i + 1) ≤ block_size * Nb := Nat.mul_le_mul_left _ hi
  have inner := foldl_range_inv
    (fun j (r : List V) => r.length = rVector.length ∧
      ∀ p, p < block_size * i + j → r.getD p default
        = vector.getD (block_size * fromOrder.getD (p / block_size) 0 + p % block_size)
            default)
    (fun r j => r.set (block_size * i + j)
      (vector.getD (block_size * fromOrder.getD i 0 + j) default))
    r block_size ⟨hlen, fun p hp => hcells p (by omega)⟩ ?_
  · refine ⟨inner.1, fun p hp => inner.2 p ?_⟩
    rw [Nat.mul_succ] at hp
    exact hp
  · intro j r1 hj ⟨hlen1, hcells1⟩
    refine ⟨by simp [hlen1], ?_⟩
    intro p hp
    rw [getD_set]
    by_cases hpe : block_size * i + j = p
    · have hlt : block_size * i + j < r1.length := by
        rw [hlen1, Nat.mul_succ] at *
        omega
      rw [if_pos ⟨hpe, hlt⟩, ← hpe]
      have hpos : 0 < block_size := by omega
      rw [Nat.mul_add_div hpos, Nat.div_eq_of_lt hj, Nat.add_zero, Nat.mul_add_mod,
        Nat.mod_eq_of_lt hj]
    · rw [if_neg (fun hh => hpe hh.1)]
      exact hcells1 p (by omega)

/-- The loop over the listed columns is the sequence of its assignments. -/
theorem foldl_zeroColumn_eq {n : Nat} (lcell : Nat) (cols : List Nat)
    (m : Option (MatrixType n)) :
    cols.foldl (zeroColumn lcell) m
      = (cols.map (fun ncell => (lcell, ncell, (0 : MatrixBlock n)))).foldl applyWrite m := by
  induction cols generalizing m with
  | nil => rfl
  | cons c cs ih =>
    rw [List.map_cons, List.foldl_cons, List.foldl_cons, ih]
    cases m <;> rfl

/-- The body of the loop over the overlap rows is the sequence of its assignments. -/
theorem invalidateRow_eq {n : Nat} (m : Option (MatrixType n)) (row : Nat × List Nat) :
    invalidateRow m row = (rowWrites n row).foldl applyWrite m := by
  cases m with
  | none =>
    have : ∀ ws : List (Nat × Nat × MatrixBlock n),
        ws.foldl applyWrite (none : Option (MatrixType n)) = none := by
      intro ws
      induction ws with
      | nil => rfl
      | cons w ws ih => rw [List.foldl_cons]; exact ih
    rw [this]
    rfl
  | some m =>
    show row.2.foldl (zeroColumn row.1) (setBlock m row.1 row.1 (overlapDiagBlock n)) = _
    rw [foldl_zeroColumn_eq]
    rfl

/-- `makeOverlapRowsInvalid` is the sequence of its assignments. -/
theorem makeOverlapRowsInvalid_eq {n : Nat} (rows : List (Nat × List Nat))
    (matrix : MatrixType n) :
    makeOverlapRowsInvalid rows matrix
      = (overlapWrites n rows).foldl applyWrite (some matrix) := by
  unfold makeOverlapRowsInvalid overlapWrites
  generalize (some matrix : Option (MatrixType n)) = m
  induction rows generalizing m with
  | nil => rfl
  | cons r rs ih =>
    rw [List.foldl_cons, List.flatMap_cons, List.foldl_append, ih, invalidateRow_eq]

/-- The cells written are those of the list: the diagonal and the listed columns of the
listed rows. -/
theorem mem_overlapWrites {n : Nat} (rows : List (Nat × List Nat))
    (w : Nat × Nat × MatrixBlock n) (hw : w ∈ overlapWrites n rows) :
    ∃ row ∈ rows, row.1 = w.1 ∧ (w.2.1 = w.1 ∨ w.2.1 ∈ row.2) := by
  unfold overlapWrites at hw
  obtain ⟨row, hrow, hmem⟩ := List.mem_flatMap.mp hw
  refine ⟨row, hrow, ?_⟩
  unfold rowWrites at hmem
  rcases List.mem_cons.mp hmem with h | h
  · rw [h]
    exact ⟨rfl, Or.inl rfl⟩
  · obtain ⟨c, hc, rfl⟩ := List.mem_map.mp h
    exact ⟨rfl, Or.inr hc⟩

/-- An assignment to a stored block of a row keeps the columns of the row and every entry
with another column. -/
theorem setBlockInRow_frame {n : Nat} (ncell : Nat) (v : MatrixBlock n)
    (row row1 : List (Nat × MatrixBlock n)) (h : setBlockInRow ncell v row = some row1) :
    row1.map Prod.fst = row.map Prod.fst ∧
    ∀ (k : Nat) (e : Nat × MatrixBlock n), row[k]? = some e → e.1 ≠ ncell →
      row1[k]? = some e := by
  induction row generalizing row1 with
  | nil => exact absurd h (by simp [setBlockInRow])
  | cons e es ih =>
    unfold setBlockInRow at h
    by_cases he : e.1 = ncell
    · rw [if_pos he] at h
      simp only [Option.some.injEq] at h
      subst h
      refine ⟨by simp, ?_⟩
      intro k e1 hk hne
      cases k with
      | zero =>
        simp only [List.getElem?_cons_zero, Option.some.injEq] at hk
        rw [hk] at he
        exact absurd he hne
      | succ k => simpa using hk
    · rw [if_neg he] at h
      cases hr : setBlockInRow ncell v es with
      | none => rw [hr] at h; exact absurd h (by simp)
      | some r =>
        rw [hr] at h
        simp only [Option.map_some', Option.some.injEq] at h
        subst h
        obtain ⟨ih1, ih2⟩ := ih r hr
        refine ⟨by simp [ih1], ?_⟩
        intro k e1 hk hne
        cases k with
        | zero => simpa using hk
        | succ k =>
          simp only [List.getElem?_cons_succ] at hk ⊢
          exact ih2 k e1 hk hne

/-- An assignment `matrix[lcell][ncell] = v` keeps the number of rows and the columns of
every row, and every entry that is not in row `lcell` at column `ncell`. -/
theorem setBlock_frame {n : Nat} (matrix matrix1 : MatrixType n) (lcell ncell : Nat)
    (v : MatrixBlock n) (h : setBlock matrix lcell ncell v = some matrix1) :
    matrix1.length = matrix.length ∧
    (∀ i, (matrix1.getD i []).map Prod.fst = (matrix.getD i []).map Prod.fst) ∧
    ∀ (i k : Nat) (e : Nat × MatrixBlock n), (matrix.getD i [])[k]? = some e →
      ¬ (i = lcell ∧ e.1 = ncell) →
      (matrix1.getD i [])[k]? = some e := by
  unfold setBlock at h
  by_cases hl : lcell < matrix.length
  · rw [if_pos hl] at h
    cases hr : setBlockInRow ncell v (matrix.getD lcell []) with
    | none => rw [hr] at h; exact absurd h (by simp)
    | some r =>
      rw [hr] at h
      simp only [Option.map_some', Option.some.injEq] at h
      subst h
      obtain ⟨h1, h2⟩ := setBlockInRow_frame ncell v _ r hr
      refine ⟨by simp, ?_, ?_⟩
      · intro i
        rw [getD_set]
        by_cases hi : lcell = i
        · subst hi
          rw [if_pos ⟨rfl, hl⟩]
          exact h1
        · rw [if_neg (fun hh => hi hh.1)]
      · intro i k e hk hne
        rw [getD_set]
        by_cases hi : lcell = i
        · subst hi
          rw [if_pos ⟨rfl, hl⟩]
          exact h2 k e hk (fun hh => hne ⟨rfl, hh⟩)
        · rw [if_neg (fun hh => hi hh.1)]
          exact hk
  · rw [if_neg hl] at h
    exact absurd h (by simp)

/-- A sequence of assignments started after a throw throws. -/
theorem foldl_applyWrite_none {n : Nat} (ws : List (Nat × Nat × MatrixBlock n)) :
    ws.foldl applyWrite (none : Option (MatrixType n)) = none := by
  induction ws with
  | nil => rfl
  | cons w ws ih => rw [List.foldl_cons]; exact ih

/-- A sequence of assignments keeps the number of rows and the columns of every row, and
every entry that none of them addresses. -/
theorem foldl_applyWrite_frame {n : Nat} (ws : List (Nat × Nat × MatrixBlock n)) :
    ∀ (matrix matrix1 : MatrixType n), ws.foldl applyWrite (some matrix) = some matrix1 →
      matrix1.length = matrix.length ∧
      (∀ i, (matrix1.getD i []).map Prod.fst = (matrix.getD i []).map Prod.fst) ∧
      ∀ (i k : Nat) (e : Nat × MatrixBlock n), (matrix.getD i [])[k]? = some e →
        (¬ ∃ w ∈ ws, w.1 = i ∧ w.2.1 = e.1) → (matrix1.getD i [])[k]? = some e := by
  induction ws with
  | nil =>
    intro matrix matrix1 h
    simp only [List.foldl_nil, Option.some.injEq] at h
    subst h
    exact ⟨rfl, fun _ => rfl, fun i k e hk _ => hk⟩
  | cons w ws ih =>
    intro matrix matrix1 h
    rw [List.foldl_cons] at h
    cases hw : applyWrite (some matrix) w with
    | none => rw [hw, foldl_applyWrite_none] at h; exact absurd h (by simp)
    | some m1 =>
      rw [hw] at h
      obtain ⟨a1, a2, a3⟩ := setBlock_frame matrix m1 w.1 w.2.1 w.2.2 hw
      obtain ⟨b1, b2, b3⟩ := ih m1 matrix1 h
      refine ⟨by rw [b1, a1], fun i => by rw [b2, a2], ?_⟩
      intro i k e hk hno
      apply b3 i k e
      · apply a3 i k e hk
        intro hh
        exact hno ⟨w, List.mem_cons_self _ _, hh.1.symm, hh.2.symm⟩
      · rintro ⟨u, hu, h1, h2⟩
        exact hno ⟨u, List.mem_cons_of_mem _ hu, h1, h2⟩

/-- A second assignment to the same stored block of a row replaces the first. -/
theorem setBlockInRow_overwrite {n : Nat} (ncell : Nat) (v v1 : MatrixBlock n)
    (row : List (Nat × MatrixBlock n)) :
    (setBlockInRow ncell v row).bind (setBlockInRow ncell v1) = setBlockInRow ncell v1 row := by
  induction row with
  | nil => rfl
  | cons e es ih =>
    by_cases he : e.1 = ncell
    · simp [setBlockInRow, he]
    · simp only [setBlockInRow, if_neg he]
      rw [← ih]
      cases setBlockInRow ncell v es with
      | none => rfl
      | some r => simp [setBlockInRow, he]

/-- Assignments to two different stored blocks of a row can be exchanged. -/
theorem setBlockInRow_comm {n : Nat} (c c1 : Nat) (hc : c ≠ c1) (v v1 : MatrixBlock n)
    (row : List (Nat × MatrixBlock n)) :
    (setBlockInRow c v row).bind (setBlockInRow c1 v1)
      = (setBlockInRow c1 v1 row).bind (setBlockInRow c v) := by
  induction row with
  | nil => rfl
  | cons e es ih =>
    by_cases he : e.1 = c
    · have he1 : ¬ e.1 = c1 := by rw [he]; exact hc
      simp only [setBlockInRow, if_pos he, if_neg he1, Option.some_bind]
      cases setBlockInRow c1 v1 es with
      | none => rfl
      | some r => simp [setBlockInRow, he]
    · by_cases he1 : e.1 = c1
      · simp only [setBlockInRow, if_neg he, if_pos he1, Option.some_bind]
        cases setBlockInRow c v es with
        | none => rfl
        | some r => simp [setBlockInRow, he1]
      · simp only [setBlockInRow, if_neg he, if_neg he1]
        have key : ∀ (a b : Nat) (x y : MatrixBlock n) (o : Option (List (Nat × MatrixBlock n))),
            ¬ e.1 = b →
            (o.map (fun r => e :: r)).bind (setBlockInRow b y)
              = (o.bind (setBlockInRow b y)).map (fun r => e :: r) := by
          intro a b x y o hb
          cases o with
          | none => rfl
          | some r => simp [setBlockInRow, hb]
        rw [key c c1 v v1 _ he1, key c1 c v1 v _ he, ih]

/-- Two assignments to blocks of the same row, as one assignment to the row. -/
theorem applyWrite_same_row {n : Nat} (m : MatrixType n) (l c c1 : Nat) (v v1 : MatrixBlock n) :
    applyWrite (applyWrite (some m) (l, c, v)) (l, c1, v1)
      = if l < m.length then
          ((setBlockInRow c v (m.getD l [])).bind (setBlockInRow c1 v1)).map
            (fun r => m.set l r)
        else none := by
  simp only [applyWrite, setBlock]
  by_cases hl : l < m.length
  · rw [if_pos hl, if_pos hl]
    cases hr : setBlockInRow c v (m.getD l []) with
    | none => rfl
    | some r =>
      simp only [Option.map_some', Option.some_bind, List.length_set, if_pos hl]
      rw [getD_set_self _ _ _ _ hl]
      cases setBlockInRow c1 v1 r with
      | none => rfl
      | some r1 => simp [List.set_set]
  · rw [if_neg hl, if_neg hl]

/-- A second assignment to the same block replaces the first. -/
theorem applyWrite_overwrite {n : Nat} (x : Option (MatrixType n)) (l c : Nat)
    (v v1 : MatrixBlock n) :
    applyWrite (applyWrite x (l, c, v)) (l, c, v1) = applyWrite x (l, c, v1) := by
  cases x with
  | none => rfl
  | some m =>
    rw [applyWrite_same_row, setBlockInRow_overwrite]
    rfl

/-- Assignments to two different blocks can be exchanged. -/
theorem applyWrite_comm {n : Nat} (x : Option (MatrixType n)) (l c l1 c1 : Nat)
    (v v1 : MatrixBlock n) (hne : ¬ (l = l1 ∧ c = c1)) :
    applyWrite (applyWrite x (l, c, v)) (l1, c1, v1)
      = applyWrite (applyWrite x (l1, c1, v1)) (l, c, v) := by
  cases x with
  | none => rfl
  | some m =>
    by_cases hl : l = l1
    · subst hl
      have hc : c ≠ c1 := fun hh => hne ⟨rfl, hh⟩
      rw [applyWrite_same_row, applyWrite_same_row, setBlockInRow_comm c c1 hc]
    · simp only [applyWrite, setBlock]
      by_cases h1 : l < m.length
      · by_cases h2 : l1 < m.length
        · rw [if_pos h1, if_pos h2]
          cases hr : setBlockInRow c v (m.getD l []) with
          | none =>
            cases hr1 : setBlockInRow c1 v1 (m.getD l1 []) with
            | none => rfl
            | some r1 =>
              simp only [Option.map_none', Option.map_some', List.length_set, if_pos h1]
              rw [getD_set_ne _ _ _ _ _ (Ne.symm hl), hr]
              rfl
          | some r =>
            simp only [Option.map_some', List.length_set, if_pos h2]
            rw [getD_set_ne _ _ _ _ _ hl]
            cases hr1 : setBlockInRow c1 v1 (m.getD l1 []) with
            | none => rfl
            | some r1 =>
              simp only [Option.map_some', List.length_set, if_pos h1]
              rw [getD_set_ne _ _ _ _ _ (Ne.symm hl), hr]
              simp only [Option.map_some', Option.some.injEq]
              exact List.set_comm _ _ _ hl
        · rw [if_pos h1, if_neg h2]
          cases hr : setBlockInRow c v (m.getD l []) with
          | none => rfl
          | some r => simp [h2]
      · rw [if_neg h1]
        by_cases h2 : l1 < m.length
        · rw [if_pos h2]
          cases hr1 : setBlockInRow c1 v1 (m.getD l1 []) with
          | none => rfl
          | some r1 => simp [h1]
        · rw [if_neg h2]

/-- A sequence of assignments that addresses the block of `w` gives the same result
whether or not the assignment `w` is made before it. -/
theorem foldl_applyWrite_absorb {n : Nat} (ws : List (Nat × Nat × MatrixBlock n)) :
    ∀ (x : Option (MatrixType n)) (w : Nat × Nat × MatrixBlock n),
      (∃ u ∈ ws, u.1 = w.1 ∧ u.2.1 = w.2.1) →
      ws.foldl applyWrite (applyWrite x w) = ws.foldl applyWrite x := by
  induction ws with
  | nil =>
    intro x w h
    obtain ⟨u, hu, _⟩ := h
    exact absurd hu (List.not_mem_nil u)
  | cons u ws ih =>
    intro x w h
    rw [List.foldl_cons, List.foldl_cons]
    obtain ⟨l, c, v⟩ := w
    obtain ⟨l1, c1, v1⟩ := u
    by_cases hsame : l = l1 ∧ c = c1
    · obtain ⟨rfl, rfl⟩ := hsame
      rw [applyWrite_overwrite]
    · rw [applyWrite_comm x l c l1 c1 v v1 hsame]
      apply ih
      obtain ⟨u2, hu2, h1, h2⟩ := h
      rcases List.mem_cons.mp hu2 with h3 | h3
      · subst h3
        exact absurd ⟨h1.symm, h2.symm⟩ hsame
      · exact ⟨u2, h3, h1, h2⟩

/-- Making a part of the assignments of a sequence before the sequence changes nothing. -/
theorem foldl_applyWrite_twice {n : Nat} (ws vs : List (Nat × Nat × MatrixBlock n))
    (hvs : ∀ w ∈ vs, w ∈ ws) :
    ∀ x : Option (MatrixType n),
      ws.foldl applyWrite (vs.foldl applyWrite x) = ws.foldl applyWrite x := by
  induction vs with
  | nil => intro x; rfl
  | cons w vs ih =>
    intro x
    rw [List.foldl_cons, ih (fun u hu => hvs u (List.mem_cons_of_mem _ hu)) (applyWrite x w)]
    exact foldl_applyWrite_absorb ws x w ⟨w, hvs w (List.mem_cons_self _ _), rfl, rfl⟩

/-- C30: when `makeOverlapRowsInvalid` returns, it has touched the listed entries only:
the matrix keeps its rows and every row its columns; a row that is not the first
component of a list entry is unchanged; in a listed row every entry is unchanged whose
column is neither the row itself nor listed with the row; and `makeOverlapRowsInvalid`
applied once more returns the same matrix. -/
theorem C30_overlap_rows_frame_and_idempotent {n : Nat}
    (overlapRowAndColumns_ : List (Nat × List Nat)) (matrix matrix1 : MatrixType n)
    (hret : makeOverlapRowsInvalid overlapRowAndColumns_ matrix = some matrix1) :
    matrix1.length = matrix.length ∧
    (∀ i, (matrix1.getD i []).map Prod.fst = (matrix.getD i []).map Prod.fst) ∧
    (∀ i, (¬ ∃ row ∈ overlapRowAndColumns_, row.1 = i) →
      matrix1.getD i [] = matrix.getD i []) ∧
    (∀ (i k : Nat) (e : Nat × MatrixBlock n), (matrix.getD i [])[k]? = some e →
      (¬ ∃ row ∈ overlapRowAndColumns_, row.1 = i ∧ (e.1 = i ∨ e.1 ∈ row.2)) →
      (matrix1.getD i [])[k]? = some e) ∧
    makeOverlapRowsInvalid overlapRowAndColumns_ matrix1 = some matrix1 := by
  rw [makeOverlapRowsInvalid_eq] at hret
  obtain ⟨h1, h2, h3⟩ := foldl_applyWrite_frame _ matrix matrix1 hret
  have hcell : ∀ (i k : Nat) (e : Nat × MatrixBlock n), (matrix.getD i [])[k]? = some e →
      (¬ ∃ row ∈ overlapRowAndColumns_, row.1 = i ∧ (e.1 = i ∨ e.1 ∈ row.2)) →
      (matrix1.getD i [])[k]? = some e := by
    intro i k e hk hno
    apply h3 i k e hk
    rintro ⟨w, hw, hw1, hw2⟩
    obtain ⟨row, hrow, hr1, hr2⟩ := mem_overlapWrites overlapRowAndColumns_ w hw
    apply hno
    refine ⟨row, hrow, by rw [hr1, hw1], ?_⟩
    rw [← hw2, ← hw1]
    exact hr2
  refine ⟨h1, h2, ?_, hcell, ?_⟩
  · intro i hno
    apply List.ext_getElem?
    intro k
    have hlen : (matrix1.getD i []).length = (matrix.getD i []).length := by
      have := congrArg List.length (h2 i)
      simpa using this
    cases hk : (matrix.getD i [])[k]? with
    | none =>
      rw [List.getElem?_eq_none_iff] at hk ⊢
      omega
    | some e =>
      exact hcell i k e hk (fun ⟨row, hrow, hr, _⟩ => hno ⟨row, hrow, hr⟩)
  · rw [makeOverlapRowsInvalid_eq, ← hret]
    exact foldl_applyWrite_twice _ _ (fun w hw => hw) (some matrix)

/-- C30 at the overlap entry `(0, [1])` and a matrix with the rows 0 and 1. -/
theorem C30_overlap_rows_frame_and_idempotent_witness :
    makeOverlapRowsInvalid [(0, [1])] exampleOverlapMatrix
      = some [[(0, overlapDiagBlock 1), (1, 0)], [(1, !![3])]] ∧
    ([[(0, overlapDiagBlock 1), (1, 0)], [(1, !![3])]] : MatrixType 1).getD 1 []
      = exampleOverlapMatrix.getD 1 [] ∧
    makeOverlapRowsInvalid [(0, [1])]
        ([[(0, overlapDiagBlock 1), (1, 0)], [(1, !![3])]] : MatrixType 1)
      = some [[(0, overlapDiagBlock 1), (1, 0)], [(1, !![3])]] :=
  ⟨rfl,
    (C30_overlap_rows_frame_and_idempotent [(0, [1])] exampleOverlapMatrix _ rfl).2.2.1 1
      (by decide),
    (C30_overlap_rows_frame_and_idempotent [(0, [1])] exampleOverlapMatrix _ rfl).2.2.2.2⟩

/-! ## C28: the order produced by `colorsToReordering` -/

theorem countColor_succ (colors : List Int) (c i : Nat) :
    countColor colors c (i + 1)
      = countColor colors c i + (if colors.getD i (-1) = (c : Int) then 1 else 0) := by
  unfold countColor
  rw [List.range_succ, List.filter_append, List.length_append]
  by_cases h : colors.getD i (-1) = (c : Int)
  · simp only [List.filter_cons, decide_eq_true h, if_true, List.filter_nil,
      List.length_singleton, if_pos h]
  · simp only [List.filter_cons, decide_eq_false h, List.filter_nil, List.length_nil,
      if_neg h, Bool.false_eq_true, if_false]

theorem countColor_mono (colors : List Int) (c : Nat) {i j : Nat} (h : i ≤ j) :
    countColor colors c i ≤ countColor colors c j := by
  induction j with
  | zero =>
    have : i = 0 := by omega
    rw [this]
  | succ j ih =>
    by_cases hij : i = j + 1
    · rw [hij]
    · have := ih (by omega)
      rw [countColor_succ]
      omega

theorem colorStart_succ (colors : List Int) (Nb c : Nat) :
    colorStart colors Nb (c + 1) = colorStart colors Nb c + countColor colors c Nb := by
  unfold colorStart
  rw [List.range_succ, List.map_append, List.sum_append]
  simp

theorem colorStart_mono (colors : List Int) (Nb : Nat) {c d : Nat} (h : c ≤ d) :
    colorStart colors Nb c ≤ colorStart colors Nb d := by
  induction d with
  | zero =>
    have : c = 0 := by omega
    rw [this]
  | succ d ih =>
    by_cases hcd : c = d + 1
    · rw [hcd]
    · have := ih (by omega)
      rw [colorStart_succ]
      omega

/-- The loop clearing the first `numColors` cells of `rowsPerColor`. -/
theorem foldl_set_zero (rowsPerColor : List Nat) (numColors : Nat) :
    ((List.range numColors).foldl (fun r i => r.set i 0) rowsPerColor).length
      = rowsPerColor.length ∧
    ∀ c, c < numColors →
      ((List.range numColors).foldl (fun r i => r.set i 0) rowsPerColor).getD c 0 = 0 := by
  refine foldl_range_inv
    (fun k (r : List Nat) => r.length = rowsPerColor.length ∧ ∀ c, c < k → r.getD c 0 = 0)
    _ rowsPerColor numColors ⟨rfl, fun c hc => absurd hc (Nat.not_lt_zero c)⟩ ?_
  intro k r _ ⟨hlen, hz⟩
  refine ⟨by simp [hlen], ?_⟩
  intro c hc
  rw [getD_set]
  split_ifs with h
  · rfl
  · by_cases hck : c = k
    · subst hck
      have hge : r.length ≤ c := by
        by_contra hh
        exact h ⟨rfl, by omega⟩
      rw [List.getD_eq_getElem?_getD, List.getElem?_eq_none hge]
      rfl
    · exact hz c (by omega)

/-- One pass of the inner loop of `colorsToReordering` keeps the invariant. -/
theorem reorderRow_reorderInv (Nb numColors : Nat) (colors : List Int) (L c i : Nat)
    (s : Reordering) (hi : i < Nb) (hc : c < numColors) (hL : numColors ≤ L)
    (h : ReorderInv Nb numColors colors L c i s) :
    ReorderInv Nb numColors colors L c (i + 1) (reorderRow colors c s i) := by
  obtain ⟨hpi, hord, hlen, hdone, hcur, hzero, hre, hseg⟩ := h
  have hpi' := reorderRow_inv Nb colors c i s hi hpi
  refine ⟨hpi', ?_⟩
  unfold reorderRow at hpi' ⊢
  by_cases hcol : colors.getD i (-1) = (c : Int)
  · rw [if_pos hcol] at hpi' ⊢
    have hS : ¬ (colors.getD i (-1) < (c : Int) ∨ (colors.getD i (-1) = (c : Int) ∧ i < i)) := by
      rw [hcol]; simp
    have hn : s.reordered < Nb := partialInverse_lt_of_not_mem hpi hi hS
    have hnf : s.reordered < s.fromOrder.length := by rw [hpi.len_from]; exact hn
    have hcnt : countColor colors c (i + 1) = countColor colors c i + 1 := by
      rw [countColor_succ, if_pos hcol]
    have hcntle : countColor colors c (i + 1) ≤ countColor colors c Nb :=
      countColor_mono colors c (by omega)
    refine ⟨?_, by simp [hlen], ?_, ?_, ?_, ?_, ?_⟩
    · intro p q hpq hq
      simp only [] at hq ⊢
      by_cases hqn : q = s.reordered
      · subst hqn
        rw [getD_set_self _ _ _ _ hnf, getD_set_ne _ _ _ _ _ (by omega)]
        obtain ⟨_, hSp, _⟩ := hpi.of_pos p hpq
        unfold ColorBefore
        rw [hcol]
        exact hSp
      · rw [getD_set_ne _ _ _ _ _ (Ne.symm hqn), getD_set_ne _ _ _ _ _ (by omega)]
        exact hord p q hpq (by omega)
    · intro c' hc'
      simp only []
      rw [getD_set_ne _ _ _ _ _ (by omega)]
      exact hdone c' hc'
    · intro _
      simp only []
      rw [getD_set_self _ _ _ _ (by omega), hcur hc, hcnt]
    · intro c' h1 h2
      simp only []
      rw [getD_set_ne _ _ _ _ _ (by omega)]
      exact hzero c' h1 h2
    · simp only []
      rw [hre, hcnt]
      omega
    · intro p hp
      simp only [] at hp ⊢
      by_cases hpn : p = s.reordered
      · subst hpn
        rw [getD_set_self _ _ _ _ hnf]
        refine ⟨c, hcol, by omega, ?_⟩
        rw [colorStart_succ, hre]
        omega
      · rw [getD_set_ne _ _ _ _ _ (Ne.symm hpn)]
        exact hseg p (by omega)
  · rw [if_neg hcol] at hpi' ⊢
    have hcnt : countColor colors c (i + 1) = countColor colors c i := by
      rw [countColor_succ, if_neg hcol]
      rfl
    refine ⟨hord, hlen, hdone, ?_, hzero, ?_, hseg⟩
    · intro _
      rw [hcur hc, hcnt]
    · rw [hre, hcnt]

/-- The state in which `colorsToReordering` ends. -/
theorem colorsToReordering_reorderInv (Nb : Nat) (colors : List Int) (numColors : Nat)
    (toOrder fromOrder rowsPerColor : List Nat)
    (hto : toOrder.length = Nb) (hfrom : fromOrder.length = Nb)
    (hrpc : numColors ≤ rowsPerColor.length)
    (hcol : ∀ i, i < Nb → 0 ≤ colors.getD i (-1) ∧ colors.getD i (-1) < (numColors : Int)) :
    ReorderInv Nb numColors colors rowsPerColor.length numColors 0
      (colorsToReordering Nb colors numColors toOrder fromOrder rowsPerColor) := by
  unfold colorsToReordering
  obtain ⟨hzlen, hz⟩ := foldl_set_zero rowsPerColor numColors
  refine foldl_range_inv
    (fun c (s : Reordering) => ReorderInv Nb numColors colors rowsPerColor.length c 0 s)
    (fun s c => (List.range Nb).foldl (reorderRow colors c) s)
    _ numColors ?_ ?_
  · refine ⟨⟨hto, hfrom, fun p hp => absurd hp (Nat.not_lt_zero p), ?_⟩,
      fun p q _ hq => absurd hq (Nat.not_lt_zero q), hzlen,
      fun c' hc' => absurd hc' (Nat.not_lt_zero c'), ?_, ?_, ?_,
      fun p hp => absurd hp (Nat.not_lt_zero p)⟩
    · intro i hi hs
      have := (hcol i hi).1
      simp only [Nat.cast_zero] at hs
      omega
    · intro h0
      simp only []
      rw [hz 0 h0]
      rfl
    · intro c' _ hc'
      exact hz c' hc'
    · simp [colorStart, countColor]
  · intro c s hc hs
    have inner := foldl_range_inv
      (fun i (s : Reordering) => ReorderInv Nb numColors colors rowsPerColor.length c i s)
      (reorderRow colors c) s Nb hs
      (fun i s' hi hs' => reorderRow_reorderInv Nb numColors colors _ c i s' hi hc hrpc hs')
    obtain ⟨hpi, hord, hlen, hdone, hcur, hzero, hre, hseg⟩ := inner
    refine ⟨?_, hord, hlen, ?_, ?_, ?_, ?_, hseg⟩
    · refine partialInverse_congr hpi ?_
      intro r hr
      simp only [Nat.cast_add, Nat.cast_one]
      constructor
      · rintro (h1 | ⟨h1, _⟩)
        · exact Or.inl (by omega)
        · exact Or.inl (by omega)
      · rintro (h1 | ⟨_, h2⟩)
        · by_cases h2 : colors.getD r (-1) < (c : Int)
          · exact Or.inl h2
          · exact Or.inr ⟨by omega, hr⟩
        · exact absurd h2 (Nat.not_lt_zero r)
    · intro c' hc'
      by_cases h1 : c' = c
      · subst h1
        exact hcur hc
      · exact hdone c' (by omega)
    · intro h1
      rw [hzero (c + 1) (by omega) h1]
      rfl
    · intro c' h1 h2
      exact hzero c' (by omega) h2
    · rw [hre, colorStart_succ]
      simp [countColor]

/-- The sum of the first `c` cells of a list. -/
theorem sum_take_eq (l : List Nat) (g : Nat → Nat) (c : Nat) (hc : c ≤ l.length)
    (h : ∀ c', c' < c → l.getD c' 0 = g c') :
    (l.take c).sum = ((List.range c).map g).sum := by
  induction c with
  | zero => simp
  | succ c ih =>
    have hlt : c < l.length := by omega
    rw [List.take_succ, List.sum_append, ih (by omega) (fun c' hc' => h c' (by omega)),
      List.range_succ, List.map_append, List.sum_append]
    have := h c (by omega)
    rw [List.getD_eq_getElem?_getD] at this
    rw [List.getElem?_eq_getElem hlt] at this ⊢
    simp only [Option.getD_some] at this
    simp [this]

/-- C28: for a colour vector with an entry in `[0, numColors)` for each of the `Nb` rows,
`colorsToReordering` places the rows in the order by (colour, original index): for all
positions `p < q < Nb`, `colors[fromOrder[p]] ≤ colors[fromOrder[q]]`, and
`fromOrder[p] < fromOrder[q]` when the two colours are equal.  `rowsPerColor[c]` is the
number of rows of colour `c` for every `c < numColors`; these sizes sum to `Nb`, and the
rows of colour `c` fill the positions that follow those of the colours `0 .. c-1`.  The
arrays `toOrder`, `fromOrder` have `Nb` cells, `rowsPerColor` at least `numColors`. -/
theorem C28_rows_ordered_by_color (Nb : Nat) (colors : List Int) (numColors : Nat)
    (toOrder fromOrder rowsPerColor : List Nat)
    (hto : toOrder.length = Nb) (hfrom : fromOrder.length = Nb)
    (hrpc : numColors ≤ rowsPerColor.length)
    (hcol : ∀ i, i < Nb → 0 ≤ colors.getD i (-1) ∧ colors.getD i (-1) < (numColors : Int)) :
    (∀ p q, p < q → q < Nb →
      colors.getD ((colorsToReordering Nb colors numColors toOrder fromOrder
          rowsPerColor).fromOrder.getD p 0) (-1)
        ≤ colors.getD ((colorsToReordering Nb colors numColors toOrder fromOrder
          rowsPerColor).fromOrder.getD q 0) (-1) ∧
      (colors.getD ((colorsToReordering Nb colors numColors toOrder fromOrder
          rowsPerColor).fromOrder.getD p 0) (-1)
        = colors.getD ((colorsToReordering Nb colors numColors toOrder fromOrder
          rowsPerColor).fromOrder.getD q 0) (-1) →
        (colorsToReordering Nb colors numColors toOrder fromOrder
          rowsPerColor).fromOrder.getD p 0
        < (colorsToReordering Nb colors numColors toOrder fromOrder
          rowsPerColor).fromOrder.getD q 0)) ∧
    (∀ c, c < numColors →
      (colorsToReordering Nb colors numColors toOrder fromOrder rowsPerColor).rowsPerColor.getD
          c 0
        = ((List.range Nb).filter (fun r => colors.getD r (-1) = (c : Int))).length) ∧
    ((colorsToReordering Nb colors numColors toOrder fromOrder
        rowsPerColor).rowsPerColor.take numColors).sum = Nb ∧
    (∀ p c, p < Nb → c < numColors →
      (colors.getD ((colorsToReordering Nb colors numColors toOrder fromOrder
          rowsPerColor).fromOrder.getD p 0) (-1) = (c : Int) ↔
        (((colorsToReordering Nb colors numColors toOrder fromOrder
            rowsPerColor).rowsPerColor.take c).sum ≤ p ∧
          p < ((colorsToReordering Nb colors numColors toOrder fromOrder
            rowsPerColor).rowsPerColor.take (c + 1)).sum))) := by
  obtain ⟨hpi, hord, hlen, hdone, _, _, hre, hseg⟩ :=
    colorsToReordering_reorderInv Nb colors numColors toOrder fromOrder rowsPerColor hto hfrom
      hrpc hcol
  generalize colorsToReordering Nb colors numColors toOrder fromOrder rowsPerColor = s at *
  have hall : ∀ i, i < Nb → (colors.getD i (-1) < (numColors : Int) ∨
      (colors.getD i (-1) = (numColors : Int) ∧ i < 0)) := fun i hi => Or.inl (hcol i hi).2
  have hn : s.reordered = Nb :=
    Nat.le_antisymm (partialInverse_le hpi) (partialInverse_le_of_all hpi hall)
  have hsum : ∀ c, c ≤ numColors → (s.rowsPerColor.take c).sum = colorStart colors Nb c := by
    intro c hc
    exact sum_take_eq s.rowsPerColor _ c (by omega) (fun c' hc' => hdone c' (by omega))
  refine ⟨?_, ?_, ?_, ?_⟩
  · intro p q hpq hq
    have h := hord p q hpq (by omega)
    unfold ColorBefore at h
    constructor
    · rcases h with h | h
      · exact le_of_lt h
      · exact le_of_eq h.1
    · intro heq
      rcases h with h | h
      · omega
      · exact h.2
  · intro c hc
    exact hdone c hc
  · rw [hsum numColors (Nat.le_refl _)]
    have h0 : countColor colors numColors 0 = 0 := rfl
    omega
  · intro p c hp hc
    rw [hsum c (by omega), hsum (c + 1) (by omega)]
    obtain ⟨c', hc', hlo, hhi⟩ := hseg p (by omega)
    constructor
    · intro h
      have : c' = c := by
        rw [hc'] at h
        exact_mod_cast h
      subst this
      exact ⟨hlo, hhi⟩
    · rintro ⟨h1, h2⟩
      rw [hc']
      have : c' = c := by
        rcases Nat.lt_trichotomy c' c with h | h | h
        · have := colorStart_mono colors Nb (show c' + 1 ≤ c by omega)
          omega
        · exact h
        · have := colorStart_mono colors Nb (show c + 1 ≤ c' by omega)
          omega
      rw [this]

/-- C28 at six rows with the colours `1, 0, 2, 0, 1, 0`. -/
theorem C28_rows_ordered_by_color_witness :
    (∀ i, i < 6 → 0 ≤ ([1, 0, 2, 0, 1, 0] : List Int).getD i (-1) ∧
      ([1, 0, 2, 0, 1, 0] : List Int).getD i (-1) < ((3 : Nat) : Int)) ∧
    colorsToReordering 6 [1, 0, 2, 0, 1, 0] 3 [0, 0, 0, 0, 0, 0] [0, 0, 0, 0, 0, 0]
        [9, 9, 9, 9]
      = Reordering.mk [3, 0, 5, 1, 4, 2] [1, 3, 5, 0, 4, 2] [3, 2, 1, 9] 6 ∧
    ((colorsToReordering 6 [1, 0, 2, 0, 1, 0] 3 [0, 0, 0, 0, 0, 0] [0, 0, 0, 0, 0, 0]
        [9, 9, 9, 9]).rowsPerColor.take 3).sum = 6 :=
  ⟨by decide, by decide,
    (C28_rows_ordered_by_color 6 [1, 0, 2, 0, 1, 0] 3 [0, 0, 0, 0, 0, 0] [0, 0, 0, 0, 0, 0]
      [9, 9, 9, 9] (by decide) (by decide) (by decide) (by decide)).2.2.1⟩

/-! ## The loops of `csrPatternToCsc` -/

theorem occurrences_succ (ci : List Nat) (k c : Nat) :
    occurrences ci (k + 1) c = occurrences ci k c ++ (if ci.getD k 0 = c then [k] else []) := by
  unfold occurrences
  rw [List.range_succ, List.filter_append]
  by_cases h : ci.getD k 0 = c
  · simp only [List.filter_cons, decide_eq_true h, if_true, List.filter_nil, if_pos h]
  · simp only [List.filter_cons, decide_eq_false h, List.filter_nil, if_neg h,
      Bool.false_eq_true, if_false]

theorem occurrences_length_succ (ci : List Nat) (k c : Nat) :
    (occurrences ci (k + 1) c).length
      = (occurrences ci k c).length + (if ci.getD k 0 = c then 1 else 0) := by
  rw [occurrences_succ, List.length_append]
  split_ifs <;> rfl

theorem occurrences_length_mono (ci : List Nat) (c : Nat) {i j : Nat} (h : i ≤ j) :
    (occurrences ci i c).length ≤ (occurrences ci j c).length := by
  induction j with
  | zero =>
    have : i = 0 := by omega
    rw [this]
  | succ j ih =>
    by_cases hij : i = j + 1
    · rw [hij]
    · have := ih (by omega)
      rw [occurrences_length_succ]
      omega

theorem mem_occurrences (ci : List Nat) (k c n : Nat) :
    n ∈ occurrences ci k c ↔ n < k ∧ ci.getD n 0 = c := by
  unfold occurrences
  simp [List.mem_filter]

theorem colStart_succ (ci : List Nat) (nnz c : Nat) :
    colStart ci nnz (c + 1) = colStart ci nnz c + (occurrences ci nnz c).length := by
  unfold colStart
  rw [List.range_succ, List.map_append, List.sum_append]
  simp

theorem colStart_mono (ci : List Nat) (nnz : Nat) {c d : Nat} (h : c ≤ d) :
    colStart ci nnz c ≤ colStart ci nnz d := by
  induction d with
  | zero =>
    have : c = 0 := by omega
    rw [this]
  | succ d ih =>
    by_cases hcd : c = d + 1
    · rw [hcd]
    · have := ih (by omega)
      rw [colStart_succ]
      omega

/-- The entries with a column below `m + 1` are those with a column below `m` and those
of column `m`. -/
theorem filter_lt_succ_length (f : Nat → Nat) (l : List Nat) (m : Nat) :
    (l.filter (fun n => f n < m + 1)).length
      = (l.filter (fun n => f n < m)).length + (l.filter (fun n => f n = m)).length := by
  induction l with
  | nil => rfl
  | cons a l ih =>
    simp only [List.filter_cons]
    by_cases h1 : f a < m
    · have h2 : f a < m + 1 := by omega
      have h3 : ¬ f a = m := by omega
      simp only [decide_eq_true h1, decide_eq_true h2, decide_eq_false h3, if_true,
        List.length_cons, ih, Bool.false_eq_true, if_false]
      omega
    · by_cases h3 : f a = m
      · have h2 : f a < m + 1 := by omega
        simp only [decide_eq_false h1, decide_eq_true h2, decide_eq_true h3, if_true,
          List.length_cons, ih, Bool.false_eq_true, if_false]
        omega
      · have h2 : ¬ f a < m + 1 := by omega
        simp only [decide_eq_false h1, decide_eq_false h2, decide_eq_false h3, ih,
          Bool.false_eq_true, if_false]

/-- `colStart` counts the entries with a smaller column. -/
theorem colStart_eq (ci : List Nat) (nnz c : Nat) :
    colStart ci nnz c = ((List.range nnz).filter (fun n => ci.getD n 0 < c)).length := by
  induction c with
  | zero => simp [colStart]
  | succ c ih =>
    rw [colStart_succ, ih, filter_lt_succ_length]
    rfl

/-- With every column below `Nb`, the columns `0 .. Nb-1` hold all the entries. -/
theorem colStart_last (ci : List Nat) (nnz Nb : Nat) (h : ∀ k, k < nnz → ci.getD k 0 < Nb) :
    colStart ci nnz Nb = nnz := by
  rw [colStart_eq]
  have : (List.range nnz).filter (fun n => ci.getD n 0 < Nb) = List.range nnz := by
    rw [List.filter_eq_self]
    intro n hn
    simp only [decide_eq_true_eq]
    exact h n (List.mem_range.mp hn)
  rw [this, List.length_range]

/-- The loop counting the entries of every column (lines 329-331). -/
theorem countColumn_loop (ci P : List Nat) (Nb k : Nat) (hlen : Nb ≤ P.length)
    (hz : ∀ c, c < Nb → P.getD c 0 = 0) :
    ((List.range k).foldl (countColumn ci) P).length = P.length ∧
    ∀ c, c < Nb → ((List.range k).foldl (countColumn ci) P).getD c 0
      = (occurrences ci k c).length := by
  refine foldl_range_inv
    (fun m (p : List Nat) => p.length = P.length ∧
      ∀ c, c < Nb → p.getD c 0 = (occurrences ci m c).length)
    (countColumn ci) P k ⟨rfl, fun c hc => by rw [hz c hc]; rfl⟩ ?_
  intro m p hm ⟨hl, hp⟩
  unfold countColumn
  refine ⟨by simp [hl], ?_⟩
  intro c hc
  simp only []
  rw [getD_set, occurrences_length_succ]
  by_cases h : ci.getD m 0 = c
  · rw [if_pos ⟨h, by rw [hl, h]; omega⟩, if_pos h, h, hp c hc]
  · rw [if_neg (fun hh => h hh.1), if_neg h, hp c hc]
    rfl

/-- The loop turning the counts into the starts of the columns (lines 334-338). -/
theorem cumsumColumn_loop (P : List Nat) (Nb : Nat) (g : Nat → Nat) (hlen : Nb ≤ P.length)
    (hP : ∀ c, c < Nb → P.getD c 0 = g c) :
    ((List.range Nb).foldl cumsumColumn (P, 0)).1.length = P.length ∧
    (∀ c, c < Nb → ((List.range Nb).foldl cumsumColumn (P, 0)).1.getD c 0
      = ((List.range c).map g).sum) ∧
    ∀ c, Nb ≤ c → ((List.range Nb).foldl cumsumColumn (P, 0)).1.getD c 0 = P.getD c 0 := by
  have key := foldl_range_inv
    (fun col (s : List Nat × Nat) => s.1.length = P.length ∧
      s.2 = ((List.range col).map g).sum ∧
      (∀ c, c < col → s.1.getD c 0 = ((List.range c).map g).sum) ∧
      (∀ c, col ≤ c → s.1.getD c 0 = P.getD c 0))
    cumsumColumn (P, 0) Nb ⟨rfl, rfl, fun c hc => absurd hc (Nat.not_lt_zero c),
      fun c _ => rfl⟩ ?_
  · exact ⟨key.1, key.2.2.1, key.2.2.2⟩
  · intro col s hcol ⟨hl, hs, hlo, hhi⟩
    unfold cumsumColumn
    refine ⟨by simp [hl], ?_, ?_, ?_⟩
    · simp only []
      rw [List.range_succ, List.map_append, List.sum_append, hs, hhi col (Nat.le_refl _),
        hP col hcol]
      simp
    · intro c hc
      simp only []
      rw [getD_set]
      by_cases h : col = c
      · subst h
        rw [if_pos ⟨rfl, by omega⟩, hs]
      · rw [if_neg (fun hh => h hh.1)]
        exact hlo c (by omega)
    · intro c hc
      simp only []
      rw [getD_set_ne _ _ _ _ _ (by omega)]
      exact hhi c (by omega)

/-- The loop shifting the column pointers back by one cell (lines 350-354). -/
theorem shiftColumn_loop (P : List Nat) (Nb : Nat) (g : Nat → Nat) (hlen : Nb < P.length)
    (h0 : g 0 = 0) (hP : ∀ c, c < Nb → P.getD c 0 = g (c + 1)) :
    ((List.range (Nb + 1)).foldl shiftColumn (P, 0)).1.length = P.length ∧
    ∀ c, c ≤ Nb → ((List.range (Nb + 1)).foldl shiftColumn (P, 0)).1.getD c 0 = g c := by
  have key := foldl_range_inv
    (fun col (s : List Nat × Nat) => s.1.length = P.length ∧
      (col ≤ Nb → s.2 = g col) ∧
      (∀ c, c < col → s.1.getD c 0 = g c) ∧
      (∀ c, col ≤ c → s.1.getD c 0 = P.getD c 0))
    shiftColumn (P, 0) (Nb + 1) ⟨rfl, fun _ => h0.symm,
      fun c hc => absurd hc (Nat.not_lt_zero c), fun c _ => rfl⟩ ?_
  · exact ⟨key.1, fun c hc => key.2.2.1 c (by omega)⟩
  · intro col s hcol ⟨hl, hs, hlo, hhi⟩
    unfold shiftColumn
    refine ⟨by simp [hl], ?_, ?_, ?_⟩
    · intro hc
      simp only []
      rw [hhi col (Nat.le_refl _)]
      exact hP col (by omega)
    · intro c hc
      simp only []
      rw [getD_set]
      by_cases h : col = c
      · subst h
        rw [if_pos ⟨rfl, by omega⟩]
        exact hs (by omega)
      · rw [if_neg (fun hh => h hh.1)]
        exact hlo c (by omega)
    · intro c hc
      simp only []
      rw [getD_set_ne _ _ _ _ _ (by omega)]
      exact hhi c (by omega)

/-- The number of rows that end at or before a position, when the row pointers do not
decrease: these rows are the first ones, and the next row ends later. -/
theorem rowOfPosition_spec (rp : List Nat) (n : Nat) : ∀ (Nb : Nat),
    (∀ r, r < Nb → rp.getD r 0 ≤ rp.getD (r + 1) 0) →
    rowOfPosition rp Nb n ≤ Nb ∧
    (∀ r, r < rowOfPosition rp Nb n → rp.getD (r + 1) 0 ≤ n) ∧
    (rowOfPosition rp Nb n < Nb → n < rp.getD (rowOfPosition rp Nb n + 1) 0) := by
  intro Nb
  induction Nb with
  | zero =>
    intro _
    exact ⟨Nat.le_refl _, fun r hr => absurd hr (Nat.not_lt_zero r),
      fun h => absurd h (Nat.not_lt_zero _)⟩
  | succ Nb ih =>
    intro hmono
    obtain ⟨h1, h2, h3⟩ := ih (fun r hr => hmono r (by omega))
    have hstep : rowOfPosition rp (Nb + 1) n
        = rowOfPosition rp Nb n + (if rp.getD (Nb + 1) 0 ≤ n then 1 else 0) := by
      unfold rowOfPosition
      rw [List.range_succ, List.filter_append, List.length_append]
      by_cases h : rp.getD (Nb + 1) 0 ≤ n
      · simp only [List.filter_cons, decide_eq_true h, if_true, List.filter_nil, if_pos h,
          List.length_singleton]
      · simp only [List.filter_cons, decide_eq_false h, List.filter_nil, if_neg h,
          Bool.false_eq_true, if_false, List.length_nil]
    by_cases h : rp.getD (Nb + 1) 0 ≤ n
    · have hfull : rowOfPosition rp Nb n = Nb := by
        by_contra hne
        have hlt : rowOfPosition rp Nb n < Nb := by omega
        have := h3 hlt
        have := getD_mono rp (Nb + 1) hmono (rowOfPosition rp Nb n + 1) (Nb + 1) (by omega)
          (Nat.le_refl _)
        omega
      rw [hstep, if_pos h, hfull]
      refine ⟨Nat.le_refl _, ?_, fun hh => absurd hh (Nat.lt_irrefl _)⟩
      intro r hr
      by_cases hrn : r = Nb
      · rw [hrn]; exact h
      · exact h2 r (by omega)
    · rw [hstep, if_neg h, Nat.add_zero]
      refine ⟨by omega, h2, ?_⟩
      intro hh
      by_cases hrn : rowOfPosition rp Nb n = Nb
      · rw [hrn]; omega
      · exact h3 (by omega)

/-- A position between the pointers of row `r` belongs to row `r`. -/
theorem rowOfPosition_eq (rp : List Nat) (Nb n r : Nat)
    (hmono : ∀ r, r < Nb → rp.getD r 0 ≤ rp.getD (r + 1) 0) (hr : r < Nb)
    (hlo : rp.getD r 0 ≤ n) (hhi : n < rp.getD (r + 1) 0) : rowOfPosition rp Nb n = r := by
  obtain ⟨h1, h2, h3⟩ := rowOfPosition_spec rp n Nb hmono
  by_contra hne
  rcases Nat.lt_or_gt_of_ne hne with hlt | hgt
  · have := h3 (by omega)
    have := getD_mono rp Nb hmono (rowOfPosition rp Nb n + 1) r (by omega) (by omega)
    omega
  · have := h2 r hgt
    omega

/-- The row of a position below the last row pointer: the position lies between the
pointers of that row. -/
theorem rowOfPosition_bounds (rp : List Nat) (Nb n : Nat)
    (hmono : ∀ r, r < Nb → rp.getD r 0 ≤ rp.getD (r + 1) 0) (h0 : rp.getD 0 0 = 0)
    (hn : n < rp.getD Nb 0) :
    rowOfPosition rp Nb n < Nb ∧ rp.getD (rowOfPosition rp Nb n) 0 ≤ n ∧
    n < rp.getD (rowOfPosition rp Nb n + 1) 0 := by
  obtain ⟨h1, h2, h3⟩ := rowOfPosition_spec rp n Nb hmono
  have hlt : rowOfPosition rp Nb n < Nb := by
    by_contra hne
    have heq : rowOfPosition rp Nb n = Nb := by omega
    by_cases hz : Nb = 0
    · rw [hz] at hn; omega
    · have := h2 (Nb - 1) (by omega)
      rw [show Nb - 1 + 1 = Nb by omega] at this
      omega
  refine ⟨hlt, ?_, h3 hlt⟩
  by_cases hz : rowOfPosition rp Nb n = 0
  · rw [hz, h0]; exact Nat.zero_le _
  · have := h2 (rowOfPosition rp Nb n - 1) (by omega)
    rw [show rowOfPosition rp Nb n - 1 + 1 = rowOfPosition rp Nb n by omega] at this
    exact this

/-- Copying one entry keeps the invariant of the scatter loops. -/
theorem scatterEntry_inv (ci rp : List Nat) (Nb Lr Lp k row : Nat) (s : List Nat × List Nat)
    (hLr : rp.getD Nb 0 ≤ Lr) (hLp : Nb < Lp)
    (hci : ∀ n, n < rp.getD Nb 0 → ci.getD n 0 < Nb)
    (hk : k < rp.getD Nb 0) (hrow : rowOfPosition rp Nb k = row)
    (h : ScatterInv ci rp Nb Lr Lp k s) :
    ScatterInv ci rp Nb Lr Lp (k + 1) (scatterEntry ci row s k) := by
  obtain ⟨hl1, hl2, hp, hlast, hr⟩ := h
  have hc0 := hci k hk
  have hcnt : (occurrences ci k (ci.getD k 0)).length + 1
      ≤ (occurrences ci (rp.getD Nb 0) (ci.getD k 0)).length := by
    have := occurrences_length_mono ci (ci.getD k 0) (show k + 1 ≤ rp.getD Nb 0 by omega)
    rw [occurrences_length_succ, if_pos rfl] at this
    exact this
  have hnext := colStart_succ ci (rp.getD Nb 0) (ci.getD k 0)
  have hend := colStart_mono ci (rp.getD Nb 0) (show ci.getD k 0 + 1 ≤ Nb by omega)
  have hlastc := colStart_last ci (rp.getD Nb 0) Nb hci
  have hdest := hp (ci.getD k 0) hc0
  unfold scatterEntry
  refine ⟨by simp [hl1], by simp [hl2], ?_, ?_, ?_⟩
  · intro c hc
    simp only []
    rw [getD_set, occurrences_length_succ]
    by_cases hcc : ci.getD k 0 = c
    · rw [if_pos ⟨hcc, by rw [hl2]; omega⟩, if_pos hcc, hdest, hcc]
      omega
    · rw [if_neg (fun hh => hcc hh.1), if_neg hcc, hp c hc]
      rfl
  · simp only []
    rw [getD_set_ne _ _ _ _ _ (by omega)]
    exact hlast
  · intro c hc k' hk'
    simp only []
    rw [occurrences_succ] at hk' ⊢
    by_cases hcc : ci.getD k 0 = c
    · rw [if_pos hcc] at hk' ⊢
      rw [List.length_append, List.length_singleton] at hk'
      by_cases hkk : k' = (occurrences ci k c).length
      · rw [hkk, List.getD_append_right _ _ _ _ (Nat.le_refl _), Nat.sub_self]
        rw [hdest, hcc, getD_set_self _ _ _ _ (by rw [hl1, ← hcc]; omega)]
        simp [hrow]
      · rw [List.getD_append _ _ _ _ (by omega), getD_set_ne _ _ _ _ _ (by rw [hdest, hcc]; omega)]
        exact hr c hc k' (by omega)
    · rw [if_neg hcc, List.append_nil] at hk' ⊢
      have hne : s.2.getD (ci.getD k 0) 0 ≠ colStart ci (rp.getD Nb 0) c + k' := by
        rw [hdest]
        have hck := occurrences_length_mono ci c (show k ≤ rp.getD Nb 0 by omega)
        have hnc := colStart_succ ci (rp.getD Nb 0) c
        rcases Nat.lt_or_gt_of_ne hcc with hlt | hgt
        · have := colStart_mono ci (rp.getD Nb 0) (show ci.getD k 0 + 1 ≤ c by omega)
          omega
        · have := colStart_mono ci (rp.getD Nb 0) (show c + 1 ≤ ci.getD k 0 by omega)
          omega
      rw [getD_set_ne _ _ _ _ _ hne]
      exact hr c hc k' hk'

/-- The scatter loops (lines 341-348) process all the entries. -/
theorem scatter_loop (ci rp : List Nat) (Nb Lr Lp : Nat) (s : List Nat × List Nat)
    (hv : ValidPattern rp ci Nb) (hLr : rp.getD Nb 0 ≤ Lr) (hLp : Nb < Lp)
    (h : ScatterInv ci rp Nb Lr Lp 0 s) :
    ScatterInv ci rp Nb Lr Lp (rp.getD Nb 0)
      ((List.range Nb).foldl (scatterRow ci rp) s) := by
  obtain ⟨_, h0, _, hmono, hci⟩ := hv
  have key := foldl_range_inv
    (fun r (t : List Nat × List Nat) => ScatterInv ci rp Nb Lr Lp (rp.getD r 0) t)
    (scatterRow ci rp) s Nb (by show ScatterInv ci rp Nb Lr Lp (rp.getD 0 0) s; rw [h0]; exact h) ?_
  · exact key
  · intro r t hr ht
    unfold scatterRow
    refine foldl_loopRange_inv (fun k t => ScatterInv ci rp Nb Lr Lp k t) _ t _ _
      (hmono r hr) ht ?_
    intro k t' hlo hhi ht'
    have hle := getD_mono rp Nb hmono (r + 1) Nb (by omega) (Nat.le_refl _)
    exact scatterEntry_inv ci rp Nb Lr Lp k r t' hLr hLp hci (by omega)
      (rowOfPosition_eq rp Nb k r hmono hr hlo hhi) ht'

/-- The result of `csrPatternToCsc` on a valid pattern: the column pointers are the numbers
of entries with a smaller column, and the entries of a column are the rows of the
positions holding that column, in the order of the positions. -/
theorem csrPatternToCsc_spec (ci rp R0 P0 : List Nat) (Nb : Nat)
    (hv : ValidPattern rp ci Nb) (hR : rp.getD Nb 0 ≤ R0.length) (hP : Nb < P0.length) :
    (csrPatternToCsc ci rp R0 P0 Nb).1.length = R0.length ∧
    (csrPatternToCsc ci rp R0 P0 Nb).2.length = P0.length ∧
    (∀ c, c ≤ Nb → (csrPatternToCsc ci rp R0 P0 Nb).2.getD c 0
      = colStart ci (rp.getD Nb 0) c) ∧
    ∀ c, c < Nb → ∀ k', k' < (occurrences ci (rp.getD Nb 0) c).length →
      (csrPatternToCsc ci rp R0 P0 Nb).1.getD (colStart ci (rp.getD Nb 0) c + k') 0
        = rowOfPosition rp Nb ((occurrences ci (rp.getD Nb 0) c).getD k' 0) := by
  obtain ⟨z1, z2⟩ := foldl_set_zero P0 Nb
  obtain ⟨c1, c2⟩ := countColumn_loop ci
    ((List.range Nb).foldl (fun p col => p.set col 0) P0) Nb (rp.getD Nb 0)
    (by rw [z1]; omega) z2
  obtain ⟨s1, s2, _⟩ := cumsumColumn_loop
    ((List.range (rp.getD Nb 0)).foldl (countColumn ci)
      ((List.range Nb).foldl (fun p col => p.set col 0) P0)) Nb
    (fun c => (occurrences ci (rp.getD Nb 0) c).length) (by rw [c1, z1]; omega) c2
  have hinit : ScatterInv ci rp Nb R0.length P0.length 0
      (R0, (((List.range Nb).foldl cumsumColumn
        ((List.range (rp.getD Nb 0)).foldl (countColumn ci)
          ((List.range Nb).foldl (fun p col => p.set col 0) P0), 0)).1).set Nb
            (rp.getD Nb 0)) := by
    refine ⟨rfl, by rw [List.length_set, s1, c1, z1], ?_, ?_, ?_⟩
    · intro c hc
      simp only []
      rw [getD_set_ne _ _ _ _ _ (by omega), s2 c hc]
      rfl
    · simp only []
      rw [getD_set_self _ _ _ _ (by rw [s1, c1, z1]; exact hP)]
    · intro c _ k' hk'
      exact absurd hk' (Nat.not_lt_zero _)
  have hfin := scatter_loop ci rp Nb R0.length P0.length _ hv hR hP hinit
  obtain ⟨f1, f2, f3, f4, f5⟩ := hfin
  obtain ⟨t1, t2⟩ := shiftColumn_loop
    ((List.range Nb).foldl (scatterRow ci rp)
      (R0, (((List.range Nb).foldl cumsumColumn
        ((List.range (rp.getD Nb 0)).foldl (countColumn ci)
          ((List.range Nb).foldl (fun p col => p.set col 0) P0), 0)).1).set Nb
            (rp.getD Nb 0))).2 Nb (fun c => colStart ci (rp.getD Nb 0) c)
    (by rw [f2]; exact hP) rfl
    (fun c hc => by rw [f3 c hc]; exact (colStart_succ ci (rp.getD Nb 0) c).symm)
  exact ⟨f1, by rw [← f2]; exact t1, t2, f5⟩

/-! ## `csrPatternToCsc` computes the transpose -/

/-- Two strictly ascending lists with the same members are equal. -/
theorem eq_of_pairwise_lt_of_mem_iff (l1 l2 : List Nat) (h1 : l1.Pairwise (fun a b => a < b))
    (h2 : l2.Pairwise (fun a b => a < b)) (h : ∀ x, x ∈ l1 ↔ x ∈ l2) : l1 = l2 := by
  have n1 : l1.Nodup := h1.imp (fun hab => Nat.ne_of_lt hab)
  have n2 : l2.Nodup := h2.imp (fun hab => Nat.ne_of_lt hab)
  have hperm : l1.Perm l2 := (List.perm_ext_iff_of_nodup n1 n2).mpr h
  exact List.eq_of_perm_of_sorted hperm
    (show l1.Sorted (fun a b => a ≤ b) from h1.imp (fun hab => Nat.le_of_lt hab))
    (show l2.Sorted (fun a b => a ≤ b) from h2.imp (fun hab => Nat.le_of_lt hab))

theorem occurrences_pairwise (ci : List Nat) (k c : Nat) :
    (occurrences ci k c).Pairwise (fun a b => a < b) := by
  unfold occurrences
  exact List.Pairwise.filter _ (List.pairwise_lt_range k)

theorem loopRange_pairwise (lo hi : Nat) : (loopRange lo hi).Pairwise (fun a b => a < b) := by
  unfold loopRange
  exact List.pairwise_lt_range' lo (hi - lo)

/-- The positions of row `r` are those between its two pointers. -/
theorem filter_rowOfPosition (rp : List Nat) (Nb r : Nat)
    (hmono : ∀ r, r < Nb → rp.getD r 0 ≤ rp.getD (r + 1) 0) (h0 : rp.getD 0 0 = 0)
    (hr : r < Nb) :
    (List.range (rp.getD Nb 0)).filter (fun n => rowOfPosition rp Nb n = r)
      = loopRange (rp.getD r 0) (rp.getD (r + 1) 0) := by
  apply eq_of_pairwise_lt_of_mem_iff _ _ (List.Pairwise.filter _ (List.pairwise_lt_range _))
    (loopRange_pairwise _ _)
  intro n
  rw [List.mem_filter, List.mem_range, mem_loopRange, decide_eq_true_eq]
  constructor
  · rintro ⟨hn, hrow⟩
    have := rowOfPosition_bounds rp Nb n hmono h0 hn
    rw [hrow] at this
    exact ⟨this.2.1, this.2.2⟩
  · rintro ⟨hlo, hhi⟩
    have := getD_mono rp Nb hmono (r + 1) Nb (by omega) (Nat.le_refl _)
    exact ⟨by omega, rowOfPosition_eq rp Nb n r hmono hr hlo hhi⟩

/-- Reading a list cell by cell and applying a function is mapping the function. -/
theorem map_range_getD (l : List Nat) (g : Nat → Nat) :
    (List.range l.length).map (fun k => g (l.getD k 0)) = l.map g := by
  apply List.ext_getElem
  · simp
  · intro i h1 h2
    simp only [List.length_map, List.length_range] at h1
    rw [List.getElem_map, List.getElem_map, List.getElem_range, List.getD_eq_getElem?_getD,
      List.getElem?_eq_getElem h1]
    rfl

theorem segment_eq (l : List Nat) (lo n : Nat) :
    segment l lo (lo + n) = (List.range n).map (fun k => l.getD (lo + k) 0) := by
  unfold segment loopRange
  rw [Nat.add_sub_cancel_left, List.range'_eq_map_range, List.map_map]
  rfl

/-- The entries of column `c` of the result: the rows of the positions holding `c`. -/
theorem csrPatternToCsc_column (ci rp R0 P0 : List Nat) (Nb : Nat)
    (hv : ValidPattern rp ci Nb) (hR : rp.getD Nb 0 ≤ R0.length) (hP : Nb < P0.length)
    (c : Nat) (hc : c < Nb) :
    segment (csrPatternToCsc ci rp R0 P0 Nb).1 ((csrPatternToCsc ci rp R0 P0 Nb).2.getD c 0)
        ((csrPatternToCsc ci rp R0 P0 Nb).2.getD (c + 1) 0)
      = (occurrences ci (rp.getD Nb 0) c).map (rowOfPosition rp Nb) := by
  obtain ⟨_, _, hp, hcells⟩ := csrPatternToCsc_spec ci rp R0 P0 Nb hv hR hP
  rw [hp c (by omega), hp (c + 1) (by omega), colStart_succ, segment_eq,
    ← map_range_getD (occurrences ci (rp.getD Nb 0) c) (rowOfPosition rp Nb)]
  apply List.map_congr_left
  intro k' hk'
  exact hcells c hc k' (List.mem_range.mp hk')

theorem count_eq_countP_eq (l : List Nat) (a : Nat) :
    l.count a = l.countP (fun x => decide (x = a)) := by
  rw [List.count_eq_countP]
  apply List.countP_congr
  intro x _
  simp

/-- Row `r` occurs among the entries of column `c` of the result as often as column `c`
occurs among the entries of row `r` of the input. -/
theorem csrPatternToCsc_count (ci rp R0 P0 : List Nat) (Nb : Nat)
    (hv : ValidPattern rp ci Nb) (hR : rp.getD Nb 0 ≤ R0.length) (hP : Nb < P0.length)
    (r c : Nat) (hr : r < Nb) (hc : c < Nb) :
    (segment (csrPatternToCsc ci rp R0 P0 Nb).1 ((csrPatternToCsc ci rp R0 P0 Nb).2.getD c 0)
        ((csrPatternToCsc ci rp R0 P0 Nb).2.getD (c + 1) 0)).count r
      = (segment ci (rp.getD r 0) (rp.getD (r + 1) 0)).count c := by
  rw [csrPatternToCsc_column ci rp R0 P0 Nb hv hR hP c hc]
  unfold segment
  rw [← filter_rowOfPosition rp Nb r hv.2.2.2.1 hv.2.1 hr]
  unfold occurrences
  rw [count_eq_countP_eq, count_eq_countP_eq, List.countP_map, List.countP_map,
    List.countP_filter, List.countP_filter]
  apply List.countP_congr
  intro n _
  simp only [Function.comp, Bool.and_eq_true, decide_eq_true_eq]
  exact ⟨fun h => ⟨h.2, h.1⟩, fun h => ⟨h.2, h.1⟩⟩

/-- Claim C26. For a valid CSR pattern and buffers that are large enough,
`csrPatternToCsc` returns the transposed pattern: the column pointers start at 0, do not
decrease and end at the number of entries of the input, and row `r` occurs among the
entries of column `c` of the result as often as column `c` occurs among the entries of
row `r` of the input. -/
theorem C26_csc_is_transpose (CSRColIndices CSRRowPointers CSCRowIndices CSCColPointers :
    List Nat) (Nb : Nat) (hv : ValidPattern CSRRowPointers CSRColIndices Nb)
    (hR : CSRRowPointers.getD Nb 0 ≤ CSCRowIndices.length)
    (hP : Nb < CSCColPointers.length) :
    (csrPatternToCsc CSRColIndices CSRRowPointers CSCRowIndices CSCColPointers Nb).2.getD 0 0
      = 0 ∧
    (∀ c, c < Nb →
      (csrPatternToCsc CSRColIndices CSRRowPointers CSCRowIndices CSCColPointers Nb).2.getD c 0
      ≤ (csrPatternToCsc CSRColIndices CSRRowPointers CSCRowIndices CSCColPointers Nb).2.getD
          (c + 1) 0) ∧
    (csrPatternToCsc CSRColIndices CSRRowPointers CSCRowIndices CSCColPointers Nb).2.getD Nb 0
      = CSRRowPointers.getD Nb 0 ∧
    ∀ r c, r < Nb → c < Nb →
      (segment
        (csrPatternToCsc CSRColIndices CSRRowPointers CSCRowIndices CSCColPointers Nb).1
        ((csrPatternToCsc CSRColIndices CSRRowPointers CSCRowIndices CSCColPointers
          Nb).2.getD c 0)
        ((csrPatternToCsc CSRColIndices CSRRowPointers CSCRowIndices CSCColPointers
          Nb).2.getD (c + 1) 0)).count r
      = (segment CSRColIndices (CSRRowPointers.getD r 0)
          (CSRRowPointers.getD (r + 1) 0)).count c := by
  obtain ⟨_, _, hp, _⟩ := csrPatternToCsc_spec CSRColIndices CSRRowPointers CSCRowIndices
    CSCColPointers Nb hv hR hP
  refine ⟨by rw [hp 0 (Nat.zero_le _)]; rfl, ?_, ?_, ?_⟩
  · intro c hc
    rw [hp c (by omega), hp (c + 1) (by omega)]
    exact colStart_mono _ _ (Nat.le_succ c)
  · rw [hp Nb (Nat.le_refl _)]
    exact colStart_last _ _ _ hv.2.2.2.2
  · intro r c hr hc
    exact csrPatternToCsc_count CSRColIndices CSRRowPointers CSCRowIndices CSCColPointers Nb
      hv hR hP r c hr hc

theorem C26_csc_is_transpose_witness :
    ValidPattern [0, 1, 3, 5] [0, 0, 1, 1, 2] 3 ∧
    csrPatternToCsc [0, 0, 1, 1, 2] [0, 1, 3, 5] [9, 9, 9, 9, 9] [7, 7, 7, 7] 3
      = ([0, 1, 1, 2, 2], [0, 2, 4, 5]) ∧
    (segment (csrPatternToCsc [0, 0, 1, 1, 2] [0, 1, 3, 5] [9, 9, 9, 9, 9] [7, 7, 7, 7] 3).1
      ((csrPatternToCsc [0, 0, 1, 1, 2] [0, 1, 3, 5] [9, 9, 9, 9, 9] [7, 7, 7, 7] 3).2.getD 1 0)
      ((csrPatternToCsc [0, 0, 1, 1, 2] [0, 1, 3, 5] [9, 9, 9, 9, 9] [7, 7, 7, 7] 3).2.getD
        (1 + 1) 0)).count 2
      = (segment [0, 0, 1, 1, 2] (([0, 1, 3, 5] : List Nat).getD 2 0)
          (([0, 1, 3, 5] : List Nat).getD (2 + 1) 0)).count 1 :=
  ⟨by decide, by decide,
    (C26_csc_is_transpose [0, 0, 1, 1, 2] [0, 1, 3, 5] [9, 9, 9, 9, 9] [7, 7, 7, 7] 3
      (by decide) (by decide) (by decide)).2.2.2 2 1 (by decide) (by decide)⟩

/-! ## `csrPatternToCsc` applied twice -/

theorem rowOfPosition_mono (rp : List Nat) (Nb : Nat) {n n' : Nat} (h : n ≤ n') :
    rowOfPosition rp Nb n ≤ rowOfPosition rp Nb n' := by
  unfold rowOfPosition
  rw [← List.countP_eq_length_filter, ← List.countP_eq_length_filter]
  apply List.countP_mono_left
  intro r _ hr
  simp only [decide_eq_true_eq] at hr ⊢
  omega

/-- Cells of a list read through `getD` are its elements. -/
theorem pairwise_getD (l : List Nat) (R : Nat → Nat → Prop) (h : l.Pairwise R) (i j : Nat)
    (hij : i < j) (hj : j < l.length) : R (l.getD i 0) (l.getD j 0) := by
  rw [List.getD_eq_getElem?_getD, List.getD_eq_getElem?_getD,
    List.getElem?_eq_getElem (show i < l.length by omega), List.getElem?_eq_getElem hj]
  exact List.pairwise_iff_getElem.mp h i j (by omega) hj hij

theorem getD_mem (l : List Nat) (i : Nat) (hi : i < l.length) : l.getD i 0 ∈ l := by
  rw [List.getD_eq_getElem?_getD, List.getElem?_eq_getElem hi]
  exact List.getElem_mem hi

/-- An array that does not decrease from one cell to the next between `lo` and `hi` does
not decrease between any two cells there. -/
theorem getD_mono_between (l : List Nat) (lo hi : Nat)
    (h : ∀ k, lo ≤ k → k + 1 < hi → l.getD k 0 ≤ l.getD (k + 1) 0) (a b : Nat)
    (hla : lo ≤ a) (hab : a ≤ b) (hb : b < hi) : l.getD a 0 ≤ l.getD b 0 := by
  induction b, hab using Nat.le_induction with
  | base => exact Nat.le_refl _
  | succ m hm ih => exact Nat.le_trans (ih (by omega)) (h m (by omega) hb)

theorem getD_strictMono_between (l : List Nat) (lo hi : Nat)
    (h : ∀ k, lo ≤ k → k + 1 < hi → l.getD k 0 < l.getD (k + 1) 0) (a b : Nat)
    (hla : lo ≤ a) (hab : a < b) (hb : b < hi) : l.getD a 0 < l.getD b 0 := by
  induction b, hab using Nat.le_induction with
  | base => exact h a hla hb
  | succ m hm ih => exact Nat.lt_trans (ih (by omega)) (h m (by omega) hb)

theorem segment_sorted (l : List Nat) (lo hi : Nat)
    (h : ∀ k, lo ≤ k → k + 1 < hi → l.getD k 0 ≤ l.getD (k + 1) 0) :
    (segment l lo hi).Sorted (fun a b => a ≤ b) := by
  unfold segment List.Sorted
  rw [List.pairwise_map]
  refine List.Pairwise.imp_of_mem ?_ (loopRange_pairwise lo hi)
  intro a b ha hb hab
  rw [mem_loopRange] at ha hb
  exact getD_mono_between l lo hi h a b ha.1 (Nat.le_of_lt hab) hb.2

/-- Summed over the columns below `m`, the entries of each column are the entries with a
column below `m`. -/
theorem sum_filter_eq_length (f : Nat → Nat) (l : List Nat) (m : Nat) :
    ((List.range m).map (fun c => (l.filter (fun n => f n = c)).length)).sum
      = (l.filter (fun n => f n < m)).length := by
  induction m with
  | zero => simp
  | succ m ih =>
    rw [List.range_succ, List.map_append, List.sum_append, ih, filter_lt_succ_length]
    simp

/-- The cells of the result below the start of column `c`, column after column. -/
theorem csrPatternToCsc_cells (ci rp R0 P0 : List Nat) (Nb : Nat)
    (hv : ValidPattern rp ci Nb) (hR : rp.getD Nb 0 ≤ R0.length) (hP : Nb < P0.length)
    (c : Nat) (hc : c ≤ Nb) :
    (List.range (colStart ci (rp.getD Nb 0) c)).map
        (fun n => (csrPatternToCsc ci rp R0 P0 Nb).1.getD n 0)
      = (List.range c).flatMap
          (fun c' => (occurrences ci (rp.getD Nb 0) c').map (rowOfPosition rp Nb)) := by
  obtain ⟨_, _, _, hcells⟩ := csrPatternToCsc_spec ci rp R0 P0 Nb hv hR hP
  induction c with
  | zero => rfl
  | succ c ih =>
    rw [colStart_succ, List.range_add, List.map_append, ih (by omega), List.range_succ,
      List.flatMap_append, List.map_map]
    congr 1
    simp only [List.flatMap_cons, List.flatMap_nil, List.append_nil]
    rw [← map_range_getD (occurrences ci (rp.getD Nb 0) c) (rowOfPosition rp Nb)]
    apply List.map_congr_left
    intro k' hk'
    exact hcells c (by omega) k' (List.mem_range.mp hk')

theorem countP_flatMap_range (g : Nat → List Nat) (p : Nat → Bool) (m : Nat) :
    ((List.range m).flatMap g).countP p = ((List.range m).map (fun c => (g c).countP p)).sum := by
  induction m with
  | zero => rfl
  | succ m ih =>
    rw [List.range_succ, List.flatMap_append, List.countP_append, ih, List.map_append,
      List.sum_append]
    simp

/-- Every row occurs in the result as often as it has entries. -/
theorem csrPatternToCsc_row_count (ci rp R0 P0 : List Nat) (Nb : Nat)
    (hv : ValidPattern rp ci Nb) (hR : rp.getD Nb 0 ≤ R0.length) (hP : Nb < P0.length)
    (r : Nat) (hr : r < Nb) :
    (occurrences (csrPatternToCsc ci rp R0 P0 Nb).1 (rp.getD Nb 0) r).length
      = rp.getD (r + 1) 0 - rp.getD r 0 := by
  have hcells := csrPatternToCsc_cells ci rp R0 P0 Nb hv hR hP Nb (Nat.le_refl _)
  rw [colStart_last ci (rp.getD Nb 0) Nb hv.2.2.2.2] at hcells
  have h1 : (occurrences (csrPatternToCsc ci rp R0 P0 Nb).1 (rp.getD Nb 0) r).length
      = ((List.range (rp.getD Nb 0)).map
          (fun n => (csrPatternToCsc ci rp R0 P0 Nb).1.getD n 0)).countP
            (fun x => decide (x = r)) := by
    unfold occurrences
    rw [← List.countP_eq_length_filter, List.countP_map]
    rfl
  rw [h1, hcells, countP_flatMap_range]
  have h2 : ∀ c, c ∈ List.range Nb →
      ((occurrences ci (rp.getD Nb 0) c).map (rowOfPosition rp Nb)).countP
          (fun x => decide (x = r))
        = ((loopRange (rp.getD r 0) (rp.getD (r + 1) 0)).filter
            (fun n => ci.getD n 0 = c)).length := by
    intro c _
    rw [← filter_rowOfPosition rp Nb r hv.2.2.2.1 hv.2.1 hr]
    unfold occurrences
    rw [List.countP_map, List.countP_filter, ← List.countP_eq_length_filter,
      List.countP_filter]
    apply List.countP_congr
    intro n _
    simp only [Function.comp, Bool.and_eq_true, decide_eq_true_eq]
    exact ⟨fun h => ⟨h.2, h.1⟩, fun h => ⟨h.2, h.1⟩⟩
  rw [List.map_congr_left h2,
    sum_filter_eq_length (fun n => ci.getD n 0) (loopRange (rp.getD r 0) (rp.getD (r + 1) 0)) Nb]
  have hall : (loopRange (rp.getD r 0) (rp.getD (r + 1) 0)).filter
      (fun n => ci.getD n 0 < Nb) = loopRange (rp.getD r 0) (rp.getD (r + 1) 0) := by
    rw [List.filter_eq_self]
    intro n hn
    rw [mem_loopRange] at hn
    simp only [decide_eq_true_eq]
    have := getD_mono rp Nb hv.2.2.2.1 (r + 1) Nb (by omega) (Nat.le_refl _)
    exact hv.2.2.2.2 n (by omega)
  rw [hall]
  unfold loopRange
  rw [List.length_range']

/-- Telescoping sum of the row lengths. -/
theorem sum_pointer_differences (rp : List Nat) (Nb : Nat)
    (hmono : ∀ r, r < Nb → rp.getD r 0 ≤ rp.getD (r + 1) 0) (h0 : rp.getD 0 0 = 0)
    (r : Nat) (hr : r ≤ Nb) :
    ((List.range r).map (fun r' => rp.getD (r' + 1) 0 - rp.getD r' 0)).sum = rp.getD r 0 := by
  induction r with
  | zero => rw [h0]; rfl
  | succ r ih =>
    rw [List.range_succ, List.map_append, List.sum_append, ih (by omega)]
    have := hmono r (by omega)
    simp only [List.map_cons, List.map_nil, List.sum_cons, List.sum_nil]
    omega

/-- The result of `csrPatternToCsc` on a valid pattern is a valid pattern whose rows (the
columns of the input) do not decrease. -/
theorem csrPatternToCsc_valid (ci rp R0 P0 : List Nat) (Nb : Nat)
    (hv : ValidPattern rp ci Nb) (hR : rp.getD Nb 0 ≤ R0.length)
    (hP : P0.length = Nb + 1) :
    ValidPattern (csrPatternToCsc ci rp R0 P0 Nb).2 (csrPatternToCsc ci rp R0 P0 Nb).1 Nb ∧
    AscendingRows (csrPatternToCsc ci rp R0 P0 Nb).2 (csrPatternToCsc ci rp R0 P0 Nb).1 Nb ∧
    (csrPatternToCsc ci rp R0 P0 Nb).2.getD Nb 0 = rp.getD Nb 0 := by
  obtain ⟨hl1, hl2, hp, hcells⟩ := csrPatternToCsc_spec ci rp R0 P0 Nb hv hR (by omega)
  have hlast : (csrPatternToCsc ci rp R0 P0 Nb).2.getD Nb 0 = rp.getD Nb 0 := by
    rw [hp Nb (Nat.le_refl _)]
    exact colStart_last _ _ _ hv.2.2.2.2
  have hmono : ∀ c, c < Nb → (csrPatternToCsc ci rp R0 P0 Nb).2.getD c 0
      ≤ (csrPatternToCsc ci rp R0 P0 Nb).2.getD (c + 1) 0 := by
    intro c hc
    rw [hp c (by omega), hp (c + 1) (by omega)]
    exact colStart_mono _ _ (Nat.le_succ c)
  have hzero : (csrPatternToCsc ci rp R0 P0 Nb).2.getD 0 0 = 0 := by
    rw [hp 0 (Nat.zero_le _)]; rfl
  refine ⟨⟨by rw [hl2, hP], hzero, by rw [hlast, hl1]; exact hR, hmono, ?_⟩, ?_, hlast⟩
  · intro n hn
    obtain ⟨b1, b2, b3⟩ := rowOfPosition_bounds _ Nb n hmono hzero hn
    have hc := b1
    rw [hp _ (by omega)] at b2
    rw [hp _ (by omega), colStart_succ] at b3
    have := hcells _ hc (n - colStart ci (rp.getD Nb 0)
      (rowOfPosition (csrPatternToCsc ci rp R0 P0 Nb).2 Nb n)) (by omega)
    rw [show colStart ci (rp.getD Nb 0) (rowOfPosition (csrPatternToCsc ci rp R0 P0 Nb).2 Nb n)
      + (n - colStart ci (rp.getD Nb 0) (rowOfPosition (csrPatternToCsc ci rp R0 P0 Nb).2 Nb n))
      = n by omega] at this
    rw [this]
    have hmem := getD_mem (occurrences ci (rp.getD Nb 0)
      (rowOfPosition (csrPatternToCsc ci rp R0 P0 Nb).2 Nb n))
      (n - colStart ci (rp.getD Nb 0) (rowOfPosition (csrPatternToCsc ci rp R0 P0 Nb).2 Nb n))
      (by omega)
    rw [mem_occurrences] at hmem
    exact (rowOfPosition_bounds rp Nb _ hv.2.2.2.1 hv.2.1 hmem.1).1
  · intro c hc k hk1 hk2 hk3
    rw [hp c (by omega)] at hk2
    rw [hp (c + 1) (by omega), colStart_succ] at hk1 hk3
    have e1 := hcells c hc (k - colStart ci (rp.getD Nb 0) c) (by omega)
    have e2 := hcells c hc (k + 1 - colStart ci (rp.getD Nb 0) c) (by omega)
    rw [show colStart ci (rp.getD Nb 0) c + (k - colStart ci (rp.getD Nb 0) c) = k by omega]
      at e1
    rw [show colStart ci (rp.getD Nb 0) c + (k + 1 - colStart ci (rp.getD Nb 0) c) = k + 1
      by omega] at e2
    rw [e1, e2]
    apply rowOfPosition_mono
    exact Nat.le_of_lt (pairwise_getD _ _ (occurrences_pairwise ci (rp.getD Nb 0) c) _ _
      (by omega) (by omega))

theorem segment_getD (l : List Nat) (lo hi j : Nat) (hj : lo + j < hi) :
    (segment l lo hi).getD j 0 = l.getD (lo + j) 0 := by
  unfold segment loopRange
  rw [List.getD_eq_getElem?_getD, List.getElem?_map, List.getElem?_range' _ _ (by omega)]
  simp

/-- The pointers after transposing twice are the pointers of the input. -/
theorem csrPatternToCsc_twice_pointers (ci rp R0 P0 : List Nat) (Nb : Nat)
    (hv : ValidPattern rp ci Nb) (hR : rp.getD Nb 0 ≤ R0.length) (hP : Nb < P0.length)
    (r : Nat) (hr : r ≤ Nb) :
    colStart (csrPatternToCsc ci rp R0 P0 Nb).1 (rp.getD Nb 0) r = rp.getD r 0 := by
  unfold colStart
  rw [List.map_congr_left (fun r' hr' => csrPatternToCsc_row_count ci rp R0 P0 Nb hv hR hP r'
    (by have := List.mem_range.mp hr'; omega))]
  exact sum_pointer_differences rp Nb hv.2.2.2.1 hv.2.1 r hr

/-- Transposing twice gives back a pattern whose rows do not decrease. -/
theorem csrPatternToCsc_involution (ci rp R0 P0 R1 P1 : List Nat) (Nb : Nat)
    (hv : ValidPattern rp ci Nb) (hasc : AscendingRows rp ci Nb)
    (hlen : ci.length = rp.getD Nb 0) (hR0 : rp.getD Nb 0 ≤ R0.length)
    (hP0 : P0.length = Nb + 1) (hR1 : R1.length = ci.length) (hP1 : P1.length = Nb + 1) :
    csrPatternToCsc (csrPatternToCsc ci rp R0 P0 Nb).1 (csrPatternToCsc ci rp R0 P0 Nb).2
      R1 P1 Nb = (ci, rp) := by
  obtain ⟨hvT, _, hlastT⟩ := csrPatternToCsc_valid ci rp R0 P0 Nb hv hR0 hP0
  have hR1T : (csrPatternToCsc ci rp R0 P0 Nb).2.getD Nb 0 ≤ R1.length := by
    rw [hlastT, hR1, hlen]
  obtain ⟨d1, d2, d3, _⟩ := csrPatternToCsc_spec _ _ R1 P1 Nb hvT hR1T (by omega)
  have hptr : ∀ r, r ≤ Nb →
      (csrPatternToCsc (csrPatternToCsc ci rp R0 P0 Nb).1 (csrPatternToCsc ci rp R0 P0 Nb).2
        R1 P1 Nb).2.getD r 0 = rp.getD r 0 := by
    intro r hr
    rw [d3 r hr, hlastT]
    exact csrPatternToCsc_twice_pointers ci rp R0 P0 Nb hv hR0 (by omega) r hr
  have hrows : ∀ r, r < Nb →
      segment (csrPatternToCsc (csrPatternToCsc ci rp R0 P0 Nb).1
          (csrPatternToCsc ci rp R0 P0 Nb).2 R1 P1 Nb).1 (rp.getD r 0) (rp.getD (r + 1) 0)
        = segment ci (rp.getD r 0) (rp.getD (r + 1) 0) := by
    intro r hr
    have hcol := csrPatternToCsc_column _ _ R1 P1 Nb hvT hR1T (by omega) r hr
    rw [hptr r (by omega), hptr (r + 1) (by omega)] at hcol
    have hsortD : (segment (csrPatternToCsc (csrPatternToCsc ci rp R0 P0 Nb).1
        (csrPatternToCsc ci rp R0 P0 Nb).2 R1 P1 Nb).1 (rp.getD r 0)
        (rp.getD (r + 1) 0)).Sorted (fun a b => a ≤ b) := by
      rw [hcol]
      exact List.Pairwise.map _ (fun a b hab => rowOfPosition_mono _ Nb (Nat.le_of_lt hab))
        (occurrences_pairwise _ _ r)
    have hsortC : (segment ci (rp.getD r 0) (rp.getD (r + 1) 0)).Sorted (fun a b => a ≤ b) :=
      segment_sorted ci _ _ (fun k hk1 hk2 => hasc r hr k (by omega) hk1 hk2)
    refine List.eq_of_perm_of_sorted (List.perm_iff_count.mpr ?_) hsortD hsortC
    intro c
    by_cases hc : c < Nb
    · have e1 := csrPatternToCsc_count _ _ R1 P1 Nb hvT hR1T (by omega) c r hc hr
      rw [hptr r (by omega), hptr (r + 1) (by omega)] at e1
      rw [e1]
      exact csrPatternToCsc_count ci rp R0 P0 Nb hv hR0 (by omega) r c hr hc
    · rw [List.count_eq_zero_of_not_mem, List.count_eq_zero_of_not_mem]
      · intro hmem
        unfold segment at hmem
        rw [List.mem_map] at hmem
        obtain ⟨k, hk, hkc⟩ := hmem
        rw [mem_loopRange] at hk
        have := getD_mono rp Nb hv.2.2.2.1 (r + 1) Nb (by omega) (Nat.le_refl _)
        have := hv.2.2.2.2 k (by omega)
        omega
      · rw [hcol]
        intro hmem
        rw [List.mem_map] at hmem
        obtain ⟨n, hn, hnc⟩ := hmem
        rw [mem_occurrences] at hn
        have := (rowOfPosition_bounds _ Nb n hvT.2.2.2.1 hvT.2.1 hn.1).1
        omega
  have hcell : ∀ k, k < rp.getD Nb 0 →
      (csrPatternToCsc (csrPatternToCsc ci rp R0 P0 Nb).1 (csrPatternToCsc ci rp R0 P0 Nb).2
        R1 P1 Nb).1.getD k 0 = ci.getD k 0 := by
    intro k hk
    obtain ⟨b1, b2, b3⟩ := rowOfPosition_bounds rp Nb k hv.2.2.2.1 hv.2.1 hk
    have e1 := segment_getD (csrPatternToCsc (csrPatternToCsc ci rp R0 P0 Nb).1
      (csrPatternToCsc ci rp R0 P0 Nb).2 R1 P1 Nb).1 (rp.getD (rowOfPosition rp Nb k) 0)
      (rp.getD (rowOfPosition rp Nb k + 1) 0) (k - rp.getD (rowOfPosition rp Nb k) 0)
      (by omega)
    have e2 := segment_getD ci (rp.getD (rowOfPosition rp Nb k) 0)
      (rp.getD (rowOfPosition rp Nb k + 1) 0) (k - rp.getD (rowOfPosition rp Nb k) 0)
      (by omega)
    rw [show rp.getD (rowOfPosition rp Nb k) 0 + (k - rp.getD (rowOfPosition rp Nb k) 0) = k
      by omega] at e1 e2
    rw [← e1, ← e2, hrows _ b1]
  have h1 := list_ext_getD 0 _ ci (by rw [d1, hR1])
    (fun p hp => hcell p (by rw [d1, hR1, hlen] at hp; exact hp))
  have h2 := list_ext_getD 0 _ rp (by rw [d2, hP1, hv.1])
    (fun p hp => hptr p (by rw [d2, hP1] at hp; omega))
  exact Prod.ext h1 h2

/-- On a pattern whose rows ascend strictly, the columns of the result ascend strictly. -/
theorem csrPatternToCsc_sorted (ci rp R0 P0 : List Nat) (Nb : Nat)
    (hs : SortedPattern rp ci Nb) (hR : R0.length = ci.length) (hP : P0.length = Nb + 1) :
    SortedPattern (csrPatternToCsc ci rp R0 P0 Nb).2 (csrPatternToCsc ci rp R0 P0 Nb).1 Nb := by
  obtain ⟨s1, s2, s3, s4, s5, s6⟩ := hs
  have hv : ValidPattern rp ci Nb := ⟨s1, s2, by omega, s4, fun k hk => s5 k (by omega)⟩
  obtain ⟨hl1, hl2, hp, hcells⟩ := csrPatternToCsc_spec ci rp R0 P0 Nb hv (by omega) (by omega)
  obtain ⟨⟨v1, v2, v3, v4, v5⟩, _, hlast⟩ := csrPatternToCsc_valid ci rp R0 P0 Nb hv
    (by omega) hP
  refine ⟨v1, v2, by rw [hl1, hlast, hR, s3], v4,
    fun k hk => v5 k (by rw [hl1, hR, s3] at hk; rw [hlast]; exact hk), ?_⟩
  intro c hc k hk1 hk2 hk3
  rw [hp c (by omega)] at hk2
  rw [hp (c + 1) (by omega), colStart_succ] at hk1 hk3
  have e1 := hcells c hc (k - colStart ci (rp.getD Nb 0) c) (by omega)
  have e2 := hcells c hc (k + 1 - colStart ci (rp.getD Nb 0) c) (by omega)
  rw [show colStart ci (rp.getD Nb 0) c + (k - colStart ci (rp.getD Nb 0) c) = k by omega]
    at e1
  rw [show colStart ci (rp.getD Nb 0) c + (k + 1 - colStart ci (rp.getD Nb 0) c) = k + 1
    by omega] at e2
  rw [e1, e2]
  have hlt := pairwise_getD _ _ (occurrences_pairwise ci (rp.getD Nb 0) c)
    (k - colStart ci (rp.getD Nb 0) c) (k + 1 - colStart ci (rp.getD Nb 0) c)
    (by omega) (by omega)
  have m1 := getD_mem (occurrences ci (rp.getD Nb 0) c) (k - colStart ci (rp.getD Nb 0) c)
    (by omega)
  have m2 := getD_mem (occurrences ci (rp.getD Nb 0) c) (k + 1 - colStart ci (rp.getD Nb 0) c)
    (by omega)
  rw [mem_occurrences] at m1 m2
  generalize (occurrences ci (rp.getD Nb 0) c).getD (k - colStart ci (rp.getD Nb 0) c) 0 = a
    at hlt m1
  generalize (occurrences ci (rp.getD Nb 0) c).getD (k + 1 - colStart ci (rp.getD Nb 0) c) 0 = b
    at hlt m2
  have hle := rowOfPosition_mono rp Nb (Nat.le_of_lt hlt)
  rcases Nat.lt_or_eq_of_le hle with h | h
  · exact h
  · exfalso
    obtain ⟨a1, a2, a3⟩ := rowOfPosition_bounds rp Nb a s4 s2 m1.1
    obtain ⟨b1, b2, b3⟩ := rowOfPosition_bounds rp Nb b s4 s2 m2.1
    rw [← h] at b3
    have := getD_strictMono_between ci (rp.getD (rowOfPosition rp Nb a) 0)
      (rp.getD (rowOfPosition rp Nb a + 1) 0)
      (fun k hk1 hk2 => s6 _ a1 k (by omega) hk1 hk2) a b a2 hlt b3
    rw [m1.2, m2.2] at this
    exact Nat.lt_irrefl _ this

/-- Claim C27. On a sorted pattern (rows ascending, buffers of the sizes of the pattern),
`csrPatternToCsc` returns a sorted pattern: the row indices written for each column
ascend; and applying `csrPatternToCsc` to its own output returns the original column
indices and row pointers. -/
theorem C27_transpose_twice_is_identity (CSRColIndices CSRRowPointers CSCRowIndices
    CSCColPointers rowIndices2 colPointers2 : List Nat) (Nb : Nat)
    (hs : SortedPattern CSRRowPointers CSRColIndices Nb)
    (hR0 : CSCRowIndices.length = CSRColIndices.length)
    (hP0 : CSCColPointers.length = Nb + 1)
    (hR1 : rowIndices2.length = CSRColIndices.length)
    (hP1 : colPointers2.length = Nb + 1) :
    SortedPattern
      (csrPatternToCsc CSRColIndices CSRRowPointers CSCRowIndices CSCColPointers Nb).2
      (csrPatternToCsc CSRColIndices CSRRowPointers CSCRowIndices CSCColPointers Nb).1 Nb ∧
    csrPatternToCsc
      (csrPatternToCsc CSRColIndices CSRRowPointers CSCRowIndices CSCColPointers Nb).1
      (csrPatternToCsc CSRColIndices CSRRowPointers CSCRowIndices CSCColPointers Nb).2
      rowIndices2 colPointers2 Nb = (CSRColIndices, CSRRowPointers) := by
  refine ⟨csrPatternToCsc_sorted _ _ _ _ Nb hs hR0 hP0, ?_⟩
  obtain ⟨s1, s2, s3, s4, s5, s6⟩ := hs
  exact csrPatternToCsc_involution _ _ _ _ _ _ Nb
    ⟨s1, s2, by omega, s4, fun k hk => s5 k (by omega)⟩
    (fun r hr k hk1 hk2 hk3 => Nat.le_of_lt (s6 r hr k hk1 hk2 hk3))
    s3 (by omega) hP0 hR1 hP1

theorem C27_transpose_twice_is_identity_witness :
    SortedPattern [0, 2, 4, 5] [0, 2, 0, 1, 2] 3 ∧
    csrPatternToCsc [0, 2, 0, 1, 2] [0, 2, 4, 5] [9, 9, 9, 9, 9] [7, 7, 7, 7] 3
      = ([0, 1, 1, 0, 2], [0, 2, 3, 5]) ∧
    SortedPattern
      (csrPatternToCsc [0, 2, 0, 1, 2] [0, 2, 4, 5] [9, 9, 9, 9, 9] [7, 7, 7, 7] 3).2
      (csrPatternToCsc [0, 2, 0, 1, 2] [0, 2, 4, 5] [9, 9, 9, 9, 9] [7, 7, 7, 7] 3).1 3 ∧
    csrPatternToCsc
      (csrPatternToCsc [0, 2, 0, 1, 2] [0, 2, 4, 5] [9, 9, 9, 9, 9] [7, 7, 7, 7] 3).1
      (csrPatternToCsc [0, 2, 0, 1, 2] [0, 2, 4, 5] [9, 9, 9, 9, 9] [7, 7, 7, 7] 3).2
      [8, 8, 8, 8, 8] [6, 6, 6, 6] 3 = ([0, 2, 0, 1, 2], [0, 2, 4, 5]) :=
  ⟨by decide, by decide,
    C27_transpose_twice_is_identity [0, 2, 0, 1, 2] [0, 2, 4, 5] [9, 9, 9, 9, 9] [7, 7, 7, 7]
      [8, 8, 8, 8, 8] [6, 6, 6, 6] 3 (by decide) (by decide) (by decide) (by decide)
      (by decide)⟩

/-! ## Level scheduling of a structurally symmetric pattern -/

/-- On positions whose columns do not decrease, the loop of `canBeStarted` accepts exactly
when every column below the row is done. -/
theorem dependenciesDone_iff (rowIndex : Nat) (ci : List Nat) (done : List Bool) :
    ∀ (ks : List Nat), (ks.map (fun k => ci.getD k 0)).Pairwise (fun a b => a ≤ b) →
      (dependenciesDone rowIndex ci done ks = true ↔
        ∀ k ∈ ks, ci.getD k 0 < rowIndex → done.getD (ci.getD k 0) false = true) := by
  intro ks
  induction ks with
  | nil => intro _; simp [dependenciesDone]
  | cons k ks ih =>
    intro hs
    rw [List.map_cons, List.pairwise_cons] at hs
    unfold dependenciesDone
    simp only []
    by_cases h1 : ci.getD k 0 ≥ rowIndex
    · rw [if_pos h1]
      refine ⟨fun _ => ?_, fun _ => rfl⟩
      intro k' hk' hlt
      rcases List.mem_cons.mp hk' with rfl | hmem
      · omega
      · have := hs.1 _ (List.mem_map.mpr ⟨k', hmem, rfl⟩)
        omega
    · rw [if_neg h1]
      by_cases h2 : done.getD (ci.getD k 0) false = false
      · rw [if_pos h2]
        refine ⟨fun h => absurd h (by simp), fun h => ?_⟩
        have := h k (List.mem_cons_self _ _) (by omega)
        rw [h2] at this
        exact absurd this (by simp)
      · rw [if_neg h2, ih hs.2]
        constructor
        · intro h k' hk' hlt
          rcases List.mem_cons.mp hk' with rfl | hmem
          · simpa using h2
          · exact h k' hmem hlt
        · intro h k' hk' hlt
          exact h k' (List.mem_cons_of_mem _ hk') hlt

/-- On a row whose columns do not decrease, `canBeStarted` holds exactly when the row is
not done and all its stored columns below the diagonal are. -/
theorem canBeStarted_iff (i : Nat) (rp ci : List Nat) (done : List Bool)
    (hs : (segment ci (rp.getD i 0) (rp.getD (i + 1) 0)).Sorted (fun a b => a ≤ b)) :
    canBeStarted i rp ci done = true ↔
      done.getD i false = false ∧ DepsDone rp ci done i := by
  unfold canBeStarted DepsDone
  simp only []
  by_cases hd : done.getD i false = false
  · rw [hd]
    simp only [Bool.not_false, if_true, true_and]
    rw [dependenciesDone_iff i ci done _ hs]
    constructor
    · rintro h j hj ⟨k, hk1, hk2, hk3⟩
      have := h k ((mem_loopRange _ _ _).mpr ⟨hk2, hk1⟩) (by omega)
      rw [hk3] at this
      exact this
    · intro h k hk hlt
      rw [mem_loopRange] at hk
      exact h _ hlt ⟨k, hk.2, hk.1, rfl⟩
  · have hd' : done.getD i false = true := by simpa using hd
    rw [hd']
    simp

theorem sortedPattern_segment_sorted (rp ci : List Nat) (Nb : Nat)
    (h : SortedPattern rp ci Nb) (i : Nat) (hi : i < Nb) :
    (segment ci (rp.getD i 0) (rp.getD (i + 1) 0)).Sorted (fun a b => a ≤ b) :=
  segment_sorted ci _ _
    (fun k hk1 hk2 => Nat.le_of_lt (h.2.2.2.2.2 i hi k (by omega) hk1 hk2))

theorem sortedPattern_valid (rp ci : List Nat) (Nb : Nat) (h : SortedPattern rp ci Nb) :
    ValidPattern rp ci Nb :=
  ⟨h.1, h.2.1, by rw [h.2.2.1], h.2.2.2.1,
    fun k hk => h.2.2.2.2.1 k (by rw [h.2.2.1]; exact hk)⟩

/-- A column stored in a row of a valid pattern is below `Nb`. -/
theorem stored_lt (rp ci : List Nat) (Nb : Nat) (h : ValidPattern rp ci Nb) (i j : Nat)
    (hi : i < Nb) (hst : Stored rp ci i j) : j < Nb := by
  obtain ⟨k, hk1, hk2, hk3⟩ := hst
  have := getD_mono rp Nb h.2.2.2.1 (i + 1) Nb (by omega) (Nat.le_refl _)
  rw [← hk3]
  exact h.2.2.2.2 k (by omega)

/-- When the loop of `canBeStarted` rejects, a column below the row is not done. -/
theorem dependenciesDone_false (rowIndex : Nat) (ci : List Nat) (done : List Bool) :
    ∀ (ks : List Nat), dependenciesDone rowIndex ci done ks = false →
      ∃ k ∈ ks, ci.getD k 0 < rowIndex ∧ done.getD (ci.getD k 0) false = false := by
  intro ks
  induction ks with
  | nil => intro h; simp [dependenciesDone] at h
  | cons k ks ih =>
    intro h
    unfold dependenciesDone at h
    simp only [] at h
    by_cases h1 : ci.getD k 0 ≥ rowIndex
    · rw [if_pos h1] at h
      exact absurd h (by simp)
    · rw [if_neg h1] at h
      by_cases h2 : done.getD (ci.getD k 0) false = false
      · exact ⟨k, List.mem_cons_self _ _, by omega, h2⟩
      · rw [if_neg h2] at h
        obtain ⟨k', hk', hr⟩ := ih h
        exact ⟨k', List.mem_cons_of_mem _ hk', hr⟩

/-- A row that is not done and cannot be started stores a column below the diagonal that
is not done. -/
theorem canBeStarted_false (i : Nat) (rp ci : List Nat) (done : List Bool)
    (hd : done.getD i false = false) (h : ¬ canBeStarted i rp ci done = true) :
    ∃ j, j < i ∧ Stored rp ci i j ∧ done.getD j false = false := by
  unfold canBeStarted at h
  simp only [hd, Bool.not_false, if_true] at h
  have hf : dependenciesDone i ci done (loopRange (rp.getD i 0) (rp.getD (i + 1) 0)) = false := by
    simpa using h
  obtain ⟨k, hk, h1, h2⟩ := dependenciesDone_false i ci done _ hf
  rw [mem_loopRange] at hk
  exact ⟨_, h1, ⟨k, hk.2, hk.1, rfl⟩, h2⟩

/-- Row 0 can be started as long as it is not done. -/
theorem canBeStarted_zero (rp ci : List Nat) (done : List Bool)
    (hd : done.getD 0 false = false) : canBeStarted 0 rp ci done = true := by
  unfold canBeStarted
  simp only [hd, Bool.not_false, if_true]
  cases loopRange (rp.getD 0 0) (rp.getD (0 + 1) 0) with
  | nil => rfl
  | cons k ks =>
    unfold dependenciesDone
    simp

theorem levelOf_append_lt (n : Nat) : ∀ (rpc : List Nat) (p : Nat), p < rpc.sum →
    levelOf (rpc ++ [n]) p = levelOf rpc p ∧ levelOf rpc p < rpc.length := by
  intro rpc
  induction rpc with
  | nil => intro p hp; exact absurd hp (Nat.not_lt_zero p)
  | cons a rest ih =>
    intro p hp
    rw [List.sum_cons] at hp
    rw [List.cons_append]
    unfold levelOf
    by_cases hpa : p < a
    · rw [if_pos hpa, if_pos hpa]
      exact ⟨rfl, by simp⟩
    · rw [if_neg hpa, if_neg hpa]
      obtain ⟨h1, h2⟩ := ih (p - a) (by omega)
      rw [h1]
      exact ⟨rfl, by simp; exact h2⟩

theorem levelOf_append_ge (n : Nat) : ∀ (rpc : List Nat) (p : Nat), rpc.sum ≤ p →
    p < rpc.sum + n → levelOf (rpc ++ [n]) p = rpc.length := by
  intro rpc
  induction rpc with
  | nil =>
    intro p _ hp
    simp only [List.sum_nil, Nat.zero_add] at hp
    simp [levelOf, hp]
  | cons a rest ih =>
    intro p h1 h2
    rw [List.sum_cons] at h1 h2
    rw [List.cons_append]
    unfold levelOf
    rw [if_neg (by omega), ih (p - a) (by omega) (by omega)]
    rfl

theorem levelOf_mono : ∀ (rpc : List Nat) (p q : Nat), p ≤ q →
    levelOf rpc p ≤ levelOf rpc q := by
  intro rpc
  induction rpc with
  | nil => intro p q _; exact Nat.le_refl _
  | cons a rest ih =>
    intro p q hpq
    unfold levelOf
    by_cases hp : p < a
    · rw [if_pos hp]; exact Nat.zero_le _
    · rw [if_neg hp, if_neg (by omega)]
      exact Nat.succ_le_succ (ih _ _ (by omega))

theorem length_le_sum (l : List Nat) (h : ∀ n ∈ l, 1 ≤ n) : l.length ≤ l.sum := by
  induction l with
  | nil => exact Nat.le_refl _
  | cons a rest ih =>
    rw [List.length_cons, List.sum_cons]
    have := h a (List.mem_cons_self _ _)
    have := ih (fun n hn => h n (List.mem_cons_of_mem _ hn))
    omega

/-- The loop collecting the candidates (lines 268-278): it appends to `rowsToStart` the
rows stored in the columns of the visited positions that can be started, and changes
nothing but `rowsToStart` and `activeRowIndex`. -/
theorem collect_spec (CSRColIndices CSRRowPointers CSCRowIndices CSCColPointers : List Nat) :
    ∀ (l : List Nat) (s : LevelState),
      (l.foldl (collectRow CSRColIndices CSRRowPointers CSCRowIndices CSCColPointers)
        s).doneRows = s.doneRows ∧
      (l.foldl (collectRow CSRColIndices CSRRowPointers CSCRowIndices CSCColPointers)
        s).nextActiveRowIndex = s.nextActiveRowIndex ∧
      (l.foldl (collectRow CSRColIndices CSRRowPointers CSCRowIndices CSCColPointers)
        s).colorEnd = s.colorEnd ∧
      (l.foldl (collectRow CSRColIndices CSRRowPointers CSCRowIndices CSCColPointers)
        s).rowsPerColor = s.rowsPerColor ∧
      (l.foldl (collectRow CSRColIndices CSRRowPointers CSCRowIndices CSCColPointers)
        s).toOrder = s.toOrder ∧
      (l.foldl (collectRow CSRColIndices CSRRowPointers CSCRowIndices CSCColPointers)
        s).fromOrder = s.fromOrder ∧
      ∀ r, r ∈ (l.foldl
          (collectRow CSRColIndices CSRRowPointers CSCRowIndices CSCColPointers)
          s).rowsToStart ↔
        r ∈ s.rowsToStart ∨ ∃ p ∈ l, Stored CSCColPointers CSCRowIndices
            (s.fromOrder.getD p 0) r ∧
          canBeStarted r CSRRowPointers CSRColIndices s.doneRows = true := by
  intro l
  induction l with
  | nil =>
    intro s
    refine ⟨rfl, rfl, rfl, rfl, rfl, rfl, ?_⟩
    intro r
    simp
  | cons a l ih =>
    intro s
    rw [List.foldl_cons]
    obtain ⟨h1, h2, h3, h4, h5, h6, h7⟩ :=
      ih (collectRow CSRColIndices CSRRowPointers CSCRowIndices CSCColPointers s a)
    refine ⟨h1, h2, h3, h4, h5, h6, ?_⟩
    intro r
    rw [h7 r]
    have hinner : ∀ (ks : List Nat) (acc : List Nat),
        r ∈ ks.foldl (fun acc i =>
          if canBeStarted (CSCRowIndices.getD i 0) CSRRowPointers CSRColIndices
              s.doneRows = true then acc ++ [CSCRowIndices.getD i 0] else acc) acc ↔
        r ∈ acc ∨ ∃ i ∈ ks, CSCRowIndices.getD i 0 = r ∧
          canBeStarted r CSRRowPointers CSRColIndices s.doneRows = true := by
      intro ks
      induction ks with
      | nil => intro acc; simp
      | cons i ks ihk =>
        intro acc
        rw [List.foldl_cons, ihk]
        by_cases hcan : canBeStarted (CSCRowIndices.getD i 0) CSRRowPointers CSRColIndices
            s.doneRows = true
        · rw [if_pos hcan, List.mem_append, List.mem_singleton]
          constructor
          · rintro ((h | h) | ⟨i', hi', h⟩)
            · exact Or.inl h
            · exact Or.inr ⟨i, List.mem_cons_self _ _, h.symm, h ▸ hcan⟩
            · exact Or.inr ⟨i', List.mem_cons_of_mem _ hi', h⟩
          · rintro (h | ⟨i', hi', h⟩)
            · exact Or.inl (Or.inl h)
            · rcases List.mem_cons.mp hi' with rfl | hmem
              · exact Or.inl (Or.inr h.1.symm)
              · exact Or.inr ⟨i', hmem, h⟩
        · rw [if_neg hcan]
          constructor
          · rintro (h | ⟨i', hi', h⟩)
            · exact Or.inl h
            · exact Or.inr ⟨i', List.mem_cons_of_mem _ hi', h⟩
          · rintro (h | ⟨i', hi', h⟩)
            · exact Or.inl h
            · rcases List.mem_cons.mp hi' with rfl | hmem
              · exact absurd (h.1 ▸ h.2) hcan
              · exact Or.inr ⟨i', hmem, h⟩
    have hrow : r ∈ (collectRow CSRColIndices CSRRowPointers CSCRowIndices CSCColPointers s
        a).rowsToStart ↔
        r ∈ s.rowsToStart ∨ (Stored CSCColPointers CSCRowIndices (s.fromOrder.getD a 0) r ∧
          canBeStarted r CSRRowPointers CSRColIndices s.doneRows = true) := by
      unfold collectRow
      simp only []
      rw [hinner]
      constructor
      · rintro (h | ⟨i, hi, h1, h2⟩)
        · exact Or.inl h
        · rw [mem_loopRange] at hi
          exact Or.inr ⟨⟨i, hi.2, hi.1, h1⟩, h2⟩
      · rintro (h | ⟨⟨i, hi1, hi2, hi3⟩, h2⟩)
        · exact Or.inl h
        · exact Or.inr ⟨i, (mem_loopRange _ _ _).mpr ⟨hi2, hi1⟩, hi3, h2⟩
    rw [hrow]
    have e1 : (collectRow CSRColIndices CSRRowPointers CSCRowIndices CSCColPointers s
        a).fromOrder = s.fromOrder := rfl
    have e2 : (collectRow CSRColIndices CSRRowPointers CSCRowIndices CSCColPointers s
        a).doneRows = s.doneRows := rfl
    rw [e1, e2]
    constructor
    · rintro ((h | h) | ⟨p, hp, h⟩)
      · exact Or.inl h
      · exact Or.inr ⟨a, List.mem_cons_self _ _, h⟩
      · exact Or.inr ⟨p, List.mem_cons_of_mem _ hp, h⟩
    · rintro (h | ⟨p, hp, h⟩)
      · exact Or.inl (Or.inl h)
      · rcases List.mem_cons.mp hp with rfl | hmem
        · exact Or.inl (Or.inr h)
        · exact Or.inr ⟨p, hmem, h⟩

/-- After the loop collecting the candidates, `activeRowIndex` is `colorEnd`. -/
theorem collect_activeRowIndex
    (CSRColIndices CSRRowPointers CSCRowIndices CSCColPointers : List Nat) (s : LevelState)
    (h : s.activeRowIndex ≤ s.colorEnd) :
    ((loopRange s.activeRowIndex s.colorEnd).foldl
      (collectRow CSRColIndices CSRRowPointers CSCRowIndices CSCColPointers)
      s).activeRowIndex = s.colorEnd := by
  refine foldl_loopRange_inv (fun k (x : LevelState) => x.activeRowIndex = k) _ s _ _ h rfl ?_
  intro k x _ _ _
  rfl

theorem mem_iff_getD (l : List Nat) (i : Nat) : i ∈ l ↔ ∃ q, q < l.length ∧ l.getD q 0 = i := by
  constructor
  · intro h
    obtain ⟨q, hq, he⟩ := List.mem_iff_getElem.mp h
    refine ⟨q, hq, ?_⟩
    rw [List.getD_eq_getElem?_getD, List.getElem?_eq_getElem hq]
    exact he
  · rintro ⟨q, hq, he⟩
    rw [← he]
    exact getD_mem l q hq

/-- The loop activating the candidates (lines 280-288): the candidates that are not done
become done and are placed at the next free positions; nothing else changes. -/
theorem activate_spec (Nb : Nat) (hNb : 0 < Nb) (x1 : LevelState)
    (hl : x1.doneRows.length = Nb)
    (hpi : PartialInverse Nb x1.nextActiveRowIndex (fun i => x1.doneRows.getD i false = true)
      x1.toOrder x1.fromOrder)
    (hr : ∀ r ∈ x1.rowsToStart, r < Nb) :
    ((List.range x1.rowsToStart.length).foldl activateRow x1).rowsToStart = x1.rowsToStart ∧
    ((List.range x1.rowsToStart.length).foldl activateRow x1).activeRowIndex
      = x1.activeRowIndex ∧
    ((List.range x1.rowsToStart.length).foldl activateRow x1).rowsPerColor
      = x1.rowsPerColor ∧
    ((List.range x1.rowsToStart.length).foldl activateRow x1).doneRows.length = Nb ∧
    PartialInverse Nb ((List.range x1.rowsToStart.length).foldl activateRow x1).nextActiveRowIndex
      (fun i => ((List.range x1.rowsToStart.length).foldl activateRow x1).doneRows.getD i false
        = true)
      ((List.range x1.rowsToStart.length).foldl activateRow x1).toOrder
      ((List.range x1.rowsToStart.length).foldl activateRow x1).fromOrder ∧
    x1.nextActiveRowIndex
      ≤ ((List.range x1.rowsToStart.length).foldl activateRow x1).nextActiveRowIndex ∧
    (∀ i, ((List.range x1.rowsToStart.length).foldl activateRow x1).doneRows.getD i false = true
      ↔ x1.doneRows.getD i false = true ∨ i ∈ x1.rowsToStart) ∧
    (∀ i, x1.doneRows.getD i false = true →
      ((List.range x1.rowsToStart.length).foldl activateRow x1).toOrder.getD i 0
        = x1.toOrder.getD i 0) ∧
    (∀ i, ((List.range x1.rowsToStart.length).foldl activateRow x1).doneRows.getD i false = true
      → x1.doneRows.getD i false = false →
      x1.nextActiveRowIndex
        ≤ ((List.range x1.rowsToStart.length).foldl activateRow x1).toOrder.getD i 0) := by
  have key := foldl_range_inv
    (fun m (x : LevelState) => x.rowsToStart = x1.rowsToStart ∧
      x.activeRowIndex = x1.activeRowIndex ∧ x.rowsPerColor = x1.rowsPerColor ∧
      x.doneRows.length = Nb ∧
      PartialInverse Nb x.nextActiveRowIndex (fun i => x.doneRows.getD i false = true)
        x.toOrder x.fromOrder ∧
      x1.nextActiveRowIndex ≤ x.nextActiveRowIndex ∧
      (∀ i, x.doneRows.getD i false = true ↔
        x1.doneRows.getD i false = true ∨ ∃ q, q < m ∧ x1.rowsToStart.getD q 0 = i) ∧
      (∀ i, x1.doneRows.getD i false = true → x.toOrder.getD i 0 = x1.toOrder.getD i 0) ∧
      (∀ i, x.doneRows.getD i false = true → x1.doneRows.getD i false = false →
        x1.nextActiveRowIndex ≤ x.toOrder.getD i 0))
    activateRow x1 x1.rowsToStart.length
    ⟨rfl, rfl, rfl, hl, hpi, Nat.le_refl _,
      fun i => ⟨fun h => Or.inl h, fun h => h.elim id
        (fun ⟨q, hq, _⟩ => absurd hq (Nat.not_lt_zero q))⟩,
      fun i _ => rfl,
      fun i h1 h2 => by rw [h2] at h1; exact absurd h1 (by simp)⟩ ?_
  · obtain ⟨k1, k2, k3, k4, k5, k6, k7, k8, k9⟩ := key
    refine ⟨k1, k2, k3, k4, k5, k6, ?_, k8, k9⟩
    intro i
    rw [k7 i, mem_iff_getD]
  · intro m x hm ⟨hrs, ha, hrpc, hlen, hp, hnext, hdone, hto, hnew⟩
    have hrow : x.rowsToStart.getD m 0 < Nb := by
      rw [hrs]; exact getD_lt_of_forall_mem _ _ hr hNb m
    unfold activateRow
    simp only []
    by_cases hnd : x.doneRows.getD (x.rowsToStart.getD m 0) false = false
    · rw [if_pos hnd]
      have hS : ¬ (x.doneRows.getD (x.rowsToStart.getD m 0) false = true) := by
        rw [hnd]; simp
      have hdone' : ∀ i, (x.doneRows.set (x.rowsToStart.getD m 0) true).getD i false = true ↔
          (x.doneRows.getD i false = true ∨ i = x.rowsToStart.getD m 0) := by
        intro i
        rw [getD_set]
        constructor
        · intro h1
          split_ifs at h1 with hc
          · exact Or.inr hc.1.symm
          · exact Or.inl h1
        · rintro (h1 | rfl)
          · split_ifs
            · rfl
            · exact h1
          · rw [if_pos ⟨rfl, by rw [hlen]; exact hrow⟩]
      refine ⟨hrs, ha, hrpc, by simpa using hlen, ?_, by simp only []; omega, ?_, ?_, ?_⟩
      · refine partialInverse_congr (partialInverse_step hp hrow hS) ?_
        intro r _
        exact (hdone' r).symm
      · intro i
        simp only []
        rw [hdone' i, hdone i]
        constructor
        · rintro ((h | ⟨q, hq, h⟩) | h)
          · exact Or.inl h
          · exact Or.inr ⟨q, by omega, h⟩
          · exact Or.inr ⟨m, by omega, by rw [h, hrs]⟩
        · rintro (h | ⟨q, hq, h⟩)
          · exact Or.inl (Or.inl h)
          · by_cases hqm : q = m
            · exact Or.inr (by rw [← h, hqm, hrs])
            · exact Or.inl (Or.inr ⟨q, by omega, h⟩)
      · intro i hi
        simp only []
        have hne : x.rowsToStart.getD m 0 ≠ i := by
          intro he
          rw [he] at hnd
          have := (hdone i).mpr (Or.inl hi)
          rw [hnd] at this
          exact absurd this (by simp)
        rw [getD_set_ne _ _ _ _ _ hne]
        exact hto i hi
      · intro i hi hi1
        simp only [] at hi ⊢
        rcases (hdone' i).mp hi with h | h
        · have hne : x.rowsToStart.getD m 0 ≠ i := by
            intro he
            rw [he] at hnd
            rw [hnd] at h
            exact absurd h (by simp)
          rw [getD_set_ne _ _ _ _ _ hne]
          exact hnew i h hi1
        · rw [h, getD_set_self _ _ _ _ (by rw [hp.len_to]; exact hrow)]
          exact hnext
    · rw [if_neg hnd]
      have hd : x.doneRows.getD (x.rowsToStart.getD m 0) false = true := by simpa using hnd
      refine ⟨hrs, ha, hrpc, hlen, hp, hnext, ?_, hto, hnew⟩
      intro i
      rw [hdone i]
      constructor
      · rintro (h | ⟨q, hq, h⟩)
        · exact Or.inl h
        · exact Or.inr ⟨q, by omega, h⟩
      · rintro (h | ⟨q, hq, h⟩)
        · exact Or.inl h
        · by_cases hqm : q = m
          · rw [hqm, ← hrs] at h
            rw [h] at hd
            exact (hdone i).mp hd
          · exact Or.inr ⟨q, by omega, h⟩

theorem bool_eq_true_of_ne_false {b : Bool} (h : ¬ b = false) : b = true := by
  cases b
  · exact absurd rfl h
  · rfl

/-- One iteration of the `while` loop on a symmetric sorted pattern keeps the invariant and
places at least one more row. -/
theorem levelStep_schedInv
    (CSRColIndices CSRRowPointers CSCRowIndices CSCColPointers : List Nat) (Nb : Nat)
    (hcsr : SortedPattern CSRRowPointers CSRColIndices Nb)
    (hcsc : ValidPattern CSCColPointers CSCRowIndices Nb)
    (htr : IsTransposeOf CSCColPointers CSCRowIndices CSRRowPointers CSRColIndices Nb)
    (s : LevelState) (h : SchedInv CSRRowPointers CSRColIndices Nb s)
    (hc : s.colorEnd < Nb) :
    SchedInv CSRRowPointers CSRColIndices Nb
      (levelStep CSRColIndices CSRRowPointers CSCRowIndices CSCColPointers s) ∧
    s.colorEnd
      < (levelStep CSRColIndices CSRRowPointers CSCRowIndices CSCColPointers s).colorEnd ∧
    (DepInv CSRRowPointers CSRColIndices Nb s →
      DepInv CSRRowPointers CSRColIndices Nb
        (levelStep CSRColIndices CSRRowPointers CSCRowIndices CSCColPointers s)) := by
  obtain ⟨⟨hlen, hce, hpi, hrlt⟩, hact, hsum, hpos, hrts, hJ⟩ := h
  have hNb : 0 < Nb := by omega
  unfold levelStep
  simp only []
  obtain ⟨c1, c2, c3, c4, c5, c6, c7⟩ := collect_spec CSRColIndices CSRRowPointers
    CSCRowIndices CSCColPointers (loopRange s.activeRowIndex s.colorEnd) s
  have c8 := collect_activeRowIndex CSRColIndices CSRRowPointers CSCRowIndices CSCColPointers
    s hact
  generalize (loopRange s.activeRowIndex s.colorEnd).foldl
    (collectRow CSRColIndices CSRRowPointers CSCRowIndices CSCColPointers) s = s1
    at c1 c2 c3 c4 c5 c6 c7 c8 ⊢
  -- candidates are below `Nb`
  have hcand : ∀ r, (∃ p ∈ loopRange s.activeRowIndex s.colorEnd,
      Stored CSCColPointers CSCRowIndices (s.fromOrder.getD p 0) r ∧
        canBeStarted r CSRRowPointers CSRColIndices s.doneRows = true) →
      r < Nb ∧ s.doneRows.getD r false = false ∧
        DepsDone CSRRowPointers CSRColIndices s.doneRows r := by
    rintro r ⟨p, hp, hst, hcan⟩
    rw [mem_loopRange] at hp
    have hfrom := (hpi.of_pos p (by omega)).1
    have hr := stored_lt CSCColPointers CSCRowIndices Nb hcsc _ r hfrom hst
    have := (canBeStarted_iff r CSRRowPointers CSRColIndices s.doneRows
      (sortedPattern_segment_sorted _ _ Nb hcsr r hr)).mp hcan
    exact ⟨hr, this.1, this.2⟩
  have hr1 : ∀ r ∈ s1.rowsToStart, r < Nb := by
    intro r hr
    rcases (c7 r).mp hr with h | h
    · exact hrlt r h
    · exact (hcand r h).1
  have K1 : ∀ r ∈ s1.rowsToStart, s.doneRows.getD r false = false →
      DepsDone CSRRowPointers CSRColIndices s.doneRows r := by
    intro r hr hnd
    rcases (c7 r).mp hr with h | h
    · have := hrts r h
      rw [hnd] at this
      exact absurd this (by simp)
    · exact (hcand r h).2.2
  have K2 : ∀ i, i < Nb → s.doneRows.getD i false = false →
      DepsDone CSRRowPointers CSRColIndices s.doneRows i → i ∈ s1.rowsToStart := by
    intro i hi hnd hdd
    obtain ⟨j, hj, hst, hor⟩ := hJ i hi hnd
    have hjd := hdd j hj hst
    have hja : s.activeRowIndex ≤ s.toOrder.getD j 0 := by
      rcases hor with h | h
      · rw [hjd] at h
        exact absurd h (by simp)
      · exact h
    obtain ⟨hp1, hp2⟩ := hpi.of_row j (by omega) hjd
    refine (c7 i).mpr (Or.inr ⟨s.toOrder.getD j 0, (mem_loopRange _ _ _).mpr ⟨hja, by omega⟩,
      ?_, ?_⟩)
    · rw [hp2]
      exact (htr i hi j (by omega)).mpr hst
    · exact (canBeStarted_iff i CSRRowPointers CSRColIndices s.doneRows
        (sortedPattern_segment_sorted _ _ Nb hcsr i hi)).mpr ⟨hnd, hdd⟩
  obtain ⟨a1, a2, a3, a4, a5, a6, a7, a8, a9⟩ := activate_spec Nb hNb s1
    (by rw [c1]; exact hlen) (by rw [c1, c2, c5, c6]; exact hpi) hr1
  generalize (List.range s1.rowsToStart.length).foldl activateRow s1 = s2
    at a1 a2 a3 a4 a5 a6 a7 a8 a9 ⊢
  rw [c1] at a7 a8 a9
  rw [c2] at a6 a9
  rw [c5] at a8
  -- a row that is not done exists, and the first of them is activated
  have hex : ∃ i, i < Nb ∧ s.doneRows.getD i false = false := by
    by_contra hall
    have hS : ∀ i, i < Nb → s.doneRows.getD i false = true := by
      intro i hi
      apply bool_eq_true_of_ne_false
      intro hf
      exact hall ⟨i, hi, hf⟩
    have := partialInverse_le_of_all hpi hS
    omega
  have hprog : s.nextActiveRowIndex < s2.nextActiveRowIndex := by
    classical
    have hspec := Nat.find_spec hex
    have hmin := fun j (hj : j < Nat.find hex) => Nat.find_min hex hj
    have hdd : DepsDone CSRRowPointers CSRColIndices s.doneRows (Nat.find hex) := by
      intro j hj _
      apply bool_eq_true_of_ne_false
      intro hf
      exact hmin j hj ⟨by omega, hf⟩
    have hmem := K2 _ hspec.1 hspec.2 hdd
    have hd2 := (a7 _).mpr (Or.inr hmem)
    have := a9 _ hd2 hspec.2
    have := (a5.of_row _ hspec.1 hd2).1
    omega
  have hstable : ∀ j, s.doneRows.getD j false = true →
      levelOf (s2.rowsPerColor ++ [s2.nextActiveRowIndex - s2.activeRowIndex])
          (s2.toOrder.getD j 0) = levelOf s.rowsPerColor (s.toOrder.getD j 0) ∧
        levelOf s.rowsPerColor (s.toOrder.getD j 0) < s.rowsPerColor.length := by
    intro j hj
    by_cases hjn : j < Nb
    · rw [a8 j hj, a3, c4]
      exact levelOf_append_lt _ _ _ (by rw [hsum, hce]; exact (hpi.of_row j hjn hj).1)
    · have : s.doneRows.getD j false = false := by
        rw [List.getD_eq_getElem?_getD, List.getElem?_eq_none (by rw [hlen]; omega)]
        rfl
      rw [this] at hj
      exact absurd hj (by simp)
  refine ⟨⟨⟨a4, rfl, a5, by simp only []; rw [a1]; exact hr1⟩, ?_, ?_, ?_, ?_, ?_⟩, ?_, ?_⟩
  · simp only []
    rw [a2, c8, hce]
    exact a6
  · simp only []
    rw [List.sum_append, a3, c4, hsum, a2, c8]
    simp only [List.sum_cons, List.sum_nil]
    omega
  · intro n hn
    simp only [] at hn
    rcases List.mem_append.mp hn with h | h
    · rw [a3, c4] at h
      exact hpos n h
    · rw [List.mem_singleton.mp h, a2, c8]
      omega
  · intro r hr
    simp only [] at hr ⊢
    rw [a1] at hr
    exact (a7 r).mpr (Or.inr hr)
  · intro i hi hdi
    simp only [] at hdi ⊢
    have hnd : s.doneRows.getD i false = false := by
      by_contra hne
      have := (a7 i).mpr (Or.inl (bool_eq_true_of_ne_false hne))
      rw [hdi] at this
      exact absurd this (by simp)
    have hnotmem : i ∉ s1.rowsToStart := by
      intro hmem
      have := (a7 i).mpr (Or.inr hmem)
      rw [hdi] at this
      exact absurd this (by simp)
    have hndd : ¬ DepsDone CSRRowPointers CSRColIndices s.doneRows i :=
      fun hdd => hnotmem (K2 i hi hnd hdd)
    unfold DepsDone at hndd
    push_neg at hndd
    obtain ⟨j, hj, hst, hjnd⟩ := hndd
    have hjnd' : s.doneRows.getD j false = false := by simpa using hjnd
    refine ⟨j, hj, hst, ?_⟩
    by_cases hj2 : s2.doneRows.getD j false = false
    · exact Or.inl hj2
    · right
      rw [a2, c8, hce]
      exact a9 j (bool_eq_true_of_ne_false hj2) hjnd'
  · show s.colorEnd < s2.nextActiveRowIndex
    rw [hce]
    exact hprog
  · intro hdep i hi hdi j hj hst
    simp only [] at hdi ⊢
    by_cases hold : s.doneRows.getD i false = true
    · obtain ⟨hjd, hlev⟩ := hdep i hi hold j hj hst
      refine ⟨(a7 j).mpr (Or.inl hjd), ?_⟩
      rw [(hstable j hjd).1, (hstable i hold).1]
      exact hlev
    · have hnd : s.doneRows.getD i false = false := by simpa using hold
      have hmem : i ∈ s1.rowsToStart := by
        rcases (a7 i).mp hdi with h | h
        · exact absurd h hold
        · exact h
      have hjd := K1 i hmem hnd j hj hst
      refine ⟨(a7 j).mpr (Or.inl hjd), ?_⟩
      rw [(hstable j hjd).1]
      have hpos1 := a9 i hdi hnd
      have hpos2 := (a5.of_row i hi hdi).1
      rw [a3, c4, levelOf_append_ge _ _ _ (by rw [hsum, hce]; exact hpos1)
        (by rw [hsum, a2, c8]; omega)]
      exact (hstable j hjd).2

/-- The state when the `while` loop is reached: level 0 holds the rows that can be started
on the transposed pattern with no row done. -/
theorem levelInit_spec (CSCRowIndices CSCColPointers : List Nat) (Nb : Nat)
    (toOrder fromOrder : List Nat) (hto : toOrder.length = Nb) (hfrom : fromOrder.length = Nb) :
    (levelInit CSCRowIndices CSCColPointers Nb toOrder fromOrder).activeRowIndex = 0 ∧
    (levelInit CSCRowIndices CSCColPointers Nb toOrder fromOrder).rowsPerColor
      = [(levelInit CSCRowIndices CSCColPointers Nb toOrder fromOrder).colorEnd] ∧
    (levelInit CSCRowIndices CSCColPointers Nb toOrder fromOrder).rowsToStart = [] ∧
    ∀ i, i < Nb →
      ((levelInit CSCRowIndices CSCColPointers Nb toOrder fromOrder).doneRows.getD i false
        = true ↔
      canBeStarted i CSCColPointers CSCRowIndices (List.replicate Nb false) = true) := by
  unfold levelInit
  simp only []
  have h1 := foldl_range_inv
    (fun i (s : LevelState) => s.doneRows = List.replicate Nb false ∧ s.colorEnd = 0 ∧
      s.rowsToStart = [] ∧ s.activeRowIndex = 0 ∧ s.rowsPerColor = [] ∧
      PartialInverse Nb s.nextActiveRowIndex
        (fun r => r < i ∧ canBeStarted r CSCColPointers CSCRowIndices
          (List.replicate Nb false) = true) s.toOrder s.fromOrder)
    (startRow CSCRowIndices CSCColPointers)
    (LevelState.mk 0 0 0 (List.replicate Nb false) [] [] fromOrder toOrder) Nb
    ⟨rfl, rfl, rfl, rfl, rfl, hto, hfrom, fun p hp => absurd hp (Nat.not_lt_zero p),
      fun i _ hs => absurd hs.1 (Nat.not_lt_zero i)⟩
    (by
      intro i s hi ⟨hd, hce, hrs, ha, hrpc, hpi⟩
      unfold startRow
      split_ifs with hcan
      · refine ⟨hd, hce, hrs, ha, hrpc, ?_⟩
        have hS : ¬ (i < i ∧ canBeStarted i CSCColPointers CSCRowIndices
            (List.replicate Nb false) = true) := fun h => Nat.lt_irrefl i h.1
        refine partialInverse_congr (partialInverse_step hpi hi hS) ?_
        intro r _
        constructor
        · rintro (⟨h1, h2⟩ | rfl)
          · exact ⟨by omega, h2⟩
          · exact ⟨by omega, hd ▸ hcan⟩
        · rintro ⟨h1, h2⟩
          by_cases hri : r = i
          · exact Or.inr hri
          · exact Or.inl ⟨by omega, h2⟩
      · refine ⟨hd, hce, hrs, ha, hrpc, partialInverse_congr hpi ?_⟩
        intro r _
        constructor
        · rintro ⟨h1, h2⟩; exact ⟨by omega, h2⟩
        · rintro ⟨h1, h2⟩
          have hri : r ≠ i := by
            rintro rfl
            rw [hd] at hcan
            exact hcan h2
          exact ⟨by omega, h2⟩)
  generalize (List.range Nb).foldl (startRow CSCRowIndices CSCColPointers)
    (LevelState.mk 0 0 0 (List.replicate Nb false) [] [] fromOrder toOrder) = s1 at h1 ⊢
  obtain ⟨hd1, hce1, hrs1, ha1, hrpc1, hpi1⟩ := h1
  have h2 := foldl_range_inv
    (fun m (s : LevelState) => s.nextActiveRowIndex = s1.nextActiveRowIndex ∧
      s.doneRows.length = Nb ∧ s.fromOrder = s1.fromOrder ∧
      s.colorEnd = m ∧ s.rowsToStart = [] ∧ s.activeRowIndex = 0 ∧ s.rowsPerColor = [] ∧
      ∀ i, s.doneRows.getD i false = true ↔ ∃ p, p < m ∧ s1.fromOrder.getD p 0 = i)
    markDone s1 s1.nextActiveRowIndex
    ⟨rfl, by rw [hd1]; simp, rfl, hce1, hrs1, ha1, hrpc1, by
      intro i
      rw [hd1]
      constructor
      · intro h
        rw [List.getD_eq_getElem?_getD, List.getElem?_replicate] at h
        split_ifs at h <;> simp at h
      · rintro ⟨p, hp, _⟩; exact absurd hp (Nat.not_lt_zero p)⟩
    (by
      intro m s hm ⟨hn, hl, hf, hce, hrs, ha, hrpc, hdone⟩
      unfold markDone
      refine ⟨hn, by simpa using hl, hf, rfl, hrs, ha, hrpc, ?_⟩
      intro i
      simp only []
      rw [hf, getD_set]
      have hlt : s1.fromOrder.getD m 0 < s.doneRows.length := by
        rw [hl]; exact (hpi1.of_pos m hm).1
      constructor
      · intro h
        split_ifs at h with hc
        · exact ⟨m, by omega, hc.1⟩
        · obtain ⟨p, hp, hpe⟩ := (hdone i).mp h
          exact ⟨p, by omega, hpe⟩
      · rintro ⟨p, hp, hpe⟩
        by_cases hpm : p = m
        · subst hpm
          rw [if_pos ⟨hpe, hlt⟩]
        · split_ifs
          · rfl
          · exact (hdone i).mpr ⟨p, by omega, hpe⟩)
  generalize (List.range s1.nextActiveRowIndex).foldl markDone s1 = s2 at h2 ⊢
  obtain ⟨hn, hl, hf, hce, hrs, ha, hrpc, hdone⟩ := h2
  refine ⟨ha, by rw [hrpc, ha, hce, hn]; rfl, hrs, ?_⟩
  intro i hi
  rw [hdone i]
  constructor
  · rintro ⟨p, hp, hpe⟩
    have := (hpi1.of_pos p hp).2.1
    rw [hpe] at this
    exact this.2
  · intro hcan
    obtain ⟨q1, q2⟩ := hpi1.of_row i hi ⟨hi, hcan⟩
    exact ⟨_, q1, q2⟩

theorem getD_replicate_false (Nb j : Nat) : (List.replicate Nb false).getD j false = false := by
  rw [List.getD_eq_getElem?_getD, List.getElem?_replicate]
  split_ifs <;> rfl

/-- The invariant holds when the `while` loop is reached. -/
theorem levelInit_schedInv
    (CSRColIndices CSRRowPointers CSCRowIndices CSCColPointers : List Nat) (Nb : Nat)
    (toOrder fromOrder : List Nat) (hto : toOrder.length = Nb) (hfrom : fromOrder.length = Nb)
    (hNb : 0 < Nb)
    (htr : IsTransposeOf CSCColPointers CSCRowIndices CSRRowPointers CSRColIndices Nb)
    (hsym : StructurallySymmetric CSRRowPointers CSRColIndices Nb) :
    SchedInv CSRRowPointers CSRColIndices Nb
      (levelInit CSCRowIndices CSCColPointers Nb toOrder fromOrder) := by
  have hLI := levelInit_inv CSCRowIndices CSCColPointers Nb toOrder fromOrder hto hfrom
  obtain ⟨i1, i2, i3, i4⟩ := levelInit_spec CSCRowIndices CSCColPointers Nb toOrder fromOrder
    hto hfrom
  generalize levelInit CSCRowIndices CSCColPointers Nb toOrder fromOrder = t
    at hLI i1 i2 i3 i4 ⊢
  have hfirst : 1 ≤ t.colorEnd := by
    have h0 : t.doneRows.getD 0 false = true :=
      (i4 0 hNb).mpr (canBeStarted_zero _ _ _ (getD_replicate_false Nb 0))
    have := (hLI.2.2.1.of_row 0 hNb h0).1
    rw [hLI.2.1]
    omega
  refine ⟨hLI, by rw [i1]; exact Nat.zero_le _, by rw [i2]; simp, ?_, ?_, ?_⟩
  · intro n hn
    rw [i2, List.mem_singleton] at hn
    rw [hn]
    exact hfirst
  · intro r hr
    rw [i3] at hr
    exact absurd hr (List.not_mem_nil r)
  · intro i hi hdi
    have hcan : ¬ canBeStarted i CSCColPointers CSCRowIndices (List.replicate Nb false)
        = true := by
      intro hcan
      have := (i4 i hi).mpr hcan
      rw [hdi] at this
      exact absurd this (by simp)
    obtain ⟨j, hj, hst, _⟩ := canBeStarted_false i CSCColPointers CSCRowIndices _
      (getD_replicate_false Nb i) hcan
    have hjn : j < Nb := by omega
    have h1 := (htr j hjn i hi).mp hst
    exact ⟨j, hj, hsym j hjn i hi h1, Or.inr (by rw [i1]; exact Nat.zero_le _)⟩

/-- With sorted columns of the transposed pattern, the rows of level 0 store no column
below the diagonal. -/
theorem levelInit_depInv
    (CSRColIndices CSRRowPointers CSCRowIndices CSCColPointers : List Nat) (Nb : Nat)
    (toOrder fromOrder : List Nat) (hto : toOrder.length = Nb) (hfrom : fromOrder.length = Nb)
    (hcsc : SortedPattern CSCColPointers CSCRowIndices Nb)
    (htr : IsTransposeOf CSCColPointers CSCRowIndices CSRRowPointers CSRColIndices Nb)
    (hsym : StructurallySymmetric CSRRowPointers CSRColIndices Nb) :
    DepInv CSRRowPointers CSRColIndices Nb
      (levelInit CSCRowIndices CSCColPointers Nb toOrder fromOrder) := by
  obtain ⟨_, _, _, i4⟩ := levelInit_spec CSCRowIndices CSCColPointers Nb toOrder fromOrder
    hto hfrom
  intro i hi hdi j hj hst
  exfalso
  have hcan := (canBeStarted_iff i CSCColPointers CSCRowIndices _
    (sortedPattern_segment_sorted _ _ Nb hcsc i hi)).mp ((i4 i hi).mp hdi)
  have h1 := hsym i hi j (by omega) hst
  have h2 := (htr j (by omega) i hi).mpr h1
  have := hcan.2 j hj h2
  rw [getD_replicate_false] at this
  exact absurd this (by simp)

/-- With enough fuel the `while` loop ends, in a state satisfying the invariant in which
every position is filled. -/
theorem levelLoop_terminates
    (CSRColIndices CSRRowPointers CSCRowIndices CSCColPointers : List Nat) (Nb : Nat)
    (hcsr : SortedPattern CSRRowPointers CSRColIndices Nb)
    (hcsc : ValidPattern CSCColPointers CSCRowIndices Nb)
    (htr : IsTransposeOf CSCColPointers CSCRowIndices CSRRowPointers CSRColIndices Nb) :
    ∀ (fuel : Nat) (s : LevelState), SchedInv CSRRowPointers CSRColIndices Nb s →
      Nb - s.colorEnd ≤ fuel →
      ∃ s', levelLoop CSRColIndices CSRRowPointers CSCRowIndices CSCColPointers Nb fuel s
          = some s' ∧
        SchedInv CSRRowPointers CSRColIndices Nb s' ∧ Nb ≤ s'.colorEnd := by
  intro fuel
  induction fuel with
  | zero =>
    intro s h hf
    refine ⟨s, ?_, h, by omega⟩
    unfold levelLoop
    rw [if_neg (by omega)]
  | succ fuel ih =>
    intro s h hf
    unfold levelLoop
    by_cases hc : s.colorEnd < Nb
    · rw [if_pos hc]
      obtain ⟨h1, h2, _⟩ := levelStep_schedInv CSRColIndices CSRRowPointers CSCRowIndices
        CSCColPointers Nb hcsr hcsc htr s h hc
      exact ih _ h1 (by omega)
    · rw [if_neg hc]
      exact ⟨s, rfl, h, by omega⟩

/-- The result of `findLevelScheduling` on a symmetric pattern with sorted rows and at
least one row, for every fuel of at least `Nb - 1` iterations. -/
theorem findLevelScheduling_spec (fuel : Nat)
    (CSRColIndices CSRRowPointers CSCRowIndices CSCColPointers : List Nat) (Nb : Nat)
    (toOrder fromOrder : List Nat) (hto : toOrder.length = Nb) (hfrom : fromOrder.length = Nb)
    (hNb : 0 < Nb)
    (hcsr : SortedPattern CSRRowPointers CSRColIndices Nb)
    (hcsc : ValidPattern CSCColPointers CSCRowIndices Nb)
    (htr : IsTransposeOf CSCColPointers CSCRowIndices CSRRowPointers CSRColIndices Nb)
    (hsym : StructurallySymmetric CSRRowPointers CSRColIndices Nb)
    (hfuel : Nb - 1 ≤ fuel) :
    ∃ s, findLevelScheduling fuel CSRColIndices CSRRowPointers CSCRowIndices CSCColPointers Nb
        toOrder fromOrder
        = some (LevelSchedule.mk s.rowsPerColor.length s.rowsPerColor s.toOrder s.fromOrder) ∧
      SchedInv CSRRowPointers CSRColIndices Nb s ∧ s.colorEnd = Nb := by
  have hinit := levelInit_schedInv CSRColIndices CSRRowPointers CSCRowIndices CSCColPointers
    Nb toOrder fromOrder hto hfrom hNb htr hsym
  have hfirst : 1 ≤ (levelInit CSCRowIndices CSCColPointers Nb toOrder fromOrder).colorEnd := by
    obtain ⟨_, _, hsum, hpos, _⟩ := hinit
    obtain ⟨_, i2, _, _⟩ := levelInit_spec CSCRowIndices CSCColPointers Nb toOrder fromOrder
      hto hfrom
    exact hpos _ (by rw [i2]; exact List.mem_singleton.mpr rfl)
  obtain ⟨s, hs, hinv, hle⟩ := levelLoop_terminates CSRColIndices CSRRowPointers CSCRowIndices
    CSCColPointers Nb hcsr hcsc htr fuel _ hinit (by omega)
  refine ⟨s, ?_, hinv, ?_⟩
  · unfold findLevelScheduling
    rw [hs]
  · have := partialInverse_le hinv.1.2.2.1
    rw [← hinv.1.2.1] at this
    omega

/-- Whenever the `while` loop ends, it ends in a state satisfying the invariants. -/
theorem levelLoop_schedInv
    (CSRColIndices CSRRowPointers CSCRowIndices CSCColPointers : List Nat) (Nb : Nat)
    (hcsr : SortedPattern CSRRowPointers CSRColIndices Nb)
    (hcsc : ValidPattern CSCColPointers CSCRowIndices Nb)
    (htr : IsTransposeOf CSCColPointers CSCRowIndices CSRRowPointers CSRColIndices Nb) :
    ∀ (fuel : Nat) (s s' : LevelState), SchedInv CSRRowPointers CSRColIndices Nb s →
      DepInv CSRRowPointers CSRColIndices Nb s →
      levelLoop CSRColIndices CSRRowPointers CSCRowIndices CSCColPointers Nb fuel s = some s' →
      SchedInv CSRRowPointers CSRColIndices Nb s' ∧
        DepInv CSRRowPointers CSRColIndices Nb s' ∧ Nb ≤ s'.colorEnd := by
  intro fuel
  induction fuel with
  | zero =>
    intro s s' h hd hres
    unfold levelLoop at hres
    split_ifs at hres with hc
    simp only [Option.some.injEq] at hres
    subst hres
    exact ⟨h, hd, by omega⟩
  | succ fuel ih =>
    intro s s' h hd hres
    unfold levelLoop at hres
    split_ifs at hres with hc
    · obtain ⟨h1, _, h3⟩ := levelStep_schedInv CSRColIndices CSRRowPointers CSCRowIndices
        CSCColPointers Nb hcsr hcsc htr s h hc
      exact ih _ s' h1 (h3 hd) hres
    · simp only [Option.some.injEq] at hres
      subst hres
      exact ⟨h, hd, by omega⟩

/-- The groups of sizes `rpc` tile a list whose length is the sum of the sizes. -/
theorem flatMap_groups : ∀ (rpc : List Nat) (l : List Nat), rpc.sum = l.length →
    (List.range rpc.length).flatMap
      (fun L => (l.drop (rpc.take L).sum).take (rpc.getD L 0)) = l := by
  intro rpc
  induction rpc with
  | nil =>
    intro l hl
    simp only [List.sum_nil] at hl
    rw [List.length_eq_zero.mp hl.symm]
    rfl
  | cons a rest ih =>
    intro l hl
    rw [List.sum_cons] at hl
    rw [List.length_cons, List.range_succ_eq_map, List.flatMap_cons, List.flatMap_map]
    have h1 : (l.drop ((a :: rest).take 0).sum).take ((a :: rest).getD 0 0) = l.take a := by
      simp
    have h2 : ∀ L, (l.drop ((a :: rest).take (L + 1)).sum).take ((a :: rest).getD (L + 1) 0)
        = ((l.drop a).drop (rest.take L).sum).take (rest.getD L 0) := by
      intro L
      rw [List.take_succ_cons, List.sum_cons, List.drop_drop]
      simp [Nat.add_comm]
    rw [h1]
    have h3 : (List.range rest.length).flatMap
        (fun L => (l.drop ((a :: rest).take (L + 1)).sum).take ((a :: rest).getD (L + 1) 0))
        = (List.range rest.length).flatMap
          (fun L => ((l.drop a).drop (rest.take L).sum).take (rest.getD L 0)) := by
      congr 1
      funext L
      exact h2 L
    show l.take a ++ (List.range rest.length).flatMap
      (fun L => (l.drop ((a :: rest).take (L + 1)).sum).take ((a :: rest).getD (L + 1) 0)) = l
    rw [h3, ih (l.drop a) (by rw [List.length_drop]; omega), List.take_append_drop]

/-- Claim C24. On a structurally symmetric pattern with rows sorted ascending, handed in
together with its transpose with sorted columns, whenever `findLevelScheduling` returns,
every stored column `j < i` of every row `i` lies in a strictly earlier group of
`rowsPerColor` than row `i`, and at an earlier position of the new order. -/
theorem C24_level_schedule_respects_dependencies (fuel : Nat)
    (CSRColIndices CSRRowPointers CSCRowIndices CSCColPointers : List Nat) (Nb : Nat)
    (toOrder fromOrder : List Nat) (hto : toOrder.length = Nb) (hfrom : fromOrder.length = Nb)
    (hcsr : SortedPattern CSRRowPointers CSRColIndices Nb)
    (hcsc : SortedPattern CSCColPointers CSCRowIndices Nb)
    (htr : IsTransposeOf CSCColPointers CSCRowIndices CSRRowPointers CSRColIndices Nb)
    (hsym : StructurallySymmetric CSRRowPointers CSRColIndices Nb)
    (res : LevelSchedule)
    (hres : findLevelScheduling fuel CSRColIndices CSRRowPointers CSCRowIndices CSCColPointers
      Nb toOrder fromOrder = some res) :
    ∀ i, i < Nb → ∀ j, j < i → Stored CSRRowPointers CSRColIndices i j →
      levelOf res.rowsPerColor (res.toOrder.getD j 0)
        < levelOf res.rowsPerColor (res.toOrder.getD i 0) ∧
      res.toOrder.getD j 0 < res.toOrder.getD i 0 := by
  intro i hi j hj hst
  have hNb : 0 < Nb := by omega
  unfold findLevelScheduling at hres
  split at hres
  · simp at hres
  · rename_i s hs
    simp only [Option.some.injEq] at hres
    subst hres
    obtain ⟨hinv, hdep, hle⟩ := levelLoop_schedInv CSRColIndices CSRRowPointers CSCRowIndices
      CSCColPointers Nb hcsr (sortedPattern_valid _ _ Nb hcsc) htr fuel _ s
      (levelInit_schedInv CSRColIndices CSRRowPointers CSCRowIndices CSCColPointers Nb toOrder
        fromOrder hto hfrom hNb htr hsym)
      (levelInit_depInv CSRColIndices CSRRowPointers CSCRowIndices CSCColPointers Nb toOrder
        fromOrder hto hfrom hcsc htr hsym) hs
    obtain ⟨⟨_, hce, hpi, _⟩, _, _, _, _, _⟩ := hinv
    have hdone := partialInverse_all_of_le hpi (by rw [← hce]; exact hle) i hi
    have hlev := (hdep i hi hdone j hj hst).2
    refine ⟨hlev, ?_⟩
    show s.toOrder.getD j 0 < s.toOrder.getD i 0
    by_contra hge
    have := levelOf_mono s.rowsPerColor _ _ (Nat.le_of_not_lt hge)
    omega

theorem C24_level_schedule_respects_dependencies_witness :
    (SortedPattern [0, 2, 5, 9, 11, 13] [0, 2, 1, 2, 4, 0, 1, 2, 3, 2, 3, 1, 4] 5 ∧
      StructurallySymmetric [0, 2, 5, 9, 11, 13] [0, 2, 1, 2, 4, 0, 1, 2, 3, 2, 3, 1, 4] 5 ∧
      findLevelScheduling 4 [0, 2, 1, 2, 4, 0, 1, 2, 3, 2, 3, 1, 4] [0, 2, 5, 9, 11, 13]
        [0, 2, 1, 2, 4, 0, 1, 2, 3, 2, 3, 1, 4] [0, 2, 5, 9, 11, 13] 5 [0, 0, 0, 0, 0]
        [0, 0, 0, 0, 0]
        = some (LevelSchedule.mk 3 [2, 2, 1] [0, 1, 2, 4, 3] [0, 1, 2, 4, 3])) ∧
    (levelOf [2, 2, 1] (([0, 1, 2, 4, 3] : List Nat).getD 2 0)
        < levelOf [2, 2, 1] (([0, 1, 2, 4, 3] : List Nat).getD 3 0) ∧
      ([0, 1, 2, 4, 3] : List Nat).getD 2 0 < ([0, 1, 2, 4, 3] : List Nat).getD 3 0) :=
  ⟨⟨by decide, by decide, by decide⟩,
    C24_level_schedule_respects_dependencies 4 [0, 2, 1, 2, 4, 0, 1, 2, 3, 2, 3, 1, 4]
      [0, 2, 5, 9, 11, 13] [0, 2, 1, 2, 4, 0, 1, 2, 3, 2, 3, 1, 4] [0, 2, 5, 9, 11, 13] 5
      [0, 0, 0, 0, 0] [0, 0, 0, 0, 0] (by decide) (by decide) (by decide) (by decide)
      (by decide) (by decide) (LevelSchedule.mk 3 [2, 2, 1] [0, 1, 2, 4, 3] [0, 1, 2, 4, 3])
      (by decide) 3 (by decide) 2 (by decide) (by decide)⟩

/-- Claim C25. For `Nb ≥ 1` and a structurally symmetric pattern with sorted rows, handed
in together with valid CSC arrays holding its transpose, `findLevelScheduling` returns as
soon as the `while` loop may run `Nb - 1` times: there are at most `Nb` groups, every
group has at least one row, the sizes sum to `Nb`, the index arrays are mutually inverse,
and the groups, each taken from the positions of `fromOrder` after the groups before it,
make up `fromOrder`. -/
theorem C25_level_scheduling_terminates (fuel : Nat)
    (CSRColIndices CSRRowPointers CSCRowIndices CSCColPointers : List Nat) (Nb : Nat)
    (toOrder fromOrder : List Nat) (hto : toOrder.length = Nb) (hfrom : fromOrder.length = Nb)
    (hNb : 1 ≤ Nb)
    (hcsr : SortedPattern CSRRowPointers CSRColIndices Nb)
    (hcsc : ValidPattern CSCColPointers CSCRowIndices Nb)
    (htr : IsTransposeOf CSCColPointers CSCRowIndices CSRRowPointers CSRColIndices Nb)
    (hsym : StructurallySymmetric CSRRowPointers CSRColIndices Nb)
    (hfuel : Nb - 1 ≤ fuel) :
    ∃ res, findLevelScheduling fuel CSRColIndices CSRRowPointers CSCRowIndices CSCColPointers
        Nb toOrder fromOrder = some res ∧
      res.numColors = res.rowsPerColor.length ∧
      res.numColors ≤ Nb ∧
      (∀ L, L < res.numColors → 1 ≤ res.rowsPerColor.getD L 0) ∧
      res.rowsPerColor.sum = Nb ∧
      MutualInverses Nb res.toOrder res.fromOrder ∧
      (List.range res.numColors).flatMap (scheduleLevel res) = res.fromOrder := by
  obtain ⟨s, hs, hinv, hend⟩ := findLevelScheduling_spec fuel CSRColIndices CSRRowPointers
    CSCRowIndices CSCColPointers Nb toOrder fromOrder hto hfrom hNb hcsr hcsc htr hsym hfuel
  obtain ⟨⟨_, hce, hpi, _⟩, _, hsum, hpos, _, _⟩ := hinv
  refine ⟨_, hs, rfl, ?_, ?_, ?_, ?_, ?_⟩
  · have := length_le_sum s.rowsPerColor hpos
    show s.rowsPerColor.length ≤ Nb
    omega
  · intro L hL
    exact hpos _ (getD_mem s.rowsPerColor L hL)
  · show s.rowsPerColor.sum = Nb
    omega
  · exact partialInverse_mutual_of_le hpi (by omega)
  · exact flatMap_groups s.rowsPerColor s.fromOrder (by rw [hsum, hend, hpi.len_from])

theorem C25_level_scheduling_terminates_witness :
    (1 ≤ 5 ∧ SortedPattern [0, 2, 5, 9, 11, 13] [0, 2, 1, 2, 4, 0, 1, 2, 3, 2, 3, 1, 4] 5 ∧
      StructurallySymmetric [0, 2, 5, 9, 11, 13] [0, 2, 1, 2, 4, 0, 1, 2, 3, 2, 3, 1, 4] 5) ∧
    ∃ res, findLevelScheduling 4 [0, 2, 1, 2, 4, 0, 1, 2, 3, 2, 3, 1, 4] [0, 2, 5, 9, 11, 13]
        [0, 2, 1, 2, 4, 0, 1, 2, 3, 2, 3, 1, 4] [0, 2, 5, 9, 11, 13] 5 [0, 0, 0, 0, 0]
        [0, 0, 0, 0, 0] = some res ∧
      res.numColors = res.rowsPerColor.length ∧
      res.numColors ≤ 5 ∧
      (∀ L, L < res.numColors → 1 ≤ res.rowsPerColor.getD L 0) ∧
      res.rowsPerColor.sum = 5 ∧
      MutualInverses 5 res.toOrder res.fromOrder ∧
      (List.range res.numColors).flatMap (scheduleLevel res) = res.fromOrder :=
  ⟨⟨by decide, by decide, by decide⟩,
    C25_level_scheduling_terminates 4 [0, 2, 1, 2, 4, 0, 1, 2, 3, 2, 3, 1, 4]
      [0, 2, 5, 9, 11, 13] [0, 2, 1, 2, 4, 0, 1, 2, 3, 2, 3, 1, 4] [0, 2, 5, 9, 11, 13] 5
      [0, 0, 0, 0, 0] [0, 0, 0, 0, 0] (by decide) (by decide) (by decide) (by decide)
      (by decide) (by decide) (by decide) (by decide)⟩

end bda
